import Mathlib

/-!
Verification of the lattice algorithms of `src/lat/lattice-functions.cc`.

The C++ code operates on OpenFst-style weighted automata.  We embed them
shallowly:

* `BaseFloat`/`double` costs are embedded as exact rationals; the value
  `+infinity` (the cost of the semiring zero weight) is `⊤` in
  `Cost := WithTop ℚ`.
* A lattice is a vector of per-state adjacency lists plus a vector of
  final weights.  After topological sorting the start state is state `0`,
  which is how every algorithm of the file encounters its input (the code
  asserts `lat.Start() == 0`); an empty lattice (`Start() == kNoStateId`)
  is one with no states.
* `KALDI_ERR` and `KALDI_ASSERT` abort the process; functions that can
  abort are embedded with an `Option` result, `none` meaning abort.
  `KALDI_WARN` has no observable effect and is dropped.
* External collaborators that are not part of this translation unit
  (`fst::TopSort`, `fst::Connect`, the weight classes of
  `lat/kaldi-lattice.h`, `LogAdd` of `base/kaldi-math.h`,
  `std::nth_element`) are modelled from the specification's contracts;
  each such definition carries a doc comment starting with
  `Modelled from the spec:`.
-/

namespace eesen

/-- Additive cost domain: a finite cost, or `⊤` for the `+infinity`
produced by `ConvertToCost` on a zero weight. -/
abbrev Cost := WithTop ℚ

/-- Modelled from the spec: `LatticeWeight` (`lat/kaldi-lattice.h`, spec
section 6) is a pair of tropical components; the semiring zero is
`(+∞, +∞)`; the additive cost projection is `w1 + w2`. -/
structure LatticeWeight where
  w1 : Cost
  w2 : Cost
deriving DecidableEq

/-- Modelled from the spec: `CompactLatticeWeight` is a `LatticeWeight`
paired with a frame string (a sequence of symbol ids); it is zero when the
inner weight is zero. -/
structure CompactLatticeWeight where
  weight : LatticeWeight
  string : List ℕ
deriving DecidableEq

/-- Operations every lattice weight class offers: the semiring zero and the
additive cost projection (spec section 4.A). -/
class LatSemiring (W : Type) where
  zero : W
  toCost : W → Cost

instance : LatSemiring LatticeWeight :=
  ⟨⟨⊤, ⊤⟩, fun w => w.w1 + w.w2⟩

instance : LatSemiring CompactLatticeWeight :=
  ⟨⟨⟨⊤, ⊤⟩, []⟩, fun w => w.weight.w1 + w.weight.w2⟩

/-- Modelled from the spec: `ConvertToCost` returns the additive cost of a
weight, `+∞` for the zero element; for `LatticeWeight` it is `w1 + w2` and
for `CompactLatticeWeight` it ignores the string. -/
def ConvertToCost {W : Type} [LatSemiring W] (w : W) : Cost :=
  LatSemiring.toCost w

/-- The zero weight of a weight class. -/
def Wzero (W : Type) [LatSemiring W] : W := LatSemiring.zero

/-- An FST arc: input label, output label, weight, destination state.
Label `0` is epsilon. -/
structure Arc (W : Type) where
  ilabel : ℕ
  olabel : ℕ
  weight : W
  nextstate : ℕ
deriving DecidableEq

/-- A lattice of either kind: `arcs[s]` is the list of arcs leaving state
`s` and `finals[s]` is the final weight of state `s` (the zero weight for
non-final states).  State ids are list positions; the start state is `0`
when any state exists. -/
structure Fst (W : Type) where
  arcs : List (List (Arc W))
  finals : List W
deriving DecidableEq

abbrev Lattice := Fst LatticeWeight
abbrev CompactLattice := Fst CompactLatticeWeight
abbrev LatticeArc := Arc LatticeWeight
abbrev CompactLatticeArc := Arc CompactLatticeWeight

def Fst.numStates {W : Type} (lat : Fst W) : ℕ := lat.arcs.length

/-- The outgoing arcs of state `s` (empty for out-of-range ids). -/
def Fst.arcsAt {W : Type} (lat : Fst W) (s : ℕ) : List (Arc W) :=
  lat.arcs.getD s []

/-- The final weight of state `s` (`Weight::Zero()` for out-of-range ids). -/
def Fst.finalW {W : Type} [LatSemiring W] (lat : Fst W) (s : ℕ) : W :=
  lat.finals.getD s (Wzero W)

/-- Executable check of `fst::kTopSorted` together with arc sanity: every
arc points strictly forward to an existing state (invariant I1/I5; the
algorithms additionally `KALDI_ASSERT` the `nextstate` bounds). -/
def Fst.TopSortedB {W : Type} (lat : Fst W) : Bool :=
  (List.range lat.numStates).all fun s =>
    (lat.arcsAt s).all fun a =>
      decide (s < a.nextstate) && decide (a.nextstate < lat.numStates)

/-- Propositional form of `Fst.TopSortedB`. -/
def Fst.TopSorted {W : Type} (lat : Fst W) : Prop :=
  ∀ s, ∀ a ∈ lat.arcsAt s, s < a.nextstate ∧ a.nextstate < lat.numStates

/-- Representation invariant: the final-weight vector has one entry per
state, as the C++ `Fst` container guarantees. -/
def Fst.WFB {W : Type} (lat : Fst W) : Bool :=
  decide (lat.finals.length = lat.arcs.length)

/-- Per-arc transform performed by `AddWordInsPenToCompactLattice`
(lattice-functions.cc lines 583-591): a word-bearing arc (`ilabel != 0`)
gets the penalty added to the first component of its inner
`LatticeWeight`; epsilon arcs are untouched. -/
def addWipArc (p : ℚ) (arc : CompactLatticeArc) : CompactLatticeArc :=
  if arc.ilabel ≠ 0 then
    { arc with weight := { arc.weight with weight :=
        { arc.weight.weight with w1 := arc.weight.weight.w1 + (p : Cost) } } }
  else arc

/-- Embedding of `AddWordInsPenToCompactLattice` (lattice-functions.cc
lines 573-594): scan every state below `NumStates()` and rewrite each of
its arcs through `addWipArc`; final weights are not touched. -/
def AddWordInsPenToCompactLattice (p : ℚ) (clat : CompactLattice) :
    CompactLattice :=
  { clat with arcs := clat.arcs.map fun l => l.map (addWipArc p) }

/-- Inner arc loop of `CompactLatticeStateTimes` (lines 80-88): propagate
`cur_time + arc_len` to each destination; a destination already labelled
with a different time is a `KALDI_ASSERT` failure (`none`). -/
def clArcTimesLoop (cur : ℤ) :
    List CompactLatticeArc → List ℤ → Option (List ℤ)
  | [], times => some times
  | arc :: rest, times =>
      let len : ℤ := arc.weight.string.length
      if times.getD arc.nextstate (-1) = -1 then
        clArcTimesLoop cur rest (times.set arc.nextstate (cur + len))
      else if times.getD arc.nextstate (-1) = cur + len then
        clArcTimesLoop cur rest times
      else none

/-- State loop of `CompactLatticeStateTimes` (lines 78-100): after the arc
loop of a state, a non-zero final weight contributes
`times[state] + final.String().size()` to the utterance length; `-1` is
the not-yet-seen sentinel and disagreeing final lengths take the maximum
(with only a warning). -/
def clStateTimesLoop (lat : CompactLattice) :
    List ℕ → List ℤ × ℤ → Option (List ℤ × ℤ)
  | [], st => some st
  | s :: rest, (times, uttLen) =>
      match clArcTimesLoop (times.getD s (-1)) (lat.arcsAt s) times with
      | none => none
      | some times1 =>
          clStateTimesLoop lat rest (times1,
            if lat.finalW s ≠ Wzero CompactLatticeWeight then
              if uttLen = -1 then
                times1.getD s (-1) + ((lat.finalW s).string.length : ℤ)
              else
                max uttLen (times1.getD s (-1) +
                  ((lat.finalW s).string.length : ℤ))
            else uttLen)

/-- Embedding of `CompactLatticeStateTimes` (lattice-functions.cc lines
69-106).  Result: `(utt_len, times)`; `none` models the `KALDI_ERR` on an
unsorted input and the `KALDI_ASSERT`s on a missing start state or on
inconsistent state times.  A lattice with no final state returns an
utterance length of `0` (with a warning). -/
def CompactLatticeStateTimes (lat : CompactLattice) : Option (ℤ × List ℤ) :=
  if ¬ lat.TopSortedB then none
  else if lat.numStates = 0 then none
  else
    match clStateTimesLoop lat (List.range lat.numStates)
        ((List.replicate lat.numStates (-1 : ℤ)).set 0 0, -1) with
    | none => none
    | some (times, uttLen) =>
        if uttLen = -1 then some (0, times) else some (uttLen, times)

/-- The frame counter of `CompactLatticeDepth` (lines 386-393):
`num_arc_frames` accumulates the frame-string length of every arc and of
every final weight. -/
def clFrameCount (clat : CompactLattice) : ℕ :=
  (List.range clat.numStates).foldl
    (fun acc s =>
      (clat.arcsAt s).foldl (fun a arc => a + arc.weight.string.length) acc +
        (clat.finalW s).string.length) 0

/-- Embedding of `CompactLatticeDepth` (lattice-functions.cc lines
367-395).  Result: `(depth, num_frames)`.  `none` models the `KALDI_ERR`
on an unsorted input, a failing `CompactLatticeStateTimes`, and the case
`t = 0`: the source divides `num_arc_frames` by `t` unguarded, and the
resulting IEEE `inf`/`NaN` has no image in the rational embedding. -/
def CompactLatticeDepth (clat : CompactLattice) : Option (ℚ × ℤ) :=
  if ¬ clat.TopSortedB then none
  else if clat.numStates = 0 then some (1, 0)
  else
    match CompactLatticeStateTimes clat with
    | none => none
    | some (t, _) =>
        if t = 0 then none
        else some ((clFrameCount clat : ℚ) / (t : ℚ), t)

/-- Concrete compact lattice for the C9 witness: a single two-frame arc
`0 → 1` and a final state `1`. -/
def exC9 : CompactLattice :=
  ⟨[[⟨3, 3, ⟨⟨1, 2⟩, [4, 5]⟩, 1⟩], []],
    [Wzero CompactLatticeWeight, ⟨⟨0, 0⟩, []⟩]⟩

/-- Concrete compact lattice for C10: one state, a start state, no final
state, no arcs. -/
def exC10 : CompactLattice := ⟨[[]], [Wzero CompactLatticeWeight]⟩

/-- Walk loop of `CompactLatticeToWordAlignment` (lines 456-485).  At a
final state (non-zero final weight) any outgoing arc is a non-linearity
(`false`); at a non-final state, any out-degree other than one is a
non-linearity (`false`); otherwise the single arc is emitted as a
`(word, begin, length)` triple and the walk advances.  The fuel argument
bounds the walk; exhaustion (`none`) models the non-termination of the
`while (1)` loop, which cannot happen within `numStates + 1` steps on a
topologically sorted input. -/
def alignLoop (clat : CompactLattice) :
    ℕ → ℕ → ℤ → List ℕ × List ℤ × List ℤ →
    Option (Bool × List ℕ × List ℤ × List ℤ)
  | 0, _, _, _ => none
  | fuel + 1, state, curTime, (ws, bs, ls) =>
      if clat.finalW state ≠ Wzero CompactLatticeWeight then
        if (clat.arcsAt state).length ≠ 0 then some (false, ws, bs, ls)
        else some (true, ws, bs, ls)
      else
        match clat.arcsAt state with
        | [arc] =>
            alignLoop clat fuel arc.nextstate
              (curTime + (arc.weight.string.length : ℤ))
              (ws ++ [arc.ilabel], bs ++ [curTime],
                ls ++ [(arc.weight.string.length : ℤ)])
        | _ => some (false, ws, bs, ls)

/-- Embedding of `CompactLatticeToWordAlignment` (lattice-functions.cc
lines 438-486).  The three output arrays are cleared at entry only; an
empty lattice returns `false` with empty outputs; otherwise the walk
starts at the start state at time `0`.  Note that the `return false`
branches inside the walk do NOT clear the outputs again. -/
def CompactLatticeToWordAlignment (clat : CompactLattice) :
    Option (Bool × List ℕ × List ℤ × List ℤ) :=
  if clat.numStates = 0 then some (false, [], [], [])
  else alignLoop clat (clat.numStates + 1) 0 0 ([], [], [])

/-- Inner arc loop of `LatticeStateTimes` (lattice-functions.cc lines
46-64): a non-epsilon input label advances the time by one frame, an
epsilon label keeps it; a destination already labelled with a different
time is a `KALDI_ASSERT` failure (`none`). -/
def latArcTimesLoop (cur : ℤ) : List LatticeArc → List ℤ → Option (List ℤ)
  | [], times => some times
  | arc :: rest, times =>
      let inc : ℤ := if arc.ilabel ≠ 0 then 1 else 0
      if times.getD arc.nextstate (-1) = -1 then
        latArcTimesLoop cur rest (times.set arc.nextstate (cur + inc))
      else if times.getD arc.nextstate (-1) = cur + inc then
        latArcTimesLoop cur rest times
      else none

/-- State loop of `LatticeStateTimes` (lines 44-65). -/
def latStateTimesLoop (lat : Lattice) : List ℕ → List ℤ → Option (List ℤ)
  | [], times => some times
  | s :: rest, times =>
      match latArcTimesLoop (times.getD s (-1)) (lat.arcsAt s) times with
      | none => none
      | some times1 => latStateTimesLoop lat rest times1

/-- `std::max_element` over the (non-empty) time vector; the `0` default
for an empty list is unreachable because `LatticeStateTimes` requires a
start state. -/
def listMax : List ℤ → ℤ
  | [] => 0
  | x :: xs => xs.foldl max x

/-- Embedding of `LatticeStateTimes` (lattice-functions.cc lines 36-67).
`none` models the `KALDI_ERR` on an unsorted input and the
`KALDI_ASSERT`s on a missing start state or inconsistent times; the
returned utterance length is the maximum assigned time. -/
def LatticeStateTimes (lat : Lattice) : Option (ℤ × List ℤ) :=
  if ¬ lat.TopSortedB then none
  else if lat.numStates = 0 then none
  else
    match latStateTimesLoop lat (List.range lat.numStates)
        ((List.replicate lat.numStates (-1 : ℤ)).set 0 0) with
    | none => none
    | some times => some (listMax times, times)

/-- Modelled from the spec: the external `DecodableInterface` oracle of
section 6, exposing a per-frame log-likelihood and an end-of-stream
query. -/
structure DecodableInterface where
  logLikelihood : ℤ → ℕ → ℚ
  isLastFrame : ℤ → Bool

/-- Per-arc rewrite of `RescoreLattice` (lines 648-657): a non-epsilon arc
gets `-log_like + w2` as its new second weight component; epsilon arcs are
untouched. -/
def rescoreArc (dec : DecodableInterface) (t : ℤ) (arc : LatticeArc) :
    LatticeArc :=
  if arc.ilabel ≠ 0 then
    { arc with weight := { arc.weight with
        w2 := ((- dec.logLikelihood t arc.ilabel : ℚ) : Cost) + arc.weight.w2 } }
  else arc

/-- Frame loop of `RescoreLattice` (lines 638-660): at each frame `t`, if
the oracle ends early the function returns `false` with the lattice
partially rewritten; otherwise every state in the `time_to_state[t]`
bucket (the states whose time is `t`, in ascending order) has its arcs
rewritten in place. -/
def rescoreLoop (dec : DecodableInterface) (times : List ℤ) (uttLen : ℤ) :
    List ℕ → List (List LatticeArc) → Bool × List (List LatticeArc)
  | [], arcs => (true, arcs)
  | tn :: rest, arcs =>
      if (tn : ℤ) < uttLen - 1 ∧ dec.isLastFrame tn then (false, arcs)
      else
        let bucket := (List.range arcs.length).filter
          fun s => times.getD s (-1) = (tn : ℤ)
        let arcs1 := bucket.foldl
          (fun a s => a.set s ((a.getD s []).map (rescoreArc dec tn))) arcs
        rescoreLoop dec times uttLen rest arcs1

/-- Embedding of `RescoreLattice` (lattice-functions.cc lines 611-662).
An empty lattice returns `false` unchanged; `none` models the external
`fst::TopSort` call on an unsorted input (spec section 4.B) and the
`KALDI_ASSERT`s; otherwise the frame loop rewrites the acoustic scores in
place. -/
def RescoreLattice (dec : DecodableInterface) (lat : Lattice) :
    Option (Bool × Lattice) :=
  if lat.numStates = 0 then some (false, lat)
  else if ¬ lat.TopSortedB then none
  else
    match LatticeStateTimes lat with
    | none => none
    | some (uttLen, times) =>
        if times.length = lat.numStates ∧
            ∀ s < lat.numStates, times.getD s (-1) ≤ uttLen then
          let r := rescoreLoop dec times uttLen (List.range uttLen.toNat)
            lat.arcs
          some (r.1, ⟨r.2, lat.finals⟩)
        else none

/-- A path in a lattice: `PathIn lat s p t` says the arc list `p` leads
from state `s` to state `t`, each arc leaving the state reached so far. -/
inductive PathIn {W : Type} (lat : Fst W) : ℕ → List (Arc W) → ℕ → Prop
  | nil (s : ℕ) : PathIn lat s [] s
  | cons {s t : ℕ} {p : List (Arc W)} (arc : Arc W)
      (ha : arc ∈ lat.arcsAt s) (hp : PathIn lat arc.nextstate p t) :
      PathIn lat s (arc :: p) t

/-- Total cost of a path: the sum of its arc costs. -/
def pathCost {W : Type} [LatSemiring W] (p : List (Arc W)) : Cost :=
  p.foldr (fun a c => ConvertToCost a.weight + c) 0

/-- Destination state after following an arc list from `s`. -/
def dst {W : Type} (s : ℕ) (p : List (Arc W)) : ℕ :=
  p.foldl (fun _ a => a.nextstate) s

/-- Inner arc loop of the forward pass of `PruneLattice` (lines 135-145):
relax `forward_cost[nextstate]` with the cached cost of the current
state plus the arc cost. -/
def relaxArcsLive {W : Type} [LatSemiring W] (tc : Cost)
    (arcs : List (Arc W)) (fc : List Cost) : List Cost :=
  arcs.foldl
    (fun fc' arc =>
      if fc'.getD arc.nextstate ⊤ > tc + ConvertToCost arc.weight then
        fc'.set arc.nextstate (tc + ConvertToCost arc.weight)
      else fc') fc

/-- One state of the forward pass of `PruneLattice` (lines 133-151): relax
all outgoing arcs and fold the state's final cost into
`best_final_cost`. -/
def pruneForwardStep {W : Type} [LatSemiring W] (lat : Fst W)
    (st : List Cost × Cost) (s : ℕ) : List Cost × Cost :=
  (relaxArcsLive (st.1.getD s ⊤) (lat.arcsAt s) st.1,
   if st.1.getD s ⊤ + ConvertToCost (lat.finalW s) < st.2 then
     st.1.getD s ⊤ + ConvertToCost (lat.finalW s)
   else st.2)

/-- The Viterbi (min-plus) forward pass of `PruneLattice` over the first
`k` states, together with the running `best_final_cost`
(`forward_cost[start] = 0`, everything else `+∞`). -/
def pruneForwardLoop {W : Type} [LatSemiring W] (lat : Fst W) (k : ℕ) :
    List Cost × Cost :=
  (List.range k).foldl (pruneForwardStep lat)
    ((List.replicate lat.numStates (⊤ : Cost)).set 0 0, ⊤)

/-- The Viterbi forward costs of the input lattice, as computed by the
first pass of `PruneLattice` before any pruning. -/
def forwardBefore {W : Type} [LatSemiring W] (lat : Fst W) : List Cost :=
  (pruneForwardLoop lat lat.numStates).1

/-- The best start-to-final cost of the input lattice, as computed by the
first pass of `PruneLattice` before any pruning. -/
def bestFinalBefore {W : Type} [LatSemiring W] (lat : Fst W) : Cost :=
  (pruneForwardLoop lat lat.numStates).2

/-- One state of a clean backward Viterbi pass (the quantity the backward
loop of `PruneLattice`, lines 161-184, stores into `backward_cost`):
initialise with the state's final cost and relax through every outgoing
arc. -/
def backwardStep {W : Type} [LatSemiring W] (lat : Fst W)
    (bc : List Cost) (s : ℕ) : List Cost :=
  bc.set s ((lat.arcsAt s).foldl
    (fun tb arc =>
      if ConvertToCost arc.weight + bc.getD arc.nextstate ⊤ < tb then
        ConvertToCost arc.weight + bc.getD arc.nextstate ⊤
      else tb)
    (ConvertToCost (lat.finalW s)))

/-- Backward pass over states `k-1, k-2, ..., 0` (descending order, as in
the source). -/
def backwardGo {W : Type} [LatSemiring W] (lat : Fst W)
    (bc : List Cost) (k : ℕ) : List Cost :=
  (List.range k).foldr (fun s b => backwardStep lat b s) bc

/-- The Viterbi backward costs of the input lattice (minimum cost from a
state to any final state), the quantity `backward_cost[s]` holds at the
end of the backward loop of `PruneLattice`. -/
def backwardBefore {W : Type} [LatSemiring W] (lat : Fst W) : List Cost :=
  backwardGo lat (List.replicate lat.numStates (⊤ : Cost)) lat.numStates

/-- State of the interleaved backward/pruning pass of `PruneLattice`:
the arc vector and final vector being mutated, and the `backward_cost`
array. -/
structure PruneState (W : Type) where
  arcs : List (List (Arc W))
  finals : List W
  bc : List Cost

/-- Arc loop of the backward/pruning pass (lines 167-182): thread the
running `this_backward_cost` through the arcs (first component) and
redirect to `bad_state` every arc whose forward-arc-backward cost exceeds
the cutoff (second component).  Each arc is read before it is possibly
redirected, so the cost computation always uses the original
destination. -/
def markArcs {W : Type} [LatSemiring W] (thisF cutoff : Cost) (bad : ℕ)
    (bc : List Cost) : List (Arc W) → Cost → Cost × List (Arc W)
  | [], tb => (tb, [])
  | arc :: rest, tb =>
      match markArcs thisF cutoff bad bc rest
        (if ConvertToCost arc.weight + bc.getD arc.nextstate ⊤ < tb then
          ConvertToCost arc.weight + bc.getD arc.nextstate ⊤
        else tb) with
      | (tbf, restArcs) =>
          (tbf,
            (if thisF + (ConvertToCost arc.weight +
                bc.getD arc.nextstate ⊤) > cutoff then
              { arc with nextstate := bad }
            else arc) :: restArcs)

/-- One state of the backward/pruning pass of `PruneLattice` (lines
161-184): read the final cost, clear the final weight if
`final_cost + forward_cost > cutoff` (and the final cost is finite), run
the arc loop, and store the resulting backward cost. -/
def pruneMarkStep {W : Type} [LatSemiring W] (cutoff : Cost) (bad : ℕ)
    (fc : List Cost) (st : PruneState W) (s : ℕ) : PruneState W :=
  { arcs := st.arcs.set s (markArcs (fc.getD s ⊤) cutoff bad st.bc
      (st.arcs.getD s []) (ConvertToCost (st.finals.getD s (Wzero W)))).2,
    finals :=
      if ConvertToCost (st.finals.getD s (Wzero W)) + fc.getD s ⊤ > cutoff ∧
          ConvertToCost (st.finals.getD s (Wzero W)) ≠ ⊤ then
        st.finals.set s (Wzero W)
      else st.finals,
    bc := st.bc.set s (markArcs (fc.getD s ⊤) cutoff bad st.bc
      (st.arcs.getD s []) (ConvertToCost (st.finals.getD s (Wzero W)))).1 }

/-- The backward/pruning pass over states `k-1, ..., 0`. -/
def pruneMarkGo {W : Type} [LatSemiring W] (cutoff : Cost) (bad : ℕ)
    (fc : List Cost) (st : PruneState W) (k : ℕ) : PruneState W :=
  (List.range k).foldr (fun s st' => pruneMarkStep cutoff bad fc st' s) st

/-- The lattice after the marking phase of `PruneLattice` (before
`fst::Connect`): a fresh non-final `bad_state` is appended and the
backward pass redirects over-beam arcs to it and clears over-beam final
weights. -/
def pruneMarked {W : Type} [LatSemiring W] (beam : ℚ) (lat : Fst W) :
    Fst W :=
  ⟨(pruneMarkGo (bestFinalBefore lat + (beam : Cost)) lat.numStates
      (forwardBefore lat)
      ⟨lat.arcs ++ [[]], lat.finals ++ [Wzero W],
        List.replicate lat.numStates ⊤⟩ lat.numStates).arcs,
   (pruneMarkGo (bestFinalBefore lat + (beam : Cost)) lat.numStates
      (forwardBefore lat)
      ⟨lat.arcs ++ [[]], lat.finals ++ [Wzero W],
        List.replicate lat.numStates ⊤⟩ lat.numStates).finals⟩

/-- One state of the accessibility scan: a reached state marks all its
arc destinations. -/
def accStep {W : Type} (lat : Fst W) (acc : List Bool) (s : ℕ) :
    List Bool :=
  if acc.getD s false then
    (lat.arcsAt s).foldl (fun a arc => a.set arc.nextstate true) acc
  else acc

/-- Accessibility scan over the first `k` states. -/
def accLoop {W : Type} (lat : Fst W) (k : ℕ) : List Bool :=
  (List.range k).foldl (accStep lat)
    ((List.replicate lat.numStates false).set 0 true)

/-- Accessibility flags for a topologically sorted lattice, by a forward
scan: state `0` is the start, and every arc of a reached state marks its
destination. -/
def accArr {W : Type} (lat : Fst W) : List Bool :=
  accLoop lat lat.numStates

/-- One state of the coaccessibility scan: a state is coaccessible when
it is final or one of its arcs reaches a coaccessible state. -/
def coaccStep {W : Type} [LatSemiring W] [DecidableEq W] (lat : Fst W)
    (s : ℕ) (co : List Bool) : List Bool :=
  co.set s (decide (lat.finalW s ≠ Wzero W) ||
    (lat.arcsAt s).any fun arc => co.getD arc.nextstate false)

/-- Coaccessibility scan over states `k-1, ..., 0` (descending). -/
def coaccGo {W : Type} [LatSemiring W] [DecidableEq W] (lat : Fst W)
    (co : List Bool) (k : ℕ) : List Bool :=
  (List.range k).foldr (coaccStep lat) co

/-- Coaccessibility flags for a topologically sorted lattice, by a
backward scan. -/
def coaccArr {W : Type} [LatSemiring W] [DecidableEq W] (lat : Fst W) :
    List Bool :=
  coaccGo lat (List.replicate lat.numStates false) lat.numStates

/-- A state survives `fst::Connect` when it is both accessible and
coaccessible. -/
def usefulB {W : Type} [LatSemiring W] [DecidableEq W] (lat : Fst W)
    (s : ℕ) : Bool :=
  (accArr lat).getD s false && (coaccArr lat).getD s false

/-- The surviving states, in increasing order of their original ids. -/
def usefulList {W : Type} [LatSemiring W] [DecidableEq W] (lat : Fst W) :
    List ℕ :=
  (List.range lat.numStates).filter (usefulB lat)

/-- The id a surviving state receives after `fst::Connect`: the number of
surviving states below it. -/
def newId {W : Type} [LatSemiring W] [DecidableEq W] (lat : Fst W)
    (t : ℕ) : ℕ :=
  ((List.range t).filter (usefulB lat)).length

/-- Modelled from the spec: `fst::Connect` (the FST-toolkit trim
primitive, spec sections 4.E step 7 and 6) removes every state that is
not both accessible and coaccessible, keeping the relative order of the
remaining states and dropping arcs into removed states; the
accessibility scans above are valid on the topologically sorted lattices
on which every call site uses it. -/
def connect {W : Type} [LatSemiring W] [DecidableEq W] (lat : Fst W) :
    Fst W :=
  ⟨(usefulList lat).map fun s =>
      ((lat.arcsAt s).filter fun a => usefulB lat a.nextstate).map
        fun a => { a with nextstate := newId lat a.nextstate },
    (usefulList lat).map fun s => lat.finalW s⟩

/-- Embedding of `PruneLattice` (lattice-functions.cc lines 109-187),
instantiated for `Lattice` and `CompactLattice` as in the source.  `none`
models the `KALDI_ASSERT(beam > 0.0)` and the external `fst::TopSort`
call on an unsorted input (on a sorted input the call is skipped; spec
section 4.B); an empty lattice returns `false` unchanged; otherwise the
lattice is marked and trimmed and the return flag says whether any state
is left. -/
def PruneLattice {W : Type} [LatSemiring W] [DecidableEq W] (beam : ℚ)
    (lat : Fst W) : Option (Bool × Fst W) :=
  if ¬ (0 < beam) then none
  else if ¬ lat.TopSortedB then none
  else if lat.numStates = 0 then some (false, lat)
  else
    some (decide (0 < (connect (pruneMarked beam lat)).numStates),
      connect (pruneMarked beam lat))

/-- The per-arc effect of the pruning pass: redirect to `bad_state` (the
fresh state `numStates`) exactly when
`forward[s] + (arc cost + backward[nextstate])` exceeds the cutoff
`best_final_cost + beam`. -/
def markF {W : Type} [LatSemiring W] (lat : Fst W) (beam : ℚ) (s : ℕ)
    (arc : Arc W) : Arc W :=
  if (forwardBefore lat).getD s ⊤ + (ConvertToCost arc.weight +
      (backwardBefore lat).getD arc.nextstate ⊤) >
      bestFinalBefore lat + (beam : Cost) then
    { arc with nextstate := lat.numStates }
  else arc

/-- The unvisited `best_cost_and_pred` entry: infinite cost,
`kNoStateId` predecessor (lines 508-511). -/
def spNil : Cost × Option ℕ := ((⊤ : Cost), (none : Option ℕ))

/-- Arc loop of the shortest-path dynamic program (lines 514-524): relax
`best_cost_and_pred[nextstate]` with the cached cost of the current state
plus the arc cost, recording the current state as predecessor. -/
def spRelaxArcs (myCost : Cost) (s : ℕ) (arcs : List CompactLatticeArc)
    (tbl : List (Cost × Option ℕ)) : List (Cost × Option ℕ) :=
  arcs.foldl
    (fun t arc =>
      if myCost + ConvertToCost arc.weight <
          (t.getD arc.nextstate spNil).1 then
        t.set arc.nextstate (myCost + ConvertToCost arc.weight, some s)
      else t) tbl

/-- Relaxation of the virtual super-final entry (index `numStates`, lines
525-530). -/
def spFinalRelax (myCost : Cost) (s : ℕ) (fcost : Cost) (n : ℕ)
    (tbl : List (Cost × Option ℕ)) : List (Cost × Option ℕ) :=
  if myCost + fcost < (tbl.getD n spNil).1 then
    tbl.set n (myCost + fcost, some s)
  else tbl

/-- One state of the shortest-path dynamic program (lines 512-531). -/
def spStep (clat : CompactLattice) (tbl : List (Cost × Option ℕ))
    (s : ℕ) : List (Cost × Option ℕ) :=
  spFinalRelax (tbl.getD s spNil).1 s
    (ConvertToCost (clat.finalW s)) clat.numStates
    (spRelaxArcs (tbl.getD s spNil).1 s (clat.arcsAt s) tbl)

/-- The `best_cost_and_pred` table of `CompactLatticeShortestPath` after
processing the first `k` states: `numStates + 1` entries initialised to
`(+∞, kNoStateId)` with entry `0` at cost `0`. -/
def spTable (clat : CompactLattice) (k : ℕ) : List (Cost × Option ℕ) :=
  (List.range k).foldl (spStep clat)
    ((List.replicate (clat.numStates + 1) spNil).set 0 (0, none))

/-- Predecessor walk of `CompactLatticeShortestPath` (lines 532-544):
follow `best_cost_and_pred[..].second` from `cur` down to state `0`,
collecting the visited states in forward order (`cur` itself excluded).
`none` models both a broken predecessor chain (the code warns and emits
an empty lattice) and fuel exhaustion, which cannot happen on a
topologically sorted input because predecessors strictly decrease. -/
def spBacktrack (tbl : List (Cost × Option ℕ)) :
    ℕ → ℕ → Option (List ℕ)
  | 0, _ => none
  | fuel + 1, cur =>
      if cur = 0 then some []
      else
        match (tbl.getD cur spNil).2 with
        | none => none
        | some prev =>
            match spBacktrack tbl fuel prev with
            | none => none
            | some l => some (l ++ [prev])

/-- One step of the minimum-arc scan (lines 555-562): keep the strictly
cheaper matching arc, so the first minimum encountered wins ties. -/
def minArcStep (t : ℕ) (best : Option CompactLatticeArc)
    (arc : CompactLatticeArc) : Option CompactLatticeArc :=
  if arc.nextstate = t then
    match best with
    | none => some arc
    | some b =>
        if ConvertToCost arc.weight < ConvertToCost b.weight then some arc
        else some b
  else best

/-- The minimum-cost arc between two states (lines 550-563). -/
def minArcBetween (clat : CompactLattice) (s t : ℕ) :
    Option CompactLatticeArc :=
  (clat.arcsAt s).foldl (minArcStep t) none

/-- The arc list of position `i` of the rebuilt shortest-path lattice:
the single minimum arc towards position `i + 1`, or nothing at the last
position.  (The `[]` fallback for a missing arc is unreachable: the code
has `KALDI_ASSERT(have_arc)` there.) -/
def spBuildArcs (clat : CompactLattice) (sts : List ℕ) (i : ℕ) :
    List CompactLatticeArc :=
  if i + 1 < sts.length then
    match minArcBetween clat (sts.getD i 0) (sts.getD (i + 1) 0) with
    | some a => [(⟨a.ilabel, a.olabel, a.weight, i + 1⟩ :
        CompactLatticeArc)]
    | none => []
  else []

/-- The final weight of position `i` of the rebuilt lattice: zero except
at the last position, which receives the original final weight (lines
567-569). -/
def spBuildFinals (clat : CompactLattice) (sts : List ℕ) (i : ℕ) :
    CompactLatticeWeight :=
  if i + 1 < sts.length then Wzero CompactLatticeWeight
  else clat.finalW (sts.getD i 0)

/-- Output construction of `CompactLatticeShortestPath` (lines 545-570):
one state per walked state, the minimum parallel arc between consecutive
walked states, the original final weight on the last state.  `none`
models the `KALDI_ASSERT(have_arc)`. -/
def spBuild (clat : CompactLattice) (sts : List ℕ) :
    Option CompactLattice :=
  match (List.range sts.length).mapM (fun i =>
      if i + 1 < sts.length then
        match minArcBetween clat (sts.getD i 0) (sts.getD (i + 1) 0) with
        | some a => some [(⟨a.ilabel, a.olabel, a.weight, i + 1⟩ :
            CompactLatticeArc)]
        | none => none
      else some ([] : List CompactLatticeArc)) with
  | none => none
  | some arcs =>
      some ⟨arcs, (List.range sts.length).map (spBuildFinals clat sts)⟩

/-- Embedding of `CompactLatticeShortestPath` (lattice-functions.cc lines
488-571).  `none` models the external `fst::TopSort` of the copy-and-sort
branch on an unsorted input (spec section 4.H step 1) and the
`KALDI_ASSERT(have_arc)`; an empty input or a broken predecessor chain
yields an empty output lattice. -/
def CompactLatticeShortestPath (clat : CompactLattice) :
    Option CompactLattice :=
  if ¬ clat.TopSortedB then none
  else if clat.numStates = 0 then some ⟨[], []⟩
  else
    match spBacktrack (spTable clat clat.numStates) (clat.numStates + 2)
        clat.numStates with
    | none => some ⟨[], []⟩
    | some sts => spBuild clat sts

/-- Total cost of a linear output lattice: the sum of all its arc costs
plus the final cost of its last state. -/
def linTotalCost (lat : CompactLattice) : Cost :=
  ((lat.arcs.map fun l =>
      (l.map fun a => ConvertToCost a.weight).sum).sum) +
    ConvertToCost (lat.finalW (lat.numStates - 1))

/-- The chosen minimum arcs along a walked state sequence. -/
def chainArcs (clat : CompactLattice) : List ℕ → List CompactLatticeArc
  | x :: y :: rest =>
      (match minArcBetween clat x y with
        | some a => [a]
        | none => []) ++ chainArcs clat (y :: rest)
  | _ => []

/-- Consecutive states of `sts` are linked by an arc realising the
difference of their table costs. -/
def ChainLinks (clat : CompactLattice) (tbl : List (Cost × Option ℕ))
    (sts : List ℕ) : Prop :=
  ∀ i, i + 1 < sts.length →
    ∃ a ∈ clat.arcsAt (sts.getD i 0),
      a.nextstate = sts.getD (i + 1) 0 ∧
      (tbl.getD (sts.getD (i + 1) 0) spNil).1 =
        (tbl.getD (sts.getD i 0) spNil).1 + ConvertToCost a.weight

/-- Soundness of a `best_cost_and_pred` entry after the first `k` steps:
a `kNoStateId` predecessor means the untouched start entry or an infinite
cost, and a recorded predecessor `s` is an earlier processed state whose
entry explains the cost, through an arc for an ordinary entry and through
the final weight for the super-final entry. -/
def spInvAt (clat : CompactLattice) (tbl : List (Cost × Option ℕ))
    (k u : ℕ) : Prop :=
  ((tbl.getD u spNil).2 = none →
    (u = 0 ∧ (tbl.getD u spNil).1 = 0) ∨ (tbl.getD u spNil).1 = ⊤) ∧
  (∀ s, (tbl.getD u spNil).2 = some s →
    s < u ∧ s < k ∧
    (u < clat.numStates → ∃ a ∈ clat.arcsAt s, a.nextstate = u ∧
      (tbl.getD u spNil).1 =
        (tbl.getD s spNil).1 + ConvertToCost a.weight) ∧
    (u = clat.numStates →
      (tbl.getD u spNil).1 =
        (tbl.getD s spNil).1 + ConvertToCost (clat.finalW s)))

/-- Negated cost, as `ComputeLatticeAlphasAndBetas` stores alphas and
betas as negated costs (lines 200-202): `-(+∞)` is `kLogZeroDouble`,
modelled `⊥`. -/
def negCost (c : Cost) : WithBot ℚ :=
  match c with
  | none => ⊥
  | some q => ((-q : ℚ) : WithBot ℚ)

/-- Arc loop of the alpha propagation (lines 212-219) with
`viterbi = true`: `LogAddOrMax` is `std::max` (lines 193-198; the
`LogAdd` branch lives in `base/kaldi-math.h`, outside `src/`, and is not
used by `CompactLatticeLimitDepth`, which passes `viterbi = true`). -/
def abRelaxArcs (thisAlpha : WithBot ℚ) (arcs : List CompactLatticeArc)
    (alpha : List (WithBot ℚ)) : List (WithBot ℚ) :=
  arcs.foldl
    (fun al arc =>
      al.set arc.nextstate
        (max (al.getD arc.nextstate ⊥)
          (thisAlpha + negCost (ConvertToCost arc.weight)))) alpha

/-- One state of the alpha pass (lines 211-224): relax the outgoing
arcs, then fold a non-zero final weight into `tot_forward_prob` using
the cached `this_alpha`. -/
def alphaStep (clat : CompactLattice)
    (st : List (WithBot ℚ) × WithBot ℚ) (s : ℕ) :
    List (WithBot ℚ) × WithBot ℚ :=
  (abRelaxArcs (st.1.getD s ⊥) (clat.arcsAt s) st.1,
   if clat.finalW s ≠ Wzero CompactLatticeWeight then
     max st.2 (st.1.getD s ⊥ + negCost (ConvertToCost (clat.finalW s)))
   else st.2)

/-- The alpha pass of `ComputeLatticeAlphasAndBetas` over the first `k`
states (result: alphas, `tot_forward_prob`); alphas start at
`kLogZeroDouble` with `alpha[0] = 0`. -/
def alphaLoop (clat : CompactLattice) (k : ℕ) :
    List (WithBot ℚ) × WithBot ℚ :=
  (List.range k).foldl (alphaStep clat)
    ((List.replicate clat.numStates (⊥ : WithBot ℚ)).set 0 0, ⊥)

/-- One state of the beta pass (lines 225-235), `viterbi = true`:
`this_beta` starts from the negated final cost and folds in
`beta[nextstate] + arc_like` over the outgoing arcs. -/
def betaStep (clat : CompactLattice) (s : ℕ)
    (beta : List (WithBot ℚ)) : List (WithBot ℚ) :=
  beta.set s
    ((clat.arcsAt s).foldl
      (fun tb arc =>
        max tb (beta.getD arc.nextstate ⊥ +
          negCost (ConvertToCost arc.weight)))
      (negCost (ConvertToCost (clat.finalW s))))

/-- The beta pass, over states `numStates - 1, ..., 0`. -/
def betaArr (clat : CompactLattice) : List (WithBot ℚ) :=
  (List.range clat.numStates).foldr (betaStep clat)
    (List.replicate clat.numStates (⊥ : WithBot ℚ))

/-- `0.5 * (tot_backward_prob + tot_forward_prob)` (line 242); with an
infinite operand the IEEE result is `-inf`, modelled `⊥`. -/
def wbAvg (a b : WithBot ℚ) : WithBot ℚ :=
  match a, b with
  | some x, some y => (((x + y) / 2 : ℚ) : WithBot ℚ)
  | _, _ => ⊥

/-- The return value of `ComputeLatticeAlphasAndBetas` as used by
`CompactLatticeLimitDepth`: the average of `beta[start]` and
`tot_forward_prob`. -/
def abBest (clat : CompactLattice) : WithBot ℚ :=
  wbAvg ((betaArr clat).getD 0 ⊥) (alphaLoop clat clat.numStates).2

/-- `LatticeArcRecord` (lines 259-268): best-path logprob of an arc
relative to the lattice best, with the arc's state and position. -/
structure LatticeArcRecord where
  logprob : WithBot ℚ
  state : ℕ
  arc : ℕ
deriving DecidableEq

/-- Append a record to bucket `t` of `arc_records`. -/
def pushRecord (buckets : List (List LatticeArcRecord)) (t : ℕ)
    (r : LatticeArcRecord) : List (List LatticeArcRecord) :=
  buckets.set t (buckets.getD t [] ++ [r])

/-- The frame loop of the record phase (lines 310-314): push the record
into every bucket `t` in `[start_t, start_t + num_frames)`.  The source
asserts `t < T`; a negative `t` would be an out-of-bounds
`arc_records[t]` vector write, so both are modelled `none`. -/
def pushRange (r : LatticeArcRecord) (T : ℤ) :
    List (List LatticeArcRecord) → ℤ → ℕ →
    Option (List (List LatticeArcRecord))
  | buckets, _, 0 => some buckets
  | buckets, start, len + 1 =>
      if 0 ≤ start ∧ start < T then
        pushRange r T (pushRecord buckets start.toNat r) (start + 1) len
      else none

/-- The record logprob `(alpha[s] + beta[nextstate] - cost) - best`
(lines 306-308).  When `best` is `-inf` the IEEE subtraction yields
`NaN` or `+inf`, either of which fails the
`KALDI_ASSERT(logprob < 0.1)`, so that case is `none`. -/
def recLogprob (a b : WithBot ℚ) (c : Cost) (best : WithBot ℚ) :
    Option (WithBot ℚ) :=
  match best with
  | none => none
  | some bp => some (a + b + negCost c + ((-bp : ℚ) : WithBot ℚ))

/-- The record step for one arc (position and arc, lines 301-315):
build the record, check `KALDI_ASSERT(logprob < 0.1)` and push the
record into the buckets of the frames its string covers. -/
def recStep (alpha beta : List (WithBot ℚ)) (best : WithBot ℚ)
    (times : List ℤ) (T : ℤ) (s : ℕ)
    (ob2 : Option (List (List LatticeArcRecord)))
    (ia : ℕ × CompactLatticeArc) :
    Option (List (List LatticeArcRecord)) :=
  match ob2 with
  | none => none
  | some bk =>
      match recLogprob (alpha.getD s ⊥) (beta.getD ia.2.nextstate ⊥)
          (ConvertToCost ia.2.weight) best with
      | none => none
      | some lp =>
          if lp < ((1 / 10 : ℚ) : WithBot ℚ) then
            pushRange ⟨lp, s, ia.1⟩ T bk (times.getD s (-1))
              ia.2.weight.string.length
          else none

/-- The record phase for one state (lines 299-316). -/
def recordArcsState (clat : CompactLattice)
    (alpha beta : List (WithBot ℚ)) (best : WithBot ℚ) (times : List ℤ)
    (T : ℤ) (ob : Option (List (List LatticeArcRecord))) (s : ℕ) :
    Option (List (List LatticeArcRecord)) :=
  (clat.arcsAt s).enum.foldl (recStep alpha beta best times T s) ob

/-- The full record phase: `T` empty buckets filled state by state. -/
def recordBuckets (clat : CompactLattice)
    (alpha beta : List (WithBot ℚ)) (best : WithBot ℚ) (times : List ℤ)
    (T : ℤ) : Option (List (List LatticeArcRecord)) :=
  (List.range clat.numStates).foldl
    (recordArcsState clat alpha beta best times T)
    (some (List.replicate T.toNat []))

/-- Modelled from the spec: `std::nth_element` (line 328) partially
sorts a bucket so that the records before the cutoff position are no
worse (no larger `logprob`) than those after it; the algorithm depends
only on which records land in the cutoff prefix, and a full stable sort
by `logprob` realises one permitted outcome of the partial sort. -/
def sortRecords (l : List LatticeArcRecord) : List LatticeArcRecord :=
  l.mergeSort (fun r1 r2 => decide (r1.logprob ≤ r2.logprob))

/-- The per-record kill (lines 331-339): redirect the arc to the dead
state unless it is already dead. -/
def killArc (dead : ℕ) (a : CompactLatticeArc) : CompactLatticeArc :=
  if a.nextstate ≠ dead then { a with nextstate := dead } else a

def killRecord (dead : ℕ) (arcs : List (List CompactLatticeArc))
    (r : LatticeArcRecord) : List (List CompactLatticeArc) :=
  arcs.set r.state
    ((arcs.getD r.state []).set r.arc
      (killArc dead ((arcs.getD r.state []).getD r.arc
        ⟨0, 0, Wzero CompactLatticeWeight, dead⟩)))

/-- The per-frame kill (lines 321-340): when a bucket exceeds
`max_depth`, kill the `size - max_depth` worst records of the bucket. -/
def killFrame (maxDepth dead : ℕ)
    (arcs : List (List CompactLatticeArc))
    (bucket : List LatticeArcRecord) : List (List CompactLatticeArc) :=
  if maxDepth < bucket.length then
    ((sortRecords bucket).take (bucket.length - maxDepth)).foldl
      (killRecord dead) arcs
  else arcs

/-- The kill loop over all frames `t = 0, ..., T-1`. -/
def killAll (maxDepth dead : ℕ) (arcs : List (List CompactLatticeArc))
    (buckets : List (List LatticeArcRecord)) :
    List (List CompactLatticeArc) :=
  buckets.foldl (killFrame maxDepth dead) arcs

/-- The intermediate lattice of `CompactLatticeLimitDepth` before the
final `fst::Connect`: the input extended with the fresh dead state
(`AddState`, line 297: one extra state with no arcs and zero final
weight) and with the pruned arcs of the kill phase redirected into it. -/
def extLat (clat : CompactLattice) (maxDepth : ℕ)
    (buckets : List (List LatticeArcRecord)) : CompactLattice :=
  ⟨killAll maxDepth clat.numStates (clat.arcs ++ [[]]) buckets,
    clat.finals ++ [Wzero CompactLatticeWeight]⟩

/-- Embedding of `CompactLatticeLimitDepth` (lattice-functions.cc lines
271-344).  An empty lattice returns unchanged (with a warning); `none`
models the external `fst::TopSort` on an unsorted input, a failing
`CompactLatticeStateTimes`, the record-phase `KALDI_ASSERT`s (including
the out-of-bounds bucket access a negative state time would cause), and
the external sort inside `TopSortCompactLatticeIfNeeded` (lines
345-352).  The dead state appended by `AddState` receives the id
`numStates`, an empty arc list and a zero final weight. -/
def CompactLatticeLimitDepth (maxDepth : ℕ) (clat : CompactLattice) :
    Option CompactLattice :=
  if clat.numStates = 0 then some clat
  else if ¬ clat.TopSortedB then none
  else
    match CompactLatticeStateTimes clat with
    | none => none
    | some (T, times) =>
        match recordBuckets clat (alphaLoop clat clat.numStates).1
            (betaArr clat) (abBest clat) times T with
        | none => none
        | some buckets =>
            if (connect (⟨killAll maxDepth clat.numStates
                  (clat.arcs ++ [[]]) buckets,
                clat.finals ++ [Wzero CompactLatticeWeight]⟩ :
                CompactLattice)).TopSortedB then
              some (connect ⟨killAll maxDepth clat.numStates
                  (clat.arcs ++ [[]]) buckets,
                clat.finals ++ [Wzero CompactLatticeWeight]⟩)
            else none

/-- The per-string increment loop of `CompactLatticeDepthPerFrame`
(lines 420-424 and 426-429): `(*depth_per_frame)[t]++` for every `t` in
`[start, start + len)`.  The source asserts `t < T`; a negative `t`
would be an out-of-bounds vector write, so both are modelled `none`. -/
def depthIncr (T : ℤ) : List ℕ → ℤ → ℕ → Option (List ℕ)
  | counts, _, 0 => some counts
  | counts, start, len + 1 =>
      if 0 ≤ start ∧ start < T then
        depthIncr T (counts.set start.toNat
          (counts.getD start.toNat 0 + 1)) (start + 1) len
      else none

/-- One state of `CompactLatticeDepthPerFrame` (lines 415-430): count
the frames covered by every outgoing arc string and by the final-weight
string. -/
def depthState (clat : CompactLattice) (times : List ℤ) (T : ℤ)
    (oc : Option (List ℕ)) (s : ℕ) : Option (List ℕ) :=
  match (clat.arcsAt s).foldl
      (fun oc2 arc =>
        match oc2 with
        | none => none
        | some c2 =>
            depthIncr T c2 (times.getD s (-1)) arc.weight.string.length)
      oc with
  | none => none
  | some c3 =>
      depthIncr T c3 (times.getD s (-1)) (clat.finalW s).string.length

/-- Embedding of `CompactLatticeDepthPerFrame` (lattice-functions.cc
lines 396-435).  `none` models the `KALDI_ERR` on an unsorted input, a
failing `CompactLatticeStateTimes` and the in-loop asserts; an empty
lattice or `T <= 0` yields an empty array. -/
def CompactLatticeDepthPerFrame (clat : CompactLattice) :
    Option (List ℕ) :=
  if ¬ clat.TopSortedB then none
  else if clat.numStates = 0 then some []
  else
    match CompactLatticeStateTimes clat with
    | none => none
    | some (T, times) =>
        if T ≤ 0 then some []
        else
          (List.range clat.numStates).foldl (depthState clat times T)
            (some (List.replicate T.toNat 0))

/-- Total frame count of a path: the sum of its arc string lengths. -/
def pathLen (p : List CompactLatticeArc) : ℤ :=
  (p.map fun a => (a.weight.string.length : ℤ)).sum

/-- Whether a string of length `len` starting at frame `start` covers
frame `t`. -/
def coversAt (start : ℤ) (len : ℕ) (t : ℕ) : Bool :=
  decide (start ≤ (t : ℤ) ∧ (t : ℤ) < start + len)

/-- The records state `s` contributes to bucket `t`: one record per
outgoing arc whose string covers frame `t`, in arc order. -/
def coverRecsState (clat : CompactLattice)
    (alpha beta : List (WithBot ℚ)) (bp : ℚ) (times : List ℤ) (t : ℕ)
    (s : ℕ) : List LatticeArcRecord :=
  ((clat.arcsAt s).enum.filter fun ia =>
      coversAt (times.getD s (-1)) ia.2.weight.string.length t).map
    fun ia =>
      ⟨alpha.getD s ⊥ + beta.getD ia.2.nextstate ⊥ +
        negCost (ConvertToCost ia.2.weight) + ((-bp : ℚ) : WithBot ℚ),
        s, ia.1⟩

/-- The full contents of bucket `t`: states in increasing order. -/
def coverAll (clat : CompactLattice) (alpha beta : List (WithBot ℚ))
    (bp : ℚ) (times : List ℤ) (t : ℕ) : List LatticeArcRecord :=
  (List.range clat.numStates).foldl
    (fun acc s => acc ++ coverRecsState clat alpha beta bp times t s) []

/-- Whether the arc a record points at still has a live destination in
the (possibly killed) arc table `A`. -/
def liveRec (A : List (List CompactLatticeArc)) (dead : ℕ)
    (r : LatticeArcRecord) : Bool :=
  decide (((A.getD r.state []).getD r.arc
    ⟨0, 0, Wzero CompactLatticeWeight, dead⟩).nextstate ≠ dead)

/-- Concrete compact lattice for the C5 counterexample: two states
linked by an arc with an empty frame string, both final with one-frame
final-weight strings, so frame `0` has depth `2` entirely from
final-weight strings, which `CompactLatticeLimitDepth` never prunes. -/
def exC5 : CompactLattice :=
  ⟨[[⟨1, 1, ⟨⟨0, 0⟩, []⟩, 1⟩], []],
   [⟨⟨0, 0⟩, [9]⟩, ⟨⟨0, 0⟩, [8]⟩]⟩

/-- Concrete compact lattice for the C5 witness: one final state with
an empty final-weight string and no arcs. -/
def exW : CompactLattice :=
  ⟨[[]], [⟨⟨0, 0⟩, []⟩]⟩

/-- Concrete compact lattice for the C3 witness: two parallel arcs
`0 → 1` with costs `1` and `5`, state `1` final with cost `0`. -/
def exC3 : CompactLattice :=
  ⟨[[⟨1, 1, ⟨⟨1, 0⟩, [0]⟩, 1⟩, ⟨2, 2, ⟨⟨5, 0⟩, [0]⟩, 1⟩], []],
   [Wzero CompactLatticeWeight, ⟨⟨0, 0⟩, []⟩]⟩

/-- Concrete lattice for the C1/C2 witnesses: a cheap path `0 → 1 → 3`
and an expensive path `0 → 2 → 3`. -/
def exPr : Lattice :=
  ⟨[[⟨1, 1, ⟨1, 0⟩, 1⟩, ⟨2, 2, ⟨5, 0⟩, 2⟩],
    [⟨3, 3, ⟨1, 0⟩, 3⟩],
    [⟨4, 4, ⟨5, 0⟩, 3⟩],
    []],
    [Wzero LatticeWeight, Wzero LatticeWeight, Wzero LatticeWeight,
      ⟨0, 0⟩]⟩

/-- The pruned form of `exPr` at beam `1`: only the cheap path survives
the trim. -/
def exPrOut : Lattice :=
  ⟨[[⟨1, 1, ⟨1, 0⟩, 1⟩], [⟨3, 3, ⟨1, 0⟩, 2⟩], []],
    [Wzero LatticeWeight, Wzero LatticeWeight, ⟨0, 0⟩]⟩

/-- Concrete lattice for the C8 witness: one word arc into a final
state. -/
def exC8 : Lattice :=
  ⟨[[⟨1, 1, ⟨1, 2⟩, 1⟩], []], [⟨⊤, ⊤⟩, ⟨0, 0⟩]⟩

/-- Concrete oracle for the C8 witness. -/
def exC8dec : DecodableInterface := ⟨fun _ _ => 1, fun _ => false⟩

/-- Concrete compact lattice for C7: a linear first arc followed by a
branching non-final state, so the walk emits one triple and then fails the
linearity check. -/
def exC7 : CompactLattice :=
  ⟨[[⟨5, 5, ⟨⟨0, 0⟩, [1]⟩, 1⟩],
    [⟨6, 6, ⟨⟨0, 0⟩, [2]⟩, 2⟩, ⟨7, 7, ⟨⟨0, 0⟩, [3]⟩, 2⟩],
    []],
    [Wzero CompactLatticeWeight, Wzero CompactLatticeWeight, ⟨⟨0, 0⟩, []⟩]⟩

/-- First index of `a` in `l` (the length of `l` when absent); the
position an `unordered_map` entry receives in the discovery-ordered pair
list of `ComposeCompactLatticeDeterministic`. -/
def idxIn {α : Type} [DecidableEq α] (a : α) : List α → ℕ
  | [] => 0
  | b :: l => if b = a then 0 else idxIn a l + 1

/-- Modelled from the spec: `fst::DeterministicOnDemandFst<fst::StdArc>`
(spec section 6): a deterministic FST over the tropical semiring queried
on demand; `GetArc(s, label)` either fails or returns the unique arc
with that input label (its weight value and destination), and `Final(s)`
is the tropical final weight (`⊤` for a non-final state). -/
structure DetFst where
  start : ℕ
  final : ℕ → Cost
  getArc : ℕ → ℕ → Option (ℚ × ℕ)

/-- Run a `DetFst` from state `s` over a label sequence; `none` when
some label has no matching arc. -/
def dfstRun (dfst : DetFst) : ℕ → List ℕ → Option ℕ
  | s, [] => some s
  | s, l :: ls =>
      match dfst.getArc s l with
      | none => none
      | some (_, t) => dfstRun dfst t ls

/-- The manually computed product of final weights (lines 777-781):
`(LatticeWeight(clat.Final(s1).w1 + det_fst.Final(s2), clat.Final(s1).w2),
clat.Final(s1).string)`. -/
def composedFinal (clat : CompactLattice) (dfst : DetFst)
    (s1 s2 : ℕ) : CompactLatticeWeight :=
  ⟨⟨(clat.finalW s1).weight.w1 + dfst.final s2,
    (clat.finalW s1).weight.w2⟩, (clat.finalW s1).string⟩

/-- The per-arc matching rule (lines 795-807 and 829-843): an
epsilon-output arc matches unconditionally, holds the `DetFst` state and
keeps the weight with labels `(0, 0)`; otherwise `GetArc` must succeed
and the first weight component grows by the matched arc value.  Returns
the composed `(ilabel, olabel, weight)` and the next `DetFst` state. -/
def matchArc (dfst : DetFst) (s2 : ℕ) (a : CompactLatticeArc) :
    Option ((ℕ × ℕ × CompactLatticeWeight) × ℕ) :=
  if a.olabel = 0 then some ((0, 0, a.weight), s2)
  else
    match dfst.getArc s2 a.olabel with
    | none => none
    | some (v, t2) =>
        some ((a.ilabel, a.olabel,
          ⟨⟨a.weight.weight.w1 + (v : ℚ), a.weight.weight.w2⟩,
            a.weight.string⟩), t2)

/-- The arcs a discovered pair contributes, with destinations resolved
through the discovery-ordered pair list `m`. -/
def expandRow (clat : CompactLattice) (dfst : DetFst) (p : ℕ × ℕ)
    (m : List (ℕ × ℕ)) : List CompactLatticeArc :=
  (clat.arcsAt p.1).filterMap fun a =>
    match matchArc dfst p.2 a with
    | none => none
    | some (pr, t2) =>
        some ⟨pr.1, pr.2.1, pr.2.2, idxIn (a.nextstate, t2) m⟩

/-- The mutable state of the composition loop: the discovery-ordered
pair list (`state_map`; the id of a pair is its position), the arc rows
and final weights of the composed lattice under construction, and the
FIFO queue of pairs still to expand. -/
structure CompState where
  map : List (ℕ × ℕ)
  arcs : List (List CompactLatticeArc)
  finals : List CompactLatticeWeight
  queue : List (ℕ × ℕ)

/-- One arc of the pop loop body (lines 788-845): skip on no match;
otherwise resolve or create the destination pair (`AddState` appends an
empty row and a zero final weight, newly created pairs are queued) and
append the composed arc to the popped pair's row. -/
def arcStep (dfst : DetFst) (s2 : ℕ) (sid : ℕ) (st : CompState)
    (a : CompactLatticeArc) : CompState :=
  match matchArc dfst s2 a with
  | none => st
  | some (pr, t2) =>
      if (a.nextstate, t2) ∈ st.map then
        ⟨st.map,
          st.arcs.set sid ((st.arcs.getD sid []) ++
            [⟨pr.1, pr.2.1, pr.2.2,
              idxIn (a.nextstate, t2) st.map⟩]),
          st.finals, st.queue⟩
      else
        ⟨st.map ++ [(a.nextstate, t2)],
          (st.arcs ++ [([] : List CompactLatticeArc)]).set sid
            (((st.arcs ++ [([] : List CompactLatticeArc)]).getD sid
                []) ++
              [(⟨pr.1, pr.2.1, pr.2.2, idxIn (a.nextstate, t2)
                (st.map ++ [(a.nextstate, t2)])⟩ :
                  CompactLatticeArc)]),
          st.finals ++ [Wzero CompactLatticeWeight],
          st.queue ++ [(a.nextstate, t2)]⟩

/-- The composition BFS (lines 767-846): pop a pair, set its final
weight when the product is non-zero, and expand its arcs.  The source
loops until the queue empties; the fuel models that count, `none`
meaning the given bound did not suffice. -/
def composeLoop (clat : CompactLattice) (dfst : DetFst) :
    ℕ → CompState → Option CompState
  | 0, st => match st.queue with
      | [] => some st
      | _ :: _ => none
  | fuel + 1, st =>
      match st.queue with
      | [] => some st
      | s :: rest =>
          let sid := idxIn s st.map
          let fw := composedFinal clat dfst s.1 s.2
          let finals2 := if fw ≠ Wzero CompactLatticeWeight
            then st.finals.set sid fw else st.finals
          composeLoop clat dfst fuel
            ((clat.arcsAt s.1).foldl (arcStep dfst s.2 sid)
              ⟨st.map, st.arcs, finals2, rest⟩)

/-- Invariant of the composition loop: the id of a pair is its position
in the discovery list; queued pairs are discovered but unexpanded;
pairs no longer queued have their full arc row, final weight and
successor closure. -/
def CompInv (clat : CompactLattice) (dfst : DetFst)
    (st : CompState) : Prop :=
  st.map ≠ [] ∧
  st.map.getD 0 (0, 0) = (0, dfst.start) ∧
  st.map.Nodup ∧
  st.arcs.length = st.map.length ∧
  st.finals.length = st.map.length ∧
  st.queue.Nodup ∧
  (∀ q ∈ st.queue, q ∈ st.map) ∧
  (∀ q ∈ st.queue,
    st.arcs.getD (idxIn q st.map) [] = [] ∧
    st.finals.getD (idxIn q st.map) (Wzero CompactLatticeWeight) =
      Wzero CompactLatticeWeight) ∧
  (∀ i, i < st.map.length → st.map.getD i (0, 0) ∉ st.queue →
    st.arcs.getD i [] =
      expandRow clat dfst (st.map.getD i (0, 0)) st.map ∧
    st.finals.getD i (Wzero CompactLatticeWeight) =
      composedFinal clat dfst (st.map.getD i (0, 0)).1
        (st.map.getD i (0, 0)).2 ∧
    (∀ a ∈ clat.arcsAt (st.map.getD i (0, 0)).1, ∀ pr t2,
      matchArc dfst (st.map.getD i (0, 0)).2 a = some (pr, t2) →
      (a.nextstate, t2) ∈ st.map))

/-- One accessibility round of the general trim: mark the destination of
every arc leaving a marked state. -/
def accStepG {W : Type} (lat : Fst W) (arr : List Bool) : List Bool :=
  (List.range lat.numStates).foldl
    (fun acc s => if acc.getD s false then
        (lat.arcsAt s).foldl (fun acc2 a => acc2.set a.nextstate true)
          acc
      else acc) arr

def accIterG {W : Type} (lat : Fst W) : ℕ → List Bool
  | 0 => (List.replicate lat.numStates false).set 0 true
  | k + 1 => accStepG lat (accIterG lat k)

/-- Accessible states of a general (not necessarily sorted) FST:
`numStates` relaxation rounds from the start state. -/
def accArrG {W : Type} (lat : Fst W) : List Bool :=
  accIterG lat lat.numStates

/-- One coaccessibility round: mark every state with an arc into a
marked state. -/
def coaccStepG {W : Type} (lat : Fst W) (arr : List Bool) :
    List Bool :=
  (List.range lat.numStates).foldl
    (fun acc s => if (lat.arcsAt s).any
        (fun a => acc.getD a.nextstate false) then acc.set s true
      else acc) arr

def coaccIterG {W : Type} [LatSemiring W] [DecidableEq W]
    (lat : Fst W) : ℕ → List Bool
  | 0 => (List.range lat.numStates).map
      (fun s => decide (lat.finalW s ≠ Wzero W))
  | k + 1 => coaccStepG lat (coaccIterG lat k)

/-- Coaccessible states of a general FST. -/
def coaccArrG {W : Type} [LatSemiring W] [DecidableEq W]
    (lat : Fst W) : List Bool :=
  coaccIterG lat lat.numStates

def usefulGB {W : Type} [LatSemiring W] [DecidableEq W] (lat : Fst W)
    (s : ℕ) : Bool :=
  (accArrG lat).getD s false && (coaccArrG lat).getD s false

def usefulListG {W : Type} [LatSemiring W] [DecidableEq W]
    (lat : Fst W) : List ℕ :=
  (List.range lat.numStates).filter (usefulGB lat)

def newIdG {W : Type} [LatSemiring W] [DecidableEq W] (lat : Fst W)
    (t : ℕ) : ℕ :=
  ((List.range t).filter (usefulGB lat)).length

/-- Modelled from the spec: `fst::Connect` (spec section 6) on a general
FST, as invoked on the composed lattice (line 847), which is not
topologically sorted; accessibility is computed by iterating the
relaxation rounds to their fixpoint. -/
def connectGen {W : Type} [LatSemiring W] [DecidableEq W]
    (lat : Fst W) : Fst W :=
  ⟨(usefulListG lat).map fun s =>
      ((lat.arcsAt s).filter fun a => usefulGB lat a.nextstate).map
        fun a => { a with nextstate := newIdG lat a.nextstate },
    (usefulListG lat).map fun s => lat.finalW s⟩

/-- Embedding of `ComposeCompactLatticeDeterministic`
(lattice-functions.cc lines 739-848).  The output starts from the single
pair `(clat.Start(), det_fst.Start())`; the final `fst::Connect` trims
it.  The in-loop `KALDI_ASSERT`s (the popped pair is mapped, fresh
insertion succeeds) hold by construction. -/
def ComposeCompactLatticeDeterministic (fuel : ℕ)
    (clat : CompactLattice) (dfst : DetFst) : Option CompactLattice :=
  match composeLoop clat dfst fuel
      ⟨[(0, dfst.start)], [[]], [Wzero CompactLatticeWeight],
        [(0, dfst.start)]⟩ with
  | none => none
  | some st => some (connectGen ⟨st.arcs, st.finals⟩)

/-- The epsilon-free output label sequence of a path. -/
def labelsNZ (p : List CompactLatticeArc) : List ℕ :=
  (p.map fun a => a.olabel).filter fun l => decide (l ≠ 0)

/-- Concrete compact lattice for the C4 counterexample: one final state
with weight `((0, 0), [])` and no arcs. -/
def clatX : CompactLattice :=
  ⟨[[]], [⟨⟨0, 0⟩, []⟩]⟩

/-- Concrete `DetFst` for the C4 counterexample: a single state that is
never final and has no arcs. -/
def dfstX : DetFst :=
  ⟨0, fun _ => ⊤, fun _ _ => none⟩

/-- The composition of `clatX` with `dfstX`: the final weight keeps the
finite second component, so the state stays final and survives the
trim although `dfstX` accepts nothing. -/
def outX : CompactLattice :=
  ⟨[[]], [⟨⟨⊤, 0⟩, []⟩]⟩

/-- Concrete compact lattice for the C4 witness: one arc labelled `7`
into a final state. -/
def clatW4 : CompactLattice :=
  ⟨[[⟨7, 7, ⟨⟨1, 2⟩, [4]⟩, 1⟩], []],
   [Wzero CompactLatticeWeight, ⟨⟨0, 0⟩, []⟩]⟩

/-- Concrete `DetFst` for the C4 witness: consumes label `7` from state
`0` to the final state `1` with value `3`. -/
def dfstW4 : DetFst :=
  ⟨0, fun s => if s = 1 then (0 : ℚ) else ⊤,
   fun s l => if s = 0 ∧ l = 7 then some (3, 1) else none⟩

/-- The composition of `clatW4` with `dfstW4`. -/
def outW4 : CompactLattice :=
  ⟨[[⟨7, 7, ⟨⟨4, 2⟩, [4]⟩, 1⟩], []],
   [Wzero CompactLatticeWeight, ⟨⟨0, 0⟩, []⟩]⟩

end eesen

namespace eesen

theorem topSortedB_iff {W : Type} (lat : Fst W) :
    lat.TopSortedB = true ↔ lat.TopSorted := by
  unfold Fst.TopSortedB Fst.TopSorted
  simp only [List.all_eq_true, List.mem_range, Bool.and_eq_true, decide_eq_true_eq]
  constructor
  · intro h s a ha
    by_cases hs : s < lat.numStates
    · exact h s hs a ha
    · exfalso
      have : lat.arcsAt s = [] := by
        unfold Fst.arcsAt
        have : lat.arcs.length ≤ s := le_of_not_lt hs
        simp [List.getD_eq_getElem?_getD, List.getElem?_eq_none this]
      rw [this] at ha
      exact absurd ha (List.not_mem_nil a)
  · intro h s _ a ha
    exact h s a ha

theorem wfb_iff {W : Type} (lat : Fst W) :
    lat.WFB = true ↔ lat.finals.length = lat.arcs.length := by
  unfold Fst.WFB
  exact decide_eq_true_iff

theorem getD_set_self {α : Type} (l : List α) (i : ℕ) (a d : α)
    (h : i < l.length) : (l.set i a).getD i d = a := by
  simp [List.getD_eq_getElem?_getD, List.getElem?_set_self h]

theorem getD_set_ne {α : Type} (l : List α) (i j : ℕ) (a d : α)
    (h : i ≠ j) : (l.set i a).getD j d = l.getD j d := by
  simp [List.getD_eq_getElem?_getD, List.getElem?_set_ne h]

theorem getD_oob {α : Type} (l : List α) (i : ℕ) (d : α)
    (h : l.length ≤ i) : l.getD i d = d := by
  simp [List.getD_eq_getElem?_getD, List.getElem?_eq_none h]

theorem getD_mem {α : Type} (l : List α) (s : ℕ) (d : α)
    (h : s < l.length) : l.getD s d ∈ l := by
  rw [List.getD_eq_getElem l _ h]
  exact List.getElem_mem h

theorem listMax_ge (l : List ℤ) (x : ℤ) (hx : x ∈ l) : x ≤ listMax l := by
  cases l with
  | nil => exact absurd hx (List.not_mem_nil x)
  | cons y ys =>
      unfold listMax
      have key : ∀ (zs : List ℤ) (b : ℤ),
          b ≤ zs.foldl max b ∧ ∀ z ∈ zs, z ≤ zs.foldl max b := by
        intro zs
        induction zs with
        | nil => intro b; exact ⟨le_refl b, by simp⟩
        | cons z zs ih =>
            intro b
            refine ⟨?_, ?_⟩
            · exact le_trans (le_max_left b z) (ih (max b z)).1
            · intro w hw
              rcases List.mem_cons.mp hw with rfl | hw
              · exact le_trans (le_max_right b w) (ih (max b w)).1
              · exact (ih (max b z)).2 w hw
      rcases List.mem_cons.mp hx with rfl | hx
      · exact (key ys x).1
      · exact (key ys y).2 x hx

theorem foldl_add_eq {α : Type} (f : α → ℕ) (l : List α) (init : ℕ) :
    l.foldl (fun a x => a + f x) init = init + (l.map f).sum := by
  induction l generalizing init with
  | nil => simp
  | cons x xs ih => simp [ih, add_assoc]

theorem clFrameCount_eq (clat : CompactLattice) :
    clFrameCount clat =
      ((List.range clat.numStates).map fun s =>
        ((clat.arcsAt s).map fun a => a.weight.string.length).sum +
          (clat.finalW s).string.length).sum := by
  unfold clFrameCount
  rw [List.foldl_ext _ (fun acc s =>
    acc + (((clat.arcsAt s).map fun a => a.weight.string.length).sum +
      (clat.finalW s).string.length))]
  · exact foldl_add_eq _ _ 0 |>.trans (by simp)
  · intro acc s _
    rw [foldl_add_eq]
    ring

/-- C6: word-insertion-penalty injection is additive: applying it with
penalty `p` and then with penalty `q` produces the same compact lattice as
applying it once with `p + q`.  Moreover a single application leaves the
final weights and the graph structure unchanged and rewrites exactly the
arcs with `ilabel != 0`, adding the penalty to the first `LatticeWeight`
component and keeping the second component, the frame string, the labels
and the destination intact. -/
theorem claim_C6 (p q : ℚ) (clat : CompactLattice) :
    AddWordInsPenToCompactLattice q (AddWordInsPenToCompactLattice p clat) =
      AddWordInsPenToCompactLattice (p + q) clat ∧
    (AddWordInsPenToCompactLattice p clat).finals = clat.finals ∧
    (AddWordInsPenToCompactLattice p clat).numStates = clat.numStates ∧
    (∀ s, (AddWordInsPenToCompactLattice p clat).arcsAt s =
        (clat.arcsAt s).map (addWipArc p)) ∧
    (∀ arc : CompactLatticeArc, addWipArc p arc =
        if arc.ilabel = 0 then arc else
          ⟨arc.ilabel, arc.olabel,
            ⟨⟨arc.weight.weight.w1 + (p : Cost), arc.weight.weight.w2⟩,
              arc.weight.string⟩, arc.nextstate⟩) := by
  refine ⟨?_, rfl, ?_, ?_, ?_⟩
  · unfold AddWordInsPenToCompactLattice
    simp only [List.map_map]
    congr 1
    apply List.map_congr_left
    intro l _
    simp only [Function.comp_apply, List.map_map]
    apply List.map_congr_left
    intro arc _
    unfold addWipArc
    by_cases h : arc.ilabel = 0
    · simp [h]
    · simp only [h, ne_eq, not_false_iff, if_true, Function.comp]
      have : (arc.weight.weight.w1 + (p : Cost)) + (q : Cost) =
          arc.weight.weight.w1 + ((p + q : ℚ) : Cost) := by
        rw [add_assoc]
        norm_cast
      simp [this]
  · unfold AddWordInsPenToCompactLattice Fst.numStates
    simp
  · intro s
    unfold AddWordInsPenToCompactLattice Fst.arcsAt
    simp only
    by_cases hs : s < clat.arcs.length
    · simp [List.getD_eq_getElem?_getD, List.getElem?_map,
        List.getElem?_eq_getElem hs]
    · have : clat.arcs.length ≤ s := le_of_not_lt hs
      simp [List.getD_eq_getElem?_getD, List.getElem?_eq_none, this]
  · intro arc
    unfold addWipArc
    by_cases h : arc.ilabel = 0
    · simp [h]
    · simp [h]

/-- C9: on a compact lattice whose state times succeed with a non-zero
utterance length `t`, `CompactLatticeDepth` returns the total number of
arc frames (the sum over all arcs of the frame-string length plus the sum
over all states of the final-weight string length) divided by `t`, and
reports `t` as the number of frames; on an empty compact lattice (no start
state) it returns depth `1.0` and `0` frames. -/
theorem claim_C9 (clat : CompactLattice) :
    (clat.numStates = 0 → CompactLatticeDepth clat = some (1, 0)) ∧
    (∀ t times, CompactLatticeStateTimes clat = some (t, times) → t ≠ 0 →
      CompactLatticeDepth clat = some
        ((((((List.range clat.numStates).map fun s =>
            ((clat.arcsAt s).map fun a => a.weight.string.length).sum +
              (clat.finalW s).string.length).sum : ℕ) : ℚ) / (t : ℚ)), t)) := by
  constructor
  · intro h
    have hts : clat.TopSortedB = true := by
      unfold Fst.TopSortedB
      rw [show clat.numStates = 0 from h]
      simp
    unfold CompactLatticeDepth
    simp [hts, h]
  · intro t times hst ht
    have hts : clat.TopSortedB = true := by
      by_contra hc
      unfold CompactLatticeStateTimes at hst
      simp [hc] at hst
    have hn : ¬ clat.numStates = 0 := by
      intro h0
      unfold CompactLatticeStateTimes at hst
      simp [hts, h0] at hst
    unfold CompactLatticeDepth
    rw [clFrameCount_eq] at *
    simp [hts, hn, hst, ht]

/-- Witness for C9 at the concrete lattice `exC9`. -/
theorem claim_C9_witness :
    CompactLatticeStateTimes exC9 = some (2, [0, 2]) ∧ (2 : ℤ) ≠ 0 ∧
    CompactLatticeDepth exC9 = some
      ((((((List.range exC9.numStates).map fun s =>
          ((exC9.arcsAt s).map fun a => a.weight.string.length).sum +
            (exC9.finalW s).string.length).sum : ℕ) : ℚ) / ((2 : ℤ) : ℚ)), 2) :=
  ⟨by decide, by decide, (claim_C9 exC9).2 2 [0, 2] (by decide) (by decide)⟩

/-- C10: the division in `CompactLatticeDepth` is unguarded.  The concrete
compact lattice `exC10` has a start state (it is non-empty) and no final
state: `CompactLatticeStateTimes` returns utterance length `0`, and
`CompactLatticeDepth` reaches the division with divisor `0` (modelled as
`none`) instead of taking the empty-lattice `1.0` fallback. -/
theorem claim_C10 :
    exC10.numStates ≠ 0 ∧
    exC10.finalW 0 = Wzero CompactLatticeWeight ∧
    CompactLatticeStateTimes exC10 = some (0, [0]) ∧
    CompactLatticeDepth exC10 = none ∧
    CompactLatticeDepth exC10 ≠ some (1, 0) := by
  refine ⟨by decide, by decide, by decide, by decide, by decide⟩

theorem alignLoop_lengths (clat : CompactLattice) :
    ∀ fuel state curTime ws bs ls b ws' bs' ls',
      alignLoop clat fuel state curTime (ws, bs, ls) =
        some (b, ws', bs', ls') →
      ws.length = bs.length → bs.length = ls.length →
      ws'.length = bs'.length ∧ bs'.length = ls'.length := by
  intro fuel
  induction fuel with
  | zero => intro state curTime ws bs ls b ws' bs' ls' h; simp [alignLoop] at h
  | succ n ih =>
      intro state curTime ws bs ls b ws' bs' ls' h h1 h2
      unfold alignLoop at h
      by_cases hf : clat.finalW state ≠ Wzero CompactLatticeWeight
      · rw [if_pos hf] at h
        by_cases ha : (clat.arcsAt state).length ≠ 0
        · rw [if_pos ha] at h
          simp only [Option.some.injEq, Prod.mk.injEq] at h
          obtain ⟨_, rfl, rfl, rfl⟩ := h
          exact ⟨h1, h2⟩
        · rw [if_neg ha] at h
          simp only [Option.some.injEq, Prod.mk.injEq] at h
          obtain ⟨_, rfl, rfl, rfl⟩ := h
          exact ⟨h1, h2⟩
      · rw [if_neg hf] at h
        cases harcs : clat.arcsAt state with
        | nil =>
            rw [harcs] at h
            simp only [Option.some.injEq, Prod.mk.injEq] at h
            obtain ⟨_, rfl, rfl, rfl⟩ := h
            exact ⟨h1, h2⟩
        | cons arc rest =>
            cases rest with
            | nil =>
                rw [harcs] at h
                exact ih _ _ _ _ _ _ _ _ _ h (by simp [h1]) (by simp [h2])
            | cons arc2 rest2 =>
                rw [harcs] at h
                simp only [Option.some.injEq, Prod.mk.injEq] at h
                obtain ⟨_, rfl, rfl, rfl⟩ := h
                exact ⟨h1, h2⟩

/-- C7 (amended): on every return of `CompactLatticeToWordAlignment`,
whether `true` or `false`, the three output arrays have equal length.
(The claim's further assertion that the arrays are cleared on a
non-linearity failure is refuted by `claim_C7_counterexample`: the arrays
keep the triples emitted before the failing state.) -/
theorem claim_C7 (clat : CompactLattice) (b : Bool) (ws : List ℕ)
    (bs ls : List ℤ)
    (h : CompactLatticeToWordAlignment clat = some (b, ws, bs, ls)) :
    ws.length = bs.length ∧ bs.length = ls.length := by
  unfold CompactLatticeToWordAlignment at h
  by_cases hn : clat.numStates = 0
  · simp only [hn, if_true] at h
    obtain ⟨_, rfl, rfl, rfl⟩ := by simpa using h
    exact ⟨rfl, rfl⟩
  · simp only [hn, if_false] at h
    exact alignLoop_lengths clat _ _ _ _ _ _ _ _ _ _ h rfl rfl

/-- Witness for C7 on the linear lattice `exC9`. -/
theorem claim_C7_witness :
    CompactLatticeToWordAlignment exC9 = some (true, [3], [0], [2]) ∧
    ([3] : List ℕ).length = ([0] : List ℤ).length ∧
    ([0] : List ℤ).length = ([2] : List ℤ).length :=
  ⟨by decide, claim_C7 exC9 true [3] [0] [2] (by decide)⟩

theorem arcsAt_oob {W : Type} (lat : Fst W) (s : ℕ)
    (h : lat.numStates ≤ s) : lat.arcsAt s = [] := by
  unfold Fst.arcsAt
  exact getD_oob _ _ _ h

theorem lt_of_arc_mem {W : Type} {lat : Fst W} {s : ℕ} {arc : Arc W}
    (h : arc ∈ lat.arcsAt s) : s < lat.numStates := by
  by_contra hc
  rw [arcsAt_oob lat s (le_of_not_lt hc)] at h
  exact absurd h (List.not_mem_nil arc)

theorem foldMin_le_init {α : Type} (g : α → Cost) (l : List α) :
    ∀ init : Cost,
      l.foldl (fun tb a => if g a < tb then g a else tb) init ≤ init := by
  induction l with
  | nil => intro init; exact le_refl init
  | cons x xs ih =>
      intro init
      refine le_trans (ih _) ?_
      show (if g x < init then g x else init) ≤ init
      by_cases h : g x < init
      · rw [if_pos h]; exact le_of_lt h
      · rw [if_neg h]

theorem foldMin_le_mem {α : Type} (g : α → Cost) (l : List α) (a : α)
    (ha : a ∈ l) :
    ∀ init : Cost,
      l.foldl (fun tb a => if g a < tb then g a else tb) init ≤ g a := by
  induction l with
  | nil => exact absurd ha (List.not_mem_nil a)
  | cons x xs ih =>
      intro init
      rcases List.mem_cons.mp ha with rfl | hmem
      · refine le_trans (foldMin_le_init g xs _) ?_
        show (if g a < init then g a else init) ≤ g a
        by_cases h : g a < init
        · rw [if_pos h]
        · rw [if_neg h]; exact le_of_not_lt h
      · exact ih hmem _

theorem foldMin_cases {α : Type} (g : α → Cost) (l : List α) :
    ∀ init : Cost,
      l.foldl (fun tb a => if g a < tb then g a else tb) init = init ∨
        ∃ a ∈ l, l.foldl (fun tb a => if g a < tb then g a else tb) init =
          g a := by
  induction l with
  | nil => intro init; exact Or.inl rfl
  | cons x xs ih =>
      intro init
      rcases ih (if g x < init then g x else init) with h | ⟨a, ha, h⟩
      · by_cases hx : g x < init
        · refine Or.inr ⟨x, List.mem_cons_self _ _, ?_⟩
          rw [List.foldl_cons]
          show List.foldl _ (if g x < init then g x else init) xs = g x
          rw [h, if_pos hx]
        · refine Or.inl ?_
          rw [List.foldl_cons]
          show List.foldl _ (if g x < init then g x else init) xs = init
          rw [h, if_neg hx]
      · refine Or.inr ⟨a, List.mem_cons_of_mem _ ha, ?_⟩
        rw [List.foldl_cons]
        show List.foldl _ (if g x < init then g x else init) xs = g a
        rw [h]

theorem relaxArcsLive_length {W : Type} [LatSemiring W] (tc : Cost)
    (arcs : List (Arc W)) :
    ∀ fc : List Cost, (relaxArcsLive tc arcs fc).length = fc.length := by
  induction arcs with
  | nil => intro fc; rfl
  | cons a rest ih =>
      intro fc
      unfold relaxArcsLive at *
      simp only [List.foldl_cons]
      rw [ih]
      by_cases h : fc.getD a.nextstate ⊤ > tc + ConvertToCost a.weight
      · rw [if_pos h]; simp
      · rw [if_neg h]

theorem relaxArcsLive_mono {W : Type} [LatSemiring W] (tc : Cost)
    (arcs : List (Arc W)) :
    ∀ (fc : List Cost) (u : ℕ),
      (relaxArcsLive tc arcs fc).getD u ⊤ ≤ fc.getD u ⊤ := by
  induction arcs with
  | nil => intro fc u; exact le_refl _
  | cons a rest ih =>
      intro fc u
      unfold relaxArcsLive at *
      simp only [List.foldl_cons]
      by_cases h : fc.getD a.nextstate ⊤ > tc + ConvertToCost a.weight
      · rw [if_pos h]
        refine le_trans (ih _ u) ?_
        by_cases hu : a.nextstate = u
        · subst hu
          by_cases hlen : a.nextstate < fc.length
          · rw [getD_set_self _ _ _ _ hlen]
            exact le_of_lt h
          · rw [List.set_eq_of_length_le (le_of_not_lt hlen)]
        · rw [getD_set_ne _ _ _ _ _ hu]
      · rw [if_neg h]
        exact ih _ u

theorem relaxArcsLive_notmem {W : Type} [LatSemiring W] (tc : Cost)
    (arcs : List (Arc W)) (u : ℕ)
    (hu : ∀ a ∈ arcs, a.nextstate ≠ u) :
    ∀ fc : List Cost,
      (relaxArcsLive tc arcs fc).getD u ⊤ = fc.getD u ⊤ := by
  induction arcs with
  | nil => intro fc; rfl
  | cons a rest ih =>
      intro fc
      unfold relaxArcsLive at *
      simp only [List.foldl_cons]
      have ha := hu a (List.mem_cons_self _ _)
      have ih' := ih (fun b hb => hu b (List.mem_cons_of_mem _ hb))
      by_cases h : fc.getD a.nextstate ⊤ > tc + ConvertToCost a.weight
      · rw [if_pos h, ih', getD_set_ne _ _ _ _ _ ha]
      · rw [if_neg h, ih']

theorem relaxArcsLive_bound {W : Type} [LatSemiring W] (tc : Cost)
    (arcs : List (Arc W)) (arc : Arc W) (ha : arc ∈ arcs) :
    ∀ fc : List Cost, arc.nextstate < fc.length →
      (relaxArcsLive tc arcs fc).getD arc.nextstate ⊤ ≤
        tc + ConvertToCost arc.weight := by
  induction arcs with
  | nil => exact absurd ha (List.not_mem_nil arc)
  | cons a rest ih =>
      intro fc hlen
      unfold relaxArcsLive at *
      simp only [List.foldl_cons]
      rcases List.mem_cons.mp ha with rfl | hmem
      · by_cases h : fc.getD arc.nextstate ⊤ > tc + ConvertToCost arc.weight
        · rw [if_pos h]
          refine le_trans (relaxArcsLive_mono tc rest _ _) ?_
          rw [getD_set_self _ _ _ _ hlen]
        · rw [if_neg h]
          exact le_trans (relaxArcsLive_mono tc rest _ _) (le_of_not_lt h)
      · by_cases h : fc.getD a.nextstate ⊤ > tc + ConvertToCost a.weight
        · rw [if_pos h]
          exact ih hmem _ (by simpa using hlen)
        · rw [if_neg h]
          exact ih hmem _ hlen

theorem pathCost_nil {W : Type} [LatSemiring W] :
    pathCost ([] : List (Arc W)) = 0 := rfl

theorem pathCost_cons {W : Type} [LatSemiring W] (a : Arc W)
    (p : List (Arc W)) :
    pathCost (a :: p) = ConvertToCost a.weight + pathCost p := rfl

theorem pathCost_append {W : Type} [LatSemiring W] (p q : List (Arc W)) :
    pathCost (p ++ q) = pathCost p + pathCost q := by
  induction p with
  | nil => rw [List.nil_append, pathCost_nil, zero_add]
  | cons a p ih =>
      rw [List.cons_append, pathCost_cons, pathCost_cons, ih, add_assoc]

theorem pathCost_singleton {W : Type} [LatSemiring W] (a : Arc W) :
    pathCost [a] = ConvertToCost a.weight := by
  rw [pathCost_cons, pathCost_nil, add_zero]

theorem pathIn_append {W : Type} {lat : Fst W} {s t u : ℕ}
    {p q : List (Arc W)} (hp : PathIn lat s p t) (hq : PathIn lat t q u) :
    PathIn lat s (p ++ q) u := by
  induction hp with
  | nil s => exact hq
  | cons arc ha _ ih => exact PathIn.cons arc ha (ih hq)

theorem pathIn_dst {W : Type} {lat : Fst W} {s t : ℕ} {p : List (Arc W)}
    (hp : PathIn lat s p t) : dst s p = t := by
  induction hp with
  | nil s => rfl
  | cons arc ha _ ih => simpa [dst] using ih

theorem pruneForwardLoop_succ {W : Type} [LatSemiring W] (lat : Fst W)
    (k : ℕ) :
    pruneForwardLoop lat (k + 1) =
      pruneForwardStep lat (pruneForwardLoop lat k) k := by
  unfold pruneForwardLoop
  rw [List.range_succ, List.foldl_append]
  rfl

theorem pruneForwardLoop_fst_length {W : Type} [LatSemiring W]
    (lat : Fst W) (k : ℕ) :
    (pruneForwardLoop lat k).1.length = lat.numStates := by
  induction k with
  | zero =>
      unfold pruneForwardLoop
      simp
  | succ k ih =>
      rw [pruneForwardLoop_succ]
      show (relaxArcsLive _ _ _).length = _
      rw [relaxArcsLive_length]
      exact ih

theorem forward_stable {W : Type} [LatSemiring W] (lat : Fst W)
    (hT : lat.TopSorted) (u k m : ℕ) (hkm : k ≤ m) (hu : u ≤ k) :
    (pruneForwardLoop lat m).1.getD u ⊤ =
      (pruneForwardLoop lat k).1.getD u ⊤ := by
  induction m, hkm using Nat.le_induction with
  | base => rfl
  | succ m hkm ih =>
      rw [pruneForwardLoop_succ]
      show (relaxArcsLive _ (lat.arcsAt m) _).getD u ⊤ = _
      rw [relaxArcsLive_notmem _ _ u ?hm _]
      · exact ih
      case hm =>
        intro a ha
        have := (hT m a ha).1
        omega

theorem forward_mono {W : Type} [LatSemiring W] (lat : Fst W) (u k m : ℕ)
    (hkm : k ≤ m) :
    (pruneForwardLoop lat m).1.getD u ⊤ ≤
      (pruneForwardLoop lat k).1.getD u ⊤ := by
  induction m, hkm using Nat.le_induction with
  | base => exact le_refl _
  | succ m hkm ih =>
      rw [pruneForwardLoop_succ]
      exact le_trans (relaxArcsLive_mono _ _ _ u) ih

theorem best_mono {W : Type} [LatSemiring W] (lat : Fst W) (k m : ℕ)
    (hkm : k ≤ m) :
    (pruneForwardLoop lat m).2 ≤ (pruneForwardLoop lat k).2 := by
  induction m, hkm using Nat.le_induction with
  | base => exact le_refl _
  | succ m hkm ih =>
      rw [pruneForwardLoop_succ]
      show (if _ < (pruneForwardLoop lat m).2 then _
        else (pruneForwardLoop lat m).2) ≤ _
      by_cases h : (pruneForwardLoop lat m).1.getD m ⊤ +
          ConvertToCost (lat.finalW m) < (pruneForwardLoop lat m).2
      · rw [if_pos h]; exact le_trans (le_of_lt h) ih
      · rw [if_neg h]; exact ih

theorem bestFinal_le {W : Type} [LatSemiring W] (lat : Fst W)
    (hT : lat.TopSorted) (s : ℕ) (hs : s < lat.numStates) :
    bestFinalBefore lat ≤
      (forwardBefore lat).getD s ⊤ + ConvertToCost (lat.finalW s) := by
  unfold bestFinalBefore forwardBefore
  have h1 : (pruneForwardLoop lat lat.numStates).2 ≤
      (pruneForwardLoop lat (s + 1)).2 :=
    best_mono lat (s + 1) lat.numStates hs
  have h2 : (pruneForwardLoop lat (s + 1)).2 ≤
      (pruneForwardLoop lat s).1.getD s ⊤ + ConvertToCost (lat.finalW s) := by
    rw [pruneForwardLoop_succ]
    show (if _ < (pruneForwardLoop lat s).2 then _
      else (pruneForwardLoop lat s).2) ≤ _
    by_cases h : (pruneForwardLoop lat s).1.getD s ⊤ +
        ConvertToCost (lat.finalW s) < (pruneForwardLoop lat s).2
    · rw [if_pos h]
    · rw [if_neg h]; exact le_of_not_lt h
  have h3 : (pruneForwardLoop lat s).1.getD s ⊤ =
      (pruneForwardLoop lat lat.numStates).1.getD s ⊤ :=
    (forward_stable lat hT s s lat.numStates (le_of_lt hs) (le_refl s)).symm
  rw [h3] at h2
  exact le_trans h1 h2

theorem forward_relax {W : Type} [LatSemiring W] (lat : Fst W)
    (hT : lat.TopSorted) {s : ℕ} {arc : Arc W} (ha : arc ∈ lat.arcsAt s) :
    (forwardBefore lat).getD arc.nextstate ⊤ ≤
      (forwardBefore lat).getD s ⊤ + ConvertToCost arc.weight := by
  have hs : s < lat.numStates := lt_of_arc_mem ha
  have hnext : arc.nextstate < lat.numStates := (hT s arc ha).2
  unfold forwardBefore
  have h1 : (pruneForwardLoop lat lat.numStates).1.getD arc.nextstate ⊤ ≤
      (pruneForwardLoop lat (s + 1)).1.getD arc.nextstate ⊤ :=
    forward_mono lat arc.nextstate (s + 1) lat.numStates hs
  have h2 : (pruneForwardLoop lat (s + 1)).1.getD arc.nextstate ⊤ ≤
      (pruneForwardLoop lat s).1.getD s ⊤ + ConvertToCost arc.weight := by
    rw [pruneForwardLoop_succ]
    exact relaxArcsLive_bound _ _ arc ha _
      (by rw [pruneForwardLoop_fst_length]; exact hnext)
  have h3 : (pruneForwardLoop lat s).1.getD s ⊤ =
      (pruneForwardLoop lat lat.numStates).1.getD s ⊤ :=
    (forward_stable lat hT s s lat.numStates (le_of_lt hs) (le_refl s)).symm
  rw [h3] at h2
  exact le_trans h1 h2

theorem forward_start {W : Type} [LatSemiring W] (lat : Fst W)
    (hT : lat.TopSorted) (hn : lat.numStates ≠ 0) :
    (forwardBefore lat).getD 0 ⊤ = 0 := by
  unfold forwardBefore
  rw [forward_stable lat hT 0 0 lat.numStates (Nat.zero_le _) (le_refl 0)]
  show ((List.replicate lat.numStates (⊤ : Cost)).set 0 0).getD 0 ⊤ = 0
  rw [getD_set_self]
  simpa using Nat.pos_of_ne_zero hn

theorem forward_path_le {W : Type} [LatSemiring W] (lat : Fst W)
    (hT : lat.TopSorted) {s t : ℕ} {p : List (Arc W)}
    (hp : PathIn lat s p t) :
    (forwardBefore lat).getD t ⊤ ≤
      (forwardBefore lat).getD s ⊤ + pathCost p := by
  induction hp with
  | nil s => rw [pathCost_nil, add_zero]
  | cons arc ha hp ih =>
      rename_i s' t' p'
      calc (forwardBefore lat).getD t' ⊤ ≤
          (forwardBefore lat).getD arc.nextstate ⊤ + pathCost p' := ih
        _ ≤ ((forwardBefore lat).getD s' ⊤ + ConvertToCost arc.weight) +
            pathCost p' := add_le_add_right (forward_relax lat hT ha) _
        _ = (forwardBefore lat).getD s' ⊤ + pathCost (arc :: p') := by
            rw [pathCost_cons, add_assoc]

theorem relaxArcsLive_achieve {W : Type} [LatSemiring W] (lat : Fst W)
    (k : ℕ) (tc : Cost)
    (htc : tc = ⊤ ∨ ∃ p, PathIn lat 0 p k ∧ pathCost p = tc) :
    ∀ (arcs : List (Arc W)), (∀ a ∈ arcs, a ∈ lat.arcsAt k) →
      ∀ fc : List Cost,
        (∀ u, fc.getD u ⊤ = ⊤ ∨
          ∃ p, PathIn lat 0 p u ∧ pathCost p = fc.getD u ⊤) →
        ∀ u, (relaxArcsLive tc arcs fc).getD u ⊤ = ⊤ ∨
          ∃ p, PathIn lat 0 p u ∧
            pathCost p = (relaxArcsLive tc arcs fc).getD u ⊤ := by
  intro arcs
  induction arcs with
  | nil => intro _ fc hfc u; exact hfc u
  | cons a rest ih =>
      intro hmem fc hfc u
      unfold relaxArcsLive at *
      simp only [List.foldl_cons]
      by_cases hcond : fc.getD a.nextstate ⊤ > tc + ConvertToCost a.weight
      · rw [if_pos hcond]
        refine ih (fun b hb => hmem b (List.mem_cons_of_mem _ hb)) _ ?_ u
        intro v
        by_cases hv : a.nextstate = v
        · subst hv
          by_cases hlen : a.nextstate < fc.length
          · rw [getD_set_self _ _ _ _ hlen]
            rcases htc with rfl | ⟨p, hp, hpc⟩
            · exact absurd hcond (by simp [not_top_lt])
            · refine Or.inr ⟨p ++ [a], ?_, ?_⟩
              · exact pathIn_append hp
                  (PathIn.cons a (hmem a (List.mem_cons_self _ _))
                    (PathIn.nil _))
              · rw [pathCost_append, pathCost_singleton, hpc]
          · rw [List.set_eq_of_length_le (le_of_not_lt hlen)]
            exact hfc _
        · rw [getD_set_ne _ _ _ _ _ hv]
          exact hfc v
      · rw [if_neg hcond]
        exact ih (fun b hb => hmem b (List.mem_cons_of_mem _ hb)) _ hfc u

theorem forward_achieve {W : Type} [LatSemiring W] (lat : Fst W)
    (k : ℕ) :
    (∀ u, (pruneForwardLoop lat k).1.getD u ⊤ = ⊤ ∨
      ∃ p, PathIn lat 0 p u ∧
        pathCost p = (pruneForwardLoop lat k).1.getD u ⊤) ∧
    ((pruneForwardLoop lat k).2 = ⊤ ∨ ∃ s q, PathIn lat 0 q s ∧
      pathCost q + ConvertToCost (lat.finalW s) =
        (pruneForwardLoop lat k).2) := by
  induction k with
  | zero =>
      have hbase : (pruneForwardLoop lat 0).1 =
          (List.replicate lat.numStates (⊤ : Cost)).set 0 0 := rfl
      constructor
      · intro u
        rw [hbase]
        by_cases hu : u = 0
        · subst hu
          by_cases hn : 0 < lat.numStates
          · rw [getD_set_self _ _ _ _ (by simpa using hn)]
            exact Or.inr ⟨[], PathIn.nil 0, pathCost_nil⟩
          · rw [List.set_eq_of_length_le (by simpa using hn),
              getD_oob _ _ _ (by simpa using hn)]
            exact Or.inl rfl
        · rw [getD_set_ne _ _ _ _ _ fun h => hu h.symm]
          by_cases hun : u < lat.numStates
          · rw [List.getD_eq_getElem?_getD]
            rw [List.getElem?_replicate]
            rw [if_pos hun]
            exact Or.inl rfl
          · rw [getD_oob _ _ _ (by simpa using hun)]
            exact Or.inl rfl
      · exact Or.inl rfl
  | succ k ih =>
      rw [pruneForwardLoop_succ]
      constructor
      · exact relaxArcsLive_achieve lat k _ (ih.1 k) _ (fun a ha => ha) _ ih.1
      · have hstep : (pruneForwardStep lat (pruneForwardLoop lat k) k).2 =
            if (pruneForwardLoop lat k).1.getD k ⊤ +
                ConvertToCost (lat.finalW k) < (pruneForwardLoop lat k).2 then
              (pruneForwardLoop lat k).1.getD k ⊤ +
                ConvertToCost (lat.finalW k)
            else (pruneForwardLoop lat k).2 := rfl
        rw [hstep]
        by_cases hcond : (pruneForwardLoop lat k).1.getD k ⊤ +
            ConvertToCost (lat.finalW k) < (pruneForwardLoop lat k).2
        · rw [if_pos hcond]
          rcases ih.1 k with htop | ⟨p, hp, hpc⟩
          · rw [htop, top_add] at hcond
            exact absurd hcond (by simp [not_top_lt])
          · exact Or.inr ⟨k, p, hp, by rw [hpc]⟩
        · rw [if_neg hcond]
          exact ih.2

theorem backwardGo_succ {W : Type} [LatSemiring W] (lat : Fst W)
    (bc : List Cost) (k : ℕ) :
    backwardGo lat bc (k + 1) =
      backwardGo lat (backwardStep lat bc k) k := by
  unfold backwardGo
  rw [List.range_succ, List.foldr_append]
  rfl

theorem backwardStep_length {W : Type} [LatSemiring W] (lat : Fst W)
    (bc : List Cost) (s : ℕ) :
    (backwardStep lat bc s).length = bc.length := by
  unfold backwardStep
  simp

theorem backwardGo_length {W : Type} [LatSemiring W] (lat : Fst W)
    (k : ℕ) :
    ∀ bc : List Cost, (backwardGo lat bc k).length = bc.length := by
  induction k with
  | zero => intro bc; rfl
  | succ k ih =>
      intro bc
      rw [backwardGo_succ, ih, backwardStep_length]

theorem backwardGo_stable {W : Type} [LatSemiring W] (lat : Fst W)
    (k : ℕ) :
    ∀ (bc : List Cost) (u : ℕ), k ≤ u →
      (backwardGo lat bc k).getD u ⊤ = bc.getD u ⊤ := by
  induction k with
  | zero => intro bc u _; rfl
  | succ k ih =>
      intro bc u hku
      rw [backwardGo_succ, ih _ u (by omega)]
      unfold backwardStep
      rw [getD_set_ne _ _ _ _ _ (by omega)]

theorem backwardGo_spec {W : Type} [LatSemiring W] (lat : Fst W)
    (hT : lat.TopSorted) :
    ∀ k, k ≤ lat.numStates → ∀ bc : List Cost,
      bc.length = lat.numStates → ∀ s, s < k →
      (backwardGo lat bc k).getD s ⊤ =
        (lat.arcsAt s).foldl
          (fun tb arc =>
            if ConvertToCost arc.weight +
                (backwardGo lat bc k).getD arc.nextstate ⊤ < tb then
              ConvertToCost arc.weight +
                (backwardGo lat bc k).getD arc.nextstate ⊤
            else tb)
          (ConvertToCost (lat.finalW s)) := by
  intro k
  induction k with
  | zero => intro _ bc _ s hs; omega
  | succ k ih =>
      intro hk bc hbc s hs
      rw [backwardGo_succ]
      have hbc' : (backwardStep lat bc k).length = lat.numStates := by
        rw [backwardStep_length]; exact hbc
      by_cases hsk : s < k
      · exact ih (by omega) _ hbc' s hsk
      · have hseq : s = k := by omega
        subst hseq
        have hstable : ∀ u, s ≤ u →
            (backwardGo lat (backwardStep lat bc s) s).getD u ⊤ =
              (backwardStep lat bc s).getD u ⊤ := by
          intro u hu
          exact backwardGo_stable lat s _ u hu
        rw [hstable s (le_refl s)]
        have hself : (backwardStep lat bc s).getD s ⊤ =
            (lat.arcsAt s).foldl
              (fun tb arc =>
                if ConvertToCost arc.weight + bc.getD arc.nextstate ⊤ < tb
                then ConvertToCost arc.weight + bc.getD arc.nextstate ⊤
                else tb)
              (ConvertToCost (lat.finalW s)) := by
          unfold backwardStep
          rw [getD_set_self]
          omega
        rw [hself]
        apply List.foldl_ext
        intro tb arc harc
        have hnext : s < arc.nextstate := (hT s arc harc).1
        have hval : (backwardGo lat (backwardStep lat bc s) s).getD
            arc.nextstate ⊤ = bc.getD arc.nextstate ⊤ := by
          rw [hstable arc.nextstate (le_of_lt hnext)]
          unfold backwardStep
          rw [getD_set_ne _ _ _ _ _ (by omega)]
        rw [hval]

theorem backwardBefore_rec {W : Type} [LatSemiring W] (lat : Fst W)
    (hT : lat.TopSorted) (s : ℕ) (hs : s < lat.numStates) :
    (backwardBefore lat).getD s ⊤ =
      (lat.arcsAt s).foldl
        (fun tb arc =>
          if ConvertToCost arc.weight +
              (backwardBefore lat).getD arc.nextstate ⊤ < tb then
            ConvertToCost arc.weight +
              (backwardBefore lat).getD arc.nextstate ⊤
          else tb)
        (ConvertToCost (lat.finalW s)) :=
  backwardGo_spec lat hT lat.numStates (le_refl _) _ (by simp) s hs

theorem backwardBefore_length {W : Type} [LatSemiring W] (lat : Fst W) :
    (backwardBefore lat).length = lat.numStates := by
  unfold backwardBefore
  rw [backwardGo_length]
  simp

theorem backward_le_final {W : Type} [LatSemiring W] (lat : Fst W)
    (hT : lat.TopSorted) (s : ℕ) (hs : s < lat.numStates) :
    (backwardBefore lat).getD s ⊤ ≤ ConvertToCost (lat.finalW s) := by
  rw [backwardBefore_rec lat hT s hs]
  exact foldMin_le_init _ _ _

theorem backward_le_arc {W : Type} [LatSemiring W] (lat : Fst W)
    (hT : lat.TopSorted) {s : ℕ} {arc : Arc W} (ha : arc ∈ lat.arcsAt s) :
    (backwardBefore lat).getD s ⊤ ≤
      ConvertToCost arc.weight +
        (backwardBefore lat).getD arc.nextstate ⊤ := by
  rw [backwardBefore_rec lat hT s (lt_of_arc_mem ha)]
  exact foldMin_le_mem
    (fun arc => ConvertToCost arc.weight +
      (backwardBefore lat).getD arc.nextstate ⊤) _ arc ha _

theorem backward_path_le {W : Type} [LatSemiring W] (lat : Fst W)
    (hT : lat.TopSorted) {s t : ℕ} {p : List (Arc W)}
    (hp : PathIn lat s p t) (hs : s < lat.numStates) :
    (backwardBefore lat).getD s ⊤ ≤
      pathCost p + ConvertToCost (lat.finalW t) := by
  induction hp with
  | nil s' =>
      rw [pathCost_nil, zero_add]
      exact backward_le_final lat hT s' hs
  | cons arc ha hp ih =>
      rename_i s' t' p'
      have hnext : arc.nextstate < lat.numStates := (hT s' arc ha).2
      calc (backwardBefore lat).getD s' ⊤ ≤
          ConvertToCost arc.weight +
            (backwardBefore lat).getD arc.nextstate ⊤ :=
          backward_le_arc lat hT ha
        _ ≤ ConvertToCost arc.weight +
            (pathCost p' + ConvertToCost (lat.finalW t')) :=
          add_le_add_left (ih hnext) _
        _ = pathCost (arc :: p') + ConvertToCost (lat.finalW t') := by
          rw [pathCost_cons, add_assoc]

theorem backward_achieve_aux {W : Type} [LatSemiring W] (lat : Fst W)
    (hT : lat.TopSorted) :
    ∀ (d s : ℕ), lat.numStates ≤ s + d →
      (backwardBefore lat).getD s ⊤ = ⊤ ∨
        ∃ p t, PathIn lat s p t ∧
          pathCost p + ConvertToCost (lat.finalW t) =
            (backwardBefore lat).getD s ⊤ := by
  intro d
  induction d with
  | zero =>
      intro s hsd
      rw [getD_oob _ _ _ (by rw [backwardBefore_length]; omega)]
      exact Or.inl rfl
  | succ d ih =>
      intro s hsd
      by_cases hs : s < lat.numStates
      · rw [backwardBefore_rec lat hT s hs]
        rcases foldMin_cases
            (fun arc => ConvertToCost arc.weight +
              (backwardBefore lat).getD arc.nextstate ⊤)
            (lat.arcsAt s) (ConvertToCost (lat.finalW s)) with h | ⟨a, ha, h⟩
        · rw [h]
          exact Or.inr ⟨[], s, PathIn.nil s, by rw [pathCost_nil, zero_add]⟩
        · rw [h]
          have hnext : s < a.nextstate := (hT s a ha).1
          rcases ih a.nextstate (by omega) with htop | ⟨p, t, hp, hpc⟩
          · rw [htop, add_top]
            exact Or.inl rfl
          · refine Or.inr ⟨a :: p, t, PathIn.cons a ha hp, ?_⟩
            rw [pathCost_cons, add_assoc, hpc]
      · rw [getD_oob _ _ _ (by rw [backwardBefore_length]; omega)]
        exact Or.inl rfl

theorem backward_achieve {W : Type} [LatSemiring W] (lat : Fst W)
    (hT : lat.TopSorted) (s : ℕ) :
    (backwardBefore lat).getD s ⊤ = ⊤ ∨
      ∃ p t, PathIn lat s p t ∧
        pathCost p + ConvertToCost (lat.finalW t) =
          (backwardBefore lat).getD s ⊤ :=
  backward_achieve_aux lat hT lat.numStates s (by omega)

theorem getD_append_lt {α : Type} (l l' : List α) (d : α) (u : ℕ)
    (h : u < l.length) : (l ++ l').getD u d = l.getD u d :=
  List.getD_append l l' d u h

theorem getD_append_len {α : Type} (l : List α) (x d : α) :
    (l ++ [x]).getD l.length d = x := by
  rw [List.getD_eq_getElem?_getD, List.getElem?_append_right (le_refl _)]
  simp

theorem markArcs_eq {W : Type} [LatSemiring W] (thisF cutoff : Cost)
    (bad : ℕ) (bc : List Cost) :
    ∀ (l : List (Arc W)) (tb : Cost),
      markArcs thisF cutoff bad bc l tb =
        (l.foldl
          (fun tb' arc =>
            if ConvertToCost arc.weight + bc.getD arc.nextstate ⊤ < tb' then
              ConvertToCost arc.weight + bc.getD arc.nextstate ⊤
            else tb') tb,
         l.map fun arc =>
            if thisF + (ConvertToCost arc.weight +
                bc.getD arc.nextstate ⊤) > cutoff then
              { arc with nextstate := bad }
            else arc) := by
  intro l
  induction l with
  | nil => intro tb; rfl
  | cons a rest ih =>
      intro tb
      unfold markArcs
      rw [ih]
      rfl

theorem pruneMarkGo_succ {W : Type} [LatSemiring W] (cutoff : Cost)
    (bad : ℕ) (fc : List Cost) (st : PruneState W) (k : ℕ) :
    pruneMarkGo cutoff bad fc st (k + 1) =
      pruneMarkGo cutoff bad fc (pruneMarkStep cutoff bad fc st k) k := by
  unfold pruneMarkGo
  rw [List.range_succ, List.foldr_append]
  rfl

theorem markGo_main {W : Type} [LatSemiring W] (lat : Fst W)
    (cutoff : Cost) (bad : ℕ) (hT : lat.TopSorted) :
    ∀ k, k ≤ lat.numStates → ∀ st : PruneState W,
      st.arcs.length = lat.numStates + 1 →
      st.finals.length = lat.numStates + 1 →
      st.bc.length = lat.numStates →
      (∀ u, u < k → st.arcs.getD u [] = lat.arcsAt u) →
      (∀ u, u < k → st.finals.getD u (Wzero W) = lat.finalW u) →
      (∀ u, k ≤ u → u < lat.numStates →
        st.bc.getD u ⊤ = (backwardBefore lat).getD u ⊤) →
      ((pruneMarkGo cutoff bad (forwardBefore lat) st k).arcs.length =
          lat.numStates + 1 ∧
        (pruneMarkGo cutoff bad (forwardBefore lat) st k).finals.length =
          lat.numStates + 1) ∧
      (∀ u, u < k →
        (pruneMarkGo cutoff bad (forwardBefore lat) st k).arcs.getD u [] =
          (lat.arcsAt u).map fun arc =>
            if (forwardBefore lat).getD u ⊤ + (ConvertToCost arc.weight +
                (backwardBefore lat).getD arc.nextstate ⊤) > cutoff then
              { arc with nextstate := bad }
            else arc) ∧
      (∀ u, u < k →
        (pruneMarkGo cutoff bad (forwardBefore lat) st k).finals.getD u
            (Wzero W) =
          if ConvertToCost (lat.finalW u) + (forwardBefore lat).getD u ⊤ >
              cutoff ∧ ConvertToCost (lat.finalW u) ≠ ⊤ then
            Wzero W
          else lat.finalW u) ∧
      (∀ u, k ≤ u →
        (pruneMarkGo cutoff bad (forwardBefore lat) st k).arcs.getD u [] =
          st.arcs.getD u [] ∧
        (pruneMarkGo cutoff bad (forwardBefore lat) st k).finals.getD u
            (Wzero W) = st.finals.getD u (Wzero W)) := by
  intro k
  induction k with
  | zero =>
      intro _ st h1 h2 h3 _ _ _
      exact ⟨⟨h1, h2⟩, fun u hu => absurd hu (by omega),
        fun u hu => absurd hu (by omega), fun u _ => ⟨rfl, rfl⟩⟩
  | succ k ih =>
      intro hk st hal hfl hbl hae hfe hbe
      rw [pruneMarkGo_succ]
      have hkn : k < lat.numStates := by omega
      have hstak : st.arcs.getD k [] = lat.arcsAt k := hae k (by omega)
      have hstfk : st.finals.getD k (Wzero W) = lat.finalW k :=
        hfe k (by omega)
      have hbck : (markArcs ((forwardBefore lat).getD k ⊤) cutoff bad st.bc
          (st.arcs.getD k []) (ConvertToCost (st.finals.getD k (Wzero W)))).1 =
          (backwardBefore lat).getD k ⊤ := by
        rw [markArcs_eq, hstak, hstfk]
        rw [backwardBefore_rec lat hT k hkn]
        apply List.foldl_ext
        intro tb arc harc
        have h1 : k < arc.nextstate := (hT k arc harc).1
        have h2 : arc.nextstate < lat.numStates := (hT k arc harc).2
        rw [hbe arc.nextstate h1 h2]
      set st' := pruneMarkStep cutoff bad (forwardBefore lat) st k with hst'
      have hal' : st'.arcs.length = lat.numStates + 1 := by
        rw [hst']; unfold pruneMarkStep; simp [hal]
      have hfl' : st'.finals.length = lat.numStates + 1 := by
        rw [hst']; unfold pruneMarkStep
        by_cases hc : ConvertToCost (st.finals.getD k (Wzero W)) +
            (forwardBefore lat).getD k ⊤ > cutoff ∧
            ConvertToCost (st.finals.getD k (Wzero W)) ≠ ⊤
        · simp only [if_pos hc]; simp [hfl]
        · simp only [if_neg hc]; exact hfl
      have hbl' : st'.bc.length = lat.numStates := by
        rw [hst']; unfold pruneMarkStep; simp [hbl]
      have harc' : ∀ u, u < k + 1 → st'.arcs.getD u [] =
          if u = k then
            (markArcs ((forwardBefore lat).getD k ⊤) cutoff bad st.bc
              (st.arcs.getD k [])
              (ConvertToCost (st.finals.getD k (Wzero W)))).2
          else lat.arcsAt u := by
        intro u hu
        rw [hst']
        unfold pruneMarkStep
        by_cases huk : u = k
        · subst huk
          rw [if_pos rfl]
          show (st.arcs.set u _).getD u [] = _
          rw [getD_set_self _ _ _ _ (by omega)]
        · rw [if_neg huk]
          show (st.arcs.set k _).getD u [] = _
          rw [getD_set_ne _ _ _ _ _ (fun h => huk h.symm)]
          exact hae u (by omega)
      have hfin' : ∀ u, u < k + 1 → st'.finals.getD u (Wzero W) =
          if u = k then
            (if ConvertToCost (lat.finalW k) +
                (forwardBefore lat).getD k ⊤ > cutoff ∧
                ConvertToCost (lat.finalW k) ≠ ⊤ then Wzero W
             else lat.finalW k)
          else lat.finalW u := by
        intro u hu
        rw [hst']
        unfold pruneMarkStep
        simp only
        rw [hstfk]
        by_cases hc : ConvertToCost (lat.finalW k) +
            (forwardBefore lat).getD k ⊤ > cutoff ∧
            ConvertToCost (lat.finalW k) ≠ ⊤
        · rw [if_pos hc]
          by_cases huk : u = k
          · subst huk
            rw [if_pos rfl, if_pos hc, getD_set_self _ _ _ _ (by omega)]
          · rw [if_neg huk, getD_set_ne _ _ _ _ _ (fun h => huk h.symm)]
            exact hfe u (by omega)
        · rw [if_neg hc]
          by_cases huk : u = k
          · subst huk
            rw [if_pos rfl, if_neg hc]
            exact hstfk
          · rw [if_neg huk]
            exact hfe u (by omega)
      have hbc' : ∀ u, k ≤ u → u < lat.numStates →
          st'.bc.getD u ⊤ = (backwardBefore lat).getD u ⊤ := by
        intro u hku hun
        rw [hst']
        unfold pruneMarkStep
        simp only
        by_cases huk : u = k
        · subst huk
          rw [getD_set_self _ _ _ _ (by omega)]
          exact hbck
        · rw [getD_set_ne _ _ _ _ _ (fun h => huk h.symm)]
          exact hbe u (by omega) hun
      obtain ⟨ihlen, ihr2, ihr3, ihr5⟩ := ih (by omega) st' hal' hfl' hbl'
        (fun u hu => by rw [harc' u (by omega), if_neg (by omega)])
        (fun u hu => by rw [hfin' u (by omega), if_neg (by omega)])
        (fun u hku hun => hbc' u (by omega) hun)
      refine ⟨ihlen, ?_, ?_, ?_⟩
      · intro u hu
        by_cases huk : u < k
        · exact ihr2 u huk
        · have hueq : u = k := by omega
          subst hueq
          rw [(ihr5 u (le_refl u)).1, harc' u (by omega), if_pos rfl,
            markArcs_eq, hstak]
          apply List.map_congr_left
          intro arc harc
          have h1 : u < arc.nextstate := (hT u arc harc).1
          have h2 : arc.nextstate < lat.numStates := (hT u arc harc).2
          rw [hbe arc.nextstate h1 h2]
      · intro u hu
        by_cases huk : u < k
        · exact ihr3 u huk
        · have hueq : u = k := by omega
          subst hueq
          rw [(ihr5 u (le_refl u)).2, hfin' u (by omega), if_pos rfl]
      · intro u hu
        have h5 := ihr5 u (by omega)
        refine ⟨h5.1.trans ?_, h5.2.trans ?_⟩
        · rw [hst']
          unfold pruneMarkStep
          show (st.arcs.set k _).getD u [] = _
          rw [getD_set_ne _ _ _ _ _ (by omega)]
        · rw [hst']
          unfold pruneMarkStep
          simp only
          by_cases hc : ConvertToCost (st.finals.getD k (Wzero W)) +
              (forwardBefore lat).getD k ⊤ > cutoff ∧
              ConvertToCost (st.finals.getD k (Wzero W)) ≠ ⊤
          · rw [if_pos hc, getD_set_ne _ _ _ _ _ (by omega)]
          · rw [if_neg hc]

theorem pruneMarked_spec {W : Type} [LatSemiring W] [DecidableEq W]
    (beam : ℚ) (lat : Fst W) (hT : lat.TopSorted)
    (hW : lat.finals.length = lat.arcs.length) :
    (pruneMarked beam lat).numStates = lat.numStates + 1 ∧
    (pruneMarked beam lat).finals.length = lat.numStates + 1 ∧
    (∀ s, s < lat.numStates → (pruneMarked beam lat).arcsAt s =
      (lat.arcsAt s).map (markF lat beam s)) ∧
    (∀ s, s < lat.numStates → (pruneMarked beam lat).finalW s =
      (if ConvertToCost (lat.finalW s) + (forwardBefore lat).getD s ⊤ >
          bestFinalBefore lat + (beam : Cost) ∧
          ConvertToCost (lat.finalW s) ≠ ⊤ then Wzero W
       else lat.finalW s)) ∧
    (pruneMarked beam lat).arcsAt lat.numStates = [] ∧
    (pruneMarked beam lat).finalW lat.numStates = Wzero W := by
  have hlen1 : (lat.arcs ++ [([] : List (Arc W))]).length =
      lat.numStates + 1 := by
    simp [Fst.numStates]
  have hlen2 : (lat.finals ++ [Wzero W]).length = lat.numStates + 1 := by
    simp [Fst.numStates, hW]
  obtain ⟨⟨hl1, hl2⟩, hr2, hr3, hr5⟩ := markGo_main lat
    (bestFinalBefore lat + (beam : Cost)) lat.numStates hT
    lat.numStates (le_refl _)
    ⟨lat.arcs ++ [[]], lat.finals ++ [Wzero W],
      List.replicate lat.numStates ⊤⟩
    hlen1 hlen2 (by simp)
    (fun u hu => by
      show (lat.arcs ++ [[]]).getD u [] = _
      rw [getD_append_lt _ _ _ u hu]
      rfl)
    (fun u hu => by
      show (lat.finals ++ [Wzero W]).getD u (Wzero W) = _
      rw [getD_append_lt _ _ _ u (by rw [hW]; exact hu)]
      rfl)
    (fun u h1 h2 => by omega)
  refine ⟨hl1, hl2, ?_, ?_, ?_, ?_⟩
  · intro s hs
    exact hr2 s hs
  · intro s hs
    exact hr3 s hs
  · have e : (pruneMarked beam lat).arcsAt lat.numStates =
        (pruneMarkGo (bestFinalBefore lat + (beam : Cost)) lat.numStates
          (forwardBefore lat)
          ⟨lat.arcs ++ [[]], lat.finals ++ [Wzero W],
            List.replicate lat.numStates ⊤⟩ lat.numStates).arcs.getD
          lat.numStates [] := rfl
    rw [e, (hr5 lat.numStates (le_refl _)).1]
    show (lat.arcs ++ [[]]).getD lat.numStates [] = []
    have e2 : lat.numStates = lat.arcs.length := rfl
    rw [e2, getD_append_len]
  · have e : (pruneMarked beam lat).finalW lat.numStates =
        (pruneMarkGo (bestFinalBefore lat + (beam : Cost)) lat.numStates
          (forwardBefore lat)
          ⟨lat.arcs ++ [[]], lat.finals ++ [Wzero W],
            List.replicate lat.numStates ⊤⟩ lat.numStates).finals.getD
          lat.numStates (Wzero W) := rfl
    rw [e, (hr5 lat.numStates (le_refl _)).2]
    show (lat.finals ++ [Wzero W]).getD lat.numStates (Wzero W) = Wzero W
    have e2 : lat.numStates = lat.finals.length := by
      rw [hW]; rfl
    rw [e2, getD_append_len]

theorem setTrue_fold_length {W : Type} (arcs : List (Arc W)) :
    ∀ acc : List Bool,
      (arcs.foldl (fun a arc => a.set arc.nextstate true) acc).length =
        acc.length := by
  induction arcs with
  | nil => intro acc; rfl
  | cons a rest ih => intro acc; rw [List.foldl_cons, ih]; simp

theorem setTrue_fold_mono {W : Type} (arcs : List (Arc W)) (u : ℕ) :
    ∀ acc : List Bool, acc.getD u false = true →
      (arcs.foldl (fun a arc => a.set arc.nextstate true) acc).getD u
        false = true := by
  induction arcs with
  | nil => intro acc h; exact h
  | cons a rest ih =>
      intro acc h
      rw [List.foldl_cons]
      refine ih _ ?_
      by_cases hu : a.nextstate = u
      · subst hu
        by_cases hlen : a.nextstate < acc.length
        · rw [getD_set_self _ _ _ _ hlen]
        · rw [List.set_eq_of_length_le (le_of_not_lt hlen)]; exact h
      · rw [getD_set_ne _ _ _ _ _ hu]; exact h

theorem setTrue_fold_sets {W : Type} (arcs : List (Arc W)) (arc : Arc W)
    (ha : arc ∈ arcs) :
    ∀ acc : List Bool, arc.nextstate < acc.length →
      (arcs.foldl (fun a arc => a.set arc.nextstate true) acc).getD
        arc.nextstate false = true := by
  induction arcs with
  | nil => exact absurd ha (List.not_mem_nil arc)
  | cons a rest ih =>
      intro acc hlen
      rw [List.foldl_cons]
      rcases List.mem_cons.mp ha with rfl | hmem
      · exact setTrue_fold_mono rest _ _
          (getD_set_self _ _ _ _ hlen)
      · exact ih hmem _ (by simpa using hlen)

theorem setTrue_fold_notmem {W : Type} (arcs : List (Arc W)) (u : ℕ)
    (hu : ∀ a ∈ arcs, a.nextstate ≠ u) :
    ∀ acc : List Bool,
      (arcs.foldl (fun a arc => a.set arc.nextstate true) acc).getD u
        false = acc.getD u false := by
  induction arcs with
  | nil => intro acc; rfl
  | cons a rest ih =>
      intro acc
      rw [List.foldl_cons,
        ih (fun b hb => hu b (List.mem_cons_of_mem _ hb)),
        getD_set_ne _ _ _ _ _ (hu a (List.mem_cons_self _ _))]

theorem setTrue_fold_source {W : Type} (arcs : List (Arc W)) (u : ℕ) :
    ∀ acc : List Bool,
      (arcs.foldl (fun a arc => a.set arc.nextstate true) acc).getD u
        false = true →
      acc.getD u false = true ∨ ∃ a ∈ arcs, a.nextstate = u := by
  induction arcs with
  | nil => intro acc h; exact Or.inl h
  | cons a rest ih =>
      intro acc h
      rw [List.foldl_cons] at h
      rcases ih _ h with hset | ⟨b, hb, hbu⟩
      · by_cases hu : a.nextstate = u
        · exact Or.inr ⟨a, List.mem_cons_self _ _, hu⟩
        · rw [getD_set_ne _ _ _ _ _ hu] at hset
          exact Or.inl hset
      · exact Or.inr ⟨b, List.mem_cons_of_mem _ hb, hbu⟩

theorem accLoop_succ {W : Type} (lat : Fst W) (k : ℕ) :
    accLoop lat (k + 1) = accStep lat (accLoop lat k) k := by
  unfold accLoop
  rw [List.range_succ, List.foldl_append]
  rfl

theorem accLoop_length {W : Type} (lat : Fst W) (k : ℕ) :
    (accLoop lat k).length = lat.numStates := by
  induction k with
  | zero => unfold accLoop; simp
  | succ k ih =>
      rw [accLoop_succ]
      unfold accStep
      by_cases h : (accLoop lat k).getD k false = true
      · rw [if_pos h, setTrue_fold_length]; exact ih
      · rw [if_neg h]; exact ih

theorem accLoop_mono {W : Type} (lat : Fst W) (u k m : ℕ) (hkm : k ≤ m)
    (h : (accLoop lat k).getD u false = true) :
    (accLoop lat m).getD u false = true := by
  induction m, hkm using Nat.le_induction with
  | base => exact h
  | succ m hkm ih =>
      rw [accLoop_succ]
      unfold accStep
      by_cases hc : (accLoop lat m).getD m false = true
      · rw [if_pos hc]
        exact setTrue_fold_mono _ _ _ ih
      · rw [if_neg hc]; exact ih

theorem accLoop_stable {W : Type} (lat : Fst W) (hT : lat.TopSorted)
    (u k m : ℕ) (hkm : k ≤ m) (hu : u ≤ k) :
    (accLoop lat m).getD u false = (accLoop lat k).getD u false := by
  induction m, hkm using Nat.le_induction with
  | base => rfl
  | succ m hkm ih =>
      rw [accLoop_succ]
      unfold accStep
      by_cases hc : (accLoop lat m).getD m false = true
      · rw [if_pos hc, setTrue_fold_notmem _ u ?hnm _]
        · exact ih
        case hnm =>
          intro a ha
          have := (hT m a ha).1
          omega
      · rw [if_neg hc]; exact ih

theorem acc_start {W : Type} (lat : Fst W) (hT : lat.TopSorted)
    (hn : lat.numStates ≠ 0) : (accArr lat).getD 0 false = true := by
  unfold accArr
  rw [accLoop_stable lat hT 0 0 lat.numStates (Nat.zero_le _) (le_refl 0)]
  show (((List.replicate lat.numStates false).set 0 true)).getD 0 false =
    true
  rw [getD_set_self]
  simpa using Nat.pos_of_ne_zero hn

theorem acc_step {W : Type} (lat : Fst W) (hT : lat.TopSorted) {s : ℕ}
    {arc : Arc W} (ha : arc ∈ lat.arcsAt s)
    (hs : (accArr lat).getD s false = true) :
    (accArr lat).getD arc.nextstate false = true := by
  have hsn : s < lat.numStates := lt_of_arc_mem ha
  have hnext : arc.nextstate < lat.numStates := (hT s arc ha).2
  unfold accArr at *
  have hstep : (accLoop lat s).getD s false = true := by
    rw [← accLoop_stable lat hT s s lat.numStates (le_of_lt hsn)
      (le_refl s)]
    exact hs
  have h1 : (accLoop lat (s + 1)).getD arc.nextstate false = true := by
    rw [accLoop_succ]
    unfold accStep
    rw [if_pos hstep]
    exact setTrue_fold_sets _ arc ha _
      (by rw [accLoop_length]; exact hnext)
  exact accLoop_mono lat arc.nextstate (s + 1) lat.numStates hsn h1

theorem acc_path {W : Type} (lat : Fst W) (hT : lat.TopSorted) {s t : ℕ}
    {p : List (Arc W)} (hp : PathIn lat s p t)
    (hs : (accArr lat).getD s false = true) :
    (accArr lat).getD t false = true := by
  induction hp with
  | nil s => exact hs
  | cons arc ha _ ih => exact ih (acc_step lat hT ha hs)

theorem acc_complete {W : Type} (lat : Fst W) (hT : lat.TopSorted) :
    ∀ u, (accArr lat).getD u false = true → ∃ p, PathIn lat 0 p u := by
  unfold accArr
  suffices h : ∀ k, ∀ u, (accLoop lat k).getD u false = true →
      ∃ p, PathIn lat 0 p u from h lat.numStates
  intro k
  induction k with
  | zero =>
      intro u h
      show ∃ p, PathIn lat 0 p u
      by_cases hu : u = 0
      · subst hu; exact ⟨[], PathIn.nil 0⟩
      · exfalso
        have : (accLoop lat 0).getD u false = false := by
          show (((List.replicate lat.numStates false).set 0 true)).getD u
            false = false
          rw [getD_set_ne _ _ _ _ _ fun hc => hu hc.symm]
          by_cases hun : u < lat.numStates
          · rw [List.getD_eq_getElem?_getD, List.getElem?_replicate,
              if_pos hun]
            rfl
          · rw [getD_oob _ _ _ (by simpa using hun)]
        rw [this] at h
        exact Bool.false_ne_true h
  | succ k ih =>
      intro u h
      rw [accLoop_succ] at h
      unfold accStep at h
      by_cases hc : (accLoop lat k).getD k false = true
      · rw [if_pos hc] at h
        rcases setTrue_fold_source _ u _ h with hacc | ⟨a, ha, hau⟩
        · exact ih u hacc
        · obtain ⟨p, hp⟩ := ih k hc
          subst hau
          exact ⟨p ++ [a], pathIn_append hp
            (PathIn.cons a ha (PathIn.nil _))⟩
      · rw [if_neg hc] at h
        exact ih u h

theorem any_congr_mem {α : Type} {f g : α → Bool} :
    ∀ l : List α, (∀ a ∈ l, f a = g a) → l.any f = l.any g := by
  intro l
  induction l with
  | nil => intro _; rfl
  | cons x xs ih =>
      intro h
      simp only [List.any_cons]
      rw [h x (List.mem_cons_self _ _),
        ih fun a ha => h a (List.mem_cons_of_mem _ ha)]

theorem coaccGo_succ {W : Type} [LatSemiring W] [DecidableEq W]
    (lat : Fst W) (co : List Bool) (k : ℕ) :
    coaccGo lat co (k + 1) = coaccGo lat (coaccStep lat k co) k := by
  unfold coaccGo
  rw [List.range_succ, List.foldr_append]
  rfl

theorem coaccGo_length {W : Type} [LatSemiring W] [DecidableEq W]
    (lat : Fst W) (k : ℕ) :
    ∀ co : List Bool, (coaccGo lat co k).length = co.length := by
  induction k with
  | zero => intro co; rfl
  | succ k ih =>
      intro co
      rw [coaccGo_succ, ih]
      unfold coaccStep
      simp

theorem coaccGo_stable {W : Type} [LatSemiring W] [DecidableEq W]
    (lat : Fst W) (k : ℕ) :
    ∀ (co : List Bool) (u : ℕ), k ≤ u →
      (coaccGo lat co k).getD u false = co.getD u false := by
  induction k with
  | zero => intro co u _; rfl
  | succ k ih =>
      intro co u hku
      rw [coaccGo_succ, ih _ u (by omega)]
      unfold coaccStep
      rw [getD_set_ne _ _ _ _ _ (by omega)]

theorem coaccArr_length {W : Type} [LatSemiring W] [DecidableEq W]
    (lat : Fst W) : (coaccArr lat).length = lat.numStates := by
  unfold coaccArr
  rw [coaccGo_length]
  simp

theorem coacc_rec {W : Type} [LatSemiring W] [DecidableEq W]
    (lat : Fst W) (hT : lat.TopSorted) (s : ℕ) (hs : s < lat.numStates) :
    (coaccArr lat).getD s false =
      (decide (lat.finalW s ≠ Wzero W) ||
        (lat.arcsAt s).any fun arc =>
          (coaccArr lat).getD arc.nextstate false) := by
  unfold coaccArr
  suffices h : ∀ k, k ≤ lat.numStates → ∀ co : List Bool,
      co.length = lat.numStates → ∀ s, s < k →
      (coaccGo lat co k).getD s false =
        (decide (lat.finalW s ≠ Wzero W) ||
          (lat.arcsAt s).any fun arc =>
            (coaccGo lat co k).getD arc.nextstate false) from
    h lat.numStates (le_refl _) _ (by simp) s hs
  intro k
  induction k with
  | zero => intro _ co _ s hsk; omega
  | succ k ih =>
      intro hk co hco s hsk
      rw [coaccGo_succ]
      have hco' : (coaccStep lat k co).length = lat.numStates := by
        unfold coaccStep; simp [hco]
      by_cases hsklt : s < k
      · exact ih (by omega) _ hco' s hsklt
      · have hseq : s = k := by omega
        subst hseq
        rw [coaccGo_stable lat s _ s (le_refl s)]
        have hself : (coaccStep lat s co).getD s false =
            (decide (lat.finalW s ≠ Wzero W) ||
              (lat.arcsAt s).any fun arc =>
                co.getD arc.nextstate false) := by
          unfold coaccStep
          rw [getD_set_self]
          omega
        rw [hself]
        congr 1
        apply any_congr_mem
        intro arc harc
        have h1 : s < arc.nextstate := (hT s arc harc).1
        rw [coaccGo_stable lat s _ arc.nextstate (le_of_lt h1)]
        unfold coaccStep
        rw [getD_set_ne _ _ _ _ _ (by omega)]

theorem coacc_final {W : Type} [LatSemiring W] [DecidableEq W]
    (lat : Fst W) (hT : lat.TopSorted) (s : ℕ) (hs : s < lat.numStates)
    (hf : lat.finalW s ≠ Wzero W) :
    (coaccArr lat).getD s false = true := by
  rw [coacc_rec lat hT s hs]
  simp [hf]

theorem coacc_step {W : Type} [LatSemiring W] [DecidableEq W]
    (lat : Fst W) (hT : lat.TopSorted) {s : ℕ} {arc : Arc W}
    (ha : arc ∈ lat.arcsAt s)
    (hn : (coaccArr lat).getD arc.nextstate false = true) :
    (coaccArr lat).getD s false = true := by
  rw [coacc_rec lat hT s (lt_of_arc_mem ha)]
  rw [Bool.or_eq_true, List.any_eq_true]
  exact Or.inr ⟨arc, ha, hn⟩

theorem coacc_path {W : Type} [LatSemiring W] [DecidableEq W]
    (lat : Fst W) (hT : lat.TopSorted) {s t : ℕ} {p : List (Arc W)}
    (hp : PathIn lat s p t) (hs : s < lat.numStates)
    (hf : lat.finalW t ≠ Wzero W) :
    (coaccArr lat).getD s false = true := by
  induction hp with
  | nil s' => exact coacc_final lat hT s' hs hf
  | cons arc ha hp ih =>
      rename_i s' t' p'
      exact coacc_step lat hT ha (ih ((hT s' arc ha).2) hf)

theorem coacc_complete {W : Type} [LatSemiring W] [DecidableEq W]
    (lat : Fst W) (hT : lat.TopSorted) :
    ∀ s, (coaccArr lat).getD s false = true →
      ∃ p t, PathIn lat s p t ∧ lat.finalW t ≠ Wzero W := by
  suffices h : ∀ (d s : ℕ), lat.numStates ≤ s + d →
      (coaccArr lat).getD s false = true →
      ∃ p t, PathIn lat s p t ∧ lat.finalW t ≠ Wzero W by
    intro s hs
    exact h lat.numStates s (by omega) hs
  intro d
  induction d with
  | zero =>
      intro s hsd h
      rw [getD_oob _ _ _ (by rw [coaccArr_length]; omega)] at h
      exact absurd h (Bool.false_ne_true)
  | succ d ih =>
      intro s hsd h
      by_cases hs : s < lat.numStates
      · rw [coacc_rec lat hT s hs, Bool.or_eq_true, List.any_eq_true]
          at h
        rcases h with hf | ⟨arc, harc, hnext⟩
        · exact ⟨[], s, PathIn.nil s, by simpa using hf⟩
        · have h1 : s < arc.nextstate := (hT s arc harc).1
          obtain ⟨p, t, hp, hft⟩ := ih arc.nextstate (by omega) hnext
          exact ⟨arc :: p, t, PathIn.cons arc harc hp, hft⟩
      · rw [getD_oob _ _ _ (by rw [coaccArr_length]; omega)] at h
        exact absurd h (Bool.false_ne_true)

theorem getD_map_lt {α β : Type} (f : α → β) (l : List α) (i : ℕ)
    (h : i < l.length) (d : β) (d0 : α) :
    (l.map f).getD i d = f (l.getD i d0) := by
  rw [List.getD_eq_getElem l d0 h,
    List.getD_eq_getElem (l.map f) d (by simpa using h)]
  simp

theorem filter_range_spec (p : ℕ → Bool) :
    ∀ n s, s < n → p s = true →
      ((List.range n).filter p).getD
          (((List.range s).filter p).length) 0 = s ∧
        ((List.range s).filter p).length <
          ((List.range n).filter p).length := by
  intro n
  induction n with
  | zero => intro s hs; omega
  | succ n ih =>
      intro s hs hp
      rw [List.range_succ, List.filter_append]
      by_cases hsn : s < n
      · obtain ⟨h1, h2⟩ := ih s hsn hp
        constructor
        · rw [getD_append_lt _ _ _ _ h2]
          exact h1
        · rw [List.length_append]
          omega
      · have hseq : s = n := by omega
        subst hseq
        have hfs : [s].filter p = [s] := by
          simp [List.filter, hp]
        rw [hfs]
        exact ⟨getD_append_len _ _ _, by
          rw [List.length_append]; simp⟩

theorem filter_range_elem (p : ℕ → Bool) :
    ∀ n i, i < ((List.range n).filter p).length →
      p (((List.range n).filter p).getD i 0) = true ∧
      ((List.range n).filter p).getD i 0 < n ∧
      ((List.range (((List.range n).filter p).getD i 0)).filter p).length
        = i := by
  intro n
  induction n with
  | zero => intro i hi; simp at hi
  | succ n ih =>
      intro i hi
      rw [List.range_succ, List.filter_append]
      rw [List.range_succ, List.filter_append, List.length_append] at hi
      by_cases hilt : i < ((List.range n).filter p).length
      · obtain ⟨h1, h2, h3⟩ := ih i hilt
        rw [getD_append_lt _ _ _ _ hilt]
        exact ⟨h1, by omega, h3⟩
      · by_cases hpn : p n = true
        · have hfs : [n].filter p = [n] := by simp [List.filter, hpn]
          rw [hfs] at hi ⊢
          have hieq : i = ((List.range n).filter p).length := by
            simp at hi
            omega
          subst hieq
          rw [getD_append_len]
          exact ⟨hpn, by omega, rfl⟩
        · have hpn' : p n = false := by
            rw [Bool.eq_false_iff]
            exact hpn
          have hfs : [n].filter p = [] := by
            simp [List.filter, hpn']
          rw [hfs] at hi
          simp at hi
          omega

theorem usefulList_getD_newId {W : Type} [LatSemiring W] [DecidableEq W]
    (lat : Fst W) (s : ℕ) (hs : s < lat.numStates)
    (hu : usefulB lat s = true) :
    (usefulList lat).getD (newId lat s) 0 = s ∧
      newId lat s < (usefulList lat).length :=
  filter_range_spec (usefulB lat) lat.numStates s hs hu

theorem usefulList_elem {W : Type} [LatSemiring W] [DecidableEq W]
    (lat : Fst W) (i : ℕ) (hi : i < (usefulList lat).length) :
    usefulB lat ((usefulList lat).getD i 0) = true ∧
      (usefulList lat).getD i 0 < lat.numStates ∧
      newId lat ((usefulList lat).getD i 0) = i :=
  filter_range_elem (usefulB lat) lat.numStates i hi

theorem connect_numStates {W : Type} [LatSemiring W] [DecidableEq W]
    (lat : Fst W) :
    (connect lat).numStates = (usefulList lat).length := by
  unfold connect Fst.numStates
  simp

theorem connect_arcsAt {W : Type} [LatSemiring W] [DecidableEq W]
    (lat : Fst W) (i : ℕ) (hi : i < (usefulList lat).length) :
    (connect lat).arcsAt i =
      ((lat.arcsAt ((usefulList lat).getD i 0)).filter
        fun a => usefulB lat a.nextstate).map
        fun a => { a with nextstate := newId lat a.nextstate } := by
  show ((usefulList lat).map _).getD i [] = _
  rw [getD_map_lt _ _ i hi _ 0]

theorem connect_arcsAt_oob {W : Type} [LatSemiring W] [DecidableEq W]
    (lat : Fst W) (i : ℕ) (hi : (usefulList lat).length ≤ i) :
    (connect lat).arcsAt i = [] := by
  show ((usefulList lat).map _).getD i [] = _
  rw [getD_oob _ _ _ (by simpa using hi)]

theorem connect_finalW {W : Type} [LatSemiring W] [DecidableEq W]
    (lat : Fst W) (i : ℕ) (hi : i < (usefulList lat).length) :
    (connect lat).finalW i = lat.finalW ((usefulList lat).getD i 0) := by
  show ((usefulList lat).map _).getD i (Wzero W) = _
  rw [getD_map_lt _ _ i hi _ 0]

theorem connect_mem_arcs {W : Type} [LatSemiring W] [DecidableEq W]
    (lat : Fst W) {s : ℕ} {arc : Arc W} (hs : s < lat.numStates)
    (hus : usefulB lat s = true) (ha : arc ∈ lat.arcsAt s)
    (hun : usefulB lat arc.nextstate = true) :
    (⟨arc.ilabel, arc.olabel, arc.weight, newId lat arc.nextstate⟩ :
      Arc W) ∈ (connect lat).arcsAt (newId lat s) := by
  obtain ⟨hget, hlt⟩ := usefulList_getD_newId lat s hs hus
  rw [connect_arcsAt lat _ hlt, hget]
  rw [List.mem_map]
  exact ⟨arc, List.mem_filter.mpr ⟨ha, hun⟩, rfl⟩

theorem connect_mem_arcs_inv {W : Type} [LatSemiring W] [DecidableEq W]
    (lat : Fst W) {i : ℕ} {arc' : Arc W}
    (h : arc' ∈ (connect lat).arcsAt i) :
    i < (usefulList lat).length ∧
      ∃ a ∈ lat.arcsAt ((usefulList lat).getD i 0),
        usefulB lat a.nextstate = true ∧
        arc' = ⟨a.ilabel, a.olabel, a.weight, newId lat a.nextstate⟩ := by
  by_cases hi : i < (usefulList lat).length
  · rw [connect_arcsAt lat i hi] at h
    rw [List.mem_map] at h
    obtain ⟨a, haf, heq⟩ := h
    rw [List.mem_filter] at haf
    exact ⟨hi, a, haf.1, haf.2, heq.symm⟩
  · rw [connect_arcsAt_oob lat i (le_of_not_lt hi)] at h
    exact absurd h (List.not_mem_nil arc')

theorem pruneLattice_unfold {W : Type} [LatSemiring W] [DecidableEq W]
    {beam : ℚ} {lat lat' : Fst W} {b : Bool}
    (h : PruneLattice beam lat = some (b, lat')) :
    0 < beam ∧ lat.TopSortedB = true ∧
    ((lat.numStates = 0 ∧ b = false ∧ lat' = lat) ∨
     (lat.numStates ≠ 0 ∧ lat' = connect (pruneMarked beam lat) ∧
      b = decide (0 < (connect (pruneMarked beam lat)).numStates))) := by
  unfold PruneLattice at h
  by_cases h1 : 0 < beam
  · rw [if_neg (by simpa using h1)] at h
    by_cases h2 : lat.TopSortedB = true
    · rw [if_neg (by simp [h2])] at h
      by_cases h3 : lat.numStates = 0
      · rw [if_pos h3] at h
        simp only [Option.some.injEq, Prod.mk.injEq] at h
        exact ⟨h1, h2, Or.inl ⟨h3, h.1.symm, h.2.symm⟩⟩
      · rw [if_neg h3] at h
        simp only [Option.some.injEq, Prod.mk.injEq] at h
        exact ⟨h1, h2, Or.inr ⟨h3, h.2.symm, h.1.symm⟩⟩
    · rw [if_pos (by simpa using h2)] at h
      exact absurd h (by simp)
  · rw [if_pos (by simpa using h1)] at h
    exact absurd h (by simp)

theorem pruneMarked_topSorted {W : Type} [LatSemiring W] [DecidableEq W]
    (beam : ℚ) (lat : Fst W) (hT : lat.TopSorted)
    (hW : lat.finals.length = lat.arcs.length) :
    (pruneMarked beam lat).TopSorted := by
  obtain ⟨hn, _, harcs, _, hbadarc, _⟩ := pruneMarked_spec beam lat hT hW
  intro s arc ha
  rw [hn]
  by_cases hs : s < lat.numStates
  · rw [harcs s hs] at ha
    rw [List.mem_map] at ha
    obtain ⟨a0, ha0, heq⟩ := ha
    unfold markF at heq
    by_cases hc : (forwardBefore lat).getD s ⊤ + (ConvertToCost a0.weight +
        (backwardBefore lat).getD a0.nextstate ⊤) >
        bestFinalBefore lat + (beam : Cost)
    · rw [if_pos hc] at heq
      subst heq
      refine ⟨hs, ?_⟩
      show lat.numStates < lat.numStates + 1
      omega
    · rw [if_neg hc] at heq
      subst heq
      have := hT s a0 ha0
      omega
  · by_cases hsn : s = lat.numStates
    · subst hsn
      rw [hbadarc] at ha
      exact absurd ha (List.not_mem_nil arc)
    · have hoob : (pruneMarked beam lat).arcsAt s = [] := by
        apply arcsAt_oob
        omega
      rw [hoob] at ha
      exact absurd ha (List.not_mem_nil arc)

theorem marked_bad_not_useful {W : Type} [LatSemiring W] [DecidableEq W]
    (beam : ℚ) (lat : Fst W) (hT : lat.TopSorted)
    (hW : lat.finals.length = lat.arcs.length) :
    usefulB (pruneMarked beam lat) lat.numStates = false := by
  obtain ⟨hn, _, _, _, hbadarc, hbadfin⟩ := pruneMarked_spec beam lat hT hW
  have hTm := pruneMarked_topSorted beam lat hT hW
  have hco : (coaccArr (pruneMarked beam lat)).getD lat.numStates false =
      false := by
    rw [coacc_rec _ hTm lat.numStates (by omega)]
    rw [hbadarc, hbadfin]
    simp
  unfold usefulB
  rw [hco]
  simp

/-- C1 (pruning soundness): whenever `PruneLattice` returns `true`, (a)
every arc of the output lattice, traced back to its original endpoints
`s → t` through the renumbering of the trim, satisfies
`forward_before[s] + cost(arc) + backward_before[t] ≤ best_final + beam`,
where the forward, backward and best-final quantities are the Viterbi
(min-plus) values of the input lattice before pruning; and (b) any input
arc within the cutoff - including one whose full-path cost equals the
cutoff exactly - is kept by the pruning test: it survives, unmodified, in
the marked lattice that the trim then renumbers. -/
theorem claim_C1 {W : Type} [LatSemiring W] [DecidableEq W] (beam : ℚ)
    (lat lat' : Fst W) (hW : lat.WFB = true)
    (hres : PruneLattice beam lat = some (true, lat')) :
    (∀ i, ∀ arc' ∈ lat'.arcsAt i,
      (forwardBefore lat).getD
          ((usefulList (pruneMarked beam lat)).getD i 0) ⊤ +
        ConvertToCost arc'.weight +
        (backwardBefore lat).getD
          ((usefulList (pruneMarked beam lat)).getD arc'.nextstate 0) ⊤ ≤
        bestFinalBefore lat + (beam : Cost)) ∧
    (∀ s, ∀ arc ∈ lat.arcsAt s,
      (forwardBefore lat).getD s ⊤ + ConvertToCost arc.weight +
        (backwardBefore lat).getD arc.nextstate ⊤ ≤
        bestFinalBefore lat + (beam : Cost) →
      arc ∈ (pruneMarked beam lat).arcsAt s) := by
  obtain ⟨hbeam, hTB, hcase⟩ := pruneLattice_unfold hres
  have hT : lat.TopSorted := (topSortedB_iff lat).mp hTB
  have hWl : lat.finals.length = lat.arcs.length := (wfb_iff lat).mp hW
  obtain ⟨hmn, _, harcs, _, hbadarc, _⟩ := pruneMarked_spec beam lat hT hWl
  rcases hcase with ⟨_, hb, _⟩ | ⟨hn, hlat', _⟩
  · exact absurd hb (by simp)
  constructor
  · intro i arc' harc'
    rw [hlat'] at harc'
    obtain ⟨hi, a, ha, hu, heq⟩ :=
      connect_mem_arcs_inv (pruneMarked beam lat) harc'
    obtain ⟨hue, hslt, _⟩ := usefulList_elem (pruneMarked beam lat) i hi
    set s := (usefulList (pruneMarked beam lat)).getD i 0 with hs
    have hsn : s < lat.numStates := by
      rcases Nat.lt_or_ge s lat.numStates with h | h
      · exact h
      · exfalso
        have hseq : s = lat.numStates := by
          rw [hmn] at hslt
          omega
        rw [hseq, hbadarc] at ha
        exact absurd ha (List.not_mem_nil a)
    rw [harcs s hsn] at ha
    rw [List.mem_map] at ha
    obtain ⟨a0, ha0, heqa⟩ := ha
    unfold markF at heqa
    by_cases hc : (forwardBefore lat).getD s ⊤ + (ConvertToCost a0.weight +
        (backwardBefore lat).getD a0.nextstate ⊤) >
        bestFinalBefore lat + (beam : Cost)
    · exfalso
      rw [if_pos hc] at heqa
      subst heqa
      rw [marked_bad_not_useful beam lat hT hWl] at hu
      exact Bool.false_ne_true hu
    · rw [if_neg hc] at heqa
      subst heqa
      have hnlt : a0.nextstate < lat.numStates := (hT s a0 ha0).2
      have hget : (usefulList (pruneMarked beam lat)).getD
          (newId (pruneMarked beam lat) a0.nextstate) 0 = a0.nextstate :=
        (usefulList_getD_newId (pruneMarked beam lat) a0.nextstate
          (by omega) hu).1
      rw [heq]
      show (forwardBefore lat).getD s ⊤ + ConvertToCost a0.weight +
        (backwardBefore lat).getD ((usefulList (pruneMarked beam lat)).getD
          (newId (pruneMarked beam lat) a0.nextstate) 0) ⊤ ≤ _
      rw [hget, add_assoc]
      exact le_of_not_lt hc
  · intro s arc ha hle
    have hsn : s < lat.numStates := lt_of_arc_mem ha
    rw [harcs s hsn]
    rw [List.mem_map]
    refine ⟨arc, ha, ?_⟩
    unfold markF
    rw [if_neg ?hng]
    case hng =>
      rw [← add_assoc]
      exact not_lt.mpr hle

/-- Witness for C1 at the concrete lattice `exPr` with beam `1`. -/
theorem claim_C1_witness :
    (∀ i, ∀ arc' ∈ exPrOut.arcsAt i,
      (forwardBefore exPr).getD
          ((usefulList (pruneMarked 1 exPr)).getD i 0) ⊤ +
        ConvertToCost arc'.weight +
        (backwardBefore exPr).getD
          ((usefulList (pruneMarked 1 exPr)).getD arc'.nextstate 0) ⊤ ≤
        bestFinalBefore exPr + ((1 : ℚ) : Cost)) ∧
    (∀ s, ∀ arc ∈ exPr.arcsAt s,
      (forwardBefore exPr).getD s ⊤ + ConvertToCost arc.weight +
        (backwardBefore exPr).getD arc.nextstate ⊤ ≤
        bestFinalBefore exPr + ((1 : ℚ) : Cost) →
      arc ∈ (pruneMarked 1 exPr).arcsAt s) :=
  claim_C1 1 exPr exPrOut (by decide) (by with_unfolding_all decide)

theorem dst_cons {W : Type} (s : ℕ) (a : Arc W) (p : List (Arc W)) :
    dst s (a :: p) = dst a.nextstate p := rfl

theorem dst_append {W : Type} (s : ℕ) (p q : List (Arc W)) :
    dst s (p ++ q) = dst (dst s p) q := by
  unfold dst
  rw [List.foldl_append]

theorem pathIn_split {W : Type} {lat : Fst W} :
    ∀ (pre : List (Arc W)) {s t : ℕ} {arc : Arc W} {suf : List (Arc W)},
      PathIn lat s (pre ++ arc :: suf) t →
      PathIn lat s pre (dst s pre) ∧ arc ∈ lat.arcsAt (dst s pre) ∧
        PathIn lat arc.nextstate suf t := by
  intro pre
  induction pre with
  | nil =>
      intro s t arc suf hp
      rw [List.nil_append] at hp
      cases hp with
      | cons _ ha hp' => exact ⟨PathIn.nil s, ha, hp'⟩
  | cons a pre' ih =>
      intro s t arc suf hp
      rw [List.cons_append] at hp
      cases hp with
      | cons _ ha hp' =>
          obtain ⟨h1, h2, h3⟩ := ih hp'
          exact ⟨PathIn.cons a ha h1, h2, h3⟩

theorem pathIn_transfer {W : Type} {lat lat2 : Fst W} :
    ∀ {s t : ℕ} {P : List (Arc W)}, PathIn lat s P t →
      (∀ pre (arc : Arc W) suf, P = pre ++ arc :: suf →
        arc ∈ lat2.arcsAt (dst s pre)) →
      PathIn lat2 s P t := by
  intro s t P hp
  induction hp with
  | nil s => intro _; exact PathIn.nil s
  | cons arc ha hp ih =>
      intro hk
      refine PathIn.cons arc (hk [] arc _ rfl) (ih ?_)
      intro pre a suf heq
      exact hk (arc :: pre) a suf (by rw [heq]; rfl)

/-- C2 (amended): on a topologically sorted lattice, for any beam for
which `PruneLattice` succeeds (the code asserts `beam > 0`), a path that
achieves `best_final_cost` survives pruning: the call returns `true`,
every arc of the path is still present in the output (at the positions
given by the trim's renumbering), and its last state keeps its original,
non-zero final weight. -/
theorem claim_C2 {W : Type} [LatSemiring W] [DecidableEq W] (beam : ℚ)
    (lat lat' : Fst W) (b : Bool) (P : List (Arc W)) (f : ℕ)
    (hW : lat.WFB = true)
    (hpath : PathIn lat 0 P f)
    (hfin : lat.finalW f ≠ Wzero W)
    (hbest : pathCost P + ConvertToCost (lat.finalW f) =
      bestFinalBefore lat)
    (hres : PruneLattice beam lat = some (b, lat')) :
    b = true ∧
    (∀ pre (arc : Arc W) suf, P = pre ++ arc :: suf →
      (⟨arc.ilabel, arc.olabel, arc.weight,
        newId (pruneMarked beam lat) arc.nextstate⟩ : Arc W) ∈
        lat'.arcsAt (newId (pruneMarked beam lat) (dst 0 pre))) ∧
    lat'.finalW (newId (pruneMarked beam lat) f) = lat.finalW f ∧
    lat'.finalW (newId (pruneMarked beam lat) f) ≠ Wzero W := by
  obtain ⟨hbeam, hTB, hcase⟩ := pruneLattice_unfold hres
  have hT : lat.TopSorted := (topSortedB_iff lat).mp hTB
  have hWl : lat.finals.length = lat.arcs.length := (wfb_iff lat).mp hW
  have hfn : f < lat.numStates := by
    by_contra hc
    have : lat.finalW f = Wzero W := by
      unfold Fst.finalW
      apply getD_oob
      rw [hWl]
      exact le_of_not_lt hc
    exact hfin this
  have hn : lat.numStates ≠ 0 := by omega
  rcases hcase with ⟨h0, _, _⟩ | ⟨_, hlat', hbdef⟩
  · exact absurd h0 hn
  obtain ⟨hmn, _, harcs, hfins, hbadarc, hbadfin⟩ :=
    pruneMarked_spec beam lat hT hWl
  have hTm := pruneMarked_topSorted beam lat hT hWl
  have hbeamnn : (0 : Cost) ≤ ((beam : ℚ) : Cost) := by
    have : (0 : ℚ) ≤ beam := le_of_lt hbeam
    exact_mod_cast this
  have hcut : bestFinalBefore lat ≤ bestFinalBefore lat + (beam : Cost) :=
    le_add_of_nonneg_right hbeamnn
  -- every arc of `P` passes the beam test
  have hkeep : ∀ pre (arc : Arc W) suf, P = pre ++ arc :: suf →
      arc ∈ (pruneMarked beam lat).arcsAt (dst 0 pre) := by
    intro pre arc suf heq
    rw [heq] at hpath
    obtain ⟨hpre, harc, hsuf⟩ := pathIn_split pre hpath
    have hu : dst 0 pre < lat.numStates := lt_of_arc_mem harc
    have hnext : arc.nextstate < lat.numStates := (hT _ arc harc).2
    have hfb : (forwardBefore lat).getD (dst 0 pre) ⊤ +
        (ConvertToCost arc.weight +
          (backwardBefore lat).getD arc.nextstate ⊤) ≤
        bestFinalBefore lat + (beam : Cost) := by
      have h1 : (forwardBefore lat).getD (dst 0 pre) ⊤ ≤ pathCost pre := by
        have := forward_path_le lat hT hpre
        rw [forward_start lat hT hn, zero_add] at this
        exact this
      have h2 : (backwardBefore lat).getD arc.nextstate ⊤ ≤
          pathCost suf + ConvertToCost (lat.finalW f) :=
        backward_path_le lat hT hsuf hnext
      calc (forwardBefore lat).getD (dst 0 pre) ⊤ +
          (ConvertToCost arc.weight +
            (backwardBefore lat).getD arc.nextstate ⊤) ≤
          pathCost pre + (ConvertToCost arc.weight +
            (pathCost suf + ConvertToCost (lat.finalW f))) := by
            exact add_le_add h1 (add_le_add_left h2 _)
        _ = pathCost (pre ++ arc :: suf) +
            ConvertToCost (lat.finalW f) := by
            rw [pathCost_append, pathCost_cons, add_assoc, add_assoc]
        _ = bestFinalBefore lat := by rw [← heq]; exact hbest
        _ ≤ bestFinalBefore lat + (beam : Cost) := hcut
    rw [harcs _ hu, List.mem_map]
    refine ⟨arc, harc, ?_⟩
    unfold markF
    rw [if_neg (not_lt.mpr hfb)]
  -- the path itself lives in the marked lattice
  have hpm : PathIn (pruneMarked beam lat) 0 P f :=
    pathIn_transfer hpath hkeep
  -- the final weight of `f` is not cleared
  have hfm : (pruneMarked beam lat).finalW f = lat.finalW f := by
    rw [hfins f hfn]
    have hnc : ¬ (ConvertToCost (lat.finalW f) +
        (forwardBefore lat).getD f ⊤ >
        bestFinalBefore lat + (beam : Cost)) := by
      apply not_lt.mpr
      have h1 : (forwardBefore lat).getD f ⊤ ≤ pathCost P := by
        have := forward_path_le lat hT hpath
        rw [forward_start lat hT hn, zero_add] at this
        exact this
      calc ConvertToCost (lat.finalW f) + (forwardBefore lat).getD f ⊤ ≤
          ConvertToCost (lat.finalW f) + pathCost P := add_le_add_left h1 _
        _ = bestFinalBefore lat := by rw [add_comm]; exact hbest
        _ ≤ bestFinalBefore lat + (beam : Cost) := hcut
    rw [if_neg (by intro hc; exact hnc hc.1)]
  have hmn0 : (pruneMarked beam lat).numStates ≠ 0 := by omega
  -- usefulness of the path's states
  have hfuseful : usefulB (pruneMarked beam lat) f = true := by
    unfold usefulB
    rw [acc_path (pruneMarked beam lat) hTm hpm
      (acc_start _ hTm hmn0)]
    rw [coacc_final _ hTm f (by omega) (by rw [hfm]; exact hfin)]
    rfl
  have hfuse2 := usefulList_getD_newId (pruneMarked beam lat) f
    (by omega) hfuseful
  refine ⟨?_, ?_, ?_, ?_⟩
  · rw [hbdef]
    rw [decide_eq_true_iff]
    rw [connect_numStates]
    omega
  · intro pre arc suf heq
    have harcm : arc ∈ (pruneMarked beam lat).arcsAt (dst 0 pre) :=
      hkeep pre arc suf heq
    rw [heq] at hpath hpm
    obtain ⟨hpre, harc, hsuf⟩ := pathIn_split pre hpath
    obtain ⟨hprem, harcm2, hsufm⟩ := pathIn_split pre hpm
    have hu : dst 0 pre < lat.numStates := lt_of_arc_mem harc
    have hnext : arc.nextstate < lat.numStates := (hT _ arc harc).2
    have huacc : (accArr (pruneMarked beam lat)).getD (dst 0 pre) false =
        true := acc_path _ hTm hprem (acc_start _ hTm hmn0)
    have hucoacc : (coaccArr (pruneMarked beam lat)).getD (dst 0 pre)
        false = true := by
      refine coacc_path _ hTm (PathIn.cons arc harcm2 hsufm) (by omega) ?_
      rw [hfm]; exact hfin
    have hnacc : (accArr (pruneMarked beam lat)).getD arc.nextstate false =
        true := by
      refine acc_path _ hTm (pathIn_append hprem
        (PathIn.cons arc harcm2 (PathIn.nil _))) (acc_start _ hTm hmn0)
    have hncoacc : (coaccArr (pruneMarked beam lat)).getD arc.nextstate
        false = true := by
      refine coacc_path _ hTm hsufm (by omega) ?_
      rw [hfm]; exact hfin
    have huu : usefulB (pruneMarked beam lat) (dst 0 pre) = true := by
      unfold usefulB
      rw [huacc, hucoacc]
      rfl
    have hnu : usefulB (pruneMarked beam lat) arc.nextstate = true := by
      unfold usefulB
      rw [hnacc, hncoacc]
      rfl
    rw [hlat']
    exact connect_mem_arcs (pruneMarked beam lat) (by omega) huu harcm2 hnu
  · rw [hlat', connect_finalW _ _ hfuse2.2, hfuse2.1, hfm]
  · rw [hlat', connect_finalW _ _ hfuse2.2, hfuse2.1, hfm]
    exact hfin

/-- Witness for C2 at the concrete lattice `exPr`, beam `1`, along the
best path `0 → 1 → 3`. -/
theorem claim_C2_witness :
    true = true ∧
    (∀ pre (arc : LatticeArc) suf,
      [(⟨1, 1, ⟨1, 0⟩, 1⟩ : LatticeArc), ⟨3, 3, ⟨1, 0⟩, 3⟩] =
        pre ++ arc :: suf →
      (⟨arc.ilabel, arc.olabel, arc.weight,
        newId (pruneMarked 1 exPr) arc.nextstate⟩ : LatticeArc) ∈
        exPrOut.arcsAt (newId (pruneMarked 1 exPr) (dst 0 pre))) ∧
    exPrOut.finalW (newId (pruneMarked 1 exPr) 3) = exPr.finalW 3 ∧
    exPrOut.finalW (newId (pruneMarked 1 exPr) 3) ≠
      Wzero LatticeWeight :=
  claim_C2 1 exPr exPrOut true
    [(⟨1, 1, ⟨1, 0⟩, 1⟩ : LatticeArc), ⟨3, 3, ⟨1, 0⟩, 3⟩] 3
    (by decide)
    (PathIn.cons _ (by decide) (PathIn.cons _ (by decide) (PathIn.nil 3)))
    (by decide)
    (by with_unfolding_all decide)
    (by with_unfolding_all decide)

/-- Counterexample for C2 as stated: the claim quantifies over all
`beam ≥ 0`, but at `beam = 0` the call `PruneLattice(0, exPr)` hits the
`KALDI_ASSERT(beam > 0.0)` and aborts (modelled `none`), even though a
path achieving `best_final_cost` exists; no output lattice exists in
which the path could survive. -/
theorem claim_C2_counterexample :
    PathIn exPr 0
      [(⟨1, 1, ⟨1, 0⟩, 1⟩ : LatticeArc), ⟨3, 3, ⟨1, 0⟩, 3⟩] 3 ∧
    pathCost [(⟨1, 1, ⟨1, 0⟩, 1⟩ : LatticeArc), ⟨3, 3, ⟨1, 0⟩, 3⟩] +
      ConvertToCost (exPr.finalW 3) = bestFinalBefore exPr ∧
    exPr.finalW 3 ≠ Wzero LatticeWeight ∧
    PruneLattice (0 : ℚ) exPr = none :=
  ⟨PathIn.cons _ (by decide) (PathIn.cons _ (by decide) (PathIn.nil 3)),
    by with_unfolding_all decide, by decide, by decide⟩

theorem latArcTimesLoop_length (cur : ℤ) :
    ∀ (arcs : List LatticeArc) (times times1 : List ℤ),
      latArcTimesLoop cur arcs times = some times1 →
      times1.length = times.length := by
  intro arcs
  induction arcs with
  | nil => intro times times1 h; simp [latArcTimesLoop] at h; rw [h]
  | cons arc rest ih =>
      intro times times1 h
      unfold latArcTimesLoop at h
      by_cases h1 : times.getD arc.nextstate (-1) = -1
      · rw [if_pos h1] at h
        have := ih _ _ h
        simpa using this
      · rw [if_neg h1] at h
        by_cases h2 : times.getD arc.nextstate (-1) =
            cur + (if arc.ilabel ≠ 0 then 1 else 0)
        · rw [if_pos h2] at h
          exact ih _ _ h
        · rw [if_neg h2] at h
          exact absurd h (by simp)

theorem latStateTimesLoop_length (lat : Lattice) :
    ∀ (sts : List ℕ) (times times1 : List ℤ),
      latStateTimesLoop lat sts times = some times1 →
      times1.length = times.length := by
  intro sts
  induction sts with
  | nil => intro times times1 h; simp [latStateTimesLoop] at h; rw [h]
  | cons s rest ih =>
      intro times times1 h
      unfold latStateTimesLoop at h
      cases ha : latArcTimesLoop (times.getD s (-1)) (lat.arcsAt s) times with
      | none => rw [ha] at h; exact absurd h (by simp)
      | some t1 =>
          rw [ha] at h
          exact (ih _ _ h).trans (latArcTimesLoop_length _ _ _ _ ha)

theorem latArcTimesLoop_getD0 (cur : ℤ) (d : ℤ) :
    ∀ (arcs : List LatticeArc) (times times1 : List ℤ),
      (∀ a ∈ arcs, a.nextstate ≠ 0) →
      latArcTimesLoop cur arcs times = some times1 →
      times1.getD 0 d = times.getD 0 d := by
  intro arcs
  induction arcs with
  | nil => intro times times1 _ h; simp [latArcTimesLoop] at h; rw [h]
  | cons arc rest ih =>
      intro times times1 hns h
      unfold latArcTimesLoop at h
      by_cases h1 : times.getD arc.nextstate (-1) = -1
      · rw [if_pos h1] at h
        have := ih _ _ (fun a ha => hns a (List.mem_cons_of_mem _ ha)) h
        rw [this, getD_set_ne]
        exact hns arc (List.mem_cons_self _ _)
      · rw [if_neg h1] at h
        by_cases h2 : times.getD arc.nextstate (-1) =
            cur + (if arc.ilabel ≠ 0 then 1 else 0)
        · rw [if_pos h2] at h
          exact ih _ _ (fun a ha => hns a (List.mem_cons_of_mem _ ha)) h
        · rw [if_neg h2] at h
          exact absurd h (by simp)

theorem latStateTimesLoop_getD0 (lat : Lattice) (d : ℤ)
    (hts : lat.TopSorted) :
    ∀ (sts : List ℕ) (times times1 : List ℤ),
      latStateTimesLoop lat sts times = some times1 →
      times1.getD 0 d = times.getD 0 d := by
  intro sts
  induction sts with
  | nil => intro times times1 h; simp [latStateTimesLoop] at h; rw [h]
  | cons s rest ih =>
      intro times times1 h
      unfold latStateTimesLoop at h
      cases ha : latArcTimesLoop (times.getD s (-1)) (lat.arcsAt s) times with
      | none => rw [ha] at h; exact absurd h (by simp)
      | some t1 =>
          rw [ha] at h
          have h0 : ∀ a ∈ lat.arcsAt s, a.nextstate ≠ 0 := by
            intro a haa
            have := (hts s a haa).1
            omega
          rw [ih _ _ h, latArcTimesLoop_getD0 _ _ _ _ _ h0 ha]

/-- Unpacking of a successful `LatticeStateTimes` call: the input is
sorted and non-empty, the time vector has one entry per state, the start
state is at time `0`, and the utterance length bounds every entry. -/
theorem latticeStateTimes_spec (lat : Lattice) (uttLen : ℤ) (times : List ℤ)
    (hst : LatticeStateTimes lat = some (uttLen, times)) :
    lat.TopSortedB = true ∧ lat.numStates ≠ 0 ∧
    times.length = lat.numStates ∧ times.getD 0 (-1) = 0 ∧
    0 ≤ uttLen ∧ ∀ s < lat.numStates, times.getD s (-1) ≤ uttLen := by
  unfold LatticeStateTimes at hst
  by_cases h1 : lat.TopSortedB = true
  · rw [if_neg (by simp [h1])] at hst
    by_cases h2 : lat.numStates = 0
    · rw [if_pos h2] at hst; exact absurd hst (by simp)
    · rw [if_neg h2] at hst
      cases hloop : latStateTimesLoop lat (List.range lat.numStates)
          ((List.replicate lat.numStates (-1 : ℤ)).set 0 0) with
      | none => rw [hloop] at hst; exact absurd hst (by simp)
      | some tv =>
          rw [hloop] at hst
          simp only [Option.some.injEq, Prod.mk.injEq] at hst
          obtain ⟨hu, ht⟩ := hst
          subst ht
          subst hu
          have hlen : tv.length = lat.numStates := by
            have := latStateTimesLoop_length lat _ _ _ hloop
            simpa using this
          have h0 : tv.getD 0 (-1) = 0 := by
            rw [latStateTimesLoop_getD0 lat (-1)
              ((topSortedB_iff lat).mp h1) _ _ _ hloop]
            rw [getD_set_self]
            simpa using Nat.pos_of_ne_zero h2
          have hmem0 : (0 : ℤ) ∈ tv := by
            rw [← h0]
            exact getD_mem tv 0 (-1) (by rw [hlen]; exact Nat.pos_of_ne_zero h2)
          refine ⟨h1, h2, hlen, h0, listMax_ge tv 0 hmem0, ?_⟩
          intro s hs
          exact listMax_ge tv _ (getD_mem tv s (-1) (by rw [hlen]; exact hs))
  · rw [if_pos (by simpa using h1)] at hst
    exact absurd hst (by simp)

/-- Rewriting a set of distinct states in place, as the `time_to_state`
bucket loop of `RescoreLattice` does, maps each listed state's arc list
and leaves every other state untouched. -/
theorem foldl_set_map_getD {α : Type} (g : List α → List α)
    (hg : g [] = []) :
    ∀ (F : List ℕ) (arcs : List (List α)), F.Nodup →
      ∀ s, (F.foldl (fun a u => a.set u (g (a.getD u []))) arcs).getD s [] =
        if s ∈ F then g (arcs.getD s []) else arcs.getD s [] := by
  intro F
  induction F with
  | nil => intro arcs _ s; simp
  | cons u F ih =>
      intro arcs hnd s
      have hnd' : F.Nodup := hnd.of_cons
      have hu : u ∉ F := by
        intro hc
        exact (List.nodup_cons.mp hnd).1 hc
      simp only [List.foldl_cons]
      rw [ih _ hnd' s]
      by_cases hsu : s = u
      · subst hsu
        rw [if_neg hu, if_pos (List.mem_cons_self _ _)]
        by_cases hlt : s < arcs.length
        · rw [getD_set_self _ _ _ _ hlt]
        · rw [List.set_eq_of_length_le (le_of_not_lt hlt),
            getD_oob _ _ _ (le_of_not_lt hlt), hg]
      · rw [getD_set_ne _ _ _ _ _ fun h => hsu h.symm]
        by_cases hsF : s ∈ F
        · rw [if_pos hsF, if_pos (List.mem_cons_of_mem _ hsF)]
        · rw [if_neg hsF, if_neg (by
            intro hc
            rcases List.mem_cons.mp hc with rfl | hc
            · exact hsu rfl
            · exact hsF hc)]

theorem foldl_set_length {α : Type} (g : List α → List α) :
    ∀ (F : List ℕ) (arcs : List (List α)),
      (F.foldl (fun a u => a.set u (g (a.getD u []))) arcs).length =
        arcs.length := by
  intro F
  induction F with
  | nil => intro arcs; rfl
  | cons u F ih => intro arcs; rw [List.foldl_cons, ih]; simp

theorem rescoreLoop_char (dec : DecodableInterface) (times : List ℤ)
    (uttLen : ℤ) :
    ∀ (ts : List ℕ) (arcs : List (List LatticeArc)), ts.Nodup →
      (∀ tn ∈ ts, (tn : ℤ) < uttLen - 1 → dec.isLastFrame tn = false) →
      (rescoreLoop dec times uttLen ts arcs).1 = true ∧
      (rescoreLoop dec times uttLen ts arcs).2.length = arcs.length ∧
      ∀ s, (rescoreLoop dec times uttLen ts arcs).2.getD s [] =
        if ∃ tn ∈ ts, times.getD s (-1) = (tn : ℤ) then
          (arcs.getD s []).map (rescoreArc dec (times.getD s (-1)))
        else arcs.getD s [] := by
  intro ts
  induction ts with
  | nil =>
      intro arcs _ _
      refine ⟨rfl, rfl, ?_⟩
      intro s
      simp [rescoreLoop]
  | cons tn rest ih =>
      intro arcs hnd hor
      have hcond : ¬ ((tn : ℤ) < uttLen - 1 ∧ dec.isLastFrame tn = true) := by
        rintro ⟨hlt, hlast⟩
        rw [hor tn (List.mem_cons_self _ _) hlt] at hlast
        exact Bool.false_ne_true hlast
      unfold rescoreLoop
      rw [if_neg (by simpa using hcond)]
      have hnd' : rest.Nodup := hnd.of_cons
      have htn : tn ∉ rest := (List.nodup_cons.mp hnd).1
      set bucket := (List.range arcs.length).filter
        (fun s => times.getD s (-1) = (tn : ℤ)) with hbucket
      set arcs1 := bucket.foldl
        (fun a s => a.set s ((a.getD s []).map (rescoreArc dec (tn : ℤ)))) arcs
        with harcs1
      have hbnd : bucket.Nodup := (List.nodup_range _).filter _
      have hb1 : ∀ s, arcs1.getD s [] =
          if s ∈ bucket then
            (arcs.getD s []).map (rescoreArc dec (tn : ℤ))
          else arcs.getD s [] := by
        intro s
        exact foldl_set_map_getD (fun l => l.map (rescoreArc dec (tn : ℤ)))
          (by simp) bucket arcs hbnd s
      have hlen1 : arcs1.length = arcs.length :=
        foldl_set_length _ bucket arcs
      obtain ⟨hres, hlen2, hchar⟩ := ih arcs1 hnd'
        (fun t ht => hor t (List.mem_cons_of_mem _ ht))
      refine ⟨hres, hlen2.trans hlen1, ?_⟩
      intro s
      rw [hchar s, hb1 s]
      have hmem : s ∈ bucket ↔
          s < arcs.length ∧ times.getD s (-1) = (tn : ℤ) := by
        rw [hbucket]
        simp [List.mem_filter, List.mem_range]
      by_cases hcur : times.getD s (-1) = (tn : ℤ)
      · have hnotrest : ¬ ∃ t ∈ rest, times.getD s (-1) = (t : ℤ) := by
          rintro ⟨t, htr, hteq⟩
          have h1 : (t : ℤ) = (tn : ℤ) := by rw [← hteq, hcur]
          have h2 : t = tn := by exact_mod_cast h1
          exact htn (h2 ▸ htr)
        have hcons : ∃ t ∈ tn :: rest, times.getD s (-1) = (t : ℤ) :=
          ⟨tn, List.mem_cons_self _ _, hcur⟩
        rw [if_neg hnotrest, if_pos hcons]
        by_cases hin : s < arcs.length
        · have hsb : s ∈ bucket := hmem.mpr ⟨hin, hcur⟩
          rw [if_pos hsb, hcur]
        · have hsb : ¬ s ∈ bucket := fun hc => hin (hmem.mp hc).1
          rw [if_neg hsb, getD_oob _ _ _ (le_of_not_lt hin)]
          simp
      · have hsb : ¬ s ∈ bucket := fun hc => hcur (hmem.mp hc).2
        rw [if_neg hsb]
        by_cases hrest : ∃ t ∈ rest, times.getD s (-1) = (t : ℤ)
        · have hcons : ∃ t ∈ tn :: rest, times.getD s (-1) = (t : ℤ) := by
            obtain ⟨t, htr, hteq⟩ := hrest
            exact ⟨t, List.mem_cons_of_mem _ htr, hteq⟩
          rw [if_pos hrest, if_pos hcons]
        · have hcons : ¬ ∃ t ∈ tn :: rest, times.getD s (-1) = (t : ℤ) := by
            rintro ⟨t, htr, hteq⟩
            rcases List.mem_cons.mp htr with rfl | htr
            · exact hcur hteq
            · exact hrest ⟨t, htr, hteq⟩
          rw [if_neg hrest, if_neg hcons]

/-- C8: on a topologically sorted lattice whose state times are
consistent and whose oracle covers all `utt_len` frames,
`RescoreLattice` returns `true`, keeps the final weights, the state
count, the labels, the destinations, every epsilon arc and every first
weight component unchanged, and rewrites exactly the non-epsilon arcs
leaving a state at time `t`, replacing `w2` by `w2 - log_likelihood(t,
ilabel)`. -/
theorem claim_C8 (dec : DecodableInterface) (lat : Lattice)
    (uttLen : ℤ) (times : List ℤ)
    (hst : LatticeStateTimes lat = some (uttLen, times))
    (hor : ∀ t : ℤ, 0 ≤ t → t < uttLen - 1 → dec.isLastFrame t = false) :
    ∃ lat' : Lattice, RescoreLattice dec lat = some (true, lat') ∧
      lat'.finals = lat.finals ∧ lat'.numStates = lat.numStates ∧
      (∀ s, lat'.arcsAt s =
        if 0 ≤ times.getD s (-1) ∧ times.getD s (-1) < uttLen then
          (lat.arcsAt s).map (rescoreArc dec (times.getD s (-1)))
        else lat.arcsAt s) ∧
      (∀ (t : ℤ) (arc : LatticeArc), rescoreArc dec t arc =
        if arc.ilabel = 0 then arc else
          ⟨arc.ilabel, arc.olabel,
            ⟨arc.weight.w1,
              arc.weight.w2 + ((- dec.logLikelihood t arc.ilabel : ℚ) : Cost)⟩,
            arc.nextstate⟩) := by
  obtain ⟨hts, hn, hlen, h0, hu0, hbound⟩ :=
    latticeStateTimes_spec lat uttLen times hst
  obtain ⟨hres, hrlen, hrchar⟩ := rescoreLoop_char dec times uttLen
    (List.range uttLen.toNat) lat.arcs (List.nodup_range _)
    (fun tn _ hlt => hor (tn : ℤ) (by positivity) hlt)
  refine ⟨⟨(rescoreLoop dec times uttLen (List.range uttLen.toNat)
    lat.arcs).2, lat.finals⟩, ?_, rfl, ?_, ?_, ?_⟩
  · unfold RescoreLattice
    rw [hst]
    have hcond : times.length = lat.numStates ∧
        ∀ s < lat.numStates, times.getD s (-1) ≤ uttLen := ⟨hlen, hbound⟩
    simp only [if_neg hn, hts, not_true_eq_false, if_false, if_pos hcond,
      hres]
  · unfold Fst.numStates
    exact hrlen
  · intro s
    unfold Fst.arcsAt
    simp only
    rw [hrchar s]
    have hiff : (∃ tn ∈ List.range uttLen.toNat,
        times.getD s (-1) = (tn : ℤ)) ↔
        (0 ≤ times.getD s (-1) ∧ times.getD s (-1) < uttLen) := by
      constructor
      · rintro ⟨tn, htn, hteq⟩
        rw [List.mem_range] at htn
        constructor
        · rw [hteq]; positivity
        · rw [hteq]; omega
      · rintro ⟨hge, hlt⟩
        refine ⟨(times.getD s (-1)).toNat, ?_, by omega⟩
        rw [List.mem_range]; omega
    by_cases hc : 0 ≤ times.getD s (-1) ∧ times.getD s (-1) < uttLen
    · rw [if_pos (hiff.mpr hc), if_pos hc]
    · rw [if_neg (fun h => hc (hiff.mp h)), if_neg hc]
  · intro t arc
    unfold rescoreArc
    by_cases h : arc.ilabel = 0
    · simp [h]
    · simp [h, add_comm]

/-- Witness for C8 at the one-arc lattice `exC8`. -/
theorem claim_C8_witness :
    ∃ lat' : Lattice, RescoreLattice exC8dec exC8 = some (true, lat') ∧
      lat'.finals = exC8.finals ∧ lat'.numStates = exC8.numStates ∧
      (∀ s, lat'.arcsAt s =
        if 0 ≤ ([0, 1] : List ℤ).getD s (-1) ∧
            ([0, 1] : List ℤ).getD s (-1) < 1 then
          (exC8.arcsAt s).map
            (rescoreArc exC8dec (([0, 1] : List ℤ).getD s (-1)))
        else exC8.arcsAt s) ∧
      (∀ (t : ℤ) (arc : LatticeArc), rescoreArc exC8dec t arc =
        if arc.ilabel = 0 then arc else
          ⟨arc.ilabel, arc.olabel,
            ⟨arc.weight.w1,
              arc.weight.w2 +
                ((- exC8dec.logLikelihood t arc.ilabel : ℚ) : Cost)⟩,
            arc.nextstate⟩) :=
  claim_C8 exC8dec exC8 1 [0, 1] (by decide) (fun _ _ _ => rfl)

/-- Counterexample for C7 as stated: `CompactLatticeToWordAlignment`
returns `false` on `exC7` because state `1` is non-final with two outgoing
arcs (the non-linear case), yet the output arrays are NOT cleared: they
still hold the triple emitted for the first arc. -/
theorem claim_C7_counterexample :
    exC7.finalW 1 = Wzero CompactLatticeWeight ∧
    (exC7.arcsAt 1).length = 2 ∧
    CompactLatticeToWordAlignment exC7 = some (false, [5], [0], [1]) ∧
    ([5] : List ℕ) ≠ [] := by
  refine ⟨by decide, by decide, by decide, by decide⟩

theorem spRelaxArcs_length (tc : Cost) (s : ℕ)
    (arcs : List CompactLatticeArc) :
    ∀ tbl : List (Cost × Option ℕ),
      (spRelaxArcs tc s arcs tbl).length = tbl.length := by
  induction arcs with
  | nil => intro tbl; rfl
  | cons a rest ih =>
      intro tbl
      unfold spRelaxArcs at *
      simp only [List.foldl_cons]
      rw [ih]
      by_cases h : tc + ConvertToCost a.weight <
          (tbl.getD a.nextstate spNil).1
      · rw [if_pos h]; simp
      · rw [if_neg h]

theorem spFinalRelax_length (tc : Cost) (s : ℕ) (fcost : Cost) (n : ℕ)
    (tbl : List (Cost × Option ℕ)) :
    (spFinalRelax tc s fcost n tbl).length = tbl.length := by
  unfold spFinalRelax
  by_cases h : tc + fcost < (tbl.getD n spNil).1
  · rw [if_pos h]; simp
  · rw [if_neg h]

theorem spTable_succ (clat : CompactLattice) (k : ℕ) :
    spTable clat (k + 1) = spStep clat (spTable clat k) k := by
  unfold spTable
  rw [List.range_succ, List.foldl_append]
  rfl

theorem spTable_length (clat : CompactLattice) (k : ℕ) :
    (spTable clat k).length = clat.numStates + 1 := by
  induction k with
  | zero =>
      unfold spTable
      simp
  | succ k ih =>
      rw [spTable_succ]
      show (spFinalRelax _ _ _ _ _).length = _
      rw [spFinalRelax_length, spRelaxArcs_length]
      exact ih

theorem spRelaxArcs_notmem (tc : Cost) (s : ℕ)
    (arcs : List CompactLatticeArc) (u : ℕ)
    (hu : ∀ a ∈ arcs, a.nextstate ≠ u) :
    ∀ tbl : List (Cost × Option ℕ),
      (spRelaxArcs tc s arcs tbl).getD u spNil = tbl.getD u spNil := by
  induction arcs with
  | nil => intro tbl; rfl
  | cons a rest ih =>
      intro tbl
      unfold spRelaxArcs at *
      simp only [List.foldl_cons]
      have ha := hu a (List.mem_cons_self _ _)
      have ih' := ih (fun b hb => hu b (List.mem_cons_of_mem _ hb))
      by_cases h : tc + ConvertToCost a.weight <
          (tbl.getD a.nextstate spNil).1
      · rw [if_pos h, ih', getD_set_ne _ _ _ _ _ ha]
      · rw [if_neg h, ih']

theorem spFinalRelax_notmem (tc : Cost) (s : ℕ) (fcost : Cost) (n u : ℕ)
    (hu : n ≠ u) (tbl : List (Cost × Option ℕ)) :
    (spFinalRelax tc s fcost n tbl).getD u spNil =
      tbl.getD u spNil := by
  unfold spFinalRelax
  by_cases h : tc + fcost < (tbl.getD n spNil).1
  · rw [if_pos h, getD_set_ne _ _ _ _ _ hu]
  · rw [if_neg h]

theorem spStep_stable (clat : CompactLattice) (hT : clat.TopSorted)
    (tbl : List (Cost × Option ℕ)) (k u : ℕ) (hu : u ≤ k)
    (hk : k < clat.numStates) :
    (spStep clat tbl k).getD u spNil = tbl.getD u spNil := by
  unfold spStep
  rw [spFinalRelax_notmem _ _ _ _ _ (by omega),
    spRelaxArcs_notmem _ _ _ _ ?ha]
  case ha =>
    intro a ha
    have := (hT k a ha).1
    omega

theorem spTable_stable (clat : CompactLattice) (hT : clat.TopSorted)
    (u k m : ℕ) (hkm : k ≤ m) (hm : m ≤ clat.numStates) (hu : u ≤ k) :
    (spTable clat m).getD u spNil = (spTable clat k).getD u spNil := by
  induction m, hkm using Nat.le_induction with
  | base => rfl
  | succ m hkm ih =>
      rw [spTable_succ, spStep_stable clat hT _ m u (by omega) (by omega)]
      exact ih (by omega)

theorem spRelaxArcs_mono (tc : Cost) (s : ℕ)
    (arcs : List CompactLatticeArc) :
    ∀ (tbl : List (Cost × Option ℕ)) (u : ℕ),
      ((spRelaxArcs tc s arcs tbl).getD u spNil).1 ≤
        (tbl.getD u spNil).1 := by
  induction arcs with
  | nil => intro tbl u; exact le_refl _
  | cons a rest ih =>
      intro tbl u
      unfold spRelaxArcs at *
      simp only [List.foldl_cons]
      by_cases h : tc + ConvertToCost a.weight <
          (tbl.getD a.nextstate spNil).1
      · rw [if_pos h]
        refine le_trans (ih _ u) ?_
        by_cases hu : a.nextstate = u
        · subst hu
          by_cases hlen : a.nextstate < tbl.length
          · rw [getD_set_self _ _ _ _ hlen]
            exact le_of_lt h
          · rw [List.set_eq_of_length_le (le_of_not_lt hlen)]
        · rw [getD_set_ne _ _ _ _ _ hu]
      · rw [if_neg h]
        exact ih _ u

theorem spFinalRelax_mono (tc : Cost) (s : ℕ) (fcost : Cost) (n : ℕ)
    (tbl : List (Cost × Option ℕ)) (u : ℕ) :
    ((spFinalRelax tc s fcost n tbl).getD u spNil).1 ≤
      (tbl.getD u spNil).1 := by
  unfold spFinalRelax
  by_cases h : tc + fcost < (tbl.getD n spNil).1
  · rw [if_pos h]
    by_cases hu : n = u
    · subst hu
      by_cases hlen : n < tbl.length
      · rw [getD_set_self _ _ _ _ hlen]
        exact le_of_lt h
      · rw [List.set_eq_of_length_le (le_of_not_lt hlen)]
    · rw [getD_set_ne _ _ _ _ _ hu]
  · rw [if_neg h]

theorem spTable_mono (clat : CompactLattice) (u k m : ℕ) (hkm : k ≤ m) :
    ((spTable clat m).getD u spNil).1 ≤
      ((spTable clat k).getD u spNil).1 := by
  induction m, hkm using Nat.le_induction with
  | base => exact le_refl _
  | succ m hkm ih =>
      rw [spTable_succ]
      exact le_trans (le_trans (spFinalRelax_mono _ _ _ _ _ u)
        (spRelaxArcs_mono _ _ _ _ u)) ih

theorem spTable_start (clat : CompactLattice) (hT : clat.TopSorted)
    (k : ℕ) (hk : k ≤ clat.numStates) :
    (spTable clat k).getD 0 spNil = (0, none) := by
  rw [spTable_stable clat hT 0 0 k (Nat.zero_le _) hk (le_refl 0)]
  show ((List.replicate (clat.numStates + 1) spNil).set 0
    (0, none)).getD 0 spNil = (0, none)
  rw [getD_set_self]
  simp

theorem spRelaxArcs_bound (tc : Cost) (s : ℕ)
    (arcs : List CompactLatticeArc) (arc : CompactLatticeArc)
    (ha : arc ∈ arcs) :
    ∀ tbl : List (Cost × Option ℕ), arc.nextstate < tbl.length →
      ((spRelaxArcs tc s arcs tbl).getD arc.nextstate spNil).1 ≤
        tc + ConvertToCost arc.weight := by
  induction arcs with
  | nil => exact absurd ha (List.not_mem_nil arc)
  | cons a rest ih =>
      intro tbl hlen
      unfold spRelaxArcs at *
      simp only [List.foldl_cons]
      rcases List.mem_cons.mp ha with rfl | hmem
      · by_cases h : tc + ConvertToCost arc.weight <
            (tbl.getD arc.nextstate spNil).1
        · rw [if_pos h]
          refine le_trans (spRelaxArcs_mono tc s rest _ _) ?_
          rw [getD_set_self _ _ _ _ hlen]
        · rw [if_neg h]
          exact le_trans (spRelaxArcs_mono tc s rest _ _) (le_of_not_lt h)
      · by_cases h : tc + ConvertToCost a.weight <
            (tbl.getD a.nextstate spNil).1
        · rw [if_pos h]
          exact ih hmem _ (by simpa using hlen)
        · rw [if_neg h]
          exact ih hmem _ hlen

theorem spFinalRelax_bound (tc : Cost) (s : ℕ) (fcost : Cost) (n : ℕ)
    (tbl : List (Cost × Option ℕ)) (hlen : n < tbl.length) :
    ((spFinalRelax tc s fcost n tbl).getD n spNil).1 ≤ tc + fcost := by
  unfold spFinalRelax
  by_cases h : tc + fcost < (tbl.getD n spNil).1
  · rw [if_pos h, getD_set_self _ _ _ _ hlen]
  · rw [if_neg h]
    exact le_of_not_lt h

theorem spTable_relax_arc (clat : CompactLattice) (hT : clat.TopSorted)
    {s : ℕ} {arc : CompactLatticeArc} (ha : arc ∈ clat.arcsAt s) :
    ((spTable clat clat.numStates).getD arc.nextstate spNil).1 ≤
      ((spTable clat clat.numStates).getD s spNil).1 +
        ConvertToCost arc.weight := by
  have hs : s < clat.numStates := lt_of_arc_mem ha
  have hnext : arc.nextstate < clat.numStates := (hT s arc ha).2
  have h1 : ((spTable clat clat.numStates).getD arc.nextstate spNil).1 ≤
      ((spTable clat (s + 1)).getD arc.nextstate spNil).1 :=
    spTable_mono clat arc.nextstate (s + 1) clat.numStates hs
  have h2 : ((spTable clat (s + 1)).getD arc.nextstate spNil).1 ≤
      ((spTable clat s).getD s spNil).1 + ConvertToCost arc.weight := by
    rw [spTable_succ]
    refine le_trans (spFinalRelax_mono _ _ _ _ _ _) ?_
    exact spRelaxArcs_bound _ _ _ arc ha _
      (by rw [spTable_length]; omega)
  have h3 : ((spTable clat s).getD s spNil).1 =
      ((spTable clat clat.numStates).getD s spNil).1 := by
    rw [spTable_stable clat hT s s clat.numStates (le_of_lt hs)
      (le_refl _) (le_refl s)]
  rw [h3] at h2
  exact le_trans h1 h2

theorem spTable_relax_final (clat : CompactLattice) (hT : clat.TopSorted)
    (s : ℕ) (hs : s < clat.numStates) :
    ((spTable clat clat.numStates).getD clat.numStates spNil).1 ≤
      ((spTable clat clat.numStates).getD s spNil).1 +
        ConvertToCost (clat.finalW s) := by
  have h1 : ((spTable clat clat.numStates).getD clat.numStates spNil).1 ≤
      ((spTable clat (s + 1)).getD clat.numStates spNil).1 :=
    spTable_mono clat clat.numStates (s + 1) clat.numStates hs
  have h2 : ((spTable clat (s + 1)).getD clat.numStates spNil).1 ≤
      ((spTable clat s).getD s spNil).1 +
        ConvertToCost (clat.finalW s) := by
    rw [spTable_succ]
    exact spFinalRelax_bound _ _ _ _ _
      (by rw [spRelaxArcs_length, spTable_length]; omega)
  have h3 : ((spTable clat s).getD s spNil).1 =
      ((spTable clat clat.numStates).getD s spNil).1 := by
    rw [spTable_stable clat hT s s clat.numStates (le_of_lt hs)
      (le_refl _) (le_refl s)]
  rw [h3] at h2
  exact le_trans h1 h2

theorem spTable_path_le (clat : CompactLattice) (hT : clat.TopSorted)
    {s t : ℕ} {p : List CompactLatticeArc} (hp : PathIn clat s p t) :
    ((spTable clat clat.numStates).getD t spNil).1 ≤
      ((spTable clat clat.numStates).getD s spNil).1 + pathCost p := by
  induction hp with
  | nil s => rw [pathCost_nil, add_zero]
  | cons arc ha hp ih =>
      rename_i s' t' p'
      calc ((spTable clat clat.numStates).getD t' spNil).1 ≤
          ((spTable clat clat.numStates).getD arc.nextstate spNil).1 +
            pathCost p' := ih
        _ ≤ (((spTable clat clat.numStates).getD s' spNil).1 +
            ConvertToCost arc.weight) + pathCost p' :=
          add_le_add_right (spTable_relax_arc clat hT ha) _
        _ = ((spTable clat clat.numStates).getD s' spNil).1 +
            pathCost (arc :: p') := by
          rw [pathCost_cons, add_assoc]

theorem pathIn_target_lt {W : Type} {lat : Fst W} (hT : lat.TopSorted)
    {s t : ℕ} {p : List (Arc W)} (hp : PathIn lat s p t)
    (hs : s < lat.numStates) : t < lat.numStates := by
  induction hp with
  | nil s => exact hs
  | cons arc ha hp ih => exact ih ((hT _ arc ha).2)

theorem spTable_superfinal_le (clat : CompactLattice)
    (hT : clat.TopSorted) (hn : clat.numStates ≠ 0)
    {g : ℕ} {p : List CompactLatticeArc} (hp : PathIn clat 0 p g) :
    ((spTable clat clat.numStates).getD clat.numStates spNil).1 ≤
      pathCost p + ConvertToCost (clat.finalW g) := by
  have hg : g < clat.numStates :=
    pathIn_target_lt hT hp (Nat.pos_of_ne_zero hn)
  have h1 := spTable_relax_final clat hT g hg
  have h2 := spTable_path_le clat hT hp
  have h0 : ((spTable clat clat.numStates).getD 0 spNil).1 = 0 := by
    rw [spTable_start clat hT clat.numStates (le_refl _)]
  rw [h0, zero_add] at h2
  exact le_trans h1 (add_le_add_right h2 _)

theorem getD_replicate {α : Type} (n u : ℕ) (a : α) :
    (List.replicate n a).getD u a = a := by
  by_cases h : u < n
  · rw [List.getD_eq_getElem _ _ (by simpa using h)]
    simp
  · exact getD_oob _ _ _ (by simpa using le_of_not_lt h)

theorem spRelaxArcs_char (tc : Cost) (s : ℕ)
    (arcs : List CompactLatticeArc) :
    ∀ (tbl : List (Cost × Option ℕ)) (u : ℕ),
      (spRelaxArcs tc s arcs tbl).getD u spNil = tbl.getD u spNil ∨
      ∃ a ∈ arcs, a.nextstate = u ∧
        (spRelaxArcs tc s arcs tbl).getD u spNil =
          (tc + ConvertToCost a.weight, some s) := by
  induction arcs with
  | nil => intro tbl u; exact Or.inl rfl
  | cons a rest ih =>
      intro tbl u
      unfold spRelaxArcs at *
      simp only [List.foldl_cons]
      by_cases h : tc + ConvertToCost a.weight <
          (tbl.getD a.nextstate spNil).1
      · rw [if_pos h]
        rcases ih (tbl.set a.nextstate
            (tc + ConvertToCost a.weight, some s)) u with
          h1 | ⟨b, hb, hbn, h1⟩
        · by_cases hu : a.nextstate = u
          · subst hu
            by_cases hlen : a.nextstate < tbl.length
            · refine Or.inr ⟨a, List.mem_cons_self _ _, rfl, ?_⟩
              rw [h1]
              exact getD_set_self _ _ _ _ hlen
            · refine Or.inl (h1.trans ?_)
              rw [List.set_eq_of_length_le (le_of_not_lt hlen)]
          · rw [getD_set_ne _ _ _ _ _ hu] at h1
            exact Or.inl h1
        · exact Or.inr ⟨b, List.mem_cons_of_mem _ hb, hbn, h1⟩
      · rw [if_neg h]
        rcases ih tbl u with h1 | ⟨b, hb, hbn, h1⟩
        · exact Or.inl h1
        · exact Or.inr ⟨b, List.mem_cons_of_mem _ hb, hbn, h1⟩

theorem spFinalRelax_char (tc : Cost) (s : ℕ) (fcost : Cost) (n : ℕ)
    (tbl : List (Cost × Option ℕ)) (u : ℕ) :
    (spFinalRelax tc s fcost n tbl).getD u spNil = tbl.getD u spNil ∨
      (u = n ∧ (spFinalRelax tc s fcost n tbl).getD u spNil =
        (tc + fcost, some s)) := by
  unfold spFinalRelax
  by_cases h : tc + fcost < (tbl.getD n spNil).1
  · rw [if_pos h]
    by_cases hu : n = u
    · subst hu
      by_cases hlen : n < tbl.length
      · exact Or.inr ⟨rfl, getD_set_self _ _ _ _ hlen⟩
      · rw [List.set_eq_of_length_le (le_of_not_lt hlen)]
        exact Or.inl rfl
    · rw [getD_set_ne _ _ _ _ _ hu]
      exact Or.inl rfl
  · rw [if_neg h]
    exact Or.inl rfl

theorem spStep_char (clat : CompactLattice)
    (tbl : List (Cost × Option ℕ)) (k u : ℕ) :
    (spStep clat tbl k).getD u spNil = tbl.getD u spNil ∨
    (∃ a ∈ clat.arcsAt k, a.nextstate = u ∧
      (spStep clat tbl k).getD u spNil =
        ((tbl.getD k spNil).1 + ConvertToCost a.weight, some k)) ∨
    (u = clat.numStates ∧
      (spStep clat tbl k).getD u spNil =
        ((tbl.getD k spNil).1 + ConvertToCost (clat.finalW k), some k)) := by
  have hF := spFinalRelax_char (tbl.getD k spNil).1 k
    (ConvertToCost (clat.finalW k)) clat.numStates
    (spRelaxArcs (tbl.getD k spNil).1 k (clat.arcsAt k) tbl) u
  have hA := spRelaxArcs_char (tbl.getD k spNil).1 k (clat.arcsAt k) tbl u
  rcases hF with hF | ⟨huN, hF⟩
  · rcases hA with hA | ⟨a, ha, han, hA⟩
    · refine Or.inl ?_
      show (spFinalRelax _ _ _ _ _).getD u spNil = _
      rw [hF, hA]
    · refine Or.inr (Or.inl ⟨a, ha, han, ?_⟩)
      show (spFinalRelax _ _ _ _ _).getD u spNil = _
      rw [hF, hA]
  · refine Or.inr (Or.inr ⟨huN, ?_⟩)
    show (spFinalRelax _ _ _ _ _).getD u spNil = _
    rw [hF]

theorem spTable_inv (clat : CompactLattice) (hT : clat.TopSorted) :
    ∀ k, k ≤ clat.numStates → ∀ u, u ≤ clat.numStates →
      spInvAt clat (spTable clat k) k u := by
  intro k
  induction k with
  | zero =>
      intro hk u hu
      show spInvAt clat
        ((List.replicate (clat.numStates + 1) spNil).set 0 (0, none)) 0 u
      by_cases hu0 : u = 0
      · subst hu0
        have he : ((List.replicate (clat.numStates + 1) spNil).set 0
            (0, none)).getD 0 spNil = (0, none) := by
          rw [getD_set_self _ _ _ _ (by simp)]
        unfold spInvAt
        rw [he]
        constructor
        · intro _; exact Or.inl ⟨rfl, rfl⟩
        · intro s hs; exact absurd hs (by simp)
      · have he : ((List.replicate (clat.numStates + 1) spNil).set 0
            (0, none)).getD u spNil = spNil := by
          rw [getD_set_ne _ _ _ _ _ (fun h => hu0 h.symm), getD_replicate]
        unfold spInvAt
        rw [he]
        constructor
        · intro _; exact Or.inr rfl
        · intro s hs; exact absurd hs (by simp [spNil])
  | succ k ih =>
      intro hk u hu
      have hkn : k < clat.numStates := by omega
      have ihk := ih (by omega)
      rw [spTable_succ]
      have hstep : ∀ v, v ≤ k →
          (spStep clat (spTable clat k) k).getD v spNil =
            (spTable clat k).getD v spNil :=
        fun v hv => spStep_stable clat hT _ k v hv hkn
      rcases spStep_char clat (spTable clat k) k u with hc | hc | hc
      · obtain ⟨h1, h2⟩ := ihk u hu
        constructor
        · intro hnone
          rw [hc] at hnone ⊢
          exact h1 hnone
        · intro s hs
          rw [hc] at hs ⊢
          obtain ⟨hsu, hsk, harc, hfin⟩ := h2 s hs
          refine ⟨hsu, by omega, ?_, ?_⟩
          · intro hun
            obtain ⟨a, ha, han, hval⟩ := harc hun
            refine ⟨a, ha, han, ?_⟩
            rw [hstep s (by omega)]
            exact hval
          · intro hun
            rw [hstep s (by omega)]
            exact hfin hun
      · obtain ⟨a, ha, han, hval⟩ := hc
        have hku : k < u := by rw [← han]; exact (hT k a ha).1
        have hun : u < clat.numStates := by
          rw [← han]; exact (hT k a ha).2
        constructor
        · intro hnone
          rw [hval] at hnone
          exact absurd hnone (by simp)
        · intro s hs
          rw [hval] at hs
          have hsk : s = k := by simpa using hs.symm
          subst hsk
          refine ⟨hku, by omega, ?_, ?_⟩
          · intro _
            refine ⟨a, ha, han, ?_⟩
            rw [hval, hstep s (le_refl _)]
          · intro hun2
            exact absurd hun2 (by omega)
      · obtain ⟨huN, hval⟩ := hc
        constructor
        · intro hnone
          rw [hval] at hnone
          exact absurd hnone (by simp)
        · intro s hs
          rw [hval] at hs
          have hsk : s = k := by simpa using hs.symm
          subst hsk
          refine ⟨by omega, by omega, ?_, ?_⟩
          · intro hun
            exact absurd huN (by omega)
          · intro _
            rw [hval, hstep s (le_refl _)]

theorem chainLinks_tail (clat : CompactLattice)
    (tbl : List (Cost × Option ℕ)) (x : ℕ) (xs : List ℕ)
    (h : ChainLinks clat tbl (x :: xs)) : ChainLinks clat tbl xs := by
  unfold ChainLinks at h ⊢
  intro i hi
  have := h (i + 1) (by simpa using Nat.succ_lt_succ hi)
  simpa [List.getD_cons_succ] using this

theorem chainLinks_snoc (clat : CompactLattice)
    (tbl : List (Cost × Option ℕ)) (xs : List ℕ) (c : ℕ)
    (hch : ChainLinks clat tbl xs)
    (hlink : ∃ a ∈ clat.arcsAt (xs.getD (xs.length - 1) 0),
      a.nextstate = c ∧
      (tbl.getD c spNil).1 =
        (tbl.getD (xs.getD (xs.length - 1) 0) spNil).1 +
          ConvertToCost a.weight) :
    ChainLinks clat tbl (xs ++ [c]) := by
  unfold ChainLinks at hch ⊢
  intro i hi
  rw [List.length_append, List.length_singleton] at hi
  by_cases hilt : i + 1 < xs.length
  · rw [getD_append_lt xs [c] 0 i (by omega),
      getD_append_lt xs [c] 0 (i + 1) hilt]
    exact hch i hilt
  · have hieq : i + 1 = xs.length := by omega
    have h1 : (xs ++ [c]).getD i 0 = xs.getD (xs.length - 1) 0 := by
      rw [getD_append_lt xs [c] 0 i (by omega)]
      have : i = xs.length - 1 := by omega
      rw [this]
    have h2 : (xs ++ [c]).getD (i + 1) 0 = c := by
      rw [hieq]
      exact getD_append_len xs c 0
    rw [h1, h2]
    exact hlink

theorem spBacktrack_succ (tbl : List (Cost × Option ℕ)) (fuel cur : ℕ) :
    spBacktrack tbl (fuel + 1) cur =
      if cur = 0 then some []
      else
        match (tbl.getD cur spNil).2 with
        | none => none
        | some prev =>
            match spBacktrack tbl fuel prev with
            | none => none
            | some l => some (l ++ [prev]) := rfl

theorem spBacktrack_chain (clat : CompactLattice) (hT : clat.TopSorted) :
    ∀ fuel cur, cur < clat.numStates →
      ((spTable clat clat.numStates).getD cur spNil).1 ≠ ⊤ →
      cur < fuel →
      ∃ sts,
        spBacktrack (spTable clat clat.numStates) fuel cur = some sts ∧
        ChainLinks clat (spTable clat clat.numStates) (sts ++ [cur]) ∧
        (sts ++ [cur]).getD 0 0 = 0 ∧
        ∀ x ∈ sts ++ [cur], x < clat.numStates ∧
          ((spTable clat clat.numStates).getD x spNil).1 ≠ ⊤ := by
  intro fuel
  induction fuel with
  | zero => intro cur _ _ h; omega
  | succ fuel ih =>
      intro cur hcur hfin hflt
      by_cases hc0 : cur = 0
      · subst hc0
        refine ⟨[], ?_, ?_, ?_, ?_⟩
        · rw [spBacktrack_succ, if_pos rfl]
        · intro i hi
          exact absurd hi (by simp)
        · rfl
        · intro x hx
          simp at hx
          subst hx
          exact ⟨hcur, hfin⟩
      · obtain ⟨hnone, hsome⟩ :=
          spTable_inv clat hT clat.numStates (le_refl _) cur (by omega)
        cases hp : ((spTable clat clat.numStates).getD cur spNil).2 with
        | none =>
            rcases hnone hp with ⟨h0, _⟩ | htop
            · exact absurd h0 hc0
            · exact absurd htop hfin
        | some s =>
            obtain ⟨hsu, _, harc, _⟩ := hsome s hp
            obtain ⟨a, ha, han, hval⟩ := harc hcur
            have hsfin :
                ((spTable clat clat.numStates).getD s spNil).1 ≠ ⊤ := by
              intro hstop
              rw [hstop] at hval
              exact hfin (by rw [hval]; exact top_add _)
            have hsn : s < clat.numStates := by omega
            obtain ⟨l, hbt, hch, hhead, hmem⟩ :=
              ih s hsn hsfin (by omega)
            have hlast : (l ++ [s]).getD ((l ++ [s]).length - 1) 0 = s := by
              rw [List.length_append, List.length_singleton]
              have : l.length + 1 - 1 = l.length := by omega
              rw [this]
              exact getD_append_len l s 0
            refine ⟨l ++ [s], ?_, ?_, ?_, ?_⟩
            · rw [spBacktrack_succ, if_neg hc0, hp]
              show (match
                  spBacktrack (spTable clat clat.numStates) fuel s with
                | none => none
                | some l2 => some (l2 ++ [s])) = some (l ++ [s])
              rw [hbt]
            · refine chainLinks_snoc clat _ (l ++ [s]) cur hch ?_
              rw [hlast]
              exact ⟨a, ha, han, hval⟩
            · rw [getD_append_lt _ _ _ _ (by simp)]
              exact hhead
            · intro x hx
              rw [List.mem_append] at hx
              rcases hx with hx | hx
              · exact hmem x hx
              · simp at hx
                subst hx
                exact ⟨hcur, hfin⟩

theorem minArcStep_eq_of_ne (t : ℕ) (best : Option CompactLatticeArc)
    (a : CompactLatticeArc) (h : a.nextstate ≠ t) :
    minArcStep t best a = best := by
  unfold minArcStep
  rw [if_neg h]

theorem minArcStep_none (t : ℕ) (a : CompactLatticeArc)
    (h : a.nextstate = t) : minArcStep t none a = some a := by
  unfold minArcStep
  rw [if_pos h]

theorem minArcStep_some (t : ℕ) (a b : CompactLatticeArc)
    (h : a.nextstate = t) :
    minArcStep t (some b) a =
      if ConvertToCost a.weight < ConvertToCost b.weight then some a
      else some b := by
  unfold minArcStep
  rw [if_pos h]

theorem minArc_fold (t : ℕ) :
    ∀ (l : List CompactLatticeArc) (best : Option CompactLatticeArc),
      (l.foldl (minArcStep t) best = best ∧ ∀ b ∈ l, b.nextstate ≠ t) ∨
      (∃ r, l.foldl (minArcStep t) best = some r ∧
        (best = some r ∨ (r ∈ l ∧ r.nextstate = t)) ∧
        (∀ b ∈ l, b.nextstate = t →
          ConvertToCost r.weight ≤ ConvertToCost b.weight) ∧
        (∀ b, best = some b →
          ConvertToCost r.weight ≤ ConvertToCost b.weight)) := by
  intro l
  induction l with
  | nil =>
      intro best
      cases best with
      | none =>
          exact Or.inl ⟨rfl, fun b hb => absurd hb (List.not_mem_nil b)⟩
      | some b0 =>
          refine Or.inr ⟨b0, rfl, Or.inl rfl,
            fun b hb _ => absurd hb (List.not_mem_nil b), ?_⟩
          intro b hb
          rw [Option.some_inj] at hb
          rw [hb]
  | cons a rest ih =>
      intro best
      rw [List.foldl_cons]
      by_cases hat : a.nextstate = t
      · cases best with
        | none =>
            rw [minArcStep_none t a hat]
            rcases ih (some a) with ⟨heq, hno⟩ |
              ⟨r, heq, hmem, hminl, hminb⟩
            · refine Or.inr ⟨a, heq,
                Or.inr ⟨List.mem_cons_self _ _, hat⟩, ?_, ?_⟩
              · intro b hb hbt
                rcases List.mem_cons.mp hb with rfl | hbr
                · exact le_refl _
                · exact absurd hbt (hno b hbr)
              · intro b hb
                exact absurd hb (by simp)
            · refine Or.inr ⟨r, heq, ?_, ?_, ?_⟩
              · rcases hmem with hr | ⟨hrmem, hrt⟩
                · rw [Option.some_inj] at hr
                  exact Or.inr ⟨by rw [← hr]; exact List.mem_cons_self _ _,
                    by rw [← hr]; exact hat⟩
                · exact Or.inr ⟨List.mem_cons_of_mem _ hrmem, hrt⟩
              · intro b hb hbt
                rcases List.mem_cons.mp hb with rfl | hbr
                · exact hminb _ rfl
                · exact hminl b hbr hbt
              · intro b hb
                exact absurd hb (by simp)
        | some b0 =>
            rw [minArcStep_some t a b0 hat]
            by_cases hlt : ConvertToCost a.weight < ConvertToCost b0.weight
            · rw [if_pos hlt]
              rcases ih (some a) with ⟨heq, hno⟩ |
                ⟨r, heq, hmem, hminl, hminb⟩
              · refine Or.inr ⟨a, heq,
                  Or.inr ⟨List.mem_cons_self _ _, hat⟩, ?_, ?_⟩
                · intro b hb hbt
                  rcases List.mem_cons.mp hb with rfl | hbr
                  · exact le_refl _
                  · exact absurd hbt (hno b hbr)
                · intro b hb
                  rw [Option.some_inj] at hb
                  rw [← hb]
                  exact le_of_lt hlt
              · refine Or.inr ⟨r, heq, ?_, ?_, ?_⟩
                · rcases hmem with hr | ⟨hrmem, hrt⟩
                  · rw [Option.some_inj] at hr
                    exact Or.inr
                      ⟨by rw [← hr]; exact List.mem_cons_self _ _,
                        by rw [← hr]; exact hat⟩
                  · exact Or.inr ⟨List.mem_cons_of_mem _ hrmem, hrt⟩
                · intro b hb hbt
                  rcases List.mem_cons.mp hb with rfl | hbr
                  · exact hminb _ rfl
                  · exact hminl b hbr hbt
                · intro b hb
                  rw [Option.some_inj] at hb
                  rw [← hb]
                  exact le_trans (hminb a rfl) (le_of_lt hlt)
            · rw [if_neg hlt]
              rcases ih (some b0) with ⟨heq, hno⟩ |
                ⟨r, heq, hmem, hminl, hminb⟩
              · refine Or.inr ⟨b0, heq, Or.inl rfl, ?_, ?_⟩
                · intro b hb hbt
                  rcases List.mem_cons.mp hb with rfl | hbr
                  · exact le_of_not_lt hlt
                  · exact absurd hbt (hno b hbr)
                · intro b hb
                  rw [Option.some_inj] at hb
                  rw [← hb]
              · refine Or.inr ⟨r, heq, ?_, ?_, ?_⟩
                · rcases hmem with hr | ⟨hrmem, hrt⟩
                  · rw [Option.some_inj] at hr
                    exact Or.inl (by rw [hr])
                  · exact Or.inr ⟨List.mem_cons_of_mem _ hrmem, hrt⟩
                · intro b hb hbt
                  rcases List.mem_cons.mp hb with rfl | hbr
                  · exact le_trans (hminb b0 rfl) (le_of_not_lt hlt)
                  · exact hminl b hbr hbt
                · intro b hb
                  rw [Option.some_inj] at hb
                  rw [← hb]
                  exact hminb b0 rfl
      · rw [minArcStep_eq_of_ne t best a hat]
        rcases ih best with ⟨heq, hno⟩ | ⟨r, heq, hmem, hminl, hminb⟩
        · refine Or.inl ⟨heq, ?_⟩
          intro b hb
          rcases List.mem_cons.mp hb with rfl | hbr
          · exact hat
          · exact hno b hbr
        · refine Or.inr ⟨r, heq, ?_, ?_, hminb⟩
          · rcases hmem with hr | ⟨hrmem, hrt⟩
            · exact Or.inl hr
            · exact Or.inr ⟨List.mem_cons_of_mem _ hrmem, hrt⟩
          · intro b hb hbt
            rcases List.mem_cons.mp hb with rfl | hbr
            · exact absurd hbt hat
            · exact hminl b hbr hbt

theorem minArcBetween_spec (clat : CompactLattice) (s t : ℕ)
    (hex : ∃ a ∈ clat.arcsAt s, a.nextstate = t) :
    ∃ r, minArcBetween clat s t = some r ∧ r ∈ clat.arcsAt s ∧
      r.nextstate = t ∧
      ∀ b ∈ clat.arcsAt s, b.nextstate = t →
        ConvertToCost r.weight ≤ ConvertToCost b.weight := by
  obtain ⟨a0, ha0, ha0t⟩ := hex
  unfold minArcBetween
  rcases minArc_fold t (clat.arcsAt s) none with ⟨_, hno⟩ |
    ⟨r, heq, hmem, hminl, _⟩
  · exact absurd ha0t (hno a0 ha0)
  · rcases hmem with hr | ⟨hrmem, hrt⟩
    · exact absurd hr (by simp)
    · exact ⟨r, heq, hrmem, hrt, hminl⟩

theorem chainArcs_path (clat : CompactLattice)
    (tbl : List (Cost × Option ℕ)) :
    ∀ sts : List ℕ, sts ≠ [] → ChainLinks clat tbl sts →
      PathIn clat (sts.getD 0 0) (chainArcs clat sts)
        (sts.getD (sts.length - 1) 0) := by
  intro sts
  induction sts with
  | nil => intro h; exact absurd rfl h
  | cons x rest ih =>
      intro _ hch
      cases rest with
      | nil => exact PathIn.nil x
      | cons y rest2 =>
          have hlink := hch 0 (by simp)
          simp only [List.getD_cons_zero, List.getD_cons_succ] at hlink
          obtain ⟨a, ha, han, _⟩ := hlink
          obtain ⟨r, hr, hrmem, hrt, _⟩ :=
            minArcBetween_spec clat x y ⟨a, ha, han⟩
          have hca : chainArcs clat (x :: y :: rest2) =
              r :: chainArcs clat (y :: rest2) := by
            show (match minArcBetween clat x y with
              | some a => [a]
              | none => []) ++ chainArcs clat (y :: rest2) = _
            rw [hr]
            rfl
          have hp2 := ih (by simp)
            (chainLinks_tail clat tbl x (y :: rest2) hch)
          simp only [List.getD_cons_zero, List.length_cons] at hp2
          have hidx2 : rest2.length + 1 - 1 = rest2.length := by omega
          rw [hidx2] at hp2
          simp only [List.getD_cons_zero, List.length_cons]
          have hidx : rest2.length + 1 + 1 - 1 = rest2.length + 1 := by
            omega
          rw [hidx, List.getD_cons_succ, hca]
          refine PathIn.cons r hrmem ?_
          rw [hrt]
          exact hp2

theorem chainArcs_cost (clat : CompactLattice)
    (tbl : List (Cost × Option ℕ)) :
    ∀ sts : List ℕ, sts ≠ [] → ChainLinks clat tbl sts →
      (tbl.getD (sts.getD 0 0) spNil).1 +
          pathCost (chainArcs clat sts) ≤
        (tbl.getD (sts.getD (sts.length - 1) 0) spNil).1 := by
  intro sts
  induction sts with
  | nil => intro h; exact absurd rfl h
  | cons x rest ih =>
      intro _ hch
      cases rest with
      | nil =>
          show (tbl.getD x spNil).1 +
            pathCost ([] : List CompactLatticeArc) ≤ (tbl.getD x spNil).1
          rw [pathCost_nil, add_zero]
      | cons y rest2 =>
          have hlink := hch 0 (by simp)
          simp only [List.getD_cons_zero, List.getD_cons_succ] at hlink
          obtain ⟨p, hp, hpt, hval⟩ := hlink
          obtain ⟨r, hr, _, _, hmin⟩ :=
            minArcBetween_spec clat x y ⟨p, hp, hpt⟩
          have hrle : ConvertToCost r.weight ≤ ConvertToCost p.weight :=
            hmin p hp hpt
          have hca : chainArcs clat (x :: y :: rest2) =
              r :: chainArcs clat (y :: rest2) := by
            show (match minArcBetween clat x y with
              | some a => [a]
              | none => []) ++ chainArcs clat (y :: rest2) = _
            rw [hr]
            rfl
          have hp2 := ih (by simp)
            (chainLinks_tail clat tbl x (y :: rest2) hch)
          simp only [List.getD_cons_zero, List.length_cons] at hp2
          have hidx2 : rest2.length + 1 - 1 = rest2.length := by omega
          rw [hidx2] at hp2
          simp only [List.getD_cons_zero, List.length_cons]
          have hidx : rest2.length + 1 + 1 - 1 = rest2.length + 1 := by
            omega
          rw [hidx, List.getD_cons_succ, hca, pathCost_cons]
          calc (tbl.getD x spNil).1 +
              (ConvertToCost r.weight +
                pathCost (chainArcs clat (y :: rest2)))
              = ((tbl.getD x spNil).1 + ConvertToCost r.weight) +
                pathCost (chainArcs clat (y :: rest2)) := by
                rw [add_assoc]
            _ ≤ ((tbl.getD x spNil).1 + ConvertToCost p.weight) +
                pathCost (chainArcs clat (y :: rest2)) :=
              add_le_add_right (add_le_add_left hrle _) _
            _ = (tbl.getD y spNil).1 +
                pathCost (chainArcs clat (y :: rest2)) := by
              rw [← hval]
            _ ≤ (tbl.getD ((y :: rest2).getD rest2.length 0) spNil).1 :=
              hp2

theorem getD_range (n i : ℕ) (h : i < n) (d : ℕ) :
    (List.range n).getD i d = i := by
  rw [List.getD_eq_getElem _ _ (by simpa using h)]
  simp

theorem mapM_option_eq_map {α β : Type} (f : α → Option β) (g : α → β) :
    ∀ l : List α, (∀ a ∈ l, f a = some (g a)) →
      l.mapM f = some (l.map g) := by
  intro l
  induction l with
  | nil => intro _; rfl
  | cons a rest ih =>
      intro h
      rw [List.map_cons, List.mapM_cons, h a (List.mem_cons_self _ _),
        ih (fun b hb => h b (List.mem_cons_of_mem _ hb))]
      rfl

theorem spBuild_spec (clat : CompactLattice) (sts : List ℕ)
    (h : ∀ i, i + 1 < sts.length →
      ∃ r, minArcBetween clat (sts.getD i 0) (sts.getD (i + 1) 0) =
        some r) :
    spBuild clat sts = some
      ⟨(List.range sts.length).map (spBuildArcs clat sts),
        (List.range sts.length).map (spBuildFinals clat sts)⟩ := by
  unfold spBuild
  rw [mapM_option_eq_map _ (spBuildArcs clat sts) _ ?hall]
  case hall =>
    intro i hi
    rw [List.mem_range] at hi
    unfold spBuildArcs
    by_cases hlt : i + 1 < sts.length
    · obtain ⟨r, hr⟩ := h i hlt
      rw [if_pos hlt, if_pos hlt, hr]
    · rw [if_neg hlt, if_neg hlt]

theorem spBuild_cost_sum (clat : CompactLattice) :
    ∀ sts : List ℕ,
      (∀ i, i + 1 < sts.length →
        ∃ r, minArcBetween clat (sts.getD i 0) (sts.getD (i + 1) 0) =
          some r) →
      ((List.range sts.length).map (fun i =>
          ((spBuildArcs clat sts i).map fun a =>
            ConvertToCost a.weight).sum)).sum =
        pathCost (chainArcs clat sts) := by
  intro sts
  induction sts with
  | nil => intro _; rfl
  | cons x rest ih =>
      intro hex
      cases rest with
      | nil =>
          have h1 : spBuildArcs clat [x] 0 = [] := by
            unfold spBuildArcs
            rw [if_neg (by simp)]
          rw [show chainArcs clat [x] = [] from rfl, pathCost_nil]
          simp [show List.range 1 = [0] from rfl, h1]
      | cons y rest2 =>
          obtain ⟨r, hr⟩ := hex 0 (by simp)
          simp only [List.getD_cons_zero, List.getD_cons_succ] at hr
          have hca : chainArcs clat (x :: y :: rest2) =
              r :: chainArcs clat (y :: rest2) := by
            show (match minArcBetween clat x y with
              | some a => [a]
              | none => []) ++ chainArcs clat (y :: rest2) = _
            rw [hr]
            rfl
          rw [hca, pathCost_cons]
          simp only [List.length_cons]
          rw [List.range_succ_eq_map, List.map_cons, List.sum_cons,
            List.map_map]
          have h0c : ((spBuildArcs clat (x :: y :: rest2) 0).map fun a =>
              ConvertToCost a.weight).sum = ConvertToCost r.weight := by
            unfold spBuildArcs
            simp only [List.getD_cons_zero, List.getD_cons_succ,
              List.length_cons]
            rw [if_pos (by omega), hr]
            simp
          have hshift : ∀ i,
              ((spBuildArcs clat (x :: y :: rest2) (i + 1)).map fun a =>
                ConvertToCost a.weight).sum =
              ((spBuildArcs clat (y :: rest2) i).map fun a =>
                ConvertToCost a.weight).sum := by
            intro i
            unfold spBuildArcs
            simp only [List.length_cons, List.getD_cons_succ]
            by_cases hi : i + 1 < rest2.length + 1
            · rw [if_pos (by omega), if_pos hi]
              cases hma : minArcBetween clat ((y :: rest2).getD i 0)
                  (rest2.getD i 0) with
              | none => rfl
              | some a => rfl
            · rw [if_neg (by omega), if_neg hi]
          have htail : (List.range (rest2.length + 1)).map
              ((fun i => ((spBuildArcs clat (x :: y :: rest2) i).map
                fun a => ConvertToCost a.weight).sum) ∘ Nat.succ) =
              (List.range (rest2.length + 1)).map
                (fun i => ((spBuildArcs clat (y :: rest2) i).map
                  fun a => ConvertToCost a.weight).sum) := by
            refine List.map_congr_left ?_
            intro i _
            show ((spBuildArcs clat (x :: y :: rest2) (i + 1)).map
              fun a => ConvertToCost a.weight).sum = _
            exact hshift i
          have hex2 : ∀ i, i + 1 < (y :: rest2).length →
              ∃ r2, minArcBetween clat ((y :: rest2).getD i 0)
                ((y :: rest2).getD (i + 1) 0) = some r2 := by
            intro i hi
            have := hex (i + 1) (by simp at hi ⊢; omega)
            simpa [List.getD_cons_succ] using this
          have := ih hex2
          simp only [List.length_cons] at this
          rw [h0c, htail, this]

theorem spOut_cost (clat : CompactLattice) (sts : List ℕ) (hne : sts ≠ [])
    (hex : ∀ i, i + 1 < sts.length →
      ∃ r, minArcBetween clat (sts.getD i 0) (sts.getD (i + 1) 0) =
        some r) :
    linTotalCost ⟨(List.range sts.length).map (spBuildArcs clat sts),
        (List.range sts.length).map (spBuildFinals clat sts)⟩ =
      pathCost (chainArcs clat sts) +
        ConvertToCost (clat.finalW (sts.getD (sts.length - 1) 0)) := by
  have hpos : 0 < sts.length := List.length_pos.mpr hne
  unfold linTotalCost
  show (((List.range sts.length).map (spBuildArcs clat sts)).map
      fun l => (l.map fun a => ConvertToCost a.weight).sum).sum +
    ConvertToCost
      (((List.range sts.length).map (spBuildFinals clat sts)).getD
        (((List.range sts.length).map (spBuildArcs clat sts)).length - 1)
        (Wzero CompactLatticeWeight)) = _
  simp only [List.length_map, List.length_range]
  have h2 : ((List.range sts.length).map (spBuildFinals clat sts)).getD
      (sts.length - 1) (Wzero CompactLatticeWeight) =
      clat.finalW (sts.getD (sts.length - 1) 0) := by
    rw [getD_map_lt _ _ _ (by simp; omega) _ 0,
      getD_range sts.length (sts.length - 1) (by omega) 0]
    unfold spBuildFinals
    rw [if_neg (by omega)]
  rw [h2, List.map_map]
  have hcomp : ((fun l : List CompactLatticeArc =>
      (l.map fun a => ConvertToCost a.weight).sum) ∘
        spBuildArcs clat sts) =
      fun i => ((spBuildArcs clat sts i).map fun a =>
        ConvertToCost a.weight).sum := rfl
  rw [hcomp, spBuild_cost_sum clat sts hex]

/-- C3: on a topologically sorted compact lattice with a complete path of
finite total cost, `CompactLatticeShortestPath` emits a single linear
lattice — one state per walked state, exactly the minimum-cost parallel
arc between consecutive walked states and no other arcs — whose total
cost (arc costs plus the final cost of its last state) equals the
minimum, over all start-to-final paths of the input, of path cost plus
final cost. -/
theorem claim_C3 (clat : CompactLattice) (P : List CompactLatticeArc)
    (f : ℕ) (hT : clat.TopSortedB = true) (hW : clat.WFB = true)
    (hpath : PathIn clat 0 P f)
    (hfin : pathCost P + ConvertToCost (clat.finalW f) ≠ ⊤) :
    ∃ (out : CompactLattice) (sts : List ℕ),
      CompactLatticeShortestPath clat = some out ∧
      sts ≠ [] ∧
      out.numStates = sts.length ∧
      (∀ i, i + 1 < sts.length →
        ∃ a, minArcBetween clat (sts.getD i 0) (sts.getD (i + 1) 0) =
            some a ∧
          out.arcsAt i = [⟨a.ilabel, a.olabel, a.weight, i + 1⟩] ∧
          a ∈ clat.arcsAt (sts.getD i 0) ∧
          a.nextstate = sts.getD (i + 1) 0 ∧
          ∀ b ∈ clat.arcsAt (sts.getD i 0),
            b.nextstate = sts.getD (i + 1) 0 →
              ConvertToCost a.weight ≤ ConvertToCost b.weight) ∧
      (∀ i, sts.length ≤ i + 1 → out.arcsAt i = []) ∧
      (∀ (Q : List CompactLatticeArc) (g : ℕ), PathIn clat 0 Q g →
        linTotalCost out ≤ pathCost Q + ConvertToCost (clat.finalW g)) ∧
      (∃ (Q : List CompactLatticeArc) (g : ℕ), PathIn clat 0 Q g ∧
        linTotalCost out = pathCost Q + ConvertToCost (clat.finalW g)) := by
  have hTS : clat.TopSorted := (topSortedB_iff clat).mp hT
  have hzero_top : ConvertToCost (Wzero CompactLatticeWeight) = ⊤ :=
    top_add _
  have hn : clat.numStates ≠ 0 := by
    intro h0
    cases hpath with
    | nil =>
        apply hfin
        rw [pathCost_nil, zero_add]
        have hfw : clat.finalW 0 = Wzero CompactLatticeWeight := by
          unfold Fst.finalW
          refine getD_oob _ _ _ ?_
          have := (wfb_iff clat).mp hW
          unfold Fst.numStates at h0
          omega
        rw [hfw, hzero_top]
    | cons arc ha hp =>
        have := lt_of_arc_mem ha
        omega
  have hsf_le := spTable_superfinal_le clat hTS hn hpath
  have hsf_fin :
      ((spTable clat clat.numStates).getD clat.numStates spNil).1 ≠ ⊤ := by
    intro htop
    rw [htop, top_le_iff] at hsf_le
    exact hfin hsf_le
  obtain ⟨hnone, hsome⟩ := spTable_inv clat hTS clat.numStates
    (le_refl _) clat.numStates (le_refl _)
  cases hp2 :
      ((spTable clat clat.numStates).getD clat.numStates spNil).2 with
  | none =>
      rcases hnone hp2 with ⟨h0, _⟩ | htop
      · exact absurd h0 hn
      · exact absurd htop hsf_fin
  | some f0 =>
      obtain ⟨hf0lt, _, _, hfrel⟩ := hsome f0 hp2
      have hrel := hfrel rfl
      have hf0fin :
          ((spTable clat clat.numStates).getD f0 spNil).1 ≠ ⊤ := by
        intro htop
        rw [htop] at hrel
        exact hsf_fin (by rw [hrel]; exact top_add _)
      obtain ⟨l, hbt, hch, hhead, hmem⟩ :=
        spBacktrack_chain clat hTS (clat.numStates + 1) f0 hf0lt hf0fin
          (by omega)
      have hbtn : spBacktrack (spTable clat clat.numStates)
          (clat.numStates + 2) clat.numStates = some (l ++ [f0]) := by
        rw [spBacktrack_succ, if_neg hn, hp2]
        show (match spBacktrack (spTable clat clat.numStates)
            (clat.numStates + 1) f0 with
          | none => none
          | some l2 => some (l2 ++ [f0])) = some (l ++ [f0])
        rw [hbt]
      have hne : (l ++ [f0]) ≠ [] := by simp
      have hlastf : (l ++ [f0]).getD ((l ++ [f0]).length - 1) 0 = f0 := by
        rw [List.length_append, List.length_singleton]
        have h : l.length + 1 - 1 = l.length := by omega
        rw [h]
        exact getD_append_len l f0 0
      have hminex : ∀ i, i + 1 < (l ++ [f0]).length →
          ∃ r, minArcBetween clat ((l ++ [f0]).getD i 0)
            ((l ++ [f0]).getD (i + 1) 0) = some r := by
        intro i hi
        obtain ⟨a, ha, han, _⟩ := hch i hi
        obtain ⟨r, hr, _, _, _⟩ :=
          minArcBetween_spec clat _ _ ⟨a, ha, han⟩
        exact ⟨r, hr⟩
      have hsp : CompactLatticeShortestPath clat = some
          ⟨(List.range (l ++ [f0]).length).map
              (spBuildArcs clat (l ++ [f0])),
            (List.range (l ++ [f0]).length).map
              (spBuildFinals clat (l ++ [f0]))⟩ := by
        unfold CompactLatticeShortestPath
        rw [if_neg (not_not_intro hT), if_neg hn, hbtn]
        exact spBuild_spec clat (l ++ [f0]) hminex
      have hQ0 := chainArcs_path clat (spTable clat clat.numStates)
        (l ++ [f0]) hne hch
      rw [hhead, hlastf] at hQ0
      have hstart :
          ((spTable clat clat.numStates).getD 0 spNil).1 = 0 := by
        rw [spTable_start clat hTS clat.numStates (le_refl _)]
      have hcost_le := chainArcs_cost clat (spTable clat clat.numStates)
        (l ++ [f0]) hne hch
      rw [hhead, hlastf, hstart, zero_add] at hcost_le
      have hout_cost := spOut_cost clat (l ++ [f0]) hne hminex
      rw [hlastf] at hout_cost
      have hout_le : linTotalCost
          ⟨(List.range (l ++ [f0]).length).map
              (spBuildArcs clat (l ++ [f0])),
            (List.range (l ++ [f0]).length).map
              (spBuildFinals clat (l ++ [f0]))⟩ ≤
          ((spTable clat clat.numStates).getD clat.numStates spNil).1 := by
        rw [hout_cost, hrel]
        exact add_le_add_right hcost_le _
      have hout_ge :
          ((spTable clat clat.numStates).getD clat.numStates spNil).1 ≤
          linTotalCost
            ⟨(List.range (l ++ [f0]).length).map
                (spBuildArcs clat (l ++ [f0])),
              (List.range (l ++ [f0]).length).map
                (spBuildFinals clat (l ++ [f0]))⟩ := by
        rw [hout_cost]
        exact spTable_superfinal_le clat hTS hn hQ0
      have hout_eq := le_antisymm hout_le hout_ge
      refine ⟨⟨(List.range (l ++ [f0]).length).map
            (spBuildArcs clat (l ++ [f0])),
          (List.range (l ++ [f0]).length).map
            (spBuildFinals clat (l ++ [f0]))⟩,
        l ++ [f0], hsp, hne, ?_, ?_, ?_, ?_, ?_⟩
      · show ((List.range (l ++ [f0]).length).map
          (spBuildArcs clat (l ++ [f0]))).length = (l ++ [f0]).length
        simp
      · intro i hi
        obtain ⟨a, ha, han, _⟩ := hch i hi
        obtain ⟨r, hr, hrmem, hrt, hrmin⟩ :=
          minArcBetween_spec clat _ _ ⟨a, ha, han⟩
        refine ⟨r, hr, ?_, hrmem, hrt, hrmin⟩
        show ((List.range (l ++ [f0]).length).map
            (spBuildArcs clat (l ++ [f0]))).getD i [] =
          [⟨r.ilabel, r.olabel, r.weight, i + 1⟩]
        rw [getD_map_lt _ _ i (by simp only [List.length_range]; omega)
            [] 0,
          getD_range (l ++ [f0]).length i (by omega) 0]
        unfold spBuildArcs
        rw [if_pos hi, hr]
      · intro i hi
        by_cases hilen : i < (l ++ [f0]).length
        · show ((List.range (l ++ [f0]).length).map
              (spBuildArcs clat (l ++ [f0]))).getD i [] = []
          rw [getD_map_lt _ _ i (by simpa using hilen) [] 0,
            getD_range (l ++ [f0]).length i hilen 0]
          unfold spBuildArcs
          rw [if_neg (by omega)]
        · show ((List.range (l ++ [f0]).length).map
              (spBuildArcs clat (l ++ [f0]))).getD i [] = []
          exact getD_oob _ _ _
            (by simp only [List.length_map, List.length_range]; omega)
      · intro Q g hQ
        rw [hout_eq]
        exact spTable_superfinal_le clat hTS hn hQ
      · exact ⟨chainArcs clat (l ++ [f0]), f0, hQ0, hout_cost⟩

/-- Witness for C3 at the two-arc lattice `exC3`. -/
theorem claim_C3_witness :
    ∃ (out : CompactLattice) (sts : List ℕ),
      CompactLatticeShortestPath exC3 = some out ∧
      sts ≠ [] ∧
      out.numStates = sts.length ∧
      (∀ i, i + 1 < sts.length →
        ∃ a, minArcBetween exC3 (sts.getD i 0) (sts.getD (i + 1) 0) =
            some a ∧
          out.arcsAt i = [⟨a.ilabel, a.olabel, a.weight, i + 1⟩] ∧
          a ∈ exC3.arcsAt (sts.getD i 0) ∧
          a.nextstate = sts.getD (i + 1) 0 ∧
          ∀ b ∈ exC3.arcsAt (sts.getD i 0),
            b.nextstate = sts.getD (i + 1) 0 →
              ConvertToCost a.weight ≤ ConvertToCost b.weight) ∧
      (∀ i, sts.length ≤ i + 1 → out.arcsAt i = []) ∧
      (∀ (Q : List CompactLatticeArc) (g : ℕ), PathIn exC3 0 Q g →
        linTotalCost out ≤ pathCost Q + ConvertToCost (exC3.finalW g)) ∧
      (∃ (Q : List CompactLatticeArc) (g : ℕ), PathIn exC3 0 Q g ∧
        linTotalCost out = pathCost Q + ConvertToCost (exC3.finalW g)) :=
  claim_C3 exC3 [⟨1, 1, ⟨⟨1, 0⟩, [0]⟩, 1⟩] 1 (by decide) (by decide)
    (PathIn.cons _ (by decide) (PathIn.nil 1))
    (by with_unfolding_all decide)

/-- Counterexample for C5 as stated: `exC5` has per-frame depth `2` at
frame `0`, coming entirely from the two final-weight strings, yet
`CompactLatticeLimitDepth 1` returns it unchanged — the kill loop only
prunes arcs, never final-weight strings, so the claimed bound
`depth_per_frame[t] ≤ D` fails for `D = 1` even though `D ≥ 1`. -/
theorem claim_C5_counterexample :
    CompactLatticeLimitDepth 1 exC5 = some exC5 ∧
    CompactLatticeDepthPerFrame exC5 = some [2] ∧
    ¬ (∀ x ∈ [2], x ≤ 1) ∧ 1 ≤ 1 := by
  refine ⟨by with_unfolding_all decide, by with_unfolding_all decide,
    by decide, by decide⟩

theorem clArcTimesLoop_length (cur : ℤ) :
    ∀ (arcs : List CompactLatticeArc) (times times1 : List ℤ),
      clArcTimesLoop cur arcs times = some times1 →
      times1.length = times.length := by
  intro arcs
  induction arcs with
  | nil => intro times times1 h; simp [clArcTimesLoop] at h; rw [h]
  | cons arc rest ih =>
      intro times times1 h
      unfold clArcTimesLoop at h
      by_cases h1 : times.getD arc.nextstate (-1) = -1
      · rw [if_pos h1] at h
        have := ih _ _ h
        simpa using this
      · rw [if_neg h1] at h
        by_cases h2 : times.getD arc.nextstate (-1) =
            cur + (arc.weight.string.length : ℤ)
        · rw [if_pos h2] at h
          exact ih _ _ h
        · rw [if_neg h2] at h
          exact absurd h (by simp)

theorem clArcTimesLoop_stable (cur : ℤ) (w : ℕ) (d : ℤ) :
    ∀ (arcs : List CompactLatticeArc) (times times1 : List ℤ),
      (∀ a ∈ arcs, a.nextstate ≠ w) →
      clArcTimesLoop cur arcs times = some times1 →
      times1.getD w d = times.getD w d := by
  intro arcs
  induction arcs with
  | nil => intro times times1 _ h; simp [clArcTimesLoop] at h; rw [h]
  | cons arc rest ih =>
      intro times times1 hns h
      have hw := hns arc (List.mem_cons_self _ _)
      have hns' := fun b hb => hns b (List.mem_cons_of_mem _ hb)
      unfold clArcTimesLoop at h
      by_cases h1 : times.getD arc.nextstate (-1) = -1
      · rw [if_pos h1] at h
        rw [ih _ _ hns' h, getD_set_ne _ _ _ _ _ hw]
      · rw [if_neg h1] at h
        by_cases h2 : times.getD arc.nextstate (-1) =
            cur + (arc.weight.string.length : ℤ)
        · rw [if_pos h2] at h
          exact ih _ _ hns' h
        · rw [if_neg h2] at h
          exact absurd h (by simp)

theorem clArcTimesLoop_preserve (cur : ℤ) (w : ℕ) :
    ∀ (arcs : List CompactLatticeArc) (times times1 : List ℤ),
      times.getD w (-1) ≠ -1 →
      clArcTimesLoop cur arcs times = some times1 →
      times1.getD w (-1) = times.getD w (-1) := by
  intro arcs
  induction arcs with
  | nil => intro times times1 _ h; simp [clArcTimesLoop] at h; rw [h]
  | cons arc rest ih =>
      intro times times1 hw h
      unfold clArcTimesLoop at h
      by_cases h1 : times.getD arc.nextstate (-1) = -1
      · rw [if_pos h1] at h
        have hne : arc.nextstate ≠ w := by
          intro he
          rw [he] at h1
          exact hw h1
        have hw' : (times.set arc.nextstate
            (cur + (arc.weight.string.length : ℤ))).getD w (-1) ≠ -1 := by
          rw [getD_set_ne _ _ _ _ _ hne]
          exact hw
        rw [ih _ _ hw' h, getD_set_ne _ _ _ _ _ hne]
      · rw [if_neg h1] at h
        by_cases h2 : times.getD arc.nextstate (-1) =
            cur + (arc.weight.string.length : ℤ)
        · rw [if_pos h2] at h
          exact ih _ _ hw h
        · rw [if_neg h2] at h
          exact absurd h (by simp)

theorem clArcTimesLoop_eq (cur : ℤ) (hcur : 0 ≤ cur) :
    ∀ (arcs : List CompactLatticeArc) (times times1 : List ℤ),
      (∀ a ∈ arcs, a.nextstate < times.length) →
      clArcTimesLoop cur arcs times = some times1 →
      ∀ a ∈ arcs, times1.getD a.nextstate (-1) =
        cur + (a.weight.string.length : ℤ) := by
  intro arcs
  induction arcs with
  | nil => intro times times1 _ _ a ha; exact absurd ha (List.not_mem_nil a)
  | cons arc rest ih =>
      intro times times1 hb h a ha
      have hblen := hb arc (List.mem_cons_self _ _)
      have hb' : ∀ b ∈ rest, b.nextstate < times.length :=
        fun b hbm => hb b (List.mem_cons_of_mem _ hbm)
      unfold clArcTimesLoop at h
      by_cases h1 : times.getD arc.nextstate (-1) = -1
      · rw [if_pos h1] at h
        have hb2 : ∀ b ∈ rest, b.nextstate <
            (times.set arc.nextstate
              (cur + (arc.weight.string.length : ℤ))).length := by
          intro b hbm
          simpa using hb' b hbm
        rcases List.mem_cons.mp ha with rfl | hmem
        · have hset : (times.set a.nextstate
              (cur + (a.weight.string.length : ℤ))).getD a.nextstate (-1) =
              cur + (a.weight.string.length : ℤ) :=
            getD_set_self _ _ _ _ hblen
          have hnn : (times.set a.nextstate
              (cur + (a.weight.string.length : ℤ))).getD a.nextstate (-1) ≠
              -1 := by
            rw [hset]
            omega
          rw [clArcTimesLoop_preserve cur a.nextstate rest _ _ hnn h, hset]
        · exact ih _ _ hb2 h a hmem
      · rw [if_neg h1] at h
        by_cases h2 : times.getD arc.nextstate (-1) =
            cur + (arc.weight.string.length : ℤ)
        · rw [if_pos h2] at h
          rcases List.mem_cons.mp ha with rfl | hmem
          · have hnn : times.getD a.nextstate (-1) ≠ -1 := h1
            rw [clArcTimesLoop_preserve cur a.nextstate rest _ _ hnn h, h2]
          · exact ih _ _ hb' h a hmem
        · rw [if_neg h2] at h
          exact absurd h (by simp)

theorem clStateTimesLoop_append (clat : CompactLattice) :
    ∀ (l1 l2 : List ℕ) (st : List ℤ × ℤ),
      clStateTimesLoop clat (l1 ++ l2) st =
        match clStateTimesLoop clat l1 st with
        | none => none
        | some st1 => clStateTimesLoop clat l2 st1 := by
  intro l1
  induction l1 with
  | nil => intro l2 st; rfl
  | cons s rest ih =>
      intro l2 st
      obtain ⟨tv, u⟩ := st
      rw [List.cons_append]
      show (match clArcTimesLoop (tv.getD s (-1)) (clat.arcsAt s) tv with
        | none => none
        | some times1 =>
            clStateTimesLoop clat (rest ++ l2) (times1,
              if clat.finalW s ≠ Wzero CompactLatticeWeight then
                if u = -1 then
                  times1.getD s (-1) + ((clat.finalW s).string.length : ℤ)
                else
                  max u (times1.getD s (-1) +
                    ((clat.finalW s).string.length : ℤ))
              else u)) =
        match (match clArcTimesLoop (tv.getD s (-1))
            (clat.arcsAt s) tv with
          | none => none
          | some times1 =>
              clStateTimesLoop clat rest (times1,
                if clat.finalW s ≠ Wzero CompactLatticeWeight then
                  if u = -1 then
                    times1.getD s (-1) +
                      ((clat.finalW s).string.length : ℤ)
                  else
                    max u (times1.getD s (-1) +
                      ((clat.finalW s).string.length : ℤ))
                else u)) with
        | none => none
        | some st1 => clStateTimesLoop clat l2 st1
      cases ha : clArcTimesLoop (tv.getD s (-1)) (clat.arcsAt s) tv with
      | none => rfl
      | some t1 =>
          show clStateTimesLoop clat (rest ++ l2) (t1,
              if clat.finalW s ≠ Wzero CompactLatticeWeight then
                if u = -1 then
                  t1.getD s (-1) + ((clat.finalW s).string.length : ℤ)
                else
                  max u (t1.getD s (-1) +
                    ((clat.finalW s).string.length : ℤ))
              else u) =
            match clStateTimesLoop clat rest (t1,
              if clat.finalW s ≠ Wzero CompactLatticeWeight then
                if u = -1 then
                  t1.getD s (-1) + ((clat.finalW s).string.length : ℤ)
                else
                  max u (t1.getD s (-1) +
                    ((clat.finalW s).string.length : ℤ))
              else u) with
            | none => none
            | some st1 => clStateTimesLoop clat l2 st1
          rw [ih]

theorem clStateTimesLoop_length (clat : CompactLattice) :
    ∀ (sts : List ℕ) (tv : List ℤ) (u : ℤ) (tv1 : List ℤ) (u1 : ℤ),
      clStateTimesLoop clat sts (tv, u) = some (tv1, u1) →
      tv1.length = tv.length := by
  intro sts
  induction sts with
  | nil =>
      intro tv u tv1 u1 h
      simp only [clStateTimesLoop, Option.some.injEq, Prod.mk.injEq] at h
      rw [h.1]
  | cons s rest ih =>
      intro tv u tv1 u1 h
      unfold clStateTimesLoop at h
      cases ha : clArcTimesLoop (tv.getD s (-1)) (clat.arcsAt s) tv with
      | none => rw [ha] at h; exact absurd h (by simp)
      | some t1 =>
          rw [ha] at h
          exact (ih t1 _ tv1 u1 h).trans (clArcTimesLoop_length _ _ _ _ ha)

theorem clStateTimesLoop_stable (clat : CompactLattice) (w : ℕ) (d : ℤ) :
    ∀ (sts : List ℕ) (tv : List ℤ) (u : ℤ) (tv1 : List ℤ) (u1 : ℤ),
      (∀ m ∈ sts, ∀ a ∈ clat.arcsAt m, a.nextstate ≠ w) →
      clStateTimesLoop clat sts (tv, u) = some (tv1, u1) →
      tv1.getD w d = tv.getD w d := by
  intro sts
  induction sts with
  | nil =>
      intro tv u tv1 u1 _ h
      simp only [clStateTimesLoop, Option.some.injEq, Prod.mk.injEq] at h
      rw [h.1]
  | cons s rest ih =>
      intro tv u tv1 u1 hns h
      unfold clStateTimesLoop at h
      cases ha : clArcTimesLoop (tv.getD s (-1)) (clat.arcsAt s) tv with
      | none => rw [ha] at h; exact absurd h (by simp)
      | some t1 =>
          rw [ha] at h
          rw [ih t1 _ tv1 u1
            (fun m hm => hns m (List.mem_cons_of_mem _ hm)) h]
          exact clArcTimesLoop_stable _ _ _ _ _ _
            (hns s (List.mem_cons_self _ _)) ha

theorem clStateTimesLoop_preserve (clat : CompactLattice) (w : ℕ) :
    ∀ (sts : List ℕ) (tv : List ℤ) (u : ℤ) (tv1 : List ℤ) (u1 : ℤ),
      tv.getD w (-1) ≠ -1 →
      clStateTimesLoop clat sts (tv, u) = some (tv1, u1) →
      tv1.getD w (-1) = tv.getD w (-1) := by
  intro sts
  induction sts with
  | nil =>
      intro tv u tv1 u1 _ h
      simp only [clStateTimesLoop, Option.some.injEq, Prod.mk.injEq] at h
      rw [h.1]
  | cons s rest ih =>
      intro tv u tv1 u1 hw h
      unfold clStateTimesLoop at h
      cases ha : clArcTimesLoop (tv.getD s (-1)) (clat.arcsAt s) tv with
      | none => rw [ha] at h; exact absurd h (by simp)
      | some t1 =>
          rw [ha] at h
          have h1 := clArcTimesLoop_preserve _ _ _ _ _ hw ha
          have hw1 : t1.getD w (-1) ≠ -1 := by rw [h1]; exact hw
          rw [ih t1 _ tv1 u1 hw1 h, h1]

theorem clStateTimes_unfold (clat : CompactLattice) (T : ℤ)
    (tv : List ℤ) (h : CompactLatticeStateTimes clat = some (T, tv)) :
    clat.TopSortedB = true ∧ clat.numStates ≠ 0 ∧
    (∃ u, clStateTimesLoop clat (List.range clat.numStates)
      ((List.replicate clat.numStates (-1 : ℤ)).set 0 0, -1) =
        some (tv, u)) ∧
    tv.length = clat.numStates := by
  unfold CompactLatticeStateTimes at h
  by_cases h1 : clat.TopSortedB = true
  · rw [if_neg (by simp [h1])] at h
    by_cases h2 : clat.numStates = 0
    · rw [if_pos h2] at h
      exact absurd h (by simp)
    · rw [if_neg h2] at h
      cases hloop : clStateTimesLoop clat (List.range clat.numStates)
          ((List.replicate clat.numStates (-1 : ℤ)).set 0 0, -1) with
      | none => rw [hloop] at h; exact absurd h (by simp)
      | some st =>
          obtain ⟨tv0, u0⟩ := st
          rw [hloop] at h
          have h0 : (if u0 = -1 then some ((0 : ℤ), tv0)
              else some (u0, tv0)) = some (T, tv) := h
          have hlen := clStateTimesLoop_length clat _ _ _ _ _ hloop
          simp only [List.length_set, List.length_replicate] at hlen
          by_cases hu : u0 = -1
          · rw [if_pos hu] at h0
            simp only [Option.some.injEq, Prod.mk.injEq] at h0
            refine ⟨h1, h2, ⟨u0, ?_⟩, ?_⟩
            · rw [h0.2]
            · rw [← h0.2]; exact hlen
          · rw [if_neg hu] at h0
            simp only [Option.some.injEq, Prod.mk.injEq] at h0
            refine ⟨h1, h2, ⟨u0, ?_⟩, ?_⟩
            · rw [h0.2]
            · rw [← h0.2]; exact hlen
  · rw [if_pos (by simpa using h1)] at h
    exact absurd h (by simp)

theorem pathLen_nil : pathLen [] = 0 := rfl

theorem pathLen_cons (a : CompactLatticeArc) (p : List CompactLatticeArc) :
    pathLen (a :: p) = (a.weight.string.length : ℤ) + pathLen p := by
  unfold pathLen
  rw [List.map_cons, List.sum_cons]

theorem clTimes_arc_eq (clat : CompactLattice) (hT : clat.TopSorted)
    {T : ℤ} {tv : List ℤ}
    (h : CompactLatticeStateTimes clat = some (T, tv)) :
    ∀ s arc, arc ∈ clat.arcsAt s → 0 ≤ tv.getD s (-1) →
      tv.getD arc.nextstate (-1) =
        tv.getD s (-1) + (arc.weight.string.length : ℤ) := by
  obtain ⟨hTB, hn, ⟨u, hloop⟩, hlen⟩ := clStateTimes_unfold clat T tv h
  intro s arc ha hge
  have hs : s < clat.numStates := lt_of_arc_mem ha
  have hdec : List.range clat.numStates =
      (List.range s ++ [s]) ++
        (List.range (clat.numStates - (s + 1))).map ((s + 1) + ·) := by
    rw [← List.range_succ, ← List.range_add]
    congr 1
    omega
  rw [hdec, clStateTimesLoop_append] at hloop
  cases h1 : clStateTimesLoop clat (List.range s ++ [s])
      ((List.replicate clat.numStates (-1 : ℤ)).set 0 0, -1) with
  | none => rw [h1] at hloop; exact absurd hloop (by simp)
  | some stB =>
      obtain ⟨tvB, uB⟩ := stB
      rw [h1] at hloop
      have hloop2 : clStateTimesLoop clat
          ((List.range (clat.numStates - (s + 1))).map ((s + 1) + ·))
          (tvB, uB) = some (tv, u) := hloop
      rw [clStateTimesLoop_append] at h1
      cases h2 : clStateTimesLoop clat (List.range s)
          ((List.replicate clat.numStates (-1 : ℤ)).set 0 0, -1) with
      | none => rw [h2] at h1; exact absurd h1 (by simp)
      | some stA =>
          obtain ⟨tvA, uA⟩ := stA
          rw [h2] at h1
          have h1b : clStateTimesLoop clat [s] (tvA, uA) =
              some (tvB, uB) := h1
          unfold clStateTimesLoop at h1b
          cases h3 : clArcTimesLoop (tvA.getD s (-1))
              (clat.arcsAt s) tvA with
          | none => rw [h3] at h1b; exact absurd h1b (by simp)
          | some t1 =>
              rw [h3] at h1b
              have h1c : (some (t1,
                  if clat.finalW s ≠ Wzero CompactLatticeWeight then
                    if uA = -1 then
                      t1.getD s (-1) +
                        ((clat.finalW s).string.length : ℤ)
                    else
                      max uA (t1.getD s (-1) +
                        ((clat.finalW s).string.length : ℤ))
                  else uA) : Option (List ℤ × ℤ)) = some (tvB, uB) := h1b
              simp only [Option.some.injEq, Prod.mk.injEq] at h1c
              obtain ⟨ht1, _⟩ := h1c
              -- stability of entry s forward
              have hstb1 : t1.getD s (-1) = tvA.getD s (-1) :=
                clArcTimesLoop_stable _ s _ _ _ _
                  (fun a hm => by have := (hT s a hm).1; omega) h3
              have hsuffix : ∀ m ∈ (List.range
                  (clat.numStates - (s + 1))).map ((s + 1) + ·),
                  ∀ a ∈ clat.arcsAt m, a.nextstate ≠ s := by
                intro m hm a ham
                rw [List.mem_map] at hm
                obtain ⟨x, _, hx⟩ := hm
                have := (hT m a ham).1
                omega
              have hstb2 : tv.getD s (-1) = tvB.getD s (-1) :=
                clStateTimesLoop_stable clat s _ _ _ _ _ _ hsuffix hloop2
              have hcur : tvA.getD s (-1) = tv.getD s (-1) :=
                (hstb1.symm.trans (congrArg
                  (fun l : List ℤ => l.getD s (-1)) ht1)).trans hstb2.symm
              have hlenA : tvA.length = clat.numStates := by
                have := clStateTimesLoop_length clat _ _ _ _ _ h2
                simpa using this
              have harc : t1.getD arc.nextstate (-1) =
                  tvA.getD s (-1) + (arc.weight.string.length : ℤ) :=
                clArcTimesLoop_eq (tvA.getD s (-1))
                  (by rw [hcur]; exact hge) _ _ _
                  (fun a hm => by rw [hlenA]; exact (hT s a hm).2) h3
                  arc ha
              have hnn : t1.getD arc.nextstate (-1) ≠ -1 := by
                rw [harc, hcur]
                have : (0 : ℤ) ≤ (arc.weight.string.length : ℤ) :=
                  Int.natCast_nonneg _
                omega
              have hfin : tv.getD arc.nextstate (-1) =
                  t1.getD arc.nextstate (-1) := by
                rw [ht1] at hnn ⊢
                exact clStateTimesLoop_preserve clat _ _ _ _ _ _ hnn hloop2
              rw [hfin, harc, hcur]

theorem clTimes_start (clat : CompactLattice) {T : ℤ} {tv : List ℤ}
    (h : CompactLatticeStateTimes clat = some (T, tv)) :
    tv.getD 0 (-1) = 0 := by
  obtain ⟨hTB, hn, ⟨u, hloop⟩, hlen⟩ := clStateTimes_unfold clat T tv h
  have hinit : ((List.replicate clat.numStates (-1 : ℤ)).set 0 0).getD 0
      (-1) = 0 := by
    rw [getD_set_self _ _ _ _ (by simp; omega)]
  have hpr := clStateTimesLoop_preserve clat 0 _ _ _ _ _
    (by rw [hinit]; omega) hloop
  rw [hpr, hinit]

theorem clTimes_path (clat : CompactLattice) (hT : clat.TopSorted)
    {T : ℤ} {tv : List ℤ}
    (h : CompactLatticeStateTimes clat = some (T, tv)) :
    ∀ {s u : ℕ} {p : List CompactLatticeArc}, PathIn clat s p u →
      0 ≤ tv.getD s (-1) →
      tv.getD u (-1) = tv.getD s (-1) + pathLen p := by
  intro s u p hp
  induction hp with
  | nil s =>
      intro _
      rw [pathLen_nil, add_zero]
  | cons arc ha hp ih =>
      intro hge
      rename_i s' t' p'
      have h1 := clTimes_arc_eq clat hT h s' arc ha hge
      have hlen0 : (0 : ℤ) ≤ (arc.weight.string.length : ℤ) :=
        Int.natCast_nonneg _
      have hge2 : 0 ≤ tv.getD arc.nextstate (-1) := by
        rw [h1]; omega
      rw [ih hge2, h1, pathLen_cons]
      ring

theorem clTimes_path0 (clat : CompactLattice) (hT : clat.TopSorted)
    {T : ℤ} {tv : List ℤ}
    (h : CompactLatticeStateTimes clat = some (T, tv)) {u : ℕ}
    {p : List CompactLatticeArc} (hp : PathIn clat 0 p u) :
    tv.getD u (-1) = pathLen p := by
  have h0 := clTimes_start clat h
  rw [clTimes_path clat hT h hp (by rw [h0]), h0, zero_add]

theorem killArc_nextstate (dead : ℕ) (a : CompactLatticeArc) :
    (killArc dead a).nextstate = dead := by
  unfold killArc
  by_cases h : a.nextstate ≠ dead
  · rw [if_pos h]
  · rw [if_neg h]
    exact not_ne_iff.mp h

theorem killArc_idem (dead : ℕ) (a : CompactLatticeArc) :
    killArc dead (killArc dead a) = killArc dead a := by
  show (if (killArc dead a).nextstate ≠ dead then _ else killArc dead a) =
    killArc dead a
  rw [if_neg (by rw [killArc_nextstate]; simp)]

theorem killArc_weight (dead : ℕ) (a : CompactLatticeArc) :
    (killArc dead a).weight = a.weight := by
  unfold killArc
  by_cases h : a.nextstate ≠ dead
  · rw [if_pos h]
  · rw [if_neg h]

theorem killRecord_length (dead : ℕ) (A : List (List CompactLatticeArc))
    (r : LatticeArcRecord) : (killRecord dead A r).length = A.length := by
  unfold killRecord
  simp

theorem killRecord_row (dead : ℕ) (A : List (List CompactLatticeArc))
    (r : LatticeArcRecord) (s : ℕ) :
    ((killRecord dead A r).getD s []).length =
      (A.getD s []).length := by
  unfold killRecord
  by_cases hs : r.state = s
  · subst hs
    by_cases hlen : r.state < A.length
    · rw [getD_set_self _ _ _ _ hlen]
      simp
    · rw [List.set_eq_of_length_le (le_of_not_lt hlen)]
  · rw [getD_set_ne _ _ _ _ _ hs]

theorem killRecord_elem (dead : ℕ) (A : List (List CompactLatticeArc))
    (r : LatticeArcRecord) (s i : ℕ) :
    ((killRecord dead A r).getD s []).getD i
        ⟨0, 0, Wzero CompactLatticeWeight, dead⟩ =
      (A.getD s []).getD i ⟨0, 0, Wzero CompactLatticeWeight, dead⟩ ∨
    ((killRecord dead A r).getD s []).getD i
        ⟨0, 0, Wzero CompactLatticeWeight, dead⟩ =
      killArc dead ((A.getD s []).getD i
        ⟨0, 0, Wzero CompactLatticeWeight, dead⟩) := by
  unfold killRecord
  by_cases hs : r.state = s
  · subst hs
    by_cases hlen : r.state < A.length
    · rw [getD_set_self _ _ _ _ hlen]
      by_cases hi : r.arc = i
      · subst hi
        by_cases hilen : r.arc < (A.getD r.state []).length
        · rw [getD_set_self _ _ _ _ hilen]
          exact Or.inr rfl
        · rw [List.set_eq_of_length_le (le_of_not_lt hilen)]
          exact Or.inl rfl
      · rw [getD_set_ne _ _ _ _ _ hi]
        exact Or.inl rfl
    · rw [List.set_eq_of_length_le (le_of_not_lt hlen)]
      exact Or.inl rfl
  · rw [getD_set_ne _ _ _ _ _ hs]
    exact Or.inl rfl

theorem killRecord_dead_stays (dead : ℕ)
    (A : List (List CompactLatticeArc)) (r : LatticeArcRecord) (s i : ℕ)
    (h : ((A.getD s []).getD i
      ⟨0, 0, Wzero CompactLatticeWeight, dead⟩).nextstate = dead) :
    (((killRecord dead A r).getD s []).getD i
      ⟨0, 0, Wzero CompactLatticeWeight, dead⟩).nextstate = dead := by
  rcases killRecord_elem dead A r s i with he | he
  · rw [he]; exact h
  · rw [he, killArc_nextstate]

theorem killRecord_kills (dead : ℕ) (A : List (List CompactLatticeArc))
    (r : LatticeArcRecord) (hs : r.state < A.length)
    (hi : r.arc < (A.getD r.state []).length) :
    (((killRecord dead A r).getD r.state []).getD r.arc
      ⟨0, 0, Wzero CompactLatticeWeight, dead⟩).nextstate = dead := by
  unfold killRecord
  rw [getD_set_self _ _ _ _ hs, getD_set_self _ _ _ _ hi,
    killArc_nextstate]

theorem killFold_length (dead : ℕ) :
    ∀ (l : List LatticeArcRecord) (A : List (List CompactLatticeArc)),
      (l.foldl (killRecord dead) A).length = A.length := by
  intro l
  induction l with
  | nil => intro A; rfl
  | cons r rest ih =>
      intro A
      rw [List.foldl_cons, ih, killRecord_length]

theorem killFold_row (dead : ℕ) :
    ∀ (l : List LatticeArcRecord) (A : List (List CompactLatticeArc))
      (s : ℕ),
      ((l.foldl (killRecord dead) A).getD s []).length =
        (A.getD s []).length := by
  intro l
  induction l with
  | nil => intro A s; rfl
  | cons r rest ih =>
      intro A s
      rw [List.foldl_cons, ih, killRecord_row]

theorem killFold_dead_stays (dead : ℕ) :
    ∀ (l : List LatticeArcRecord) (A : List (List CompactLatticeArc))
      (s i : ℕ),
      ((A.getD s []).getD i
        ⟨0, 0, Wzero CompactLatticeWeight, dead⟩).nextstate = dead →
      (((l.foldl (killRecord dead) A).getD s []).getD i
        ⟨0, 0, Wzero CompactLatticeWeight, dead⟩).nextstate = dead := by
  intro l
  induction l with
  | nil => intro A s i h; exact h
  | cons r rest ih =>
      intro A s i h
      rw [List.foldl_cons]
      exact ih _ s i (killRecord_dead_stays dead A r s i h)

theorem killFold_elem (dead : ℕ) :
    ∀ (l : List LatticeArcRecord) (A : List (List CompactLatticeArc))
      (s i : ℕ),
      ((l.foldl (killRecord dead) A).getD s []).getD i
          ⟨0, 0, Wzero CompactLatticeWeight, dead⟩ =
        (A.getD s []).getD i ⟨0, 0, Wzero CompactLatticeWeight, dead⟩ ∨
      ((l.foldl (killRecord dead) A).getD s []).getD i
          ⟨0, 0, Wzero CompactLatticeWeight, dead⟩ =
        killArc dead ((A.getD s []).getD i
          ⟨0, 0, Wzero CompactLatticeWeight, dead⟩) := by
  intro l
  induction l with
  | nil => intro A s i; exact Or.inl rfl
  | cons r rest ih =>
      intro A s i
      rw [List.foldl_cons]
      rcases ih (killRecord dead A r) s i with he | he
      · rcases killRecord_elem dead A r s i with h2 | h2
        · rw [he, h2]; exact Or.inl rfl
        · rw [he, h2]; exact Or.inr rfl
      · rcases killRecord_elem dead A r s i with h2 | h2
        · rw [he, h2]; exact Or.inr rfl
        · rw [he, h2, killArc_idem]; exact Or.inr rfl

theorem killFold_kills (dead : ℕ) :
    ∀ (l : List LatticeArcRecord) (A : List (List CompactLatticeArc)),
      ∀ r ∈ l, r.state < A.length →
        r.arc < (A.getD r.state []).length →
        (((l.foldl (killRecord dead) A).getD r.state []).getD r.arc
          ⟨0, 0, Wzero CompactLatticeWeight, dead⟩).nextstate = dead := by
  intro l
  induction l with
  | nil => intro A r hr; exact absurd hr (List.not_mem_nil r)
  | cons r0 rest ih =>
      intro A r hr hs hi
      rw [List.foldl_cons]
      rcases List.mem_cons.mp hr with rfl | hmem
      · exact killFold_dead_stays dead rest _ _ _
          (killRecord_kills dead A r hs hi)
      · exact ih _ r hmem (by rw [killRecord_length]; exact hs)
          (by rw [killRecord_row]; exact hi)

theorem killFrame_length (maxDepth dead : ℕ)
    (A : List (List CompactLatticeArc))
    (bucket : List LatticeArcRecord) :
    (killFrame maxDepth dead A bucket).length = A.length := by
  unfold killFrame
  by_cases h : maxDepth < bucket.length
  · rw [if_pos h, killFold_length]
  · rw [if_neg h]

theorem killFrame_row (maxDepth dead : ℕ)
    (A : List (List CompactLatticeArc))
    (bucket : List LatticeArcRecord) (s : ℕ) :
    ((killFrame maxDepth dead A bucket).getD s []).length =
      (A.getD s []).length := by
  unfold killFrame
  by_cases h : maxDepth < bucket.length
  · rw [if_pos h, killFold_row]
  · rw [if_neg h]

theorem killFrame_dead_stays (maxDepth dead : ℕ)
    (A : List (List CompactLatticeArc))
    (bucket : List LatticeArcRecord) (s i : ℕ)
    (h : ((A.getD s []).getD i
      ⟨0, 0, Wzero CompactLatticeWeight, dead⟩).nextstate = dead) :
    (((killFrame maxDepth dead A bucket).getD s []).getD i
      ⟨0, 0, Wzero CompactLatticeWeight, dead⟩).nextstate = dead := by
  unfold killFrame
  by_cases hc : maxDepth < bucket.length
  · rw [if_pos hc]
    exact killFold_dead_stays dead _ _ s i h
  · rw [if_neg hc]
    exact h

theorem killFrame_elem (maxDepth dead : ℕ)
    (A : List (List CompactLatticeArc))
    (bucket : List LatticeArcRecord) (s i : ℕ) :
    (((killFrame maxDepth dead A bucket).getD s []).getD i
        ⟨0, 0, Wzero CompactLatticeWeight, dead⟩ =
      (A.getD s []).getD i ⟨0, 0, Wzero CompactLatticeWeight, dead⟩) ∨
    (((killFrame maxDepth dead A bucket).getD s []).getD i
        ⟨0, 0, Wzero CompactLatticeWeight, dead⟩ =
      killArc dead ((A.getD s []).getD i
        ⟨0, 0, Wzero CompactLatticeWeight, dead⟩)) := by
  unfold killFrame
  by_cases hc : maxDepth < bucket.length
  · rw [if_pos hc]
    exact killFold_elem dead _ _ s i
  · rw [if_neg hc]
    exact Or.inl rfl

theorem killFrame_kills (maxDepth dead : ℕ)
    (A : List (List CompactLatticeArc))
    (bucket : List LatticeArcRecord)
    (hc : maxDepth < bucket.length) :
    ∀ r ∈ (sortRecords bucket).take (bucket.length - maxDepth),
      r.state < A.length → r.arc < (A.getD r.state []).length →
      (((killFrame maxDepth dead A bucket).getD r.state []).getD r.arc
        ⟨0, 0, Wzero CompactLatticeWeight, dead⟩).nextstate = dead := by
  intro r hr hs hi
  unfold killFrame
  rw [if_pos hc]
  exact killFold_kills dead _ A r hr hs hi

theorem killAll_cons (maxDepth dead : ℕ)
    (A : List (List CompactLatticeArc)) (b : List LatticeArcRecord)
    (rest : List (List LatticeArcRecord)) :
    killAll maxDepth dead A (b :: rest) =
      killAll maxDepth dead (killFrame maxDepth dead A b) rest := rfl

theorem killAll_length (maxDepth dead : ℕ) :
    ∀ (buckets : List (List LatticeArcRecord))
      (A : List (List CompactLatticeArc)),
      (killAll maxDepth dead A buckets).length = A.length := by
  intro buckets
  induction buckets with
  | nil => intro A; rfl
  | cons b rest ih =>
      intro A
      show (List.foldl _ (killFrame maxDepth dead A b) rest).length = _
      rw [show List.foldl (killFrame maxDepth dead)
          (killFrame maxDepth dead A b) rest =
          killAll maxDepth dead (killFrame maxDepth dead A b) rest
        from rfl, ih, killFrame_length]

theorem killAll_row (maxDepth dead : ℕ) :
    ∀ (buckets : List (List LatticeArcRecord))
      (A : List (List CompactLatticeArc)) (s : ℕ),
      ((killAll maxDepth dead A buckets).getD s []).length =
        (A.getD s []).length := by
  intro buckets
  induction buckets with
  | nil => intro A s; rfl
  | cons b rest ih =>
      intro A s
      show ((List.foldl _ (killFrame maxDepth dead A b) rest).getD
        s []).length = _
      rw [show List.foldl (killFrame maxDepth dead)
          (killFrame maxDepth dead A b) rest =
          killAll maxDepth dead (killFrame maxDepth dead A b) rest
        from rfl, ih, killFrame_row]

theorem killAll_dead_stays (maxDepth dead : ℕ) :
    ∀ (buckets : List (List LatticeArcRecord))
      (A : List (List CompactLatticeArc)) (s i : ℕ),
      ((A.getD s []).getD i
        ⟨0, 0, Wzero CompactLatticeWeight, dead⟩).nextstate = dead →
      (((killAll maxDepth dead A buckets).getD s []).getD i
        ⟨0, 0, Wzero CompactLatticeWeight, dead⟩).nextstate = dead := by
  intro buckets
  induction buckets with
  | nil => intro A s i h; exact h
  | cons b rest ih =>
      intro A s i h
      exact ih _ s i (killFrame_dead_stays maxDepth dead A b s i h)

theorem killAll_elem (maxDepth dead : ℕ) :
    ∀ (buckets : List (List LatticeArcRecord))
      (A : List (List CompactLatticeArc)) (s i : ℕ),
      (((killAll maxDepth dead A buckets).getD s []).getD i
          ⟨0, 0, Wzero CompactLatticeWeight, dead⟩ =
        (A.getD s []).getD i ⟨0, 0, Wzero CompactLatticeWeight, dead⟩) ∨
      (((killAll maxDepth dead A buckets).getD s []).getD i
          ⟨0, 0, Wzero CompactLatticeWeight, dead⟩ =
        killArc dead ((A.getD s []).getD i
          ⟨0, 0, Wzero CompactLatticeWeight, dead⟩)) := by
  intro buckets
  induction buckets with
  | nil => intro A s i; exact Or.inl rfl
  | cons b rest ih =>
      intro A s i
      rw [killAll_cons]
      rcases ih (killFrame maxDepth dead A b) s i with he | he
      · rcases killFrame_elem maxDepth dead A b s i with h2 | h2
        · rw [he, h2]; exact Or.inl rfl
        · rw [he, h2]; exact Or.inr rfl
      · rcases killFrame_elem maxDepth dead A b s i with h2 | h2
        · rw [he, h2]; exact Or.inr rfl
        · rw [he, h2, killArc_idem]; exact Or.inr rfl

theorem killAll_kills (maxDepth dead : ℕ) :
    ∀ (buckets : List (List LatticeArcRecord))
      (A : List (List CompactLatticeArc)),
      ∀ b ∈ buckets, maxDepth < b.length →
        ∀ r ∈ (sortRecords b).take (b.length - maxDepth),
          r.state < A.length → r.arc < (A.getD r.state []).length →
          (((killAll maxDepth dead A buckets).getD r.state []).getD
            r.arc ⟨0, 0, Wzero CompactLatticeWeight, dead⟩).nextstate =
            dead := by
  intro buckets
  induction buckets with
  | nil => intro A b hb; exact absurd hb (List.not_mem_nil b)
  | cons b0 rest ih =>
      intro A b hb hc r hr hs hi
      rcases List.mem_cons.mp hb with rfl | hmem
      · exact killAll_dead_stays maxDepth dead rest _ _ _
          (killFrame_kills maxDepth dead A b hc r hr hs hi)
      · exact ih _ b hmem hc r hr
          (by rw [killFrame_length]; exact hs)
          (by rw [killFrame_row]; exact hi)

theorem recLogprob_coe (a b : WithBot ℚ) (c : Cost) (bp : ℚ) :
    recLogprob a b c ((bp : ℚ) : WithBot ℚ) =
      some (a + b + negCost c + ((-bp : ℚ) : WithBot ℚ)) := rfl

theorem pushRange_spec (r : LatticeArcRecord) (T : ℤ) :
    ∀ (len : ℕ) (start : ℤ) (bk bk1 : List (List LatticeArcRecord)),
      bk.length = T.toNat →
      pushRange r T bk start len = some bk1 →
      bk1.length = T.toNat ∧
      ∀ t : ℕ, bk1.getD t [] =
        if start ≤ (t : ℤ) ∧ (t : ℤ) < start + (len : ℤ) then
          bk.getD t [] ++ [r]
        else bk.getD t [] := by
  intro len
  induction len with
  | zero =>
      intro start bk bk1 hlen h
      simp only [pushRange, Option.some.injEq] at h
      subst h
      refine ⟨hlen, ?_⟩
      intro t
      rw [if_neg (by push_cast; omega)]
  | succ len ih =>
      intro start bk bk1 hlen h
      unfold pushRange at h
      by_cases hc : 0 ≤ start ∧ start < T
      · rw [if_pos hc] at h
        have hlen2 : (pushRecord bk start.toNat r).length = T.toNat := by
          unfold pushRecord
          simp [hlen]
        obtain ⟨hl1, hspec⟩ := ih (start + 1) _ bk1 hlen2 h
        refine ⟨hl1, ?_⟩
        intro t
        rw [hspec t]
        by_cases ht : (t : ℤ) = start
        · have htn : start.toNat = t := by omega
          rw [if_neg (show ¬ (start + 1 ≤ (t : ℤ) ∧
              (t : ℤ) < start + 1 + (len : ℤ)) by omega),
            if_pos (show start ≤ (t : ℤ) ∧
              (t : ℤ) < start + ((len + 1 : ℕ) : ℤ) by push_cast; omega)]
          unfold pushRecord
          rw [htn, getD_set_self _ _ _ _ (by rw [hlen]; omega)]
        · have hpr : (pushRecord bk start.toNat r).getD t [] =
              bk.getD t [] := by
            unfold pushRecord
            rw [getD_set_ne _ _ _ _ _ (by omega)]
          rw [hpr]
          exact if_congr (by push_cast; omega) rfl rfl
      · rw [if_neg hc] at h
        exact absurd h (by simp)

theorem recFold_none (alpha beta : List (WithBot ℚ)) (best : WithBot ℚ)
    (times : List ℤ) (T : ℤ) (s : ℕ) :
    ∀ l : List (ℕ × CompactLatticeArc),
      l.foldl (recStep alpha beta best times T s) none = none := by
  intro l
  induction l with
  | nil => rfl
  | cons ia rest ih =>
      rw [List.foldl_cons]
      exact ih

theorem recordFold_spec (alpha beta : List (WithBot ℚ)) (bp : ℚ)
    (times : List ℤ) (T : ℤ) (s : ℕ) :
    ∀ (l : List (ℕ × CompactLatticeArc))
      (bk bk1 : List (List LatticeArcRecord)),
      bk.length = T.toNat →
      l.foldl (recStep alpha beta ((bp : ℚ) : WithBot ℚ) times T s)
        (some bk) = some bk1 →
      bk1.length = T.toNat ∧
      ∀ t : ℕ, bk1.getD t [] = bk.getD t [] ++
        ((l.filter fun ia =>
            coversAt (times.getD s (-1)) ia.2.weight.string.length t).map
          fun ia =>
            (⟨alpha.getD s ⊥ + beta.getD ia.2.nextstate ⊥ +
              negCost (ConvertToCost ia.2.weight) +
                ((-bp : ℚ) : WithBot ℚ), s, ia.1⟩ :
              LatticeArcRecord)) := by
  intro l
  induction l with
  | nil =>
      intro bk bk1 hlen h
      simp only [List.foldl_nil, Option.some.injEq] at h
      subst h
      refine ⟨hlen, ?_⟩
      intro t
      simp
  | cons ia rest ih =>
      intro bk bk1 hlen h
      rw [List.foldl_cons] at h
      have hstep : recStep alpha beta ((bp : ℚ) : WithBot ℚ) times T s
          (some bk) ia =
          if (alpha.getD s ⊥ + beta.getD ia.2.nextstate ⊥ +
              negCost (ConvertToCost ia.2.weight) +
                ((-bp : ℚ) : WithBot ℚ)) <
              ((1 / 10 : ℚ) : WithBot ℚ) then
            pushRange ⟨alpha.getD s ⊥ + beta.getD ia.2.nextstate ⊥ +
              negCost (ConvertToCost ia.2.weight) +
                ((-bp : ℚ) : WithBot ℚ), s, ia.1⟩ T bk
              (times.getD s (-1)) ia.2.weight.string.length
          else none := rfl
      rw [hstep] at h
      by_cases hlt : (alpha.getD s ⊥ + beta.getD ia.2.nextstate ⊥ +
          negCost (ConvertToCost ia.2.weight) +
            ((-bp : ℚ) : WithBot ℚ)) < ((1 / 10 : ℚ) : WithBot ℚ)
      · rw [if_pos hlt] at h
        cases hpr : pushRange ⟨alpha.getD s ⊥ +
            beta.getD ia.2.nextstate ⊥ +
            negCost (ConvertToCost ia.2.weight) +
              ((-bp : ℚ) : WithBot ℚ), s, ia.1⟩ T bk
            (times.getD s (-1)) ia.2.weight.string.length with
        | none =>
            rw [hpr] at h
            rw [recFold_none] at h
            exact absurd h (by simp)
        | some bk2 =>
            rw [hpr] at h
            obtain ⟨hl2, hsp2⟩ := pushRange_spec _ T _ _ _ _ hlen hpr
            obtain ⟨hl1, hsp1⟩ := ih bk2 bk1 hl2 h
            refine ⟨hl1, ?_⟩
            intro t
            rw [hsp1 t, hsp2 t, List.filter_cons]
            by_cases hcov : coversAt (times.getD s (-1))
                ia.2.weight.string.length t = true
            · have hcondP : times.getD s (-1) ≤ (t : ℤ) ∧
                  (t : ℤ) < times.getD s (-1) +
                    (ia.2.weight.string.length : ℤ) :=
                of_decide_eq_true hcov
              rw [if_pos hcondP, if_pos hcov, List.map_cons,
                List.append_assoc]
              rfl
            · have hcondP : ¬ (times.getD s (-1) ≤ (t : ℤ) ∧
                  (t : ℤ) < times.getD s (-1) +
                    (ia.2.weight.string.length : ℤ)) := fun hc =>
                hcov (decide_eq_true hc)
              rw [if_neg hcondP, if_neg hcov]
      · rw [if_neg hlt, recFold_none] at h
        exact absurd h (by simp)

theorem recordArcsState_spec (clat : CompactLattice)
    (alpha beta : List (WithBot ℚ)) (bp : ℚ) (times : List ℤ) (T : ℤ)
    (s : ℕ) (bk bk1 : List (List LatticeArcRecord))
    (hlen : bk.length = T.toNat)
    (h : recordArcsState clat alpha beta ((bp : ℚ) : WithBot ℚ) times T
      (some bk) s = some bk1) :
    bk1.length = T.toNat ∧
    ∀ t : ℕ, bk1.getD t [] =
      bk.getD t [] ++ coverRecsState clat alpha beta bp times t s := by
  have := recordFold_spec alpha beta bp times T s
    (clat.arcsAt s).enum bk bk1 hlen h
  exact this

theorem recordArcsState_none (clat : CompactLattice)
    (alpha beta : List (WithBot ℚ)) (best : WithBot ℚ) (times : List ℤ)
    (T : ℤ) (s : ℕ) :
    recordArcsState clat alpha beta best times T none s = none :=
  recFold_none alpha beta best times T s _

theorem statesFold_none (clat : CompactLattice)
    (alpha beta : List (WithBot ℚ)) (best : WithBot ℚ) (times : List ℤ)
    (T : ℤ) :
    ∀ l : List ℕ,
      l.foldl (recordArcsState clat alpha beta best times T) none =
        none := by
  intro l
  induction l with
  | nil => rfl
  | cons s rest ih =>
      rw [List.foldl_cons, recordArcsState_none]
      exact ih

theorem recordBuckets_spec (clat : CompactLattice)
    (alpha beta : List (WithBot ℚ)) (bp : ℚ) (times : List ℤ) (T : ℤ)
    (buckets : List (List LatticeArcRecord))
    (h : recordBuckets clat alpha beta ((bp : ℚ) : WithBot ℚ) times T =
      some buckets) :
    buckets.length = T.toNat ∧
    ∀ t : ℕ, buckets.getD t [] =
      coverAll clat alpha beta bp times t := by
  suffices hgen : ∀ (l : List ℕ) (bk bk1 : List (List LatticeArcRecord)),
      bk.length = T.toNat →
      l.foldl (recordArcsState clat alpha beta ((bp : ℚ) : WithBot ℚ)
        times T) (some bk) = some bk1 →
      bk1.length = T.toNat ∧
      ∀ t : ℕ, bk1.getD t [] = bk.getD t [] ++
        l.foldl (fun acc s =>
          acc ++ coverRecsState clat alpha beta bp times t s) [] by
    have h2 := hgen (List.range clat.numStates)
      (List.replicate T.toNat []) buckets (by simp) h
    refine ⟨h2.1, ?_⟩
    intro t
    rw [h2.2 t, getD_replicate]
    rw [List.nil_append]
    rfl
  intro l
  induction l with
  | nil =>
      intro bk bk1 hlen h2
      simp only [List.foldl_nil, Option.some.injEq] at h2
      subst h2
      exact ⟨hlen, fun t => by simp⟩
  | cons s rest ih =>
      intro bk bk1 hlen h2
      rw [List.foldl_cons] at h2
      cases hst : recordArcsState clat alpha beta
          ((bp : ℚ) : WithBot ℚ) times T (some bk) s with
      | none =>
          rw [hst, statesFold_none] at h2
          exact absurd h2 (by simp)
      | some bk2 =>
          rw [hst] at h2
          obtain ⟨hl2, hsp2⟩ :=
            recordArcsState_spec clat alpha beta bp times T s bk bk2
              hlen hst
          obtain ⟨hl1, hsp1⟩ := ih bk2 bk1 hl2 h2
          refine ⟨hl1, ?_⟩
          intro t
          rw [hsp1 t, hsp2 t, List.foldl_cons]
          have hacc : ∀ (ll : List ℕ)
              (a : List LatticeArcRecord),
              ll.foldl (fun acc s2 =>
                acc ++ coverRecsState clat alpha beta bp times t s2) a =
              a ++ ll.foldl (fun acc s2 =>
                acc ++ coverRecsState clat alpha beta bp times t s2)
                [] := by
            intro ll
            induction ll with
            | nil => intro a; simp
            | cons x xs ihx =>
                intro a
                rw [List.foldl_cons, List.foldl_cons, ihx,
                  ihx (([] : List LatticeArcRecord) ++ _),
                  List.nil_append, List.append_assoc]
          rw [hacc _ (([] : List LatticeArcRecord) ++ _),
            List.nil_append, List.append_assoc]

theorem depthIncr_spec (T : ℤ) :
    ∀ (len : ℕ) (start : ℤ) (c c1 : List ℕ),
      c.length = T.toNat →
      depthIncr T c start len = some c1 →
      c1.length = T.toNat ∧
      ∀ t : ℕ, c1.getD t 0 =
        if start ≤ (t : ℤ) ∧ (t : ℤ) < start + (len : ℤ) then
          c.getD t 0 + 1
        else c.getD t 0 := by
  intro len
  induction len with
  | zero =>
      intro start c c1 hlen h
      simp only [depthIncr, Option.some.injEq] at h
      subst h
      refine ⟨hlen, ?_⟩
      intro t
      rw [if_neg (by push_cast; omega)]
  | succ len ih =>
      intro start c c1 hlen h
      unfold depthIncr at h
      by_cases hc : 0 ≤ start ∧ start < T
      · rw [if_pos hc] at h
        have hlen2 : (c.set start.toNat (c.getD start.toNat 0 + 1)).length
            = T.toNat := by simp [hlen]
        obtain ⟨hl1, hspec⟩ := ih (start + 1) _ c1 hlen2 h
        refine ⟨hl1, ?_⟩
        intro t
        rw [hspec t]
        by_cases ht : (t : ℤ) = start
        · have htn : start.toNat = t := by omega
          rw [if_neg (show ¬ (start + 1 ≤ (t : ℤ) ∧
              (t : ℤ) < start + 1 + (len : ℤ)) by omega),
            if_pos (show start ≤ (t : ℤ) ∧
              (t : ℤ) < start + ((len + 1 : ℕ) : ℤ) by push_cast; omega)]
          rw [htn, getD_set_self _ _ _ _ (by rw [hlen]; omega)]
        · have hpr : (c.set start.toNat
              (c.getD start.toNat 0 + 1)).getD t 0 = c.getD t 0 := by
            rw [getD_set_ne _ _ _ _ _ (by omega)]
          rw [hpr]
          exact if_congr (by push_cast; omega) rfl rfl
      · rw [if_neg hc] at h
        exact absurd h (by simp)

theorem depthFoldArcs_none (times : List ℤ) (T : ℤ) (s : ℕ) :
    ∀ l : List CompactLatticeArc,
      l.foldl (fun oc2 arc =>
        match oc2 with
        | none => none
        | some c2 =>
            depthIncr T c2 (times.getD s (-1)) arc.weight.string.length)
        none = none := by
  intro l
  induction l with
  | nil => rfl
  | cons a rest ih => rw [List.foldl_cons]; exact ih

theorem depthFoldArcs_spec (times : List ℤ) (T : ℤ) (s : ℕ) :
    ∀ (l : List CompactLatticeArc) (c c1 : List ℕ),
      c.length = T.toNat →
      l.foldl (fun oc2 arc =>
        match oc2 with
        | none => none
        | some c2 =>
            depthIncr T c2 (times.getD s (-1)) arc.weight.string.length)
        (some c) = some c1 →
      c1.length = T.toNat ∧
      ∀ t : ℕ, c1.getD t 0 = c.getD t 0 +
        l.countP (fun arc =>
          coversAt (times.getD s (-1)) arc.weight.string.length t) := by
  intro l
  induction l with
  | nil =>
      intro c c1 hlen h
      simp only [List.foldl_nil, Option.some.injEq] at h
      subst h
      exact ⟨hlen, fun t => by simp⟩
  | cons a rest ih =>
      intro c c1 hlen h
      rw [List.foldl_cons] at h
      have h9 : rest.foldl (fun oc2 arc =>
          match oc2 with
          | none => none
          | some c2 =>
              depthIncr T c2 (times.getD s (-1))
                arc.weight.string.length)
          (depthIncr T c (times.getD s (-1)) a.weight.string.length) =
          some c1 := h
      cases hd : depthIncr T c (times.getD s (-1))
          a.weight.string.length with
      | none =>
          rw [hd] at h9
          rw [depthFoldArcs_none] at h9
          exact absurd h9 (by simp)
      | some c2 =>
          rw [hd] at h9
          have h := h9
          obtain ⟨hl2, hsp2⟩ := depthIncr_spec T _ _ _ _ hlen hd
          obtain ⟨hl1, hsp1⟩ := ih c2 c1 hl2 h
          refine ⟨hl1, ?_⟩
          intro t
          rw [hsp1 t, hsp2 t, List.countP_cons]
          by_cases hcov : coversAt (times.getD s (-1))
              a.weight.string.length t = true
          · rw [if_pos (of_decide_eq_true hcov), if_pos hcov]
            omega
          · rw [if_neg (fun hc => hcov (decide_eq_true hc)),
              if_neg hcov]
            omega

theorem depthState_spec (clat : CompactLattice) (times : List ℤ)
    (T : ℤ) (s : ℕ) (c c1 : List ℕ) (hlen : c.length = T.toNat)
    (h : depthState clat times T (some c) s = some c1) :
    c1.length = T.toNat ∧
    ∀ t : ℕ, c1.getD t 0 = c.getD t 0 +
      ((clat.arcsAt s).countP (fun arc =>
        coversAt (times.getD s (-1)) arc.weight.string.length t) +
      (if coversAt (times.getD s (-1))
          (clat.finalW s).string.length t = true then 1 else 0)) := by
  unfold depthState at h
  cases hf : (clat.arcsAt s).foldl (fun oc2 arc =>
      match oc2 with
      | none => none
      | some c2 =>
          depthIncr T c2 (times.getD s (-1)) arc.weight.string.length)
      (some c) with
  | none => rw [hf] at h; exact absurd h (by simp)
  | some c2 =>
      rw [hf] at h
      obtain ⟨hl2, hsp2⟩ := depthFoldArcs_spec times T s _ c c2 hlen hf
      obtain ⟨hl1, hsp1⟩ := depthIncr_spec T _ _ c2 c1 hl2 h
      refine ⟨hl1, ?_⟩
      intro t
      rw [hsp1 t, hsp2 t]
      by_cases hcov : coversAt (times.getD s (-1))
          (clat.finalW s).string.length t = true
      · rw [if_pos (of_decide_eq_true hcov), if_pos hcov]
        exact Nat.add_assoc _ _ _
      · rw [if_neg (fun hc => hcov (decide_eq_true hc)), if_neg hcov,
          Nat.add_zero]

theorem depthRun_none (clat : CompactLattice) (times : List ℤ) (T : ℤ) :
    ∀ l : List ℕ,
      l.foldl (depthState clat times T) none = none := by
  intro l
  induction l with
  | nil => rfl
  | cons s rest ih =>
      rw [List.foldl_cons]
      have hst : depthState clat times T none s = none := by
        unfold depthState
        rw [depthFoldArcs_none]
      rw [hst]
      exact ih

theorem depthRun_spec (clat : CompactLattice) (times : List ℤ) (T : ℤ) :
    ∀ (l : List ℕ) (c c1 : List ℕ),
      c.length = T.toNat →
      l.foldl (depthState clat times T) (some c) = some c1 →
      c1.length = T.toNat ∧
      ∀ t : ℕ, c1.getD t 0 = c.getD t 0 +
        (l.map (fun s =>
          (clat.arcsAt s).countP (fun arc =>
            coversAt (times.getD s (-1)) arc.weight.string.length t) +
          (if coversAt (times.getD s (-1))
              (clat.finalW s).string.length t = true then 1
            else 0))).sum := by
  intro l
  induction l with
  | nil =>
      intro c c1 hlen h
      simp only [List.foldl_nil, Option.some.injEq] at h
      subst h
      exact ⟨hlen, fun t => by simp⟩
  | cons s rest ih =>
      intro c c1 hlen h
      rw [List.foldl_cons] at h
      cases hd : depthState clat times T (some c) s with
      | none =>
          rw [hd, depthRun_none] at h
          exact absurd h (by simp)
      | some c2 =>
          rw [hd] at h
          obtain ⟨hl2, hsp2⟩ := depthState_spec clat times T s c c2
            hlen hd
          obtain ⟨hl1, hsp1⟩ := ih c2 c1 hl2 h
          refine ⟨hl1, ?_⟩
          intro t
          rw [hsp1 t, hsp2 t, List.map_cons, List.sum_cons]
          omega

theorem depthPerFrame_spec (clat : CompactLattice) (dpf : List ℕ)
    (h : CompactLatticeDepthPerFrame clat = some dpf) :
    dpf = [] ∨
    ∃ (T : ℤ) (times : List ℤ),
      CompactLatticeStateTimes clat = some (T, times) ∧ 0 < T ∧
      dpf.length = T.toNat ∧
      ∀ t : ℕ, dpf.getD t 0 =
        ((List.range clat.numStates).map (fun s =>
          (clat.arcsAt s).countP (fun arc =>
            coversAt (times.getD s (-1)) arc.weight.string.length t) +
          (if coversAt (times.getD s (-1))
              (clat.finalW s).string.length t = true then 1
            else 0))).sum := by
  unfold CompactLatticeDepthPerFrame at h
  by_cases h1 : clat.TopSortedB = true
  · rw [if_neg (by simp [h1])] at h
    by_cases h2 : clat.numStates = 0
    · rw [if_pos h2] at h
      simp only [Option.some.injEq] at h
      exact Or.inl h.symm
    · rw [if_neg h2] at h
      cases hst : CompactLatticeStateTimes clat with
      | none => rw [hst] at h; exact absurd h (by simp)
      | some st =>
          obtain ⟨T, times⟩ := st
          rw [hst] at h
          have h3 : (if T ≤ 0 then some ([] : List ℕ)
              else (List.range clat.numStates).foldl
                (depthState clat times T)
                (some (List.replicate T.toNat 0))) = some dpf := h
          by_cases hT : T ≤ 0
          · rw [if_pos hT] at h3
            simp only [Option.some.injEq] at h3
            exact Or.inl h3.symm
          · rw [if_neg hT] at h3
            obtain ⟨hl, hsp⟩ := depthRun_spec clat times T _ _ dpf
              (by simp) h3
            refine Or.inr ⟨T, times, rfl, by omega, hl, ?_⟩
            intro t
            rw [hsp t, getD_replicate, zero_add]
  · rw [if_pos (by simpa using h1)] at h
    exact absurd h (by simp)

theorem mem_getD {α : Type} (l : List α) (x : α) (d : α) (hx : x ∈ l) :
    ∃ t, t < l.length ∧ l.getD t d = x := by
  rw [List.mem_iff_getElem] at hx
  obtain ⟨i, hi, hgi⟩ := hx
  exact ⟨i, hi, by rw [List.getD_eq_getElem _ _ hi]; exact hgi⟩

theorem countP_congr_mem {α : Type} (p q : α → Bool) :
    ∀ l : List α, (∀ a ∈ l, p a = q a) → l.countP p = l.countP q := by
  intro l
  induction l with
  | nil => intro _; rfl
  | cons a xs ih =>
      intro h
      rw [List.countP_cons, List.countP_cons,
        h a (List.mem_cons_self _ _),
        ih fun b hb => h b (List.mem_cons_of_mem _ hb)]

theorem countP_enumFrom {α : Type} (d : α) :
    ∀ (l : List α) (k : ℕ) (q : ℕ × α → Bool),
      (List.enumFrom k l).countP q =
        (List.range l.length).countP fun i => q (k + i, l.getD i d) := by
  intro l
  induction l with
  | nil => intro k q; rfl
  | cons a xs ih =>
      intro k q
      rw [List.enumFrom_cons, List.countP_cons, ih (k + 1) q,
        List.length_cons, List.range_succ_eq_map, List.countP_cons,
        List.countP_map]
      have h1 : (List.range xs.length).countP
          (fun i => q (k + 1 + i, xs.getD i d)) =
          (List.range xs.length).countP
            ((fun i => q (k + i, (a :: xs).getD i d)) ∘ Nat.succ) := by
        refine countP_congr_mem _ _ _ ?_
        intro i _
        show q (k + 1 + i, xs.getD i d) = q (k + (i + 1), xs.getD i d)
        rw [show k + 1 + i = k + (i + 1) from by omega]
      rw [h1]
      simp

theorem countP_eq_range {α : Type} (d : α) (p : α → Bool) :
    ∀ l : List α,
      l.countP p = (List.range l.length).countP fun i => p (l.getD i d) := by
  intro l
  induction l with
  | nil => rfl
  | cons a xs ih =>
      rw [List.countP_cons, ih, List.length_cons,
        List.range_succ_eq_map, List.countP_cons, List.countP_map]
      rfl

theorem map_getD_range {α β : Type} (d : α) (f : α → β) :
    ∀ l : List α,
      (List.range l.length).map (fun i => f (l.getD i d)) = l.map f := by
  intro l
  induction l with
  | nil => rfl
  | cons a xs ih =>
      rw [List.length_cons, List.range_succ_eq_map, List.map_cons,
        List.map_map, List.map_cons]
      show f a :: (List.range xs.length).map
          ((fun i => f ((a :: xs).getD i d)) ∘ Nat.succ) =
        f a :: xs.map f
      rw [show ((fun i => f ((a :: xs).getD i d)) ∘ Nat.succ) =
        (fun i => f (xs.getD i d)) from rfl, ih]

theorem coverAll_countP (clat : CompactLattice)
    (alpha beta : List (WithBot ℚ)) (bp : ℚ) (times : List ℤ) (t : ℕ)
    (p : LatticeArcRecord → Bool) :
    (coverAll clat alpha beta bp times t).countP p =
      ((List.range clat.numStates).map fun s =>
        (coverRecsState clat alpha beta bp times t s).countP p).sum := by
  unfold coverAll
  suffices hgen : ∀ (l : List ℕ) (acc : List LatticeArcRecord),
      (l.foldl (fun acc s =>
        acc ++ coverRecsState clat alpha beta bp times t s) acc).countP
          p =
        acc.countP p + (l.map fun s =>
          (coverRecsState clat alpha beta bp times t s).countP p).sum by
    rw [hgen (List.range clat.numStates) []]
    simp
  intro l
  induction l with
  | nil => intro acc; simp
  | cons s xs ih =>
      intro acc
      rw [List.foldl_cons, ih, List.countP_append, List.map_cons,
        List.sum_cons]
      omega

theorem liveCount_le (maxDepth dead : ℕ)
    (buckets : List (List LatticeArcRecord))
    (A : List (List CompactLatticeArc)) (b : List LatticeArcRecord)
    (hb : b ∈ buckets)
    (hbound : ∀ r ∈ b, r.state < A.length ∧
      r.arc < (A.getD r.state []).length) :
    b.countP (liveRec (killAll maxDepth dead A buckets) dead) ≤
      maxDepth := by
  by_cases hc : maxDepth < b.length
  · have hperm : (sortRecords b).Perm b := List.mergeSort_perm b _
    have h1 : b.countP
        (liveRec (killAll maxDepth dead A buckets) dead) =
        (sortRecords b).countP
          (liveRec (killAll maxDepth dead A buckets) dead) :=
      (hperm.countP_eq _).symm
    have hsplit : (sortRecords b).take (b.length - maxDepth) ++
        (sortRecords b).drop (b.length - maxDepth) = sortRecords b :=
      List.take_append_drop _ _
    have h2 : (sortRecords b).countP
        (liveRec (killAll maxDepth dead A buckets) dead) =
        ((sortRecords b).take (b.length - maxDepth)).countP
          (liveRec (killAll maxDepth dead A buckets) dead) +
        ((sortRecords b).drop (b.length - maxDepth)).countP
          (liveRec (killAll maxDepth dead A buckets) dead) := by
      rw [← List.countP_append, hsplit]
    have hzero : ((sortRecords b).take (b.length - maxDepth)).countP
        (liveRec (killAll maxDepth dead A buckets) dead) = 0 := by
      rw [List.countP_eq_zero]
      intro r hr
      have hrb : r ∈ b := hperm.mem_iff.mp (List.mem_of_mem_take hr)
      obtain ⟨hrs, hra⟩ := hbound r hrb
      have hdead := killAll_kills maxDepth dead buckets A b hb hc r hr
        hrs hra
      unfold liveRec
      simp only [ne_eq, decide_eq_true_eq, not_not]
      exact hdead
    have hdroplen : ((sortRecords b).drop
        (b.length - maxDepth)).length = maxDepth := by
      rw [List.length_drop, hperm.length_eq]
      omega
    have hdropcount := List.countP_le_length
      (liveRec (killAll maxDepth dead A buckets) dead)
      (l := (sortRecords b).drop (b.length - maxDepth))
    rw [h1, h2, hzero, Nat.zero_add]
    omega
  · have := List.countP_le_length
      (liveRec (killAll maxDepth dead A buckets) dead) (l := b)
    omega

theorem ext_numStates (clat : CompactLattice) (maxDepth : ℕ)
    (buckets : List (List LatticeArcRecord)) :
    (⟨killAll maxDepth clat.numStates (clat.arcs ++ [[]]) buckets,
      clat.finals ++ [Wzero CompactLatticeWeight]⟩ :
      CompactLattice).numStates = clat.numStates + 1 := by
  show (killAll maxDepth clat.numStates (clat.arcs ++ [[]])
    buckets).length = clat.numStates + 1
  rw [killAll_length]
  simp [Fst.numStates]

theorem ext_row_lt (clat : CompactLattice) (maxDepth : ℕ)
    (buckets : List (List LatticeArcRecord)) (s : ℕ)
    (hs : s < clat.numStates) :
    ((killAll maxDepth clat.numStates (clat.arcs ++ [[]])
      buckets).getD s []).length = (clat.arcsAt s).length := by
  rw [killAll_row, getD_append_lt _ _ _ _ hs]
  rfl

theorem ext_dead_row (clat : CompactLattice) (maxDepth : ℕ)
    (buckets : List (List LatticeArcRecord)) :
    (killAll maxDepth clat.numStates (clat.arcs ++ [[]])
      buckets).getD clat.numStates [] = [] := by
  have hlen : ((killAll maxDepth clat.numStates (clat.arcs ++ [[]])
      buckets).getD clat.numStates []).length = 0 := by
    rw [killAll_row]
    have : (clat.arcs ++ [[]]).getD clat.numStates [] =
        ([] : List CompactLatticeArc) := by
      have := getD_append_len clat.arcs ([] : List CompactLatticeArc) []
      exact this
    rw [this]
    rfl
  exact List.eq_nil_of_length_eq_zero hlen

theorem ext_oob_row (clat : CompactLattice) (maxDepth : ℕ)
    (buckets : List (List LatticeArcRecord)) (s : ℕ)
    (hs : clat.numStates + 1 ≤ s) :
    (killAll maxDepth clat.numStates (clat.arcs ++ [[]])
      buckets).getD s [] = [] := by
  refine getD_oob _ _ _ ?_
  rw [killAll_length]
  simpa [Fst.numStates] using hs

theorem ext_arc_live (clat : CompactLattice) (hT : clat.TopSorted)
    (maxDepth : ℕ) (buckets : List (List LatticeArcRecord)) (s : ℕ)
    (a : CompactLatticeArc)
    (ha : a ∈ (killAll maxDepth clat.numStates (clat.arcs ++ [[]])
      buckets).getD s [])
    (hnd : a.nextstate ≠ clat.numStates) : a ∈ clat.arcsAt s := by
  by_cases hs : s < clat.numStates
  · obtain ⟨i, hilt, hieq⟩ := mem_getD _ a
      ⟨0, 0, Wzero CompactLatticeWeight, clat.numStates⟩ ha
    have hrow : (clat.arcs ++ [[]]).getD s [] = clat.arcsAt s :=
      getD_append_lt _ _ _ _ hs
    have hlen : i < (clat.arcsAt s).length := by
      rw [← ext_row_lt clat maxDepth buckets s hs]
      exact hilt
    rcases killAll_elem maxDepth clat.numStates buckets
        (clat.arcs ++ [[]]) s i with he | he
    · rw [hieq, hrow] at he
      rw [he]
      exact getD_mem _ _ _ hlen
    · rw [hieq] at he
      rw [he, killArc_nextstate] at hnd
      exact absurd rfl hnd
  · by_cases hs2 : s = clat.numStates
    · subst hs2
      rw [ext_dead_row] at ha
      exact absurd ha (List.not_mem_nil a)
    · rw [ext_oob_row clat maxDepth buckets s (by omega)] at ha
      exact absurd ha (List.not_mem_nil a)

theorem ext_topSorted (clat : CompactLattice) (hT : clat.TopSorted)
    (maxDepth : ℕ) (buckets : List (List LatticeArcRecord)) :
    (⟨killAll maxDepth clat.numStates (clat.arcs ++ [[]]) buckets,
      clat.finals ++ [Wzero CompactLatticeWeight]⟩ :
      CompactLattice).TopSorted := by
  intro s a ha
  rw [ext_numStates]
  have ha2 : a ∈ (killAll maxDepth clat.numStates
      (clat.arcs ++ [[]]) buckets).getD s [] := ha
  by_cases hs : s < clat.numStates
  · obtain ⟨i, hilt, hieq⟩ := mem_getD _ a
      ⟨0, 0, Wzero CompactLatticeWeight, clat.numStates⟩ ha2
    have hrow : (clat.arcs ++ [[]]).getD s [] = clat.arcsAt s :=
      getD_append_lt _ _ _ _ hs
    have hlen : i < (clat.arcsAt s).length := by
      rw [← ext_row_lt clat maxDepth buckets s hs]
      exact hilt
    rcases killAll_elem maxDepth clat.numStates buckets
        (clat.arcs ++ [[]]) s i with he | he
    · rw [hieq, hrow] at he
      have hmem : a ∈ clat.arcsAt s := by
        rw [he]; exact getD_mem _ _ _ hlen
      have := hT s a hmem
      omega
    · rw [hieq] at he
      have : a.nextstate = clat.numStates := by
        rw [he, killArc_nextstate]
      omega
  · by_cases hs2 : s = clat.numStates
    · subst hs2
      rw [ext_dead_row] at ha2
      exact absurd ha2 (List.not_mem_nil a)
    · rw [ext_oob_row clat maxDepth buckets s (by omega)] at ha2
      exact absurd ha2 (List.not_mem_nil a)

theorem ext_finalW_lt (clat : CompactLattice)
    (hW : clat.finals.length = clat.arcs.length) (maxDepth : ℕ)
    (buckets : List (List LatticeArcRecord)) (s : ℕ)
    (hs : s < clat.numStates) :
    (⟨killAll maxDepth clat.numStates (clat.arcs ++ [[]]) buckets,
      clat.finals ++ [Wzero CompactLatticeWeight]⟩ :
      CompactLattice).finalW s = clat.finalW s := by
  show (clat.finals ++ [Wzero CompactLatticeWeight]).getD s _ = _
  rw [getD_append_lt _ _ _ _ (by rw [hW]; exact hs)]
  rfl

theorem ext_finalW_dead (clat : CompactLattice)
    (hW : clat.finals.length = clat.arcs.length) (maxDepth : ℕ)
    (buckets : List (List LatticeArcRecord)) :
    (⟨killAll maxDepth clat.numStates (clat.arcs ++ [[]]) buckets,
      clat.finals ++ [Wzero CompactLatticeWeight]⟩ :
      CompactLattice).finalW clat.numStates =
      Wzero CompactLatticeWeight := by
  show (clat.finals ++ [Wzero CompactLatticeWeight]).getD
    clat.numStates _ = _
  have : clat.finals.length = clat.numStates := hW
  rw [← this]
  exact getD_append_len _ _ _

theorem ext_dead_not_useful (clat : CompactLattice)
    (hT : clat.TopSorted)
    (hW : clat.finals.length = clat.arcs.length) (maxDepth : ℕ)
    (buckets : List (List LatticeArcRecord)) :
    usefulB (⟨killAll maxDepth clat.numStates (clat.arcs ++ [[]])
        buckets,
      clat.finals ++ [Wzero CompactLatticeWeight]⟩ :
      CompactLattice) clat.numStates = false := by
  unfold usefulB
  have hco : (coaccArr (⟨killAll maxDepth clat.numStates
      (clat.arcs ++ [[]]) buckets,
      clat.finals ++ [Wzero CompactLatticeWeight]⟩ :
      CompactLattice)).getD clat.numStates false = false := by
    rw [coacc_rec _ (ext_topSorted clat hT maxDepth buckets)
      clat.numStates (by rw [ext_numStates]; omega)]
    have h1 : (⟨killAll maxDepth clat.numStates (clat.arcs ++ [[]])
        buckets,
        clat.finals ++ [Wzero CompactLatticeWeight]⟩ :
        CompactLattice).arcsAt clat.numStates = [] :=
      ext_dead_row clat maxDepth buckets
    rw [h1, ext_finalW_dead clat hW maxDepth buckets]
    simp
  rw [hco, Bool.and_false]

theorem path_avoid_dead {W : Type} (lat : Fst W) (dead : ℕ)
    (hdead : lat.arcsAt dead = []) :
    ∀ {s u : ℕ} {p : List (Arc W)}, PathIn lat s p u → u ≠ dead →
      ∀ pre (arc : Arc W) suf, p = pre ++ arc :: suf →
        arc.nextstate ≠ dead := by
  intro s u p hp
  induction hp with
  | nil s =>
      intro _ pre arc suf heq
      exact absurd heq (by simp)
  | cons arc0 ha hp ih =>
      intro hu pre arc suf heq
      cases pre with
      | nil =>
          rw [List.nil_append] at heq
          have heq2 := List.cons.injEq arc0 _ arc suf ▸ heq
          rw [List.cons.injEq] at heq
          obtain ⟨rfl, rfl⟩ := heq
          intro hd
          rw [hd] at hp
          cases hp with
          | nil => exact hu rfl
          | cons arc1 ha1 hp1 =>
              rw [hdead] at ha1
              exact absurd ha1 (List.not_mem_nil arc1)
      | cons x pre2 =>
          rw [List.cons_append, List.cons.injEq] at heq
          exact ih hu pre2 arc suf heq.2

theorem connect_path_map {W : Type} [LatSemiring W] [DecidableEq W]
    (lat : Fst W) :
    ∀ {s t : ℕ} {p : List (Arc W)}, PathIn lat s p t →
      usefulB lat s = true →
      (∀ pre (arc : Arc W) suf, p = pre ++ arc :: suf →
        usefulB lat arc.nextstate = true) →
      PathIn (connect lat) (newId lat s)
        (p.map fun a => ⟨a.ilabel, a.olabel, a.weight,
          newId lat a.nextstate⟩) (newId lat t) := by
  intro s t p hp
  induction hp with
  | nil s => intro _ _; exact PathIn.nil _
  | cons arc ha hp ih =>
      intro hs hall
      have hnext : usefulB lat arc.nextstate = true :=
        hall [] arc _ rfl
      have hstep := connect_mem_arcs lat (lt_of_arc_mem ha) hs ha hnext
      rw [List.map_cons]
      refine PathIn.cons _ hstep ?_
      exact ih hnext
        (fun pre a suf heq => hall (arc :: pre) a suf (by rw [heq]; rfl))

theorem path_states_useful {W : Type} [LatSemiring W] [DecidableEq W]
    (lat : Fst W) (hT : lat.TopSorted) (hn : lat.numStates ≠ 0)
    {u : ℕ} {p : List (Arc W)} (hp : PathIn lat 0 p u)
    (hu : usefulB lat u = true) :
    usefulB lat 0 = true ∧
    ∀ pre (arc : Arc W) suf, p = pre ++ arc :: suf →
      usefulB lat arc.nextstate = true := by
  have hu2 := hu
  unfold usefulB at hu2
  rw [Bool.and_eq_true] at hu2
  obtain ⟨hacc_u, hco_u⟩ := hu2
  obtain ⟨pf, tf, hpf, hffin⟩ := coacc_complete lat hT u hco_u
  constructor
  · unfold usefulB
    rw [acc_start lat hT hn,
      coacc_path lat hT (pathIn_append hp hpf)
        (Nat.pos_of_ne_zero hn) hffin]
    rfl
  · intro pre arc suf heq
    subst heq
    obtain ⟨hpre, harc, hsuf⟩ := pathIn_split pre hp
    unfold usefulB
    have hacc : (accArr lat).getD arc.nextstate false = true :=
      acc_path lat hT
        (pathIn_append hpre (PathIn.cons arc harc (PathIn.nil _)))
        (acc_start lat hT hn)
    have hco : (coaccArr lat).getD arc.nextstate false = true :=
      coacc_path lat hT (pathIn_append hsuf hpf)
        ((hT _ arc harc).2) hffin
    rw [hacc, hco]
    rfl

theorem pathLen_map_renum {W : Type} [LatSemiring W] [DecidableEq W]
    (lat : Fst W) (p : List CompactLatticeArc)
    (f : CompactLatticeArc → ℕ) :
    pathLen (p.map fun a =>
      (⟨a.ilabel, a.olabel, a.weight, f a⟩ : CompactLatticeArc)) =
      pathLen p := by
  unfold pathLen
  rw [List.map_map]
  rfl

theorem ext_times_transfer (clat : CompactLattice) (hT : clat.TopSorted)
    (hW : clat.finals.length = clat.arcs.length)
    (maxDepth : ℕ) (buckets : List (List LatticeArcRecord))
    {T : ℤ} {tv : List ℤ} {T2 : ℤ} {tv2 : List ℤ}
    (h1 : CompactLatticeStateTimes clat = some (T, tv))
    (h2 : CompactLatticeStateTimes
      (connect (extLat clat maxDepth buckets)) = some (T2, tv2))
    (v : ℕ)
    (hv : v < (usefulList (extLat clat maxDepth buckets)).length) :
    tv2.getD v (-1) =
      tv.getD ((usefulList (extLat clat maxDepth buckets)).getD v 0)
        (-1) := by
  set ext := extLat clat maxDepth buckets with hext
  have hextT : ext.TopSorted := ext_topSorted clat hT maxDepth buckets
  have hdeadNU : usefulB ext clat.numStates = false :=
    ext_dead_not_useful clat hT hW maxDepth buckets
  obtain ⟨hu_old, hlt_old, hnew_old⟩ := usefulList_elem ext v hv
  set w := (usefulList ext).getD v 0 with hw
  have hu2 := hu_old
  unfold usefulB at hu2
  rw [Bool.and_eq_true] at hu2
  obtain ⟨hacc_w, hco_w⟩ := hu2
  obtain ⟨q, hq⟩ := acc_complete ext hextT w hacc_w
  have hns : ext.numStates = clat.numStates + 1 :=
    ext_numStates clat maxDepth buckets
  obtain ⟨hu0, hall⟩ :=
    path_states_useful ext hextT (by omega) hq hu_old
  have hq2 := connect_path_map ext hq hu0 hall
  have hzero : newId ext 0 = 0 := by simp [newId]
  rw [hzero, hnew_old] at hq2
  have hcs := clStateTimes_unfold (connect ext) T2 tv2 h2
  have hT2 : (connect ext).TopSorted := (topSortedB_iff _).mp hcs.1
  have hv2 : tv2.getD v (-1) =
      pathLen (q.map fun a =>
        (⟨a.ilabel, a.olabel, a.weight, newId ext a.nextstate⟩ :
          CompactLatticeArc)) :=
    clTimes_path0 (connect ext) hT2 h2 hq2
  rw [pathLen_map_renum ext q (fun a => newId ext a.nextstate)] at hv2
  have hdeadrow : ext.arcsAt clat.numStates = [] :=
    ext_dead_row clat maxDepth buckets
  have hwne : w ≠ clat.numStates := by
    intro he
    rw [he] at hu_old
    rw [hu_old] at hdeadNU
    exact Bool.noConfusion hdeadNU
  have havoid := path_avoid_dead ext clat.numStates hdeadrow hq hwne
  have hq_clat : PathIn clat 0 q w := by
    refine pathIn_transfer hq ?_
    intro pre arc suf heq
    obtain ⟨hpre, harc, hsuf⟩ := pathIn_split pre (heq ▸ hq)
    exact ext_arc_live clat hT maxDepth buckets _ arc harc
      (havoid pre arc suf heq)
  have hv1 : tv.getD w (-1) = pathLen q :=
    clTimes_path0 clat hT h1 hq_clat
  rw [hv2, hv1]

theorem coversAt_zero (start : ℤ) (t : ℕ) :
    coversAt start 0 t = false := by
  unfold coversAt
  rw [decide_eq_false_iff_not]
  push_cast
  omega

theorem mem_foldl_append {α β : Type} (f : β → List α) :
    ∀ (l : List β) (init : List α) (r : α),
      r ∈ l.foldl (fun acc s => acc ++ f s) init ↔
        r ∈ init ∨ ∃ s ∈ l, r ∈ f s := by
  intro l
  induction l with
  | nil =>
      intro init r
      simp
  | cons x xs ih =>
      intro init r
      rw [List.foldl_cons, ih]
      constructor
      · rintro (h | h)
        · rcases List.mem_append.mp h with h1 | h1
          · exact Or.inl h1
          · exact Or.inr ⟨x, List.mem_cons_self x xs, h1⟩
        · obtain ⟨s, hs, hr⟩ := h
          exact Or.inr ⟨s, List.mem_cons_of_mem x hs, hr⟩
      · rintro (h | h)
        · exact Or.inl (List.mem_append.mpr (Or.inl h))
        · obtain ⟨s, hs, hr⟩ := h
          rcases List.mem_cons.mp hs with rfl | hs2
          · exact Or.inl (List.mem_append.mpr (Or.inr hr))
          · exact Or.inr ⟨s, hs2, hr⟩

theorem coverRecsState_mem (clat : CompactLattice)
    (alpha beta : List (WithBot ℚ)) (bp : ℚ) (times : List ℤ)
    (t s : ℕ) (r : LatticeArcRecord)
    (hr : r ∈ coverRecsState clat alpha beta bp times t s) :
    r.state = s ∧ r.arc < (clat.arcsAt s).length := by
  unfold coverRecsState at hr
  rw [List.mem_map] at hr
  obtain ⟨ia, hia, heq⟩ := hr
  have hia2 := List.mem_of_mem_filter hia
  obtain ⟨i, a⟩ := ia
  have hget := List.mk_mem_enum_iff_get?.mp hia2
  have hlt : i < (clat.arcsAt s).length :=
    (List.get?_eq_some.mp hget).1
  rw [← heq]
  exact ⟨rfl, hlt⟩

theorem coverAll_mem (clat : CompactLattice)
    (alpha beta : List (WithBot ℚ)) (bp : ℚ) (times : List ℤ)
    (t : ℕ) (r : LatticeArcRecord)
    (hr : r ∈ coverAll clat alpha beta bp times t) :
    r.state < clat.numStates ∧
      r.arc < (clat.arcsAt r.state).length := by
  unfold coverAll at hr
  rw [mem_foldl_append] at hr
  rcases hr with h | ⟨s, hs, hr2⟩
  · exact absurd h (List.not_mem_nil r)
  · obtain ⟨hst, harc⟩ :=
      coverRecsState_mem clat alpha beta bp times t s r hr2
    rw [hst]
    exact ⟨List.mem_range.mp hs, harc⟩

theorem recStep_bot (alpha beta : List (WithBot ℚ)) (times : List ℤ)
    (T : ℤ) (s : ℕ) (ob : Option (List (List LatticeArcRecord)))
    (ia : ℕ × CompactLatticeArc) :
    recStep alpha beta ⊥ times T s ob ia = none := by
  cases ob <;> rfl

theorem recordArcsState_bot (clat : CompactLattice)
    (alpha beta : List (WithBot ℚ)) (times : List ℤ) (T : ℤ)
    (ob : Option (List (List LatticeArcRecord)))
    (bk : List (List LatticeArcRecord)) (s : ℕ)
    (h : recordArcsState clat alpha beta ⊥ times T ob s = some bk) :
    clat.arcsAt s = [] ∧ ob = some bk := by
  unfold recordArcsState at h
  cases harcs : clat.arcsAt s with
  | nil =>
      rw [harcs] at h
      exact ⟨rfl, h⟩
  | cons a rest =>
      rw [harcs] at h
      cases henum : (a :: rest).enum with
      | nil =>
          have := List.enum_length (l := a :: rest)
          rw [henum] at this
          simp at this
      | cons hd tl =>
          rw [henum, List.foldl_cons, recStep_bot, recFold_none] at h
          exact absurd h (by simp)

theorem recordBuckets_bot (clat : CompactLattice)
    (alpha beta : List (WithBot ℚ)) (times : List ℤ) (T : ℤ)
    (buckets : List (List LatticeArcRecord))
    (h : recordBuckets clat alpha beta ⊥ times T = some buckets) :
    (∀ s, s < clat.numStates → clat.arcsAt s = []) ∧
      buckets = List.replicate T.toNat [] := by
  unfold recordBuckets at h
  suffices hgen : ∀ (l : List ℕ) (bk : List (List LatticeArcRecord)),
      l.foldl (recordArcsState clat alpha beta ⊥ times T) (some bk) =
        some buckets →
      (∀ s ∈ l, clat.arcsAt s = []) ∧ buckets = bk by
    obtain ⟨h1, h2⟩ := hgen _ _ h
    exact ⟨fun s hs => h1 s (List.mem_range.mpr hs), h2⟩
  intro l
  induction l with
  | nil =>
      intro bk h2
      simp only [List.foldl_nil, Option.some.injEq] at h2
      exact ⟨by simp, h2.symm⟩
  | cons x xs ih =>
      intro bk h2
      rw [List.foldl_cons] at h2
      cases hras : recordArcsState clat alpha beta ⊥ times T
          (some bk) x with
      | none =>
          rw [hras, statesFold_none] at h2
          exact absurd h2 (by simp)
      | some bk2 =>
          rw [hras] at h2
          obtain ⟨hx, hob⟩ :=
            recordArcsState_bot clat alpha beta times T (some bk) bk2 x
              hras
          have hbk : bk = bk2 := by
            rw [Option.some.injEq] at hob
            exact hob
          obtain ⟨hxs, hbuck⟩ := ih bk2 h2
          refine ⟨?_, hbuck.trans hbk.symm⟩
          intro s hs
          rcases List.mem_cons.mp hs with rfl | hs2
          · exact hx
          · exact hxs s hs2

theorem state_live_count_le (clat : CompactLattice)
    (hT : clat.TopSorted)
    (hW : clat.finals.length = clat.arcs.length)
    (maxDepth : ℕ) (buckets : List (List LatticeArcRecord))
    (alpha beta : List (WithBot ℚ)) (bp : ℚ) (times : List ℤ)
    (t s : ℕ) (hs : s < clat.numStates) :
    ((extLat clat maxDepth buckets).arcsAt s).countP (fun a =>
        coversAt (times.getD s (-1)) a.weight.string.length t &&
        usefulB (extLat clat maxDepth buckets) a.nextstate) ≤
      (coverRecsState clat alpha beta bp times t s).countP
        (liveRec (killAll maxDepth clat.numStates
          (clat.arcs ++ [[]]) buckets) clat.numStates) := by
  have hrowlen : ((extLat clat maxDepth buckets).arcsAt s).length =
      (clat.arcsAt s).length := ext_row_lt clat maxDepth buckets s hs
  rw [countP_eq_range
    (⟨0, 0, Wzero CompactLatticeWeight, clat.numStates⟩ :
      CompactLatticeArc)
    (fun a => coversAt (times.getD s (-1)) a.weight.string.length t &&
      usefulB (extLat clat maxDepth buckets) a.nextstate)
    ((extLat clat maxDepth buckets).arcsAt s), hrowlen]
  unfold coverRecsState
  rw [List.countP_map, List.countP_filter,
    show (clat.arcsAt s).enum = List.enumFrom 0 (clat.arcsAt s)
      from rfl,
    countP_enumFrom
      (⟨0, 0, Wzero CompactLatticeWeight, clat.numStates⟩ :
        CompactLatticeArc)]
  refine List.countP_mono_left ?_
  intro i hi hp
  simp only [Bool.and_eq_true] at hp
  obtain ⟨hcov, huse⟩ := hp
  have he : (extLat clat maxDepth buckets).arcsAt s =
      (killAll maxDepth clat.numStates (clat.arcs ++ [[]])
        buckets).getD s [] := rfl
  have happend : ((clat.arcs ++ [[]]).getD s []).getD i
      (⟨0, 0, Wzero CompactLatticeWeight, clat.numStates⟩ :
        CompactLatticeArc) =
      (clat.arcsAt s).getD i
        (⟨0, 0, Wzero CompactLatticeWeight, clat.numStates⟩ :
          CompactLatticeArc) := by
    rw [getD_append_lt clat.arcs [[]] [] s hs]
    rfl
  rcases killAll_elem maxDepth clat.numStates buckets
      (clat.arcs ++ [[]]) s i with he2 | he2
  · have horig : ((extLat clat maxDepth buckets).arcsAt s).getD i
        (⟨0, 0, Wzero CompactLatticeWeight, clat.numStates⟩ :
          CompactLatticeArc) =
        (clat.arcsAt s).getD i
          (⟨0, 0, Wzero CompactLatticeWeight, clat.numStates⟩ :
            CompactLatticeArc) := by
      rw [he, he2, happend]
    have hmem := getD_mem (clat.arcsAt s) i
      (⟨0, 0, Wzero CompactLatticeWeight, clat.numStates⟩ :
        CompactLatticeArc) (List.mem_range.mp hi)
    simp only [Function.comp, liveRec, Nat.zero_add]
    rw [Bool.and_eq_true]
    refine ⟨?_, ?_⟩
    · rw [decide_eq_true_eq, he2, happend]
      have := hT s _ hmem
      omega
    · rw [← horig]
      exact hcov
  · have hnext : (((extLat clat maxDepth buckets).arcsAt s).getD i
        (⟨0, 0, Wzero CompactLatticeWeight, clat.numStates⟩ :
          CompactLatticeArc)).nextstate = clat.numStates := by
      rw [he, he2, killArc_nextstate]
    rw [hnext] at huse
    have hdnu : usefulB (extLat clat maxDepth buckets)
        clat.numStates = false :=
      ext_dead_not_useful clat hT hW maxDepth buckets
    rw [hdnu] at huse
    exact Bool.noConfusion huse

theorem coverRecsState_dead (clat : CompactLattice)
    (alpha beta : List (WithBot ℚ)) (bp : ℚ) (times : List ℤ)
    (t : ℕ) :
    coverRecsState clat alpha beta bp times t clat.numStates = [] := by
  unfold coverRecsState
  rw [arcsAt_oob clat clat.numStates (le_refl _)]
  rfl

theorem depth_sum_le (clat : CompactLattice) (hT : clat.TopSorted)
    (hW : clat.finals.length = clat.arcs.length)
    (hfin : ∀ s, (clat.finalW s).string = [])
    (maxDepth : ℕ) (buckets : List (List LatticeArcRecord))
    {T : ℤ} {times : List ℤ} {T2 : ℤ} {times2 : List ℤ}
    (hst : CompactLatticeStateTimes clat = some (T, times))
    (hst2 : CompactLatticeStateTimes
      (connect (extLat clat maxDepth buckets)) = some (T2, times2))
    (t : ℕ) (g : ℕ → ℕ)
    (hcount : ∀ s, s < clat.numStates →
      ((extLat clat maxDepth buckets).arcsAt s).countP (fun a =>
        coversAt (times.getD s (-1)) a.weight.string.length t &&
        usefulB (extLat clat maxDepth buckets) a.nextstate) ≤ g s)
    (hgdead : g clat.numStates = 0)
    (hgsum : ((List.range clat.numStates).map g).sum ≤ maxDepth) :
    ((List.range
      (connect (extLat clat maxDepth buckets)).numStates).map
      (fun v =>
        ((connect (extLat clat maxDepth buckets)).arcsAt v).countP
          (fun arc => coversAt (times2.getD v (-1))
            arc.weight.string.length t) +
        (if coversAt (times2.getD v (-1))
            ((connect (extLat clat maxDepth
              buckets)).finalW v).string.length t = true
          then 1 else 0))).sum ≤ maxDepth := by
  set ext := extLat clat maxDepth buckets with hext
  have hn' : (connect ext).numStates = (usefulList ext).length :=
    connect_numStates ext
  have hns : ext.numStates = clat.numStates + 1 :=
    ext_numStates clat maxDepth buckets
  have hdnu : usefulB ext clat.numStates = false :=
    ext_dead_not_useful clat hT hW maxDepth buckets
  refine le_trans (List.sum_le_sum
    (g := fun v => g ((usefulList ext).getD v 0)) ?_) ?_
  · intro v hv
    have hv2 : v < (usefulList ext).length := by
      rw [← hn']
      exact List.mem_range.mp hv
    obtain ⟨huse, hlt1, hnew⟩ := usefulList_elem ext v hv2
    have holdlt : (usefulList ext).getD v 0 < clat.numStates := by
      have hne : (usefulList ext).getD v 0 ≠ clat.numStates := by
        intro he
        rw [he, hdnu] at huse
        exact Bool.noConfusion huse
      omega
    have hfi : (if coversAt (times2.getD v (-1))
        ((connect ext).finalW v).string.length t = true
        then 1 else 0) = 0 := by
      rw [connect_finalW ext v hv2]
      have hfw : ext.finalW ((usefulList ext).getD v 0) =
          clat.finalW ((usefulList ext).getD v 0) :=
        ext_finalW_lt clat hW maxDepth buckets _ holdlt
      rw [hfw, hfin ((usefulList ext).getD v 0),
        show ([] : List ℕ).length = 0 from rfl, coversAt_zero]
      simp
    rw [hfi, Nat.add_zero]
    rw [connect_arcsAt ext v hv2, List.countP_map, List.countP_filter]
    have htv : times2.getD v (-1) =
        times.getD ((usefulList ext).getD v 0) (-1) :=
      ext_times_transfer clat hT hW maxDepth buckets hst hst2 v hv2
    rw [htv]
    refine le_trans (le_of_eq (countP_congr_mem _ _ _ ?_))
      (hcount _ holdlt)
    intro a ha
    rfl
  · rw [hn', map_getD_range 0 g (usefulList ext)]
    refine le_trans (List.Sublist.sum_le_sum
      ((List.filter_sublist (List.range ext.numStates)).map g)
      (by intro x hx; exact Nat.zero_le x)) ?_
    rw [hns, List.range_succ, List.map_append, List.sum_append]
    simp only [List.map_cons, List.map_nil, List.sum_cons,
      List.sum_nil, hgdead]
    omega

/-- C5 (amended): for every compact lattice whose final-weight strings
are all empty and every max depth `D ≥ 1`, when
`CompactLatticeLimitDepth D clat` succeeds, the array computed by
`CompactLatticeDepthPerFrame` on its output is at most `D` at every
frame (per-frame depth counts both arc frame-strings and final-weight
frame-strings; the latter are all empty here, because the kill phase of
`CompactLatticeLimitDepth` prunes only arcs and can never reduce the
contribution of final-weight strings). -/
theorem claim_C5 (maxDepth : ℕ) (clat clat2 : CompactLattice)
    (dpf : List ℕ) (hD : 1 ≤ maxDepth)
    (hW : clat.finals.length = clat.arcs.length)
    (hfin : ∀ s, (clat.finalW s).string = [])
    (hld : CompactLatticeLimitDepth maxDepth clat = some clat2)
    (hdp : CompactLatticeDepthPerFrame clat2 = some dpf) :
    ∀ x ∈ dpf, x ≤ maxDepth := by
  intro x hx
  rcases depthPerFrame_spec clat2 dpf hdp with hnil |
    ⟨T2, times2, hst2, hT2pos, hlen, hform⟩
  · rw [hnil] at hx
    exact absurd hx (List.not_mem_nil x)
  obtain ⟨t, ht, hgd⟩ := mem_getD dpf x 0 hx
  rw [← hgd, hform t]
  unfold CompactLatticeLimitDepth at hld
  by_cases hn : clat.numStates = 0
  · rw [if_pos hn, Option.some.injEq] at hld
    subst hld
    rw [hn]
    simp
  · rw [if_neg hn] at hld
    by_cases hts : clat.TopSortedB = true
    · rw [if_neg (by simp [hts])] at hld
      cases hst : CompactLatticeStateTimes clat with
      | none =>
          rw [hst] at hld
          exact absurd hld (by simp)
      | some p =>
          obtain ⟨T, times⟩ := p
          rw [hst] at hld
          have hld2 : (match recordBuckets clat
              (alphaLoop clat clat.numStates).1 (betaArr clat)
              (abBest clat) times T with
            | none => none
            | some buckets =>
                if (connect (⟨killAll maxDepth clat.numStates
                    (clat.arcs ++ [[]]) buckets,
                    clat.finals ++ [Wzero CompactLatticeWeight]⟩ :
                    CompactLattice)).TopSortedB = true then
                  some (connect (⟨killAll maxDepth clat.numStates
                    (clat.arcs ++ [[]]) buckets,
                    clat.finals ++ [Wzero CompactLatticeWeight]⟩ :
                    CompactLattice))
                else none) = some clat2 := hld
          cases hrb : recordBuckets clat
              (alphaLoop clat clat.numStates).1 (betaArr clat)
              (abBest clat) times T with
          | none =>
              rw [hrb] at hld2
              exact absurd hld2 (by simp)
          | some buckets =>
              rw [hrb] at hld2
              have hld3 : (if (connect (⟨killAll maxDepth
                  clat.numStates (clat.arcs ++ [[]]) buckets,
                  clat.finals ++ [Wzero CompactLatticeWeight]⟩ :
                  CompactLattice)).TopSortedB = true then
                    some (connect (⟨killAll maxDepth clat.numStates
                      (clat.arcs ++ [[]]) buckets,
                      clat.finals ++
                        [Wzero CompactLatticeWeight]⟩ :
                      CompactLattice))
                  else none) = some clat2 := hld2
              by_cases hcts : (connect (⟨killAll maxDepth
                  clat.numStates (clat.arcs ++ [[]]) buckets,
                  clat.finals ++ [Wzero CompactLatticeWeight]⟩ :
                  CompactLattice)).TopSortedB = true
              · rw [if_pos hcts, Option.some.injEq] at hld3
                have hclat2 : clat2 =
                    connect (extLat clat maxDepth buckets) :=
                  hld3.symm
                subst hclat2
                cases hbest : abBest clat with
                | bot =>
                    rw [hbest] at hrb
                    obtain ⟨hnoarcs, hbuck⟩ := recordBuckets_bot clat
                      _ _ times T buckets hrb
                    refine depth_sum_le clat
                      ((topSortedB_iff clat).mp hts) hW hfin maxDepth
                      buckets hst hst2 t (fun _ => 0) ?_ rfl (by simp)
                    intro s hs2
                    have hr0 : ((extLat clat maxDepth
                        buckets).arcsAt s).length = 0 := by
                      show ((killAll maxDepth clat.numStates
                        (clat.arcs ++ [[]]) buckets).getD s []).length
                          = 0
                      rw [ext_row_lt clat maxDepth buckets s hs2,
                        hnoarcs s hs2]
                      rfl
                    rw [List.eq_nil_of_length_eq_zero hr0]
                    simp
                | coe bp =>
                    rw [hbest] at hrb
                    have hspec := recordBuckets_spec clat
                      (alphaLoop clat clat.numStates).1 (betaArr clat)
                      bp times T buckets hrb
                    refine depth_sum_le clat
                      ((topSortedB_iff clat).mp hts) hW hfin maxDepth
                      buckets hst hst2 t
                      (fun s => (coverRecsState clat
                        (alphaLoop clat clat.numStates).1
                        (betaArr clat) bp times t s).countP
                          (liveRec (killAll maxDepth clat.numStates
                            (clat.arcs ++ [[]]) buckets)
                            clat.numStates)) ?_ ?_ ?_
                    · intro s hs2
                      exact state_live_count_le clat
                        ((topSortedB_iff clat).mp hts) hW maxDepth
                        buckets _ _ bp times t s hs2
                    · simp only [coverRecsState_dead,
                        List.countP_nil]
                    · rw [← coverAll_countP clat _ _ bp times t _,
                        ← hspec.2 t]
                      by_cases htb : t < buckets.length
                      · refine liveCount_le maxDepth clat.numStates
                          buckets (clat.arcs ++ [[]])
                          (buckets.getD t [])
                          (getD_mem buckets t [] htb) ?_
                        intro r hr
                        rw [hspec.2 t] at hr
                        obtain ⟨h1, h2⟩ := coverAll_mem clat _ _ bp
                          times t r hr
                        constructor
                        · rw [List.length_append]
                          simp only [List.length_cons,
                            List.length_nil]
                          have : clat.numStates = clat.arcs.length :=
                            rfl
                          omega
                        · rw [getD_append_lt clat.arcs [[]] []
                            r.state h1]
                          exact h2
                      · rw [getD_oob buckets t []
                          (le_of_not_lt htb)]
                        simp
              · rw [if_neg hcts] at hld3
                exact absurd hld3 (by simp)
    · rw [if_pos (by simpa using hts)] at hld
      exact absurd hld (by simp)

/-- Witness for C5: the one-state lattice `exW` with an empty
final-weight string; `CompactLatticeLimitDepth 1` returns it unchanged
and the per-frame depth array of the output is empty. -/
theorem claim_C5_witness :
    (∀ s, (exW.finalW s).string = []) ∧
    ∀ x ∈ ([] : List ℕ), x ≤ 1 :=
  ⟨fun s => by cases s with | zero => rfl | succ n => rfl,
   claim_C5 1 exW exW [] (le_refl 1) (by decide)
     (fun s => by cases s with | zero => rfl | succ n => rfl)
     (by with_unfolding_all decide) (by with_unfolding_all decide)⟩

/-- Counterexample to C4 as stated: composing `clatX` (one final state,
final weight `((0,0),[])`, no arcs) with `dfstX` (never final) leaves
the empty labeled path surviving — the lone state's composed final
weight `((∞,0),[])` is not the zero weight, so it stays final and
survives the trim — although the empty label sequence is not in the
input language of `dfstX`, whose final weight is `∞` everywhere. -/
theorem claim_C4_counterexample :
    ComposeCompactLatticeDeterministic 1 clatX dfstX = some outX ∧
    (PathIn outX 0 [] 0 ∧ labelsNZ [] = ([] : List ℕ) ∧
      outX.finalW 0 ≠ Wzero CompactLatticeWeight) ∧
    (∀ u2, dfstRun dfstX dfstX.start [] = some u2 →
      dfstX.final u2 = ⊤) := by
  refine ⟨by with_unfolding_all decide,
    ⟨PathIn.nil 0, rfl, by with_unfolding_all decide⟩, ?_⟩
  intro u2 h
  have h2 : (some dfstX.start : Option ℕ) = some u2 := h
  rw [Option.some.injEq] at h2
  rw [← h2]
  rfl

theorem idxIn_lt {α : Type} [DecidableEq α] (a : α) :
    ∀ l : List α, a ∈ l → idxIn a l < l.length := by
  intro l
  induction l with
  | nil => intro h; exact absurd h (List.not_mem_nil a)
  | cons b t ih =>
      intro h
      unfold idxIn
      by_cases hb : b = a
      · rw [if_pos hb]
        simp
      · rw [if_neg hb]
        have hat : a ∈ t := by
          rcases List.mem_cons.mp h with rfl | h2
          · exact absurd rfl hb
          · exact h2
        have := ih hat
        simp only [List.length_cons]
        omega

theorem idxIn_getD {α : Type} [DecidableEq α] (a d : α) :
    ∀ l : List α, a ∈ l → l.getD (idxIn a l) d = a := by
  intro l
  induction l with
  | nil => intro h; exact absurd h (List.not_mem_nil a)
  | cons b t ih =>
      intro h
      unfold idxIn
      by_cases hb : b = a
      · rw [if_pos hb]
        exact hb
      · rw [if_neg hb]
        have hat : a ∈ t := by
          rcases List.mem_cons.mp h with rfl | h2
          · exact absurd rfl hb
          · exact h2
        exact ih hat

theorem idxIn_append {α : Type} [DecidableEq α] (a : α)
    (l2 : List α) :
    ∀ l : List α, a ∈ l → idxIn a (l ++ l2) = idxIn a l := by
  intro l
  induction l with
  | nil => intro h; exact absurd h (List.not_mem_nil a)
  | cons b t ih =>
      intro h
      rw [List.cons_append]
      unfold idxIn
      by_cases hb : b = a
      · rw [if_pos hb, if_pos hb]
      · rw [if_neg hb, if_neg hb]
        have hat : a ∈ t := by
          rcases List.mem_cons.mp h with rfl | h2
          · exact absurd rfl hb
          · exact h2
        rw [ih hat]

theorem idxIn_getD_self {α : Type} [DecidableEq α] (d : α) :
    ∀ l : List α, l.Nodup → ∀ i, i < l.length →
      idxIn (l.getD i d) l = i := by
  intro l
  induction l with
  | nil => intro _ i hi; simp at hi
  | cons b t ih =>
      intro hn i hi
      cases i with
      | zero =>
          show idxIn b (b :: t) = 0
          unfold idxIn
          rw [if_pos rfl]
      | succ i =>
          have hgd : (b :: t).getD (i + 1) d = t.getD i d := rfl
          rw [hgd]
          have hit : i < t.length := by
            simp only [List.length_cons] at hi
            omega
          have hmem : t.getD i d ∈ t := getD_mem t i d hit
          have hb : b ≠ t.getD i d := by
            intro he
            exact (List.nodup_cons.mp hn).1 (he ▸ hmem)
          unfold idxIn
          rw [if_neg hb, ih (List.nodup_cons.mp hn).2 i hit]

theorem usefulListG_getD_newIdG {W : Type} [LatSemiring W]
    [DecidableEq W] (lat : Fst W) (s : ℕ) (hs : s < lat.numStates)
    (hu : usefulGB lat s = true) :
    (usefulListG lat).getD (newIdG lat s) 0 = s ∧
      newIdG lat s < (usefulListG lat).length :=
  filter_range_spec (usefulGB lat) lat.numStates s hs hu

theorem usefulListG_elem {W : Type} [LatSemiring W] [DecidableEq W]
    (lat : Fst W) (i : ℕ) (hi : i < (usefulListG lat).length) :
    usefulGB lat ((usefulListG lat).getD i 0) = true ∧
      (usefulListG lat).getD i 0 < lat.numStates ∧
      newIdG lat ((usefulListG lat).getD i 0) = i :=
  filter_range_elem (usefulGB lat) lat.numStates i hi

theorem connectGen_numStates {W : Type} [LatSemiring W]
    [DecidableEq W] (lat : Fst W) :
    (connectGen lat).numStates = (usefulListG lat).length := by
  unfold connectGen Fst.numStates
  simp

theorem connectGen_arcsAt {W : Type} [LatSemiring W] [DecidableEq W]
    (lat : Fst W) (i : ℕ) (hi : i < (usefulListG lat).length) :
    (connectGen lat).arcsAt i =
      ((lat.arcsAt ((usefulListG lat).getD i 0)).filter
        fun a => usefulGB lat a.nextstate).map
        fun a => { a with nextstate := newIdG lat a.nextstate } := by
  show ((usefulListG lat).map _).getD i [] = _
  rw [getD_map_lt _ _ i hi _ 0]

theorem connectGen_arcsAt_oob {W : Type} [LatSemiring W]
    [DecidableEq W] (lat : Fst W) (i : ℕ)
    (hi : (usefulListG lat).length ≤ i) :
    (connectGen lat).arcsAt i = [] := by
  show ((usefulListG lat).map _).getD i [] = _
  rw [getD_oob _ _ _ (by simpa using hi)]

theorem connectGen_finalW {W : Type} [LatSemiring W] [DecidableEq W]
    (lat : Fst W) (i : ℕ) (hi : i < (usefulListG lat).length) :
    (connectGen lat).finalW i =
      lat.finalW ((usefulListG lat).getD i 0) := by
  show ((usefulListG lat).map _).getD i (Wzero W) = _
  rw [getD_map_lt _ _ i hi _ 0]

theorem connectGen_finalW_oob {W : Type} [LatSemiring W]
    [DecidableEq W] (lat : Fst W) (i : ℕ)
    (hi : (usefulListG lat).length ≤ i) :
    (connectGen lat).finalW i = Wzero W := by
  show ((usefulListG lat).map _).getD i (Wzero W) = _
  rw [getD_oob _ _ _ (by simpa using hi)]

theorem connectGen_mem_arcs {W : Type} [LatSemiring W] [DecidableEq W]
    (lat : Fst W) {s : ℕ} {arc : Arc W} (hs : s < lat.numStates)
    (hus : usefulGB lat s = true) (ha : arc ∈ lat.arcsAt s)
    (hun : usefulGB lat arc.nextstate = true) :
    (⟨arc.ilabel, arc.olabel, arc.weight, newIdG lat arc.nextstate⟩ :
      Arc W) ∈ (connectGen lat).arcsAt (newIdG lat s) := by
  obtain ⟨hget, hlt⟩ := usefulListG_getD_newIdG lat s hs hus
  rw [connectGen_arcsAt lat _ hlt, hget]
  rw [List.mem_map]
  exact ⟨arc, List.mem_filter.mpr ⟨ha, hun⟩, rfl⟩

theorem connectGen_mem_arcs_inv {W : Type} [LatSemiring W]
    [DecidableEq W] (lat : Fst W) {i : ℕ} {arc2 : Arc W}
    (h : arc2 ∈ (connectGen lat).arcsAt i) :
    i < (usefulListG lat).length ∧
      ∃ a ∈ lat.arcsAt ((usefulListG lat).getD i 0),
        usefulGB lat a.nextstate = true ∧
        arc2 = ⟨a.ilabel, a.olabel, a.weight,
          newIdG lat a.nextstate⟩ := by
  by_cases hi : i < (usefulListG lat).length
  · rw [connectGen_arcsAt lat i hi] at h
    rw [List.mem_map] at h
    obtain ⟨a, haf, heq⟩ := h
    rw [List.mem_filter] at haf
    exact ⟨hi, a, haf.1, haf.2, heq.symm⟩
  · rw [connectGen_arcsAt_oob lat i (le_of_not_lt hi)] at h
    exact absurd h (List.not_mem_nil arc2)

theorem getD_set_true_mono (arr : List Bool) (x u : ℕ)
    (h : arr.getD u false = true) :
    (arr.set x true).getD u false = true := by
  by_cases hx : x < arr.length
  · by_cases hxu : x = u
    · subst hxu
      rw [getD_set_self _ _ _ _ hx]
    · rw [getD_set_ne _ _ _ _ _ hxu]
      exact h
  · rw [List.set_eq_of_length_le (le_of_not_lt hx)]
    exact h

theorem countTrue_le_of_pointwise :
    ∀ l1 l2 : List Bool, l1.length = l2.length →
      (∀ u, l1.getD u false = true → l2.getD u false = true) →
      l1.countP (fun b => b) ≤ l2.countP (fun b => b) := by
  intro l1
  induction l1 with
  | nil =>
      intro l2 _ _
      exact Nat.zero_le _
  | cons b1 t1 ih =>
      intro l2 hlen hpt
      cases l2 with
      | nil => simp at hlen
      | cons b2 t2 =>
          rw [List.countP_cons, List.countP_cons]
          have htail : t1.countP (fun b => b) ≤
              t2.countP (fun b => b) := by
            refine ih t2 (by simpa using hlen) ?_
            intro u hu
            exact hpt (u + 1) hu
          have hhd : b1 = true → b2 = true := hpt 0
          cases b1 <;> cases b2 <;> simp_all <;> omega

theorem countTrue_lt_of_pointwise_ne :
    ∀ l1 l2 : List Bool, l1.length = l2.length →
      (∀ u, l1.getD u false = true → l2.getD u false = true) →
      l1 ≠ l2 →
      l1.countP (fun b => b) < l2.countP (fun b => b) := by
  intro l1
  induction l1 with
  | nil =>
      intro l2 hlen _ hne
      cases l2 with
      | nil => exact absurd rfl hne
      | cons b t => simp at hlen
  | cons b1 t1 ih =>
      intro l2 hlen hpt hne
      cases l2 with
      | nil => simp at hlen
      | cons b2 t2 =>
          rw [List.countP_cons, List.countP_cons]
          have hlen2 : t1.length = t2.length := by simpa using hlen
          have hptt : ∀ u, t1.getD u false = true →
              t2.getD u false = true := fun u hu => hpt (u + 1) hu
          by_cases hb : b1 = b2
          · have hnet : t1 ≠ t2 := by
              intro he
              exact hne (by rw [hb, he])
            have := ih t2 hlen2 hptt hnet
            cases b2 <;> simp_all
          · have hhd : b1 = true → b2 = true := hpt 0
            have hb1 : b1 = false := by
              cases b1
              · rfl
              · exact absurd (hhd rfl).symm hb
            have hb2 : b2 = true := by
              cases b2
              · exact absurd (by rw [hb1]) hb
              · rfl
            have := countTrue_le_of_pointwise t1 t2 hlen2 hptt
            rw [hb1, hb2]
            simp
            omega

theorem markStable (f : List Bool → List Bool) (g : ℕ → List Bool)
    (n : ℕ) (hg : ∀ k, g (k + 1) = f (g k))
    (hlen : ∀ k, (g k).length = n)
    (hmono : ∀ k u, (g k).getD u false = true →
      (g (k + 1)).getD u false = true) :
    ∀ ℓ u, (g ℓ).getD u false = true → (g n).getD u false = true := by
  have hmonole : ∀ k k2, k ≤ k2 → ∀ u, (g k).getD u false = true →
      (g k2).getD u false = true := by
    intro k k2 hk
    induction k2 with
    | zero =>
        intro u hu
        have : k = 0 := by omega
        rw [← this]
        exact hu
    | succ k2 ih =>
        intro u hu
        by_cases hke : k = k2 + 1
        · rw [← hke]; exact hu
        · exact hmono k2 u (ih (by omega) u hu)
  have hfix : ∃ k, k ≤ n ∧ g (k + 1) = g k := by
    by_contra hno
    push_neg at hno
    have hcount : ∀ k, k ≤ n + 1 →
        k + (g 0).countP (fun b => b) ≤
          (g k).countP (fun b => b) := by
      intro k
      induction k with
      | zero => intro _; omega
      | succ k ih =>
          intro hk
          have h1 := ih (by omega)
          have h2 : (g k).countP (fun b => b) <
              (g (k + 1)).countP (fun b => b) := by
            refine countTrue_lt_of_pointwise_ne _ _ ?_ ?_ ?_
            · rw [hlen, hlen]
            · intro u hu
              exact hmono k u hu
            · intro he
              exact hno k (by omega) (he.symm)
          omega
    have h3 := hcount (n + 1) (le_refl _)
    have h4 : (g (n + 1)).countP (fun b => b) ≤ n := by
      have := List.countP_le_length (fun b => b) (l := g (n + 1))
      rw [hlen] at this
      exact this
    omega
  obtain ⟨k, hkn, hk⟩ := hfix
  have hstab : ∀ j, g (k + j) = g k := by
    intro j
    induction j with
    | zero => rfl
    | succ j ih =>
        have : k + (j + 1) = (k + j) + 1 := by omega
        rw [this, hg, ih, ← hg, hk]
  intro ℓ u hu
  by_cases hl : ℓ ≤ n
  · exact hmonole ℓ n hl u hu
  · have h5 : g ℓ = g k := by
      have : ℓ = k + (ℓ - k) := by omega
      rw [this, hstab]
    have h6 : g n = g k := by
      have : n = k + (n - k) := by omega
      rw [this, hstab]
    rw [h6, ← h5]
    exact hu

theorem setFoldA_length {W : Type} :
    ∀ (l : List (Arc W)) (arr : List Bool),
      (l.foldl (fun acc2 a => acc2.set a.nextstate true) arr).length =
        arr.length := by
  intro l
  induction l with
  | nil => intro arr; rfl
  | cons b t ih =>
      intro arr
      rw [List.foldl_cons, ih, List.length_set]

theorem setFoldA_mono {W : Type} :
    ∀ (l : List (Arc W)) (arr : List Bool) (u : ℕ),
      arr.getD u false = true →
      (l.foldl (fun acc2 a => acc2.set a.nextstate true) arr).getD u
        false = true := by
  intro l
  induction l with
  | nil => intro arr u h; exact h
  | cons b t ih =>
      intro arr u h
      rw [List.foldl_cons]
      exact ih _ u (getD_set_true_mono arr b.nextstate u h)

theorem setFoldA_sets {W : Type} :
    ∀ (l : List (Arc W)) (arr : List Bool) (a : Arc W), a ∈ l →
      a.nextstate < arr.length →
      (l.foldl (fun acc2 a2 => acc2.set a2.nextstate true) arr).getD
        a.nextstate false = true := by
  intro l
  induction l with
  | nil => intro arr a ha; exact absurd ha (List.not_mem_nil a)
  | cons b t ih =>
      intro arr a ha hb
      rw [List.foldl_cons]
      rcases List.mem_cons.mp ha with rfl | hat
      · refine setFoldA_mono t _ _ ?_
        rw [getD_set_self _ _ _ _ hb]
      · exact ih _ a hat (by rw [List.length_set]; exact hb)

theorem accFoldA_length {W : Type} (lat : Fst W) :
    ∀ (l : List ℕ) (arr : List Bool),
      (l.foldl (fun acc s => if acc.getD s false then
          (lat.arcsAt s).foldl
            (fun acc2 a => acc2.set a.nextstate true) acc
        else acc) arr).length = arr.length := by
  intro l
  induction l with
  | nil => intro arr; rfl
  | cons x t ih =>
      intro arr
      rw [List.foldl_cons, ih]
      by_cases hx : arr.getD x false = true
      · rw [if_pos hx, setFoldA_length]
      · rw [if_neg hx]

theorem accFoldA_mono {W : Type} (lat : Fst W) :
    ∀ (l : List ℕ) (arr : List Bool) (u : ℕ),
      arr.getD u false = true →
      (l.foldl (fun acc s => if acc.getD s false then
          (lat.arcsAt s).foldl
            (fun acc2 a => acc2.set a.nextstate true) acc
        else acc) arr).getD u false = true := by
  intro l
  induction l with
  | nil => intro arr u h; exact h
  | cons x t ih =>
      intro arr u h
      rw [List.foldl_cons]
      by_cases hx : arr.getD x false = true
      · rw [if_pos hx]
        exact ih _ u (setFoldA_mono _ _ u h)
      · rw [if_neg hx]
        exact ih _ u h

theorem accFoldA_sets {W : Type} (lat : Fst W) :
    ∀ (l : List ℕ) (arr : List Bool) (s : ℕ) (a : Arc W), s ∈ l →
      arr.getD s false = true → a ∈ lat.arcsAt s →
      a.nextstate < arr.length →
      (l.foldl (fun acc s2 => if acc.getD s2 false then
          (lat.arcsAt s2).foldl
            (fun acc2 a2 => acc2.set a2.nextstate true) acc
        else acc) arr).getD a.nextstate false = true := by
  intro l
  induction l with
  | nil => intro arr s a hs; exact absurd hs (List.not_mem_nil s)
  | cons x t ih =>
      intro arr s a hs harr hmem hb
      rw [List.foldl_cons]
      rcases List.mem_cons.mp hs with rfl | hst
      · rw [if_pos harr]
        exact accFoldA_mono lat t _ _ (setFoldA_sets _ _ a hmem hb)
      · by_cases hx : arr.getD x false = true
        · rw [if_pos hx]
          exact ih _ s a hst (setFoldA_mono _ _ _ harr) hmem
            (by rw [setFoldA_length]; exact hb)
        · rw [if_neg hx]
          exact ih _ s a hst harr hmem hb

theorem accStepG_length {W : Type} (lat : Fst W) (arr : List Bool) :
    (accStepG lat arr).length = arr.length :=
  accFoldA_length lat _ arr

theorem accStepG_mono {W : Type} (lat : Fst W) (arr : List Bool)
    (u : ℕ) (h : arr.getD u false = true) :
    (accStepG lat arr).getD u false = true :=
  accFoldA_mono lat _ arr u h

theorem accStepG_sets {W : Type} (lat : Fst W) (arr : List Bool)
    (s : ℕ) (a : Arc W) (hs : s < lat.numStates)
    (harr : arr.getD s false = true) (hmem : a ∈ lat.arcsAt s)
    (hb : a.nextstate < arr.length) :
    (accStepG lat arr).getD a.nextstate false = true :=
  accFoldA_sets lat _ arr s a (List.mem_range.mpr hs) harr hmem hb

theorem accIterG_length {W : Type} (lat : Fst W) :
    ∀ k, (accIterG lat k).length = lat.numStates := by
  intro k
  induction k with
  | zero =>
      show ((List.replicate lat.numStates false).set 0 true).length = _
      rw [List.length_set, List.length_replicate]
  | succ k ih =>
      show (accStepG lat (accIterG lat k)).length = _
      rw [accStepG_length, ih]

theorem accIterG_path {W : Type} (lat : Fst W)
    (hbnd : ∀ (s : ℕ) (a : Arc W), a ∈ lat.arcsAt s →
      a.nextstate < lat.numStates) :
    ∀ (p : List (Arc W)) (s u k : ℕ), PathIn lat s p u →
      (accIterG lat k).getD s false = true →
      (accIterG lat (k + p.length)).getD u false = true := by
  intro p
  induction p with
  | nil =>
      intro s u k hp hk
      cases hp
      exact hk
  | cons a rest ih =>
      intro s u k hp hk
      cases hp with
      | cons _ ha hp2 =>
          have h1 : (accIterG lat (k + 1)).getD a.nextstate false =
              true := by
            show (accStepG lat (accIterG lat k)).getD a.nextstate
              false = true
            refine accStepG_sets lat _ s a (lt_of_arc_mem ha) hk ha ?_
            rw [accIterG_length]
            exact hbnd s a ha
          have h2 := ih a.nextstate u (k + 1) hp2 h1
          have he : k + 1 + rest.length = k + (a :: rest).length := by
            rw [List.length_cons]
            omega
          rw [he] at h2
          exact h2

theorem accG_start {W : Type} (lat : Fst W)
    (hn : lat.numStates ≠ 0) :
    (accIterG lat 0).getD 0 false = true := by
  show ((List.replicate lat.numStates false).set 0 true).getD 0 false =
    true
  rw [getD_set_self _ _ _ _
    (by simpa using Nat.pos_of_ne_zero hn)]

theorem accG_mark {W : Type} (lat : Fst W)
    (hbnd : ∀ (s : ℕ) (a : Arc W), a ∈ lat.arcsAt s →
      a.nextstate < lat.numStates)
    (hn : lat.numStates ≠ 0) {p : List (Arc W)} {u : ℕ}
    (hp : PathIn lat 0 p u) :
    (accArrG lat).getD u false = true := by
  have h1 := accIterG_path lat hbnd p 0 u 0 hp (accG_start lat hn)
  exact markStable (accStepG lat) (accIterG lat) lat.numStates
    (fun k => rfl) (accIterG_length lat)
    (fun k u2 h => accStepG_mono lat _ u2 h) (0 + p.length) u h1

theorem coaccFoldA_length {W : Type} (lat : Fst W) :
    ∀ (l : List ℕ) (arr : List Bool),
      (l.foldl (fun acc s => if (lat.arcsAt s).any
          (fun a => acc.getD a.nextstate false) then acc.set s true
        else acc) arr).length = arr.length := by
  intro l
  induction l with
  | nil => intro arr; rfl
  | cons x t ih =>
      intro arr
      rw [List.foldl_cons, ih]
      by_cases hx : (lat.arcsAt x).any
          (fun a => arr.getD a.nextstate false) = true
      · rw [if_pos hx, List.length_set]
      · rw [if_neg hx]

theorem coaccFoldA_mono {W : Type} (lat : Fst W) :
    ∀ (l : List ℕ) (arr : List Bool) (u : ℕ),
      arr.getD u false = true →
      (l.foldl (fun acc s => if (lat.arcsAt s).any
          (fun a => acc.getD a.nextstate false) then acc.set s true
        else acc) arr).getD u false = true := by
  intro l
  induction l with
  | nil => intro arr u h; exact h
  | cons x t ih =>
      intro arr u h
      rw [List.foldl_cons]
      by_cases hx : (lat.arcsAt x).any
          (fun a => arr.getD a.nextstate false) = true
      · rw [if_pos hx]
        exact ih _ u (getD_set_true_mono arr x u h)
      · rw [if_neg hx]
        exact ih _ u h

theorem coaccFoldA_sets {W : Type} (lat : Fst W) :
    ∀ (l : List ℕ) (arr : List Bool) (s : ℕ) (a : Arc W), s ∈ l →
      a ∈ lat.arcsAt s → arr.getD a.nextstate false = true →
      s < arr.length →
      (l.foldl (fun acc s2 => if (lat.arcsAt s2).any
          (fun a2 => acc.getD a2.nextstate false) then acc.set s2 true
        else acc) arr).getD s false = true := by
  intro l
  induction l with
  | nil => intro arr s a hs; exact absurd hs (List.not_mem_nil s)
  | cons x t ih =>
      intro arr s a hs hmem harr hb
      rw [List.foldl_cons]
      rcases List.mem_cons.mp hs with rfl | hst
      · rw [if_pos (List.any_eq_true.mpr ⟨a, hmem, harr⟩)]
        refine coaccFoldA_mono lat t _ _ ?_
        rw [getD_set_self _ _ _ _ hb]
      · by_cases hx : (lat.arcsAt x).any
            (fun a2 => arr.getD a2.nextstate false) = true
        · rw [if_pos hx]
          exact ih _ s a hst hmem (getD_set_true_mono arr x _ harr)
            (by rw [List.length_set]; exact hb)
        · rw [if_neg hx]
          exact ih _ s a hst hmem harr hb

theorem coaccStepG_length {W : Type} (lat : Fst W)
    (arr : List Bool) : (coaccStepG lat arr).length = arr.length :=
  coaccFoldA_length lat _ arr

theorem coaccStepG_mono {W : Type} (lat : Fst W) (arr : List Bool)
    (u : ℕ) (h : arr.getD u false = true) :
    (coaccStepG lat arr).getD u false = true :=
  coaccFoldA_mono lat _ arr u h

theorem coaccStepG_sets {W : Type} (lat : Fst W) (arr : List Bool)
    (s : ℕ) (a : Arc W) (hs : s < lat.numStates)
    (hmem : a ∈ lat.arcsAt s)
    (harr : arr.getD a.nextstate false = true)
    (hb : s < arr.length) :
    (coaccStepG lat arr).getD s false = true :=
  coaccFoldA_sets lat _ arr s a (List.mem_range.mpr hs) hmem harr hb

theorem coaccIterG_length {W : Type} [LatSemiring W] [DecidableEq W]
    (lat : Fst W) :
    ∀ k, (coaccIterG lat k).length = lat.numStates := by
  intro k
  induction k with
  | zero =>
      show ((List.range lat.numStates).map _).length = _
      rw [List.length_map, List.length_range]
  | succ k ih =>
      show (coaccStepG lat (coaccIterG lat k)).length = _
      rw [coaccStepG_length, ih]

theorem coaccG_seed {W : Type} [LatSemiring W] [DecidableEq W]
    (lat : Fst W) (t : ℕ) (ht : t < lat.numStates)
    (hf : lat.finalW t ≠ Wzero W) :
    (coaccIterG lat 0).getD t false = true := by
  show ((List.range lat.numStates).map
    (fun s => decide (lat.finalW s ≠ Wzero W))).getD t false = true
  rw [getD_map_lt _ _ t (by simpa using ht) _ 0,
    getD_range _ _ ht]
  exact decide_eq_true hf

theorem coaccIterG_path {W : Type} [LatSemiring W] [DecidableEq W]
    (lat : Fst W) :
    ∀ (p : List (Arc W)) (s t k : ℕ), PathIn lat s p t →
      (coaccIterG lat k).getD t false = true →
      (coaccIterG lat (k + p.length)).getD s false = true := by
  intro p
  induction p with
  | nil =>
      intro s t k hp hk
      cases hp
      exact hk
  | cons a rest ih =>
      intro s t k hp hk
      cases hp with
      | cons _ ha hp2 =>
          have h1 := ih a.nextstate t k hp2 hk
          have h2 : (coaccIterG lat (k + rest.length + 1)).getD s
              false = true := by
            show (coaccStepG lat
              (coaccIterG lat (k + rest.length))).getD s false = true
            refine coaccStepG_sets lat _ s a (lt_of_arc_mem ha) ha h1
              ?_
            rw [coaccIterG_length]
            exact lt_of_arc_mem ha
          have he : k + rest.length + 1 = k + (a :: rest).length := by
            rw [List.length_cons]
            omega
          rw [he] at h2
          exact h2

theorem coaccG_mark {W : Type} [LatSemiring W] [DecidableEq W]
    (lat : Fst W) (hfl : lat.finals.length = lat.numStates)
    {s t : ℕ} {p : List (Arc W)} (hp : PathIn lat s p t)
    (hf : lat.finalW t ≠ Wzero W) :
    (coaccArrG lat).getD s false = true := by
  have ht : t < lat.numStates := by
    by_contra hc
    apply hf
    show lat.finals.getD t _ = _
    rw [getD_oob _ _ _ (by rw [hfl]; omega)]
  have h1 := coaccIterG_path lat p s t 0 hp
    (coaccG_seed lat t ht hf)
  exact markStable (coaccStepG lat) (coaccIterG lat) lat.numStates
    (fun k => rfl) (coaccIterG_length lat)
    (fun k u h => coaccStepG_mono lat _ u h) (0 + p.length) s h1

theorem connectGen_path_map {W : Type} [LatSemiring W] [DecidableEq W]
    (lat : Fst W) :
    ∀ {s t : ℕ} {p : List (Arc W)}, PathIn lat s p t →
      usefulGB lat s = true →
      (∀ pre (arc : Arc W) suf, p = pre ++ arc :: suf →
        usefulGB lat arc.nextstate = true) →
      PathIn (connectGen lat) (newIdG lat s)
        (p.map fun a => ⟨a.ilabel, a.olabel, a.weight,
          newIdG lat a.nextstate⟩) (newIdG lat t) := by
  intro s t p hp
  induction hp with
  | nil s => intro _ _; exact PathIn.nil _
  | cons arc ha hp ih =>
      intro hs hall
      have hnext : usefulGB lat arc.nextstate = true :=
        hall [] arc _ rfl
      have hstep := connectGen_mem_arcs lat (lt_of_arc_mem ha) hs ha
        hnext
      rw [List.map_cons]
      refine PathIn.cons _ hstep ?_
      exact ih hnext
        (fun pre a suf heq => hall (arc :: pre) a suf
          (by rw [heq]; rfl))

theorem pathG_states_useful {W : Type} [LatSemiring W] [DecidableEq W]
    (lat : Fst W)
    (hbnd : ∀ (s : ℕ) (a : Arc W), a ∈ lat.arcsAt s →
      a.nextstate < lat.numStates)
    (hfl : lat.finals.length = lat.numStates)
    (hn : lat.numStates ≠ 0) {u : ℕ} {p : List (Arc W)}
    (hp : PathIn lat 0 p u) {pf : List (Arc W)} {tf : ℕ}
    (hpf : PathIn lat u pf tf) (hffin : lat.finalW tf ≠ Wzero W) :
    usefulGB lat 0 = true ∧
    ∀ pre (arc : Arc W) suf, p = pre ++ arc :: suf →
      usefulGB lat arc.nextstate = true := by
  constructor
  · unfold usefulGB
    rw [accG_mark lat hbnd hn (PathIn.nil 0),
      coaccG_mark lat hfl (pathIn_append hp hpf) hffin]
    rfl
  · intro pre arc suf heq
    subst heq
    obtain ⟨hpre, harc, hsuf⟩ := pathIn_split pre hp
    unfold usefulGB
    rw [accG_mark lat hbnd hn
        (pathIn_append hpre (PathIn.cons arc harc (PathIn.nil _))),
      coaccG_mark lat hfl (pathIn_append hsuf hpf) hffin]
    rfl

theorem connectGen_path_down {W : Type} [LatSemiring W]
    [DecidableEq W] (lat : Fst W)
    (hbnd : ∀ (s : ℕ) (a : Arc W), a ∈ lat.arcsAt s →
      a.nextstate < lat.numStates) :
    ∀ {v f : ℕ} {Q : List (Arc W)}, PathIn (connectGen lat) v Q f →
      v < (usefulListG lat).length →
      ∃ P : List (Arc W),
        PathIn lat ((usefulListG lat).getD v 0) P
          ((usefulListG lat).getD f 0) ∧
        f < (usefulListG lat).length ∧
        Q = P.map (fun a => ⟨a.ilabel, a.olabel, a.weight,
          newIdG lat a.nextstate⟩) := by
  intro v f Q hq
  induction hq with
  | nil s => intro hv; exact ⟨[], PathIn.nil _, hv, rfl⟩
  | cons arc2 ha hq ih =>
      intro hv
      obtain ⟨hi, a, hamem, hause, heq⟩ := connectGen_mem_arcs_inv lat
        ha
      obtain ⟨hget, hlt⟩ := usefulListG_getD_newIdG lat a.nextstate
        (hbnd _ a hamem) hause
      subst heq
      obtain ⟨P, hP, hflt, hQeq⟩ := ih hlt
      refine ⟨a :: P, ?_, hflt, ?_⟩
      · refine PathIn.cons a hamem ?_
        rw [hget] at hP
        exact hP
      · rw [List.map_cons, ← hQeq]

theorem labelsNZ_map_renum (f : CompactLatticeArc → ℕ)
    (P : List CompactLatticeArc) :
    labelsNZ (P.map fun a =>
      (⟨a.ilabel, a.olabel, a.weight, f a⟩ : CompactLatticeArc)) =
      labelsNZ P := by
  unfold labelsNZ
  rw [List.map_map]
  rfl

theorem idxIn_append_right {α : Type} [DecidableEq α] (a : α)
    (l2 : List α) :
    ∀ l : List α, a ∉ l → idxIn a (l ++ l2) = l.length + idxIn a l2 := by
  intro l
  induction l with
  | nil => intro _; simp
  | cons b t ih =>
      intro h
      have hb : b ≠ a := fun he => h (he ▸ List.mem_cons_self b t)
      show (if b = a then 0 else idxIn a (t ++ l2) + 1) =
        (b :: t).length + idxIn a l2
      rw [if_neg hb, ih (fun h2 => h (List.mem_cons_of_mem b h2)),
        List.length_cons]
      omega

theorem getD_append_add {α : Type} (i : ℕ) (d : α) :
    ∀ (l l2 : List α), (l ++ l2).getD (l.length + i) d =
      l2.getD i d := by
  intro l
  induction l with
  | nil =>
      intro l2
      rw [List.nil_append]
      rw [List.length_nil, Nat.zero_add]
  | cons b t ih =>
      intro l2
      rw [List.cons_append, List.length_cons]
      have he : t.length + 1 + i = (t.length + i) + 1 := by omega
      rw [he]
      show (t ++ l2).getD (t.length + i) d = l2.getD i d
      exact ih l2

theorem getD_map_const {α β : Type} (c : β) :
    ∀ (l : List α) (i : ℕ), (l.map (fun _ => c)).getD i c = c := by
  intro l
  induction l with
  | nil => intro i; rfl
  | cons b t ih =>
      intro i
      cases i with
      | zero => rfl
      | succ i => exact ih i

theorem getD_append_default {α : Type} (d : α) :
    ∀ (l : List α) (j : ℕ), (l ++ [d]).getD j d = l.getD j d := by
  intro l j
  by_cases h1 : j < l.length
  · exact getD_append_lt l [d] d j h1
  · by_cases h2 : j = l.length
    · subst h2
      rw [getD_append_len, getD_oob _ _ _ (le_refl _)]
    · rw [getD_oob _ _ _ (by rw [List.length_append]; simp; omega),
        getD_oob _ _ _ (by omega)]

theorem expandRow_append (clat : CompactLattice) (dfst : DetFst)
    (p : ℕ × ℕ) (m ext : List (ℕ × ℕ))
    (hcl : ∀ a ∈ clat.arcsAt p.1, ∀ pr t2,
      matchArc dfst p.2 a = some (pr, t2) → (a.nextstate, t2) ∈ m) :
    expandRow clat dfst p (m ++ ext) = expandRow clat dfst p m := by
  unfold expandRow
  suffices hgen : ∀ l : List CompactLatticeArc,
      (∀ a ∈ l, ∀ pr t2, matchArc dfst p.2 a = some (pr, t2) →
        (a.nextstate, t2) ∈ m) →
      (l.filterMap fun a =>
        match matchArc dfst p.2 a with
        | none => none
        | some (pr, t2) =>
            some (⟨pr.1, pr.2.1, pr.2.2,
              idxIn (a.nextstate, t2) (m ++ ext)⟩ :
                CompactLatticeArc)) =
      (l.filterMap fun a =>
        match matchArc dfst p.2 a with
        | none => none
        | some (pr, t2) =>
            some (⟨pr.1, pr.2.1, pr.2.2,
              idxIn (a.nextstate, t2) m⟩ :
                CompactLatticeArc)) from hgen _ hcl
  intro l
  induction l with
  | nil => intro _; rfl
  | cons a t ih =>
      intro hcl2
      rw [List.filterMap_cons, List.filterMap_cons]
      cases hm : matchArc dfst p.2 a with
      | none =>
          exact ih (fun a2 ha2 => hcl2 a2 (List.mem_cons_of_mem a ha2))
      | some prt =>
          obtain ⟨pr, t2⟩ := prt
          have hmem := hcl2 a (List.mem_cons_self a t) pr t2 hm
          show (⟨pr.1, pr.2.1, pr.2.2,
              idxIn (a.nextstate, t2) (m ++ ext)⟩ :
                CompactLatticeArc) ::
              (t.filterMap fun a =>
                match matchArc dfst p.2 a with
                | none => none
                | some (pr, t2) =>
                    some (⟨pr.1, pr.2.1, pr.2.2,
                      idxIn (a.nextstate, t2) (m ++ ext)⟩ :
                        CompactLatticeArc)) =
            (⟨pr.1, pr.2.1, pr.2.2,
              idxIn (a.nextstate, t2) m⟩ : CompactLatticeArc) ::
              (t.filterMap fun a =>
                match matchArc dfst p.2 a with
                | none => none
                | some (pr, t2) =>
                    some (⟨pr.1, pr.2.1, pr.2.2,
                      idxIn (a.nextstate, t2) m⟩ :
                        CompactLatticeArc))
          rw [idxIn_append _ _ _ hmem,
            ih (fun a2 ha2 => hcl2 a2 (List.mem_cons_of_mem a ha2))]

theorem arcFold_char (dfst : DetFst) (s2 sid : ℕ) :
    ∀ (todo : List CompactLatticeArc) (st st2 : CompState),
      st.map.Nodup →
      st.arcs.length = st.map.length →
      st.finals.length = st.map.length →
      sid < st.map.length →
      todo.foldl (arcStep dfst s2 sid) st = st2 →
      ∃ ext : List (ℕ × ℕ),
        st2.map = st.map ++ ext ∧
        st2.queue = st.queue ++ ext ∧
        st2.finals = st.finals ++
          ext.map (fun _ => Wzero CompactLatticeWeight) ∧
        st2.map.Nodup ∧
        st2.arcs.length = st2.map.length ∧
        st2.arcs.getD sid [] = st.arcs.getD sid [] ++
          todo.filterMap (fun a =>
            match matchArc dfst s2 a with
            | none => none
            | some (pr, t2) =>
                some (⟨pr.1, pr.2.1, pr.2.2,
                  idxIn (a.nextstate, t2) st2.map⟩ :
                    CompactLatticeArc)) ∧
        (∀ j, j ≠ sid →
          st2.arcs.getD j [] = st.arcs.getD j []) ∧
        (∀ a ∈ todo, ∀ pr t2, matchArc dfst s2 a = some (pr, t2) →
          (a.nextstate, t2) ∈ st2.map) := by
  intro todo
  induction todo with
  | nil =>
      intro st st2 hnd harcs hfin hsid hfold
      rw [List.foldl_nil] at hfold
      subst hfold
      refine ⟨[], by rw [List.append_nil], by rw [List.append_nil],
        by rw [List.map_nil, List.append_nil], hnd, harcs,
        by rw [List.filterMap_nil, List.append_nil], fun j _ => rfl,
        ?_⟩
      intro a ha
      exact absurd ha (List.not_mem_nil a)
  | cons a todo ih =>
      intro st st2 hnd harcs hfin hsid hfold
      rw [List.foldl_cons] at hfold
      cases hm : matchArc dfst s2 a with
      | none =>
          have hst1 : arcStep dfst s2 sid st a = st := by
            unfold arcStep
            rw [hm]
          rw [hst1] at hfold
          obtain ⟨ext, e1, e2, e3, e4, e5, e6, e7, e8⟩ :=
            ih st st2 hnd harcs hfin hsid hfold
          refine ⟨ext, e1, e2, e3, e4, e5, ?_, e7, ?_⟩
          · rw [List.filterMap_cons]
            have hfa : (match matchArc dfst s2 a with
                | none => none
                | some (pr, t2) =>
                    some (⟨pr.1, pr.2.1, pr.2.2,
                      idxIn (a.nextstate, t2) st2.map⟩ :
                        CompactLatticeArc)) = none := by
              rw [hm]
            rw [hfa]
            exact e6
          · intro a2 ha2 pr t2 hm2
            rcases List.mem_cons.mp ha2 with rfl | h2
            · rw [hm] at hm2
              exact absurd hm2 (by simp)
            · exact e8 a2 h2 pr t2 hm2
      | some prt =>
          obtain ⟨pr, t2⟩ := prt
          by_cases hnp : (a.nextstate, t2) ∈ st.map
          · have hst1 : arcStep dfst s2 sid st a =
                ⟨st.map,
                  st.arcs.set sid ((st.arcs.getD sid []) ++
                    [(⟨pr.1, pr.2.1, pr.2.2,
                      idxIn (a.nextstate, t2) st.map⟩ :
                        CompactLatticeArc)]),
                  st.finals, st.queue⟩ := by
              simp only [arcStep, hm]
              rw [if_pos hnp]
            rw [hst1] at hfold
            have hlen1 : (st.arcs.set sid ((st.arcs.getD sid []) ++
                [(⟨pr.1, pr.2.1, pr.2.2,
                  idxIn (a.nextstate, t2) st.map⟩ :
                    CompactLatticeArc)])).length = st.map.length := by
              rw [List.length_set]
              exact harcs
            obtain ⟨ext, e1, e2, e3, e4, e5, e6, e7, e8⟩ :=
              ih ⟨st.map,
                  st.arcs.set sid ((st.arcs.getD sid []) ++
                    [(⟨pr.1, pr.2.1, pr.2.2,
                      idxIn (a.nextstate, t2) st.map⟩ :
                        CompactLatticeArc)]),
                  st.finals, st.queue⟩ st2 hnd hlen1 hfin hsid hfold
            refine ⟨ext, e1, e2, e3, e4, e5, ?_, ?_, ?_⟩
            · rw [List.filterMap_cons]
              have hfa : (match matchArc dfst s2 a with
                  | none => none
                  | some (pr, t2) =>
                      some (⟨pr.1, pr.2.1, pr.2.2,
                        idxIn (a.nextstate, t2) st2.map⟩ :
                          CompactLatticeArc)) =
                  some (⟨pr.1, pr.2.1, pr.2.2,
                    idxIn (a.nextstate, t2) st2.map⟩ :
                      CompactLatticeArc) := by
                rw [hm]
              rw [hfa, e6]
              have hrow : (st.arcs.set sid ((st.arcs.getD sid []) ++
                  [(⟨pr.1, pr.2.1, pr.2.2,
                    idxIn (a.nextstate, t2) st.map⟩ :
                      CompactLatticeArc)])).getD sid [] =
                  (st.arcs.getD sid []) ++
                  [(⟨pr.1, pr.2.1, pr.2.2,
                    idxIn (a.nextstate, t2) st.map⟩ :
                      CompactLatticeArc)] :=
                getD_set_self _ _ _ _ (by rw [harcs]; exact hsid)
              rw [hrow]
              have hidx : idxIn (a.nextstate, t2) st2.map =
                  idxIn (a.nextstate, t2) st.map := by
                rw [e1]
                exact idxIn_append _ _ _ hnp
              rw [hidx, List.append_assoc, List.singleton_append]
            · intro j hj
              rw [e7 j hj]
              exact getD_set_ne _ _ _ _ _ (fun he => hj he.symm)
            · intro a2 ha2 pr2 t22 hm2
              rcases List.mem_cons.mp ha2 with rfl | h2
              · rw [hm, Option.some.injEq] at hm2
                have ht2 : t2 = t22 := congrArg Prod.snd hm2
                rw [← ht2, e1]
                exact List.mem_append_left _ hnp
              · exact e8 a2 h2 pr2 t22 hm2
          · have hst1 : arcStep dfst s2 sid st a =
                ⟨st.map ++ [(a.nextstate, t2)],
                  (st.arcs ++ [([] : List CompactLatticeArc)]).set sid
                    (((st.arcs ++
                        [([] : List CompactLatticeArc)]).getD sid [])
                      ++
                      [(⟨pr.1, pr.2.1, pr.2.2,
                        idxIn (a.nextstate, t2)
                          (st.map ++ [(a.nextstate, t2)])⟩ :
                          CompactLatticeArc)]),
                  st.finals ++ [Wzero CompactLatticeWeight],
                  st.queue ++ [(a.nextstate, t2)]⟩ := by
              simp only [arcStep, hm]
              rw [if_neg hnp]
            rw [hst1] at hfold
            have hnd1 : (st.map ++ [(a.nextstate, t2)]).Nodup := by
              rw [List.nodup_append]
              exact ⟨hnd, List.nodup_singleton _,
                fun p hp hp2 => hnp (by
                  rw [List.mem_singleton] at hp2
                  rw [← hp2]; exact hp)⟩
            have hlen2 : ((st.arcs ++
                [([] : List CompactLatticeArc)]).set sid
                (((st.arcs ++
                    [([] : List CompactLatticeArc)]).getD sid []) ++
                  [(⟨pr.1, pr.2.1, pr.2.2,
                    idxIn (a.nextstate, t2)
                      (st.map ++ [(a.nextstate, t2)])⟩ :
                      CompactLatticeArc)])).length =
                (st.map ++ [(a.nextstate, t2)]).length := by
              rw [List.length_set, List.length_append,
                List.length_append, harcs]
              rfl
            have hfin2 : (st.finals ++
                [Wzero CompactLatticeWeight]).length =
                (st.map ++ [(a.nextstate, t2)]).length := by
              rw [List.length_append, List.length_append, hfin]
              rfl
            have hsid2 : sid < (st.map ++ [(a.nextstate, t2)]).length
                := by
              rw [List.length_append]
              have : (1 : ℕ) = [(a.nextstate, t2)].length := rfl
              omega
            obtain ⟨ext1, e1, e2, e3, e4, e5, e6, e7, e8⟩ :=
              ih ⟨st.map ++ [(a.nextstate, t2)],
                  (st.arcs ++ [([] : List CompactLatticeArc)]).set sid
                    (((st.arcs ++
                        [([] : List CompactLatticeArc)]).getD sid [])
                      ++
                      [(⟨pr.1, pr.2.1, pr.2.2,
                        idxIn (a.nextstate, t2)
                          (st.map ++ [(a.nextstate, t2)])⟩ :
                          CompactLatticeArc)]),
                  st.finals ++ [Wzero CompactLatticeWeight],
                  st.queue ++ [(a.nextstate, t2)]⟩ st2 hnd1 hlen2
                hfin2 hsid2 hfold
            have hmem1 : (a.nextstate, t2) ∈
                st.map ++ [(a.nextstate, t2)] :=
              List.mem_append_right _ (List.mem_singleton.mpr rfl)
            refine ⟨(a.nextstate, t2) :: ext1, ?_, ?_, ?_, e4, e5,
              ?_, ?_, ?_⟩
            · rw [e1, List.append_assoc, List.singleton_append]
            · rw [e2, List.append_assoc, List.singleton_append]
            · rw [e3, List.append_assoc, List.singleton_append,
                List.map_cons]
            · rw [List.filterMap_cons]
              have hfa : (match matchArc dfst s2 a with
                  | none => none
                  | some (pr, t2) =>
                      some (⟨pr.1, pr.2.1, pr.2.2,
                        idxIn (a.nextstate, t2) st2.map⟩ :
                          CompactLatticeArc)) =
                  some (⟨pr.1, pr.2.1, pr.2.2,
                    idxIn (a.nextstate, t2) st2.map⟩ :
                      CompactLatticeArc) := by
                rw [hm]
              rw [hfa, e6]
              have hrow : ((st.arcs ++
                  [([] : List CompactLatticeArc)]).set sid
                  (((st.arcs ++
                      [([] : List CompactLatticeArc)]).getD sid []) ++
                    [(⟨pr.1, pr.2.1, pr.2.2,
                      idxIn (a.nextstate, t2)
                        (st.map ++ [(a.nextstate, t2)])⟩ :
                        CompactLatticeArc)])).getD sid [] =
                  ((st.arcs ++
                      [([] : List CompactLatticeArc)]).getD sid []) ++
                    [(⟨pr.1, pr.2.1, pr.2.2,
                      idxIn (a.nextstate, t2)
                        (st.map ++ [(a.nextstate, t2)])⟩ :
                        CompactLatticeArc)] :=
                getD_set_self _ _ _ _ (by
                  rw [List.length_append, harcs]
                  have : (1 : ℕ) =
                    [([] : List CompactLatticeArc)].length := rfl
                  omega)
              rw [hrow,
                getD_append_lt st.arcs
                  [([] : List CompactLatticeArc)] [] sid
                  (by rw [harcs]; exact hsid)]
              have hidx : idxIn (a.nextstate, t2) st2.map =
                  idxIn (a.nextstate, t2)
                    (st.map ++ [(a.nextstate, t2)]) := by
                rw [e1]
                exact idxIn_append _ _ _ hmem1
              rw [hidx, List.append_assoc, List.singleton_append]
            · intro j hj
              rw [e7 j hj,
                getD_set_ne _ _ _ _ _ (fun he => hj he.symm)]
              exact getD_append_default _ st.arcs j
            · intro a2 ha2 pr2 t22 hm2
              rcases List.mem_cons.mp ha2 with rfl | h2
              · rw [hm, Option.some.injEq] at hm2
                have ht2 : t2 = t22 := congrArg Prod.snd hm2
                rw [← ht2, e1]
                exact List.mem_append_left _ hmem1
              · exact e8 a2 h2 pr2 t22 hm2

theorem composeLoop_inv (clat : CompactLattice) (dfst : DetFst) :
    ∀ (fuel : ℕ) (st st3 : CompState),
      CompInv clat dfst st →
      composeLoop clat dfst fuel st = some st3 →
      CompInv clat dfst st3 ∧ st3.queue = [] := by
  intro fuel
  induction fuel with
  | zero =>
      intro st st3 hinv h
      unfold composeLoop at h
      cases hq : st.queue with
      | nil =>
          rw [hq] at h
          rw [Option.some.injEq] at h
          subst h
          exact ⟨hinv, hq⟩
      | cons a l =>
          rw [hq] at h
          exact absurd h (by simp)
  | succ fuel ih =>
      intro st st3 hinv h
      unfold composeLoop at h
      cases hq : st.queue with
      | nil =>
          rw [hq] at h
          rw [Option.some.injEq] at h
          subst h
          exact ⟨hinv, hq⟩
      | cons s rest =>
          rw [hq] at h
          obtain ⟨hne, h0, hndm, hal, hfl, hqnd, hqm, hqrow, hexp⟩ :=
            hinv
          have h2 : composeLoop clat dfst fuel
              ((clat.arcsAt s.1).foldl
                (arcStep dfst s.2 (idxIn s st.map))
                ⟨st.map, st.arcs,
                  if composedFinal clat dfst s.1 s.2 ≠
                      Wzero CompactLatticeWeight
                  then st.finals.set (idxIn s st.map)
                    (composedFinal clat dfst s.1 s.2)
                  else st.finals, rest⟩) = some st3 := h
          have hsq : s ∈ st.queue := by
            rw [hq]
            exact List.mem_cons_self s rest
          have hmemq : ∀ x, x ∈ rest → x ∈ st.queue := by
            intro x hx
            rw [hq]
            exact List.mem_cons_of_mem s hx
          have hsmem : s ∈ st.map := hqm s hsq
          have hsidlt : idxIn s st.map < st.map.length :=
            idxIn_lt s st.map hsmem
          have hfl2 : (if composedFinal clat dfst s.1 s.2 ≠
              Wzero CompactLatticeWeight
            then st.finals.set (idxIn s st.map)
              (composedFinal clat dfst s.1 s.2)
            else st.finals).length = st.map.length := by
            by_cases hc : composedFinal clat dfst s.1 s.2 ≠
                Wzero CompactLatticeWeight
            · rw [if_pos hc, List.length_set]
              exact hfl
            · rw [if_neg hc]
              exact hfl
          obtain ⟨ext, e1, e2, e3, e4, e5, e6, e7, e8⟩ :=
            arcFold_char dfst s.2 (idxIn s st.map) (clat.arcsAt s.1)
              ⟨st.map, st.arcs,
                if composedFinal clat dfst s.1 s.2 ≠
                    Wzero CompactLatticeWeight
                then st.finals.set (idxIn s st.map)
                  (composedFinal clat dfst s.1 s.2)
                else st.finals, rest⟩ _ hndm hal hfl2 hsidlt rfl
          have hsr : s ∉ rest := by
            rw [hq] at hqnd
            exact (List.nodup_cons.mp hqnd).1
          have hrestnd : rest.Nodup := by
            rw [hq] at hqnd
            exact (List.nodup_cons.mp hqnd).2
          have e4b : (st.map ++ ext).Nodup := e1 ▸ e4
          have hdisj : st.map.Disjoint ext :=
            (List.nodup_append.mp e4b).2.2
          have hextnd : ext.Nodup := (List.nodup_append.mp e4b).2.1
          have hlpos : 0 < st.map.length := List.length_pos.mpr hne
          have hsgd : st.map.getD (idxIn s st.map) (0, 0) = s :=
            idxIn_getD s (0, 0) st.map hsmem
          refine ih _ st3 ?_ h2
          refine ⟨?_, ?_, e4, e5, ?_, ?_, ?_, ?_, ?_⟩
          · rw [e1]
            intro hcon
            exact hne (List.append_eq_nil.mp hcon).1
          · rw [e1, getD_append_lt _ _ _ 0 hlpos]
            exact h0
          · rw [e3, e1, List.length_append, List.length_append,
              hfl2, List.length_map]
          · rw [e2]
            rw [List.nodup_append]
            refine ⟨hrestnd, hextnd, ?_⟩
            intro x hx hx2
            exact hdisj (hqm x (hmemq x hx)) hx2
          · intro q hq2
            rw [e2] at hq2
            rw [e1]
            rcases List.mem_append.mp hq2 with h3 | h3
            · exact List.mem_append_left _ (hqm q (hmemq q h3))
            · exact List.mem_append_right _ h3
          · intro q hq2
            rw [e2] at hq2
            rcases List.mem_append.mp hq2 with h3 | h3
            · have hqs2 : q ∈ st.map := hqm q (hmemq q h3)
              have hidx : idxIn q (((clat.arcsAt s.1).foldl
                  (arcStep dfst s.2 (idxIn s st.map))
                  ⟨st.map, st.arcs,
                    if composedFinal clat dfst s.1 s.2 ≠
                        Wzero CompactLatticeWeight
                    then st.finals.set (idxIn s st.map)
                      (composedFinal clat dfst s.1 s.2)
                    else st.finals, rest⟩).map) =
                  idxIn q st.map := by
                rw [e1]
                exact idxIn_append _ _ _ hqs2
              rw [hidx]
              have hqnes : q ≠ s := fun he => hsr (he ▸ h3)
              have hjne : idxIn q st.map ≠ idxIn s st.map := by
                intro he
                apply hqnes
                rw [← idxIn_getD q (0, 0) st.map hqs2, he, hsgd]
              have hold := hqrow q (hmemq q h3)
              constructor
              · rw [e7 _ hjne]
                exact hold.1
              · rw [e3, getD_append_lt _ _ _ _
                  (by rw [hfl2]; exact idxIn_lt q st.map hqs2)]
                by_cases hc : composedFinal clat dfst s.1 s.2 ≠
                    Wzero CompactLatticeWeight
                · rw [if_pos hc, getD_set_ne _ _ _ _ _
                    (fun he => hjne he.symm)]
                  exact hold.2
                · rw [if_neg hc]
                  exact hold.2
            · have hqnm : q ∉ st.map := fun hmem =>
                hdisj hmem h3
              have hidx : idxIn q (((clat.arcsAt s.1).foldl
                  (arcStep dfst s.2 (idxIn s st.map))
                  ⟨st.map, st.arcs,
                    if composedFinal clat dfst s.1 s.2 ≠
                        Wzero CompactLatticeWeight
                    then st.finals.set (idxIn s st.map)
                      (composedFinal clat dfst s.1 s.2)
                    else st.finals, rest⟩).map) =
                  st.map.length + idxIn q ext := by
                rw [e1]
                exact idxIn_append_right _ _ _ hqnm
              rw [hidx]
              constructor
              · rw [e7 _ (by omega)]
                exact getD_oob _ _ _ (by rw [hal]; omega)
              · rw [e3]
                have hfx : st.map.length + idxIn q ext =
                    (if composedFinal clat dfst s.1 s.2 ≠
                        Wzero CompactLatticeWeight
                      then st.finals.set (idxIn s st.map)
                        (composedFinal clat dfst s.1 s.2)
                      else st.finals).length + idxIn q ext := by
                  rw [hfl2]
                rw [hfx, getD_append_add]
                exact getD_map_const _ ext _
          · intro i hi hiq
            rw [e1, List.length_append] at hi
            have hi2 : i < st.map.length + ext.length := hi
            by_cases hilt : i < st.map.length
            · have hgd : (((clat.arcsAt s.1).foldl
                  (arcStep dfst s.2 (idxIn s st.map))
                  ⟨st.map, st.arcs,
                    if composedFinal clat dfst s.1 s.2 ≠
                        Wzero CompactLatticeWeight
                    then st.finals.set (idxIn s st.map)
                      (composedFinal clat dfst s.1 s.2)
                    else st.finals, rest⟩).map).getD i (0, 0) =
                  st.map.getD i (0, 0) := by
                rw [e1]
                exact getD_append_lt _ _ _ _ hilt
              rw [hgd]
              rw [hgd] at hiq
              rw [e2] at hiq
              by_cases hisid : i = idxIn s st.map
              · subst hisid
                rw [hsgd]
                rw [hsgd] at hiq
                have hrow0 := (hqrow s hsq).1
                refine ⟨?_, ?_, ?_⟩
                · rw [e6, hrow0, List.nil_append]
                  rfl
                · rw [e3, getD_append_lt _ _ _ _
                    (by rw [hfl2]; exact hsidlt)]
                  by_cases hc : composedFinal clat dfst s.1 s.2 ≠
                      Wzero CompactLatticeWeight
                  · rw [if_pos hc, getD_set_self _ _ _ _
                      (by rw [hfl]; exact hsidlt)]
                  · rw [if_neg hc]
                    rw [not_not] at hc
                    rw [hc]
                    exact (hqrow s hsq).2
                · intro a ha pr t2 hm
                  exact e8 a ha pr t2 hm
              · have hpine : st.map.getD i (0, 0) ≠ s := by
                  intro he
                  apply hisid
                  rw [← idxIn_getD_self (0, 0) st.map hndm i hilt,
                    he]
                have hnotq : st.map.getD i (0, 0) ∉ st.queue := by
                  rw [hq]
                  intro hmem
                  rcases List.mem_cons.mp hmem with he | hmem2
                  · exact hpine he
                  · exact hiq (List.mem_append_left _ hmem2)
                obtain ⟨ho1, ho2, ho3⟩ := hexp i hilt hnotq
                refine ⟨?_, ?_, ?_⟩
                · rw [e7 _ hisid, ho1, e1,
                    expandRow_append clat dfst _ _ _ ho3]
                · rw [e3, getD_append_lt _ _ _ _
                    (by rw [hfl2]; exact hilt)]
                  by_cases hc : composedFinal clat dfst s.1 s.2 ≠
                      Wzero CompactLatticeWeight
                  · rw [if_pos hc, getD_set_ne _ _ _ _ _
                      (fun he => hisid he.symm)]
                    exact ho2
                  · rw [if_neg hc]
                    exact ho2
                · intro a ha pr t2 hm
                  rw [e1]
                  exact List.mem_append_left _ (ho3 a ha pr t2 hm)
            · exfalso
              apply hiq
              rw [e2]
              have hgd : (((clat.arcsAt s.1).foldl
                  (arcStep dfst s.2 (idxIn s st.map))
                  ⟨st.map, st.arcs,
                    if composedFinal clat dfst s.1 s.2 ≠
                        Wzero CompactLatticeWeight
                    then st.finals.set (idxIn s st.map)
                      (composedFinal clat dfst s.1 s.2)
                    else st.finals, rest⟩).map).getD i (0, 0) =
                  ext.getD (i - st.map.length) (0, 0) := by
                rw [e1]
                have he2 : i = st.map.length + (i - st.map.length)
                  := by omega
                have h9 := getD_append_add (i - st.map.length)
                  ((0, 0) : ℕ × ℕ) st.map ext
                rw [← he2] at h9
                exact h9
              rw [hgd]
              refine List.mem_append_right _ ?_
              exact getD_mem _ _ _ (by omega)

theorem setFoldA_sound {W : Type} :
    ∀ (l : List (Arc W)) (arr : List Bool) (u : ℕ),
      (l.foldl (fun acc2 a => acc2.set a.nextstate true) arr).getD u
        false = true →
      arr.getD u false = true ∨ ∃ a ∈ l, a.nextstate = u := by
  intro l
  induction l with
  | nil => intro arr u h; exact Or.inl h
  | cons b t ih =>
      intro arr u h
      rw [List.foldl_cons] at h
      rcases ih _ u h with h2 | h2
      · by_cases hu : b.nextstate = u
        · exact Or.inr ⟨b, List.mem_cons_self b t, hu⟩
        · rw [getD_set_ne _ _ _ _ _ hu] at h2
          exact Or.inl h2
      · obtain ⟨a, ha, hn⟩ := h2
        exact Or.inr ⟨a, List.mem_cons_of_mem b ha, hn⟩

theorem accFoldA_sound {W : Type} (lat : Fst W) :
    ∀ (l : List ℕ) (arr : List Bool),
      (∀ v, arr.getD v false = true → ∃ p, PathIn lat 0 p v) →
      ∀ u, (l.foldl (fun acc s => if acc.getD s false then
          (lat.arcsAt s).foldl
            (fun acc2 a => acc2.set a.nextstate true) acc
        else acc) arr).getD u false = true →
      ∃ p, PathIn lat 0 p u := by
  intro l
  induction l with
  | nil => intro arr hacc u h; exact hacc u h
  | cons x t ih =>
      intro arr hacc u h
      rw [List.foldl_cons] at h
      by_cases hx : arr.getD x false = true
      · rw [if_pos hx] at h
        refine ih _ ?_ u h
        intro v hv
        rcases setFoldA_sound _ _ v hv with h2 | h2
        · exact hacc v h2
        · obtain ⟨a, ha, hn⟩ := h2
          obtain ⟨px, hpx⟩ := hacc x hx
          exact ⟨px ++ [a], pathIn_append hpx
            (hn ▸ PathIn.cons a ha (PathIn.nil a.nextstate))⟩
      · rw [if_neg hx] at h
        exact ih _ hacc u h

theorem accG_sound {W : Type} (lat : Fst W) :
    ∀ (k : ℕ) (u : ℕ), (accIterG lat k).getD u false = true →
      ∃ p, PathIn lat 0 p u := by
  intro k
  induction k with
  | zero =>
      intro u h
      by_cases hu : u = 0
      · subst hu
        exact ⟨[], PathIn.nil 0⟩
      · exfalso
        have h2 : ((List.replicate lat.numStates false).set 0
            true).getD u false = true := h
        rw [getD_set_ne _ _ _ _ _ (fun he => hu he.symm),
          getD_replicate] at h2
        exact Bool.noConfusion h2
  | succ k ih =>
      intro u h
      exact accFoldA_sound lat _ _ ih u h

theorem coaccFoldA_sound {W : Type} [LatSemiring W] [DecidableEq W]
    (lat : Fst W) :
    ∀ (l : List ℕ) (arr : List Bool),
      (∀ v, arr.getD v false = true →
        ∃ p t, PathIn lat v p t ∧ lat.finalW t ≠ Wzero W) →
      ∀ u, (l.foldl (fun acc s => if (lat.arcsAt s).any
          (fun a => acc.getD a.nextstate false) then acc.set s true
        else acc) arr).getD u false = true →
      ∃ p t, PathIn lat u p t ∧ lat.finalW t ≠ Wzero W := by
  intro l
  induction l with
  | nil => intro arr hacc u h; exact hacc u h
  | cons x t ih =>
      intro arr hacc u h
      rw [List.foldl_cons] at h
      by_cases hx : (lat.arcsAt x).any
          (fun a => arr.getD a.nextstate false) = true
      · rw [if_pos hx] at h
        refine ih _ ?_ u h
        intro v hv
        by_cases hvx : x = v
        · obtain ⟨a, ha, hmk⟩ := List.any_eq_true.mp hx
          obtain ⟨p2, t2, hp2, hf2⟩ := hacc a.nextstate hmk
          exact ⟨a :: p2, t2, hvx ▸ PathIn.cons a ha hp2, hf2⟩
        · rw [getD_set_ne _ _ _ _ _ hvx] at hv
          exact hacc v hv
      · rw [if_neg hx] at h
        exact ih _ hacc u h

theorem coaccG_sound {W : Type} [LatSemiring W] [DecidableEq W]
    (lat : Fst W) :
    ∀ (k : ℕ) (u : ℕ), (coaccIterG lat k).getD u false = true →
      ∃ p t, PathIn lat u p t ∧ lat.finalW t ≠ Wzero W := by
  intro k
  induction k with
  | zero =>
      intro u h
      have h2 : ((List.range lat.numStates).map
          (fun s => decide (lat.finalW s ≠ Wzero W))).getD u false =
          true := h
      by_cases hu : u < lat.numStates
      · rw [getD_map_lt _ _ u (by simpa using hu) _ 0,
          getD_range _ _ hu] at h2
        exact ⟨[], u, PathIn.nil u, of_decide_eq_true h2⟩
      · rw [getD_oob _ _ _ (by simp; omega)] at h2
        exact absurd h2 Bool.noConfusion
  | succ k ih =>
      intro u h
      exact coaccFoldA_sound lat _ _ ih u h

theorem labelsNZ_nil : labelsNZ [] = [] := rfl

theorem labelsNZ_cons_eps (a : CompactLatticeArc)
    (l : List CompactLatticeArc) (h : a.olabel = 0) :
    labelsNZ (a :: l) = labelsNZ l := by
  unfold labelsNZ
  rw [List.map_cons, List.filter_cons]
  simp [h]

theorem labelsNZ_cons_lab (a : CompactLatticeArc)
    (l : List CompactLatticeArc) (h : a.olabel ≠ 0) :
    labelsNZ (a :: l) = a.olabel :: labelsNZ l := by
  unfold labelsNZ
  rw [List.map_cons, List.filter_cons]
  simp [h]

theorem matchArc_inv (dfst : DetFst) (s2 : ℕ) (a : CompactLatticeArc)
    (pr : ℕ × ℕ × CompactLatticeWeight) (t2 : ℕ)
    (h : matchArc dfst s2 a = some (pr, t2)) :
    (a.olabel = 0 ∧ pr = (0, 0, a.weight) ∧ t2 = s2) ∨
    (a.olabel ≠ 0 ∧ ∃ v, dfst.getArc s2 a.olabel = some (v, t2) ∧
      pr = (a.ilabel, a.olabel,
        ⟨⟨a.weight.weight.w1 + (v : ℚ), a.weight.weight.w2⟩,
          a.weight.string⟩)) := by
  unfold matchArc at h
  by_cases ho : a.olabel = 0
  · rw [if_pos ho, Option.some.injEq] at h
    refine Or.inl ⟨ho, ?_, ?_⟩
    · exact (congrArg Prod.fst h).symm
    · exact (congrArg Prod.snd h).symm
  · rw [if_neg ho] at h
    cases hg : dfst.getArc s2 a.olabel with
    | none =>
        rw [hg] at h
        exact absurd h (by simp)
    | some vt =>
        obtain ⟨v, t2x⟩ := vt
        rw [hg] at h
        have h2 : (some ((a.ilabel, a.olabel,
            (⟨⟨a.weight.weight.w1 + (v : ℚ), a.weight.weight.w2⟩,
              a.weight.string⟩ : CompactLatticeWeight)), t2x) :
            Option ((ℕ × ℕ × CompactLatticeWeight) × ℕ)) =
            some (pr, t2) := h
        rw [Option.some.injEq] at h2
        have ht : t2x = t2 := congrArg Prod.snd h2
        refine Or.inr ⟨ho, v, by rw [← ht],
          (congrArg Prod.fst h2).symm⟩

theorem matchArc_eps (dfst : DetFst) (s2 : ℕ) (a : CompactLatticeArc)
    (h : a.olabel = 0) :
    matchArc dfst s2 a = some ((0, 0, a.weight), s2) := by
  unfold matchArc
  rw [if_pos h]

theorem matchArc_lab (dfst : DetFst) (s2 : ℕ) (a : CompactLatticeArc)
    (v : ℚ) (t2 : ℕ) (h : a.olabel ≠ 0)
    (hg : dfst.getArc s2 a.olabel = some (v, t2)) :
    matchArc dfst s2 a = some ((a.ilabel, a.olabel,
      ⟨⟨a.weight.weight.w1 + (v : ℚ), a.weight.weight.w2⟩,
        a.weight.string⟩), t2) := by
  unfold matchArc
  rw [if_neg h, hg]

theorem expandRow_mem_inv (clat : CompactLattice) (dfst : DetFst)
    (p : ℕ × ℕ) (m : List (ℕ × ℕ)) {a2 : CompactLatticeArc}
    (h : a2 ∈ expandRow clat dfst p m) :
    ∃ a ∈ clat.arcsAt p.1, ∃ pr t2,
      matchArc dfst p.2 a = some (pr, t2) ∧
      a2 = ⟨pr.1, pr.2.1, pr.2.2, idxIn (a.nextstate, t2) m⟩ := by
  unfold expandRow at h
  rw [List.mem_filterMap] at h
  obtain ⟨a, ha, hfa⟩ := h
  cases hm : matchArc dfst p.2 a with
  | none =>
      rw [hm] at hfa
      exact absurd hfa (by simp)
  | some prt =>
      obtain ⟨pr, t2⟩ := prt
      rw [hm] at hfa
      have hfa2 : (some (⟨pr.1, pr.2.1, pr.2.2,
          idxIn (a.nextstate, t2) m⟩ : CompactLatticeArc) :
          Option CompactLatticeArc) = some a2 := hfa
      rw [Option.some.injEq] at hfa2
      exact ⟨a, ha, pr, t2, hm, hfa2.symm⟩

theorem expandRow_mem (clat : CompactLattice) (dfst : DetFst)
    (p : ℕ × ℕ) (m : List (ℕ × ℕ)) (a : CompactLatticeArc)
    (pr : ℕ × ℕ × CompactLatticeWeight) (t2 : ℕ)
    (ha : a ∈ clat.arcsAt p.1)
    (hm : matchArc dfst p.2 a = some (pr, t2)) :
    (⟨pr.1, pr.2.1, pr.2.2, idxIn (a.nextstate, t2) m⟩ :
      CompactLatticeArc) ∈ expandRow clat dfst p m := by
  unfold expandRow
  rw [List.mem_filterMap]
  exact ⟨a, ha, by rw [hm]⟩

theorem raw_path_down (clat : CompactLattice) (dfst : DetFst)
    (m : List (ℕ × ℕ)) (A : List (List CompactLatticeArc))
    (F : List CompactLatticeWeight)
    (hAl : A.length = m.length)
    (hrows : ∀ i, i < m.length →
      A.getD i [] = expandRow clat dfst (m.getD i (0, 0)) m)
    (hclos : ∀ i, i < m.length →
      ∀ a ∈ clat.arcsAt (m.getD i (0, 0)).1, ∀ pr t2,
        matchArc dfst (m.getD i (0, 0)).2 a = some (pr, t2) →
        (a.nextstate, t2) ∈ m) :
    ∀ {v f : ℕ} {Q : List CompactLatticeArc},
      PathIn (⟨A, F⟩ : CompactLattice) v Q f → v < m.length →
      f < m.length ∧
      ∃ P : List CompactLatticeArc,
        PathIn clat (m.getD v (0, 0)).1 P (m.getD f (0, 0)).1 ∧
        labelsNZ P = labelsNZ Q ∧
        dfstRun dfst (m.getD v (0, 0)).2 (labelsNZ Q) =
          some (m.getD f (0, 0)).2 := by
  intro v f Q hq
  induction hq with
  | nil s =>
      intro hv
      exact ⟨hv, [], PathIn.nil _, rfl, rfl⟩
  | cons arc2 ha hq ih =>
      rename_i s t p
      intro hv
      have ha2 : arc2 ∈ A.getD s [] := ha
      rw [hrows s hv] at ha2
      obtain ⟨a, hamem, pr, t2, hm, heq⟩ :=
        expandRow_mem_inv clat dfst _ m ha2
      have hnp : (a.nextstate, t2) ∈ m :=
        hclos s hv a hamem pr t2 hm
      have hnlt : idxIn (a.nextstate, t2) m < m.length :=
        idxIn_lt _ m hnp
      have hngd : m.getD (idxIn (a.nextstate, t2) m) (0, 0) =
          (a.nextstate, t2) := idxIn_getD _ (0, 0) m hnp
      have hnext : arc2.nextstate = idxIn (a.nextstate, t2) m := by
        rw [heq]
      rw [hnext] at ih
      obtain ⟨hflt, P, hP, hlab, hrun⟩ := ih hnlt
      rw [hngd] at hP hrun
      refine ⟨hflt, a :: P, PathIn.cons a hamem hP, ?_, ?_⟩
      · rcases matchArc_inv dfst _ a pr t2 hm with
          ⟨ho, hpr, ht2⟩ | ⟨ho, vv, hg, hpr⟩
        · rw [labelsNZ_cons_eps a P ho,
            labelsNZ_cons_eps arc2 p (by rw [heq, hpr]), hlab]
        · rw [labelsNZ_cons_lab a P ho,
            labelsNZ_cons_lab arc2 p (by rw [heq, hpr]; exact ho),
            hlab]
          rw [heq, hpr]
      · rcases matchArc_inv dfst _ a pr t2 hm with
          ⟨ho, hpr, ht2⟩ | ⟨ho, vv, hg, hpr⟩
        · rw [labelsNZ_cons_eps arc2 p (by rw [heq, hpr])]
          rw [← ht2]
          exact hrun
        · rw [labelsNZ_cons_lab arc2 p (by rw [heq, hpr]; exact ho)]
          have harc2o : arc2.olabel = a.olabel := by rw [heq, hpr]
          rw [harc2o]
          show (match dfst.getArc (m.getD s (0, 0)).2 a.olabel with
            | none => none
            | some (_, t3) => dfstRun dfst t3 (labelsNZ p)) =
            some (m.getD t (0, 0)).2
          rw [hg]
          exact hrun

theorem raw_path_up (clat : CompactLattice) (dfst : DetFst)
    (m : List (ℕ × ℕ)) (A : List (List CompactLatticeArc))
    (F : List CompactLatticeWeight)
    (hrows : ∀ i, i < m.length →
      A.getD i [] = expandRow clat dfst (m.getD i (0, 0)) m)
    (hclos : ∀ i, i < m.length →
      ∀ a ∈ clat.arcsAt (m.getD i (0, 0)).1, ∀ pr t2,
        matchArc dfst (m.getD i (0, 0)).2 a = some (pr, t2) →
        (a.nextstate, t2) ∈ m) :
    ∀ (P : List CompactLatticeArc) (s1 s2 u u2 : ℕ),
      PathIn clat s1 P u → (s1, s2) ∈ m →
      dfstRun dfst s2 (labelsNZ P) = some u2 →
      (u, u2) ∈ m ∧
      ∃ Q, PathIn (⟨A, F⟩ : CompactLattice) (idxIn (s1, s2) m) Q
          (idxIn (u, u2) m) ∧
        labelsNZ Q = labelsNZ P := by
  intro P
  induction P with
  | nil =>
      intro s1 s2 u u2 hp hmem hrun
      cases hp
      have h2 : (some s2 : Option ℕ) = some u2 := hrun
      rw [Option.some.injEq] at h2
      subst h2
      exact ⟨hmem, [], PathIn.nil _, rfl⟩
  | cons a P ih =>
      intro s1 s2 u u2 hp hmem hrun
      cases hp with
      | cons _ ha hp2 =>
          have hilt : idxIn (s1, s2) m < m.length :=
            idxIn_lt _ m hmem
          have higd : m.getD (idxIn (s1, s2) m) (0, 0) = (s1, s2) :=
            idxIn_getD _ (0, 0) m hmem
          by_cases ho : a.olabel = 0
          · have hm2 : matchArc dfst s2 a =
                some ((0, 0, a.weight), s2) := matchArc_eps dfst s2 a ho
            have hnp : (a.nextstate, s2) ∈ m := by
              have := hclos (idxIn (s1, s2) m) hilt
              rw [higd] at this
              exact this a ha _ s2 hm2
            have hrun2 : dfstRun dfst s2 (labelsNZ P) = some u2 := by
              rw [labelsNZ_cons_eps a P ho] at hrun
              exact hrun
            obtain ⟨humem, Q, hQ, hQlab⟩ :=
              ih a.nextstate s2 u u2 hp2 hnp hrun2
            refine ⟨humem, (⟨0, 0, a.weight,
              idxIn (a.nextstate, s2) m⟩ : CompactLatticeArc) :: Q,
              ?_, ?_⟩
            · refine PathIn.cons _ ?_ hQ
              show (⟨0, 0, a.weight, idxIn (a.nextstate, s2) m⟩ :
                CompactLatticeArc) ∈ A.getD (idxIn (s1, s2) m) []
              rw [hrows _ hilt, higd]
              exact expandRow_mem clat dfst (s1, s2) m a
                (0, 0, a.weight) s2 ha hm2
            · rw [labelsNZ_cons_eps _ Q rfl,
                labelsNZ_cons_eps a P ho, hQlab]
          · have hrun0 : (match dfst.getArc s2 a.olabel with
                | none => none
                | some (_, t3) => dfstRun dfst t3 (labelsNZ P)) =
                some u2 := by
              rw [← hrun, labelsNZ_cons_lab a P ho]
              rfl
            cases hg : dfst.getArc s2 a.olabel with
            | none =>
                rw [hg] at hrun0
                exact absurd hrun0 (by simp)
            | some vt =>
                obtain ⟨v2, t2⟩ := vt
                rw [hg] at hrun0
                have hrun2 : dfstRun dfst t2 (labelsNZ P) =
                    some u2 := hrun0
                have hm2 := matchArc_lab dfst s2 a v2 t2 ho hg
                have hnp : (a.nextstate, t2) ∈ m := by
                  have := hclos (idxIn (s1, s2) m) hilt
                  rw [higd] at this
                  exact this a ha _ t2 hm2
                obtain ⟨humem, Q, hQ, hQlab⟩ :=
                  ih a.nextstate t2 u u2 hp2 hnp hrun2
                refine ⟨humem, (⟨a.ilabel, a.olabel,
                  ⟨⟨a.weight.weight.w1 + (v2 : ℚ),
                    a.weight.weight.w2⟩, a.weight.string⟩,
                  idxIn (a.nextstate, t2) m⟩ :
                    CompactLatticeArc) :: Q, ?_, ?_⟩
                · refine PathIn.cons _ ?_ hQ
                  show (⟨a.ilabel, a.olabel,
                    ⟨⟨a.weight.weight.w1 + (v2 : ℚ),
                      a.weight.weight.w2⟩, a.weight.string⟩,
                    idxIn (a.nextstate, t2) m⟩ :
                      CompactLatticeArc) ∈
                    A.getD (idxIn (s1, s2) m) []
                  rw [hrows _ hilt, higd]
                  exact expandRow_mem clat dfst (s1, s2) m a
                    (a.ilabel, a.olabel,
                      ⟨⟨a.weight.weight.w1 + (v2 : ℚ),
                        a.weight.weight.w2⟩, a.weight.string⟩) t2
                    ha hm2
                · have holab : (⟨a.ilabel, a.olabel,
                      ⟨⟨a.weight.weight.w1 + (v2 : ℚ),
                        a.weight.weight.w2⟩, a.weight.string⟩,
                      idxIn (a.nextstate, t2) m⟩ :
                        CompactLatticeArc).olabel ≠ 0 := ho
                  rw [labelsNZ_cons_lab _ Q holab,
                    labelsNZ_cons_lab a P ho, hQlab]

theorem compInit (clat : CompactLattice) (dfst : DetFst) :
    CompInv clat dfst ⟨[(0, dfst.start)], [[]],
      [Wzero CompactLatticeWeight], [(0, dfst.start)]⟩ := by
  have hz : idxIn (0, dfst.start) [(0, dfst.start)] = 0 := by
    unfold idxIn
    rw [if_pos rfl]
  refine ⟨by simp, rfl, List.nodup_singleton _, rfl, rfl,
    List.nodup_singleton _, fun q hq => hq, ?_, ?_⟩
  · intro q hq
    rw [List.mem_singleton] at hq
    subst hq
    rw [hz]
    exact ⟨rfl, rfl⟩
  · intro i hi hiq
    have hi0 : i = 0 := by
      simp at hi
      omega
    subst hi0
    exact absurd (List.mem_singleton.mpr rfl) hiq

theorem raw_arc_bounds (clat : CompactLattice) (dfst : DetFst)
    (m : List (ℕ × ℕ)) (A : List (List CompactLatticeArc))
    (F : List CompactLatticeWeight)
    (hAl : A.length = m.length)
    (hrows : ∀ i, i < m.length →
      A.getD i [] = expandRow clat dfst (m.getD i (0, 0)) m)
    (hclos : ∀ i, i < m.length →
      ∀ a ∈ clat.arcsAt (m.getD i (0, 0)).1, ∀ pr t2,
        matchArc dfst (m.getD i (0, 0)).2 a = some (pr, t2) →
        (a.nextstate, t2) ∈ m) :
    ∀ (s : ℕ) (a : CompactLatticeArc),
      a ∈ (⟨A, F⟩ : CompactLattice).arcsAt s →
      a.nextstate < (⟨A, F⟩ : CompactLattice).numStates := by
  intro s a ha
  show a.nextstate < A.length
  by_cases hs : s < m.length
  · have ha2 : a ∈ A.getD s [] := ha
    rw [hrows s hs] at ha2
    obtain ⟨a1, h1, pr, t2, hm, heq⟩ :=
      expandRow_mem_inv clat dfst _ m ha2
    have hnext : a.nextstate = idxIn (a1.nextstate, t2) m := by
      rw [heq]
    rw [hnext, hAl]
    exact idxIn_lt _ _ (hclos s hs a1 h1 pr t2 hm)
  · have hnil : A.getD s [] = [] :=
      getD_oob _ _ _ (by omega)
    have ha2 : a ∈ A.getD s [] := ha
    rw [hnil] at ha2
    exact absurd ha2 (List.not_mem_nil a)

theorem usefulG_zero {W : Type} [LatSemiring W] [DecidableEq W]
    (lat : Fst W)
    (hbnd : ∀ (s : ℕ) (a : Arc W), a ∈ lat.arcsAt s →
      a.nextstate < lat.numStates)
    (hfl : lat.finals.length = lat.numStates)
    (hn : lat.numStates ≠ 0) (s0 : ℕ)
    (hs0 : usefulGB lat s0 = true) : usefulGB lat 0 = true := by
  unfold usefulGB at hs0
  rw [Bool.and_eq_true] at hs0
  obtain ⟨hacc, hcoacc⟩ := hs0
  obtain ⟨p1, hp1⟩ := accG_sound lat lat.numStates s0 hacc
  obtain ⟨p2, t2, hp2, hf2⟩ :=
    coaccG_sound lat lat.numStates s0 hcoacc
  unfold usefulGB
  rw [accG_mark lat hbnd hn (PathIn.nil 0),
    coaccG_mark lat hfl (pathIn_append hp1 hp2) hf2]
  rfl

theorem usefulListG_zero {W : Type} [LatSemiring W] [DecidableEq W]
    (lat : Fst W)
    (hbnd : ∀ (s : ℕ) (a : Arc W), a ∈ lat.arcsAt s →
      a.nextstate < lat.numStates)
    (hfl : lat.finals.length = lat.numStates)
    (hn : lat.numStates ≠ 0)
    (hpos : 0 < (usefulListG lat).length) :
    (usefulListG lat).getD 0 0 = 0 := by
  obtain ⟨hu, hlt, hnew⟩ := usefulListG_elem lat 0 hpos
  have h0 : usefulGB lat 0 = true :=
    usefulG_zero lat hbnd hfl hn _ hu
  have h2 := usefulListG_getD_newIdG lat 0
    (Nat.pos_of_ne_zero hn) h0
  have hzz : newIdG lat 0 = 0 := by
    unfold newIdG
    rfl
  rw [hzz] at h2
  exact h2.1

/-- C4 (amended): a labeled path survives
`ComposeCompactLatticeDeterministic` iff its epsilon-free label
sequence labels a start-to-`u` path of the compact lattice, the
deterministic FST consumes it from its start state ending at `u2`, and
the manually computed product of the final weights at `(u, u2)` is not
the zero weight (the product can be non-zero even when the DFST does
not accept, because the second lattice-weight component comes from the
compact lattice alone); moreover every arc of the output is the image
of an input arc under the two rules: an epsilon-output arc passes
through with weight unchanged, labels `(0, 0)` and the DFST state held
fixed, and a matched arc keeps its labels and string, adding the
matched arc value to the first weight component; composed final
weights are the products. -/
theorem claim_C4 (fuel : ℕ) (clat : CompactLattice) (dfst : DetFst)
    (out : CompactLattice) (w : List ℕ)
    (hc : ComposeCompactLatticeDeterministic fuel clat dfst =
      some out) :
    ((∃ Q f, PathIn out 0 Q f ∧ labelsNZ Q = w ∧
        out.finalW f ≠ Wzero CompactLatticeWeight) ↔
      (∃ P u u2, PathIn clat 0 P u ∧ labelsNZ P = w ∧
        dfstRun dfst dfst.start w = some u2 ∧
        composedFinal clat dfst u u2 ≠
          Wzero CompactLatticeWeight)) ∧
    (∃ π : ℕ → ℕ × ℕ, π 0 = (0, dfst.start) ∧
      (∀ v a, a ∈ out.arcsAt v →
        ∃ arc1 ∈ clat.arcsAt (π v).1,
          arc1.nextstate = (π a.nextstate).1 ∧
          ((arc1.olabel = 0 ∧ a.ilabel = 0 ∧ a.olabel = 0 ∧
            a.weight = arc1.weight ∧
            (π a.nextstate).2 = (π v).2) ∨
           (arc1.olabel ≠ 0 ∧ ∃ vv t2,
            dfst.getArc (π v).2 arc1.olabel = some (vv, t2) ∧
            a.ilabel = arc1.ilabel ∧ a.olabel = arc1.olabel ∧
            a.weight = ⟨⟨arc1.weight.weight.w1 + (vv : ℚ),
              arc1.weight.weight.w2⟩, arc1.weight.string⟩ ∧
            (π a.nextstate).2 = t2))) ∧
      (∀ v, v < out.numStates →
        out.finalW v = composedFinal clat dfst (π v).1 (π v).2)) := by
  unfold ComposeCompactLatticeDeterministic at hc
  cases hcl : composeLoop clat dfst fuel
      ⟨[(0, dfst.start)], [[]], [Wzero CompactLatticeWeight],
        [(0, dfst.start)]⟩ with
  | none =>
      rw [hcl] at hc
      exact absurd hc (by simp)
  | some stF =>
      rw [hcl, Option.some.injEq] at hc
      obtain ⟨⟨hne, h0, hndm, hal, hfl, hq1, hq2, hq3, hexp⟩,
        hqnil⟩ := composeLoop_inv clat dfst fuel _ stF
          (compInit clat dfst) hcl
      set raw := (⟨stF.arcs, stF.finals⟩ : CompactLattice) with hraw
      subst hc
      have hexp2 : ∀ i, i < stF.map.length →
          stF.arcs.getD i [] =
            expandRow clat dfst (stF.map.getD i (0, 0)) stF.map ∧
          stF.finals.getD i (Wzero CompactLatticeWeight) =
            composedFinal clat dfst (stF.map.getD i (0, 0)).1
              (stF.map.getD i (0, 0)).2 ∧
          (∀ a ∈ clat.arcsAt (stF.map.getD i (0, 0)).1, ∀ pr t2,
            matchArc dfst (stF.map.getD i (0, 0)).2 a =
              some (pr, t2) → (a.nextstate, t2) ∈ stF.map) :=
        fun i hi => hexp i hi (by
          rw [hqnil]
          exact List.not_mem_nil _)
      have hrows : ∀ i, i < stF.map.length →
          stF.arcs.getD i [] =
            expandRow clat dfst (stF.map.getD i (0, 0)) stF.map :=
        fun i hi => (hexp2 i hi).1
      have hfinals : ∀ i, i < stF.map.length →
          raw.finalW i = composedFinal clat dfst
            (stF.map.getD i (0, 0)).1 (stF.map.getD i (0, 0)).2 :=
        fun i hi => (hexp2 i hi).2.1
      have hclos : ∀ i, i < stF.map.length →
          ∀ a ∈ clat.arcsAt (stF.map.getD i (0, 0)).1, ∀ pr t2,
            matchArc dfst (stF.map.getD i (0, 0)).2 a =
              some (pr, t2) → (a.nextstate, t2) ∈ stF.map :=
        fun i hi => (hexp2 i hi).2.2
      have hnum : raw.numStates = stF.map.length := hal
      have hbnd : ∀ (s : ℕ) (a : CompactLatticeArc),
          a ∈ raw.arcsAt s → a.nextstate < raw.numStates :=
        raw_arc_bounds clat dfst stF.map stF.arcs stF.finals hal
          hrows hclos
      have hnz : raw.numStates ≠ 0 := by
        rw [hnum]
        intro hcon
        exact hne (List.eq_nil_of_length_eq_zero hcon)
      have hflr : raw.finals.length = raw.numStates := by
        show stF.finals.length = _
        rw [hfl]
        exact hnum.symm
      have hmlen0 : 0 < stF.map.length := List.length_pos.mpr hne
      have hstart_mem : (0, dfst.start) ∈ stF.map := by
        rw [← h0]
        exact getD_mem _ _ _ hmlen0
      have hidx0 : idxIn (0, dfst.start) stF.map = 0 := by
        rw [← h0]
        exact idxIn_getD_self (0, 0) stF.map hndm 0 hmlen0
      constructor
      · constructor
        · rintro ⟨Q, f, hQ, hlab, hfz⟩
          have hpos : 0 < (usefulListG raw).length := by
            by_contra hcon
            push_neg at hcon
            rw [connectGen_finalW_oob raw f (by omega)] at hfz
            exact hfz rfl
          have hold0 : (usefulListG raw).getD 0 0 = 0 :=
            usefulListG_zero raw hbnd hflr hnz hpos
          obtain ⟨Praw, hPraw, hflt, hQeq⟩ :=
            connectGen_path_down raw hbnd hQ hpos
          rw [hold0] at hPraw
          obtain ⟨hufl, hltn, _⟩ := usefulListG_elem raw f hflt
          have hfzraw : raw.finalW ((usefulListG raw).getD f 0) ≠
              Wzero CompactLatticeWeight := by
            rw [connectGen_finalW raw f hflt] at hfz
            exact hfz
          obtain ⟨hflt2, P, hP, hlab2, hrun⟩ :=
            raw_path_down clat dfst stF.map stF.arcs stF.finals hal
              hrows hclos hPraw hmlen0
          have hlabP : labelsNZ Praw = w := by
            rw [← hlab, hQeq, labelsNZ_map_renum]
          refine ⟨P,
            (stF.map.getD ((usefulListG raw).getD f 0) (0, 0)).1,
            (stF.map.getD ((usefulListG raw).getD f 0) (0, 0)).2,
            ?_, ?_, ?_, ?_⟩
          · rw [h0] at hP
            exact hP
          · rw [hlab2, hlabP]
          · rw [h0, hlabP] at hrun
            exact hrun
          · rw [hfinals _ (by rw [← hnum]; exact hltn)] at hfzraw
            exact hfzraw
        · rintro ⟨P, u, u2, hP, hlab, hrun, hcf⟩
          obtain ⟨humem, Q, hQ, hQlab⟩ :=
            raw_path_up clat dfst stF.map stF.arcs stF.finals hrows
              hclos P 0 dfst.start u u2 hP hstart_mem
              (by rw [hlab]; exact hrun)
          rw [hidx0] at hQ
          have hfr_lt : idxIn (u, u2) stF.map < stF.map.length :=
            idxIn_lt _ _ humem
          have hfr_gd : stF.map.getD (idxIn (u, u2) stF.map) (0, 0) =
              (u, u2) := idxIn_getD _ _ _ humem
          have hfz : raw.finalW (idxIn (u, u2) stF.map) ≠
              Wzero CompactLatticeWeight := by
            rw [hfinals _ hfr_lt, hfr_gd]
            exact hcf
          obtain ⟨hu0, hall⟩ := pathG_states_useful raw hbnd hflr hnz
            hQ (PathIn.nil _) hfz
          have hmapQ := connectGen_path_map raw hQ hu0 hall
          have hz0 : newIdG raw 0 = 0 := by
            unfold newIdG
            rfl
          rw [hz0] at hmapQ
          have hufr : usefulGB raw (idxIn (u, u2) stF.map) = true :=
            by
            unfold usefulGB
            rw [accG_mark raw hbnd hnz hQ,
              coaccG_mark raw hflr (PathIn.nil _) hfz]
            rfl
          obtain ⟨hgetfr, hltfr⟩ := usefulListG_getD_newIdG raw _
            (by rw [hnum]; exact hfr_lt) hufr
          refine ⟨Q.map (fun a => ⟨a.ilabel, a.olabel, a.weight,
            newIdG raw a.nextstate⟩),
            newIdG raw (idxIn (u, u2) stF.map), hmapQ, ?_, ?_⟩
          · rw [labelsNZ_map_renum, hQlab, hlab]
          · rw [connectGen_finalW raw _ hltfr, hgetfr]
            exact hfz
      · refine ⟨fun v =>
          stF.map.getD ((usefulListG raw).getD v 0) (0, 0), ?_, ?_,
          ?_⟩
        · show stF.map.getD ((usefulListG raw).getD 0 0) (0, 0) =
            (0, dfst.start)
          by_cases hpos : 0 < (usefulListG raw).length
          · rw [usefulListG_zero raw hbnd hflr hnz hpos]
            exact h0
          · have hul : (usefulListG raw).getD 0 0 = 0 :=
              getD_oob (usefulListG raw) 0 0 (by omega)
            rw [hul]
            exact h0
        · intro v a ha
          simp only []
          obtain ⟨hvlt, araw, hamem, hanext_use, heq⟩ :=
            connectGen_mem_arcs_inv raw ha
          obtain ⟨huv, hvltn, _⟩ := usefulListG_elem raw v hvlt
          have holdlt : (usefulListG raw).getD v 0 <
              stF.map.length := by
            rw [← hnum]
            exact hvltn
          have hamem2 : araw ∈ expandRow clat dfst
              (stF.map.getD ((usefulListG raw).getD v 0) (0, 0))
              stF.map := by
            rw [← hrows _ holdlt]
            exact hamem
          obtain ⟨a1, h1mem, pr, t2, hm, haeq⟩ :=
            expandRow_mem_inv clat dfst _ _ hamem2
          have hnp : (a1.nextstate, t2) ∈ stF.map :=
            hclos _ holdlt a1 h1mem pr t2 hm
          have hnextlt : araw.nextstate < raw.numStates :=
            hbnd _ araw hamem
          obtain ⟨hget2, hlt2⟩ := usefulListG_getD_newIdG raw
            araw.nextstate hnextlt hanext_use
          have hanext : a.nextstate = newIdG raw araw.nextstate := by
            rw [heq]
          have hrawnext : araw.nextstate =
              idxIn (a1.nextstate, t2) stF.map := by
            rw [haeq]
          have hπnext : stF.map.getD
              ((usefulListG raw).getD a.nextstate 0) (0, 0) =
              (a1.nextstate, t2) := by
            rw [hanext, hget2, hrawnext]
            exact idxIn_getD _ _ _ hnp
          refine ⟨a1, h1mem, ?_, ?_⟩
          · rw [hπnext]
          · rcases matchArc_inv dfst _ a1 pr t2 hm with
              ⟨ho, hpr, ht2⟩ | ⟨ho, vv, hg, hpr⟩
            · refine Or.inl ⟨ho, ?_, ?_, ?_, ?_⟩
              · rw [heq, haeq, hpr]
              · rw [heq, haeq, hpr]
              · rw [heq, haeq, hpr]
              · rw [hπnext]
                exact ht2
            · refine Or.inr ⟨ho, vv, t2, hg, ?_, ?_, ?_, ?_⟩
              · rw [heq, haeq, hpr]
              · rw [heq, haeq, hpr]
              · rw [heq, haeq, hpr]
              · rw [hπnext]
        · intro v hvlt
          simp only []
          rw [connectGen_numStates] at hvlt
          rw [connectGen_finalW raw v hvlt]
          obtain ⟨_, hvn, _⟩ := usefulListG_elem raw v hvlt
          exact hfinals _ (by rw [← hnum]; exact hvn)

/-- Witness for C4: composing `clatW4` (one arc labelled `7` into a
final state) with `dfstW4` (consumes `7` with value `3`); the
computation of the composed lattice discharges the hypothesis and the
survival equivalence instantiates at the label sequence `[7]`. -/
theorem claim_C4_witness :
    (∃ Q f, PathIn outW4 0 Q f ∧ labelsNZ Q = [7] ∧
      outW4.finalW f ≠ Wzero CompactLatticeWeight) ↔
    (∃ P u u2, PathIn clatW4 0 P u ∧ labelsNZ P = [7] ∧
      dfstRun dfstW4 dfstW4.start [7] = some u2 ∧
      composedFinal clatW4 dfstW4 u u2 ≠
        Wzero CompactLatticeWeight) :=
  (claim_C4 4 clatW4 dfstW4 outW4 [7]
    (by with_unfolding_all decide)).1

end eesen
